import Mathlib

/-!
Strongly connected components (`main.cpp`)

A shallow embedding of the program: the node heap is an arena of `node_tp` records, a node
pointer is an index into the arena (`none` is `NULL`), and the globals of the program are the
fields of `State`.  Every function of the source is one definition below, statement by
statement.  Loops that follow pointers carry an iteration bound; running out of the bound is the
result `Err.fuel`, a failed `ASSERT` is `Err.assertion`, and a dereference of `NULL` or of a
pointer outside the arena is `Err.null_deref`.
-/

namespace TarjanSCC

/-! ## Data model -/

/-- Pointer to a node (`node_ptr_tp`): `none` is `NULL`, `some i` is the address of the `i`-th
node that `malloc` handed out. -/
abbrev node_ptr_tp := Option Nat

/-- Graph node (`struct node_tp`).  `link` is the linked list of `link_tp` cells, given as the
list of their `next_node` fields from the head cell on.  `lowlink` and `number` are the `int`
fields; they only ever hold `0` or a value of the counter `scc_number`. -/
structure node_tp where
  link : List node_ptr_tp
  finger : node_ptr_tp
  lowlink : Nat
  number : Nat
  name : Int
  visited : Bool
  scc_pred : node_ptr_tp
deriving DecidableEq, Repr

/-- One line written to the report `scc.txt`. -/
inductive Line where
  | edge (a b : Int)
  | skipped (a b : Int)
  | header (k : Nat)
  | member (name : Int)
deriving DecidableEq, Repr

/-- Ways a run stops without a result. -/
inductive Err where
  | assertion
  | null_deref
  | fuel
deriving DecidableEq, Repr

/-- The globals of the program together with the node heap. -/
structure State where
  heap : List node_tp
  scc_number : Nat
  scc_stack : node_ptr_tp
  scc_count : Nat
  finger : node_ptr_tp
  single : Bool
  outfile : List Line
deriving DecidableEq, Repr

/-- State at program start: the initial values of the globals, nothing allocated. -/
def State.init : State :=
  { heap := [], scc_number := 0, scc_stack := none, scc_count := 0, finger := none,
    single := true, outfile := [] }

/-- Read the node a pointer refers to (`p->...`). -/
def load (heap : List node_tp) : node_ptr_tp → Except Err node_tp
  | none => .error .null_deref
  | some i =>
    match heap[i]? with
    | some nd => .ok nd
    | none => .error .null_deref

/-- A node with its field `lowlink` set. -/
def with_lowlink (x : Nat) (nd : node_tp) : node_tp :=
  { nd with lowlink := x }

/-- A node with its field `number` set. -/
def with_number (x : Nat) (nd : node_tp) : node_tp :=
  { nd with number := x }

/-- A node as `push` leaves it: linked to the old top of the stack and marked. -/
def mark_pushed (top : node_ptr_tp) (nd : node_tp) : node_tp :=
  { nd with scc_pred := top, visited := true }

/-- A node as `pop` leaves it: no longer marked. -/
def clear_visited (nd : node_tp) : node_tp :=
  { nd with visited := false }

/-- A node with its field `link` set. -/
def with_link (l : List node_ptr_tp) (nd : node_tp) : node_tp :=
  { nd with link := l }

/-- Assignment `p->lowlink = x`. -/
def set_lowlink (st : State) (i : Nat) (x : Nat) : State :=
  { st with heap := st.heap.modify (with_lowlink x) i }

/-- Assignment `p->number = x`. -/
def set_number (st : State) (i : Nat) (x : Nat) : State :=
  { st with heap := st.heap.modify (with_number x) i }

/-- Append a line to the report. -/
def print (st : State) (l : Line) : State :=
  { st with outfile := st.outfile ++ [l] }

/-! ## The extraction stack -/

/-- Function `push( v )`. -/
def push (v : node_ptr_tp) (st : State) : Except Err State :=
  match v with
  | none => .error .assertion
  | some i =>
    match st.heap[i]? with
    | none => .error .null_deref
    | some nd =>
      if nd.visited then .error .assertion
      else
        .ok { st with
          heap := st.heap.modify (mark_pushed st.scc_stack) i
          scc_stack := some i }

/-- Function `pop()`. -/
def pop (st : State) : Except Err State :=
  match st.scc_stack with
  | none => .error .assertion
  | some i =>
    match st.heap[i]? with
    | none => .error .null_deref
    | some nd =>
      .ok { st with
        heap := st.heap.modify clear_visited i
        scc_stack := nd.scc_pred }

/-- The loop `while( scc_stack && ( scc_stack->number >= v->number ) )` of `scc`, which prints
the name of the top of the stack and pops it. -/
def pop_loop (v : node_ptr_tp) : Nat → State → Except Err State
  | fuel, st =>
    match st.scc_stack with
    | none => .ok st
    | some t =>
      match load st.heap (some t) with
      | .error e => .error e
      | .ok top =>
        match load st.heap v with
        | .error e => .error e
        | .ok vn =>
          if vn.number ≤ top.number then
            match fuel with
            | 0 => .error .fuel
            | fuel + 1 =>
              match pop (print st (.member top.name)) with
              | .error e => .error e
              | .ok st1 => pop_loop v fuel st1
          else .ok st

/-- The statements that report one component: count it, print its header, pop its members. -/
def emit (v : node_ptr_tp) (st : State) : Except Err State :=
  let st1 := { st with scc_count := st.scc_count + 1 }
  pop_loop v st1.heap.length (print st1 (.header st1.scc_count))

/-! ## Tarjan's traversal -/

/-- Body of the loop `for( link = v->link; link; link = link->next_link )` of `scc` for one
successor `w`; `rec_scc` is the recursive call `scc( w )`. -/
def visit_link (rec_scc : node_ptr_tp → State → Except Err State) (v : Nat)
    (w : node_ptr_tp) (st : State) : Except Err State :=
  match w with
  | none => .error .assertion
  | some _ =>
    match load st.heap w with
    | .error e => .error e
    | .ok wn =>
      if wn.number = 0 then
        match rec_scc w st with
        | .error e => .error e
        | .ok st1 =>
          match load st1.heap (some v) with
          | .error e => .error e
          | .ok vn =>
            match load st1.heap w with
            | .error e => .error e
            | .ok wn1 => .ok (set_lowlink st1 v (min vn.lowlink wn1.lowlink))
      else
        match load st.heap (some v) with
        | .error e => .error e
        | .ok vn =>
          if wn.number < vn.number then
            if wn.visited then .ok (set_lowlink st v (min vn.lowlink wn.number))
            else .ok st
          else .ok st

/-- The loop over the successors of `v`, in the order of the linked list. -/
def for_links (rec_scc : node_ptr_tp → State → Except Err State) (v : Nat) :
    List node_ptr_tp → State → Except Err State
  | [], st => .ok st
  | w :: rest, st =>
    match visit_link rec_scc v w st with
    | .error e => .error e
    | .ok st1 => for_links rec_scc v rest st1

/-- The statements of `scc` after the loop: when `v` closes a component, extract it. -/
def extract (v : Nat) (st : State) : Except Err State :=
  match load st.heap (some v) with
  | .error e => .error e
  | .ok vn =>
    if vn.lowlink = vn.number then
      if st.single = false then
        if st.scc_stack = some v then pop st
        else emit (some v) st
      else emit (some v) st
    else .ok st

/-- Function `scc( v )`.  The first argument bounds the depth of the recursion. -/
def scc : Nat → node_ptr_tp → State → Except Err State
  | 0, _, _ => .error .fuel
  | fuel + 1, v, st =>
    match v with
    | none => .error .assertion
    | some i =>
      match load st.heap v with
      | .error e => .error e
      | .ok nd =>
        if nd.number = 0 then
          let st1 := { st with scc_number := st.scc_number + 1 }
          let st2 := set_lowlink st1 i st1.scc_number
          let st3 := set_number st2 i st1.scc_number
          match push v st3 with
          | .error e => .error e
          | .ok st4 =>
            match for_links (scc fuel) i nd.link st4 with
            | .error e => .error e
            | .ok st5 => extract i st5
        else .ok st

/-! ## Building the graph -/

/-- The loop of `new_link`: is `target` the name of no node on the rest of the link list? -/
def new_link_loop (heap : List node_tp) (target : Int) :
    List node_ptr_tp → Except Err Bool
  | [] => .ok true
  | w :: rest =>
    match load heap w with
    | .error e => .error e
    | .ok wn => if target = wn.name then .ok false else new_link_loop heap target rest

/-- Function `new_link( first, second )`. -/
def new_link (heap : List node_tp) (first second : node_ptr_tp) : Except Err Bool :=
  match load heap second with
  | .error e => .error e
  | .ok sn =>
    match load heap first with
    | .error e => .error e
    | .ok fn => new_link_loop heap sn.name fn.link

/-- Function `make_link( linkhead, second )`: a new cell in front of the list. -/
def make_link (linkhead : List node_ptr_tp) (second : node_ptr_tp) : List node_ptr_tp :=
  second :: linkhead

/-- Function `make_node( name )`: the new node is put in front of the `finger` chain.  It
returns the pointer to the node and the new state. -/
def make_node (name : Int) (st : State) : node_ptr_tp × State :=
  let node : node_ptr_tp := some st.heap.length
  (node,
   { st with
     heap := st.heap ++
       [{ link := [], finger := st.finger, lowlink := 0, number := 0, name := name,
          visited := false, scc_pred := none }]
     finger := node })

/-- The loop of `exists`: follow the `finger` chain from `temp`. -/
def exists_loop (heap : List node_tp) (n : Int) : Nat → node_ptr_tp → Except Err node_ptr_tp
  | _, none => .ok none
  | 0, some _ => .error .fuel
  | fuel + 1, some i =>
    match load heap (some i) with
    | .error e => .error e
    | .ok nd => if n = nd.name then .ok (some i) else exists_loop heap n fuel nd.finger

/-- Function `exists( n )`. -/
def exists_node (n : Int) (st : State) : Except Err node_ptr_tp :=
  exists_loop st.heap n st.heap.length st.finger

/-- The lookup-or-create step of `input`: `if ( ! ( p = exists( n ) ) ) p = make_node( n )`. -/
def find_or_make (n : Int) (st : State) : Except Err (node_ptr_tp × State) :=
  match exists_node n st with
  | .error e => .error e
  | .ok none => .ok (make_node n st)
  | .ok (some i) => .ok (some i, st)

/-- Assignment `first->link = link`. -/
def set_link (st : State) (i : Nat) (l : List node_ptr_tp) : State :=
  { st with heap := st.heap.modify (with_link l) i }

/-- The part of `input` after both nodes are there: the test `new_link( first, second )` and
its two branches. -/
def connect (a b : Int) (first second : node_ptr_tp) (st : State) : Except Err State :=
  match new_link st.heap first second with
  | .error e => .error e
  | .ok false => .ok (if st.single then print st (.skipped a b) else st)
  | .ok true =>
    match first with
    | none => .error .null_deref
    | some i =>
      match load st.heap first with
      | .error e => .error e
      | .ok fn =>
        match load st.heap second with
        | .error e => .error e
        | .ok sn =>
          let st1 := set_link st i (make_link fn.link second)
          .ok (if st1.single then print st1 (.edge fn.name sn.name) else st1)

/-- Function `input( a, b )`. -/
def input (a b : Int) (st : State) : Except Err State :=
  match find_or_make a st with
  | .error e => .error e
  | .ok (first, st1) =>
    match find_or_make b st1 with
    | .error e => .error e
    | .ok (second, st2) => connect a b first second st2

/-! ## The driver -/

/-- The loops `for ( i = 0; i <= ncount; i++ ) input( aa[i], bb[i] )` of `main`. -/
def inputs : List (Int × Int) → State → Except Err State
  | [], st => .ok st
  | (a, b) :: rest, st =>
    match input a b st with
    | .error e => .error e
    | .ok st1 => inputs rest st1

/-- The loops `while ( temp != NULL )` of `main` that offer every node of the `finger` chain to
`scc`. -/
def roots_loop : Nat → node_ptr_tp → State → Except Err State
  | _, none, st => .ok st
  | 0, some _, _ => .error .fuel
  | fuel + 1, some i, st =>
    match load st.heap (some i) with
    | .error e => .error e
    | .ok nd =>
      match (if nd.visited = false then scc (st.heap.length + 1) (some i) st else .ok st) with
      | .error e => .error e
      | .ok st1 =>
        match load st1.heap (some i) with
        | .error e => .error e
        | .ok nd1 => roots_loop fuel nd1.finger st1

/-- First half of `main`: build the graph from the stored pairs and run the pass that includes
singleton nodes. -/
def pass1 (pairs : List (Int × Int)) : Except Err State :=
  match inputs pairs State.init with
  | .error e => .error e
  | .ok st => roots_loop st.heap.length st.finger st

/-- The resets of the globals in `main` before the second pass. -/
def reset (st : State) : State :=
  { st with single := false, scc_stack := none, scc_count := 0, scc_number := 0,
            finger := none }

/-- Second half of `main`: reset the globals, build the graph again and run the pass that
excludes singleton nodes. -/
def pass2 (pairs : List (Int × Int)) (st : State) : Except Err State :=
  match inputs pairs (reset st) with
  | .error e => .error e
  | .ok st1 => roots_loop st1.heap.length st1.finger st1

/-- Function `main`, from the point where the pairs have been read into `aa` and `bb`. -/
def main (pairs : List (Int × Int)) : Except Err State :=
  match pass1 pairs with
  | .error e => .error e
  | .ok st => pass2 pairs st

/-- Reading a piece of report from its end: the member lines that no header precedes, and the
components that the headers start. -/
def components_aux : List Line → List Int × List (List Int)
  | [] => ([], [])
  | .header _ :: rest => ([], (components_aux rest).1 :: (components_aux rest).2)
  | .member n :: rest => (n :: (components_aux rest).1, (components_aux rest).2)
  | _ :: rest => components_aux rest

/-- The components a piece of report lists, in the order of the report: every header line
starts a component, whose members are the names on the member lines up to the next header. -/
def components (l : List Line) : List (List Int) :=
  (components_aux l).2

/-- The numbers on the header lines of a piece of report, in order. -/
def header_numbers : List Line → List Nat
  | [] => []
  | .header k :: rest => k :: header_numbers rest
  | _ :: rest => header_numbers rest

/-! ## Notions the properties are stated with -/

/-- A state with nothing allocated in which the flag `single` has the given value. -/
def State.fresh (single : Bool) : State :=
  { State.init with single := single }

/-- The pointers met on the `finger` chain from `temp` on, in the order in which the loops
`while ( temp ) ... temp = temp->finger` meet them. -/
def chain_loop (heap : List node_tp) : Nat → node_ptr_tp → List Nat
  | _, none => []
  | 0, some _ => []
  | fuel + 1, some i =>
    match heap[i]? with
    | none => [i]
    | some nd => i :: chain_loop heap fuel nd.finger

/-- The nodes of the graph: the `finger` chain from the global `finger` on. -/
def node_chain (st : State) : List Nat :=
  chain_loop st.heap st.heap.length st.finger

/-- Name of the node behind a pointer (`0` for a pointer to no node). -/
def name_of (heap : List node_tp) (p : node_ptr_tp) : Int :=
  match load heap p with
  | .ok nd => nd.name
  | .error _ => 0

/-- Successor pointers of the node at `i`, in the order of its link list. -/
def links_of (heap : List node_tp) (i : Nat) : List node_ptr_tp :=
  match heap[i]? with
  | some nd => nd.link
  | none => []

/-- Names of the nodes on the `finger` chain, in chain order. -/
def chain_names (st : State) : List Int :=
  (node_chain st).map (fun i => name_of st.heap (some i))

/-- Names of the successors of the node at `i`, in the order of its link list. -/
def adj_names (heap : List node_tp) (i : Nat) : List Int :=
  (links_of heap i).map (name_of heap)

/-- Add a value at the end of a list unless the list has it. -/
def add_name (ns : List Int) (n : Int) : List Int :=
  if n ∈ ns then ns else ns ++ [n]

/-- The distinct values of a list in the order of their first occurrence. -/
def first_seen (l : List Int) : List Int :=
  l.foldl add_name []

/-- The integers of a list of pairs in reading order: `a₁, b₁, a₂, b₂, ...`. -/
def flatten_pairs : List (Int × Int) → List Int
  | [] => []
  | (a, b) :: rest => a :: b :: flatten_pairs rest

/-- Node names in the order in which `input` creates the nodes: a name is created when it is
first read. -/
def creation_order (pairs : List (Int × Int)) : List Int :=
  first_seen (flatten_pairs pairs)

/-- The second components of the pairs whose first component is `a`, in input order. -/
def targets (a : Int) (pairs : List (Int × Int)) : List Int :=
  (pairs.filter (fun p => p.1 = a)).map (fun p => p.2)

/-- The largest index below `m` whose node is named `n`. -/
def find_below (heap : List node_tp) (n : Int) : Nat → node_ptr_tp
  | 0 => none
  | m + 1 =>
    match heap[m]? with
    | some nd => if n = nd.name then some m else find_below heap n m
    | none => find_below heap n m

/-- Graph as `input` leaves it when it starts from an empty heap: the `finger` chain runs
through the whole arena from the last node to the first, names are unique, every link points
into the arena, no link list repeats a successor, and no node has been touched by `scc`. -/
structure Built (st : State) : Prop where
  finger_eq : st.finger = if st.heap.length = 0 then none else some (st.heap.length - 1)
  node_finger : ∀ (i : Nat) (nd : node_tp), st.heap[i]? = some nd →
    nd.finger = if i = 0 then none else some (i - 1)
  names_inj : ∀ (i j : Nat) (ni nj : node_tp), st.heap[i]? = some ni → st.heap[j]? = some nj →
    ni.name = nj.name → i = j
  link_valid : ∀ (i : Nat) (nd : node_tp) (w : node_ptr_tp), st.heap[i]? = some nd → w ∈ nd.link →
    ∃ j, w = some j ∧ j < st.heap.length
  link_nodup : ∀ (i : Nat) (nd : node_tp), st.heap[i]? = some nd → nd.link.Nodup
  untouched : ∀ (i : Nat) (nd : node_tp), st.heap[i]? = some nd →
    nd.number = 0 ∧ nd.lowlink = 0 ∧ nd.visited = false ∧ nd.scc_pred = none

/-- State after the lookup-or-create step of `input` for the name `n`. -/
def ensure (n : Int) (st : State) : State :=
  match find_below st.heap n st.heap.length with
  | none => (make_node n st).2
  | some _ => st

/-- Names of the nodes of the arena, in the order of their allocation. -/
def heap_names (st : State) : List Int :=
  st.heap.map (fun nd => nd.name)

/-- Put a successor in front of an adjacency list unless the list has it. -/
def add_front {α : Type} [DecidableEq α] (b : α) (l : List α) : List α :=
  if b ∈ l then l else b :: l

/-- State `input` leaves when the node named `a` is at `i` and the node named `b` is at `j`. -/
def finish_input (a b : Int) (i j : Nat) (st : State) : State :=
  if some j ∈ links_of st.heap i then
    (if st.single then print st (.skipped a b) else st)
  else
    (if st.single then
      print (set_link st i (make_link (links_of st.heap i) (some j))) (.edge a b)
    else set_link st i (make_link (links_of st.heap i) (some j)))

/-- Names of the successors of the node named `a` (none when no node has that name). -/
def adj_by_name (st : State) (a : Int) : List Int :=
  match find_below st.heap a st.heap.length with
  | some i => adj_names st.heap i
  | none => []

/-! ## A graph behind older nodes

The second pass allocates its nodes behind the nodes of the first pass, which nothing points
to any more.  `rebase` describes such a state by the state of a run that started from an empty
heap: every pointer is moved by the number of older nodes. -/

/-- Move a pointer by `k` cells. -/
def shift_ptr (k : Nat) (p : node_ptr_tp) : node_ptr_tp :=
  p.map (fun i => i + k)

/-- Move every pointer held by a node by `k` cells. -/
def shift_node (k : Nat) (nd : node_tp) : node_tp :=
  { nd with
    link := nd.link.map (shift_ptr k)
    finger := shift_ptr k nd.finger
    scc_pred := shift_ptr k nd.scc_pred }

/-- The state `st` laid out behind the nodes `old`, with the lines `pre` already in the
report. -/
def rebase (old : List node_tp) (pre : List Line) (st : State) : State :=
  { st with
    heap := old ++ st.heap.map (shift_node old.length)
    scc_stack := shift_ptr old.length st.scc_stack
    finger := shift_ptr old.length st.finger
    outfile := pre ++ st.outfile }

/-- The two states in which `main` starts to build a graph: the state at program start, and
the state `main` resets the globals to after a first pass that ended in `s`. -/
def start_of : Option State → State
  | none => State.init
  | some s => reset s

/-- Number of nodes that are in the heap before `main` starts to build a graph. -/
def base_of : Option State → Nat
  | none => 0
  | some s => s.heap.length

/-! ## Notions for the traversal -/

/-- Field `number` of the node at `i` (`0` when there is no node). -/
def num (heap : List node_tp) (i : Nat) : Nat :=
  match heap[i]? with
  | some nd => nd.number
  | none => 0

/-- Field `lowlink` of the node at `i` (`0` when there is no node). -/
def low (heap : List node_tp) (i : Nat) : Nat :=
  match heap[i]? with
  | some nd => nd.lowlink
  | none => 0

/-- Field `visited` of the node at `i` (`false` when there is no node). -/
def vis (heap : List node_tp) (i : Nat) : Bool :=
  match heap[i]? with
  | some nd => nd.visited
  | none => false

/-- The fields of a node that `scc` never writes. -/
def static_of (nd : node_tp) : List node_ptr_tp × node_ptr_tp × Int :=
  (nd.link, nd.finger, nd.name)

/-- The list `L` is the extraction stack: the nodes met from `p` on along `scc_pred`, top
first, down to `NULL`. -/
def stack_rep (heap : List node_tp) : node_ptr_tp → List Nat → Prop
  | p, [] => p = none
  | p, i :: rest => p = some i ∧ ∃ nd, heap[i]? = some nd ∧ stack_rep heap nd.scc_pred rest

/-- Edge of the graph with successor lists `adj`. -/
def edge (adj : Nat → List node_ptr_tp) (i j : Nat) : Prop :=
  some j ∈ adj i

/-- Reachability along edges (every node reaches itself). -/
def Reach (adj : Nat → List node_ptr_tp) : Nat → Nat → Prop :=
  Relation.ReflTransGen (edge adj)

/-- The lines `scc` writes for a sequence of extracted components: with `single` set every
component gets the next number and is listed; without it a component of one node is skipped
silently. -/
def render (name : Nat → Int) (single : Bool) : Nat → List (List Nat) → List Line
  | _, [] => []
  | c, g :: rest =>
    if single = false ∧ g.length = 1 then render name single c rest
    else (Line.header (c + 1) :: g.map (fun i => Line.member (name i))) ++
      render name single (c + 1) rest

/-- The components of a sequence that `scc` reports. -/
def reported (single : Bool) (G : List (List Nat)) : List (List Nat) :=
  if single then G else G.filter (fun g => decide (g.length ≠ 1))

/-- The heap after the nodes of `S` have been popped: their flag `visited` is cleared. -/
def unvisit (S : List Nat) (heap : List node_tp) : List node_tp :=
  S.foldl (fun h i => h.modify clear_visited i) heap

/-- Has `scc` given the node its number? -/
def is_numbered (nd : node_tp) : Bool :=
  decide (nd.number ≠ 0)

/-- What holds of the heap, the counter `scc_number` and the stack between any two steps of a
pass over the graph with successor lists `adj`; `L` is the stack as a list, top first. -/
structure Inv (adj : Nat → List node_ptr_tp) (heap : List node_tp) (K : Nat)
    (stk : node_ptr_tp) (L : List Nat) : Prop where
  links_eq : ∀ (i : Nat), links_of heap i = adj i
  link_valid : ∀ (i : Nat) (w : node_ptr_tp), w ∈ adj i → ∃ j, w = some j ∧ j < heap.length
  stack : stack_rep heap stk L
  vis_iff : ∀ (i : Nat), vis heap i = true ↔ i ∈ L
  sorted : L.Pairwise (fun a b => num heap b < num heap a)
  num_le : ∀ (i : Nat), num heap i ≤ K
  low_le : ∀ (i : Nat), low heap i ≤ num heap i
  low_pos : ∀ (i : Nat), num heap i ≠ 0 → low heap i ≠ 0
  num_inj : ∀ (i j : Nat), num heap i = num heap j → num heap i ≠ 0 → i = j
  stack_num : ∀ (i : Nat), i ∈ L → num heap i ≠ 0
  count : heap.countP is_numbered = K
  done_closed : ∀ (i j : Nat), num heap i ≠ 0 → vis heap i = false → edge adj i j →
    num heap j ≠ 0 ∧ vis heap j = false

/-- The node in which the loop `while` of `scc` stops for a component: its last member. -/
def root_of (g : List Nat) : Option Nat :=
  g.getLast?

/-- What holds of the components `G` extracted since a state with heap `heap0`, seen in the
heap `heap`: they are made of the nodes numbered and finished since, each node once; every
component is one strongly connected component, ends in its root, which has the least number
in it; and of two components the earlier lies wholly before the root of the later in
numbering, or else has the root with the larger number. -/
structure Groups (adj : Nat → List node_ptr_tp) (heap0 heap : List node_tp)
    (G : List (List Nat)) : Prop where
  nodup : G.flatten.Nodup
  mem : ∀ (i : Nat), i ∈ G.flatten ↔ (num heap0 i = 0 ∧ num heap i ≠ 0 ∧ vis heap i = false)
  scc : ∀ (g : List Nat), g ∈ G → ∀ (x : Nat), x ∈ g → ∀ (z : Nat),
    z ∈ g ↔ (Reach adj x z ∧ Reach adj z x)
  root : ∀ (g : List Nat), g ∈ G → ∃ r, root_of g = some r ∧ ∀ x, x ∈ g → num heap r ≤ num heap x
  order : G.Pairwise (fun g1 g2 => ∀ (r1 r2 : Nat), root_of g1 = some r1 → root_of g2 = some r2 →
    (∀ x, x ∈ g1 → num heap x < num heap r2) ∨ num heap r2 < num heap r1)

/-- What the part of the stack that a call left above the old stack satisfies, in terms of the
node `v` of the call: its nodes were not numbered before, reach `v` and are reached from it,
have no unnumbered successor, and their edges into the old stack `L` end at numbers that are
not below the `lowlink` of `v`. -/
structure Segment (adj : Nat → List node_ptr_tp) (heap0 heap : List node_tp) (L : List Nat)
    (v : Nat) (seg : List Nat) : Prop where
  fresh : ∀ (x : Nat), x ∈ seg → num heap0 x = 0
  reach : ∀ (y : Nat), y ∈ seg → Reach adj v y ∧ Reach adj y v
  closed : ∀ (y : Nat), y ∈ seg → ∀ (z : Nat), edge adj y z → num heap z ≠ 0
  edges : ∀ (y : Nat), y ∈ seg → ∀ (z : Nat), z ∈ L → edge adj y z → low heap v ≤ num heap z

/-- How a state relates to an earlier one of the same pass: the fields `scc` never writes are
as they were, the nodes numbered then are untouched, and the nodes numbered since have numbers
above the old counter. -/
structure Later (heap0 : List node_tp) (K0 : Nat) (heap : List node_tp) (K : Nat) : Prop where
  frame : heap.map static_of = heap0.map static_of
  old_same : ∀ (i : Nat), num heap0 i ≠ 0 → heap[i]? = heap0[i]?
  new_gt : ∀ (i : Nat), num heap0 i = 0 → num heap i ≠ 0 → K0 < num heap i
  K_le : K0 ≤ K

/-- State inside the loop of a call `scc( v )` that started with heap `heap0`, counter `K0`
and stack `L`: `seg` are the nodes pushed above `v`, `G` the components extracted so far and
`links` the successors of `v` dealt with. -/
structure Mid (adj : Nat → List node_ptr_tp) (heap0 : List node_tp) (K0 : Nat) (L : List Nat)
    (v : Nat) (heap : List node_tp) (K : Nat) (stk : node_ptr_tp) (seg : List Nat)
    (G : List (List Nat)) (links : List node_ptr_tp) : Prop where
  inv : Inv adj heap K stk (seg ++ v :: L)
  later : Later heap0 K0 heap K
  fresh_v : num heap0 v = 0
  pre : ∀ (x : Nat), x ∈ L → Reach adj x v
  num_v : num heap v = K0 + 1
  low_v : low heap v = num heap v ∨ ∃ x, x ∈ L ∧ num heap x = low heap v ∧ Reach adj v x
  proc : ∀ (w : node_ptr_tp), w ∈ links →
    ∃ j, w = some j ∧ num heap j ≠ 0 ∧ (j ∈ L → low heap v ≤ num heap j)
  segment : Segment adj heap0 heap L v seg
  groups : Groups adj heap0 heap G

/-- State after a call `scc( v )` that started with heap `heap0`, counter `K0` and stack `L`:
`seg` are the nodes the call left on the stack and `G` the components it extracted. -/
structure Post (adj : Nat → List node_ptr_tp) (heap0 : List node_tp) (K0 : Nat) (L : List Nat)
    (v : Nat) (heap : List node_tp) (K : Nat) (stk : node_ptr_tp) (seg : List Nat)
    (G : List (List Nat)) : Prop where
  inv : Inv adj heap K stk (seg ++ L)
  later : Later heap0 K0 heap K
  num_v : num heap v = K0 + 1
  low_v : low heap v = num heap v ∨ ∃ x, x ∈ L ∧ num heap x = low heap v ∧ Reach adj v x
  seg_cases : (low heap v = num heap v ∧ seg = []) ∨
    (low heap v < num heap v ∧ ∃ seg0, seg = seg0 ++ [v])
  segment : Segment adj heap0 heap L v seg
  groups : Groups adj heap0 heap G

/-- A node as the first statements of `scc` leave it: numbered with the next number, with that
number as `lowlink`, and pushed. -/
def enter (K : Nat) (top : node_ptr_tp) (nd : node_tp) : node_tp :=
  mark_pushed top (with_number (K + 1) (with_lowlink (K + 1) nd))

/-- The function `f` does what a call of `scc` on a node without a number has to do, for every
state of a pass in which fewer than `fuel` nodes are without a number: it ends, leaves the
state described by `Post`, and writes the report of the components it extracted, whatever
the flag `single`, the counter `scc_count` and the report so far. -/
def CallSpec (adj : Nat → List node_ptr_tp) (f : node_ptr_tp → State → Except Err State)
    (fuel : Nat) : Prop :=
  ∀ (heap : List node_tp) (K : Nat) (stk : node_ptr_tp) (L : List Nat) (w : Nat),
    Inv adj heap K stk L → w < heap.length → num heap w = 0 →
    (∀ x, x ∈ L → Reach adj x w) → heap.length < K + fuel →
    ∃ (heap1 : List node_tp) (K1 : Nat) (stk1 : node_ptr_tp) (seg : List Nat)
      (G : List (List Nat)),
      Post adj heap K L w heap1 K1 stk1 seg G ∧
      ∀ (c : Nat) (fg : node_ptr_tp) (b : Bool) (o : List Line),
        f (some w) ⟨heap, K, stk, c, fg, b, o⟩ =
          .ok ⟨heap1, K1, stk1, c + (reported b G).length, fg, b,
            o ++ render (fun i => name_of heap (some i)) b c G⟩

/-- State of a pass between two iterations of the loop of `main` over the roots: the stack is
empty, and `G` are the components extracted since the start of the pass, when the heap was
`heap0`. -/
structure Top (adj : Nat → List node_ptr_tp) (heap0 heap : List node_tp) (K : Nat)
    (G : List (List Nat)) : Prop where
  inv : Inv adj heap K none []
  later : Later heap0 0 heap K
  groups : Groups adj heap0 heap G

/-! ## The graph of the pairs -/

/-- Edge of the directed graph whose edges are the pairs. -/
def pair_edge (pairs : List (Int × Int)) (a b : Int) : Prop :=
  (a, b) ∈ pairs

/-- Reachability in the directed graph whose edges are the pairs (every name reaches
itself). -/
def reachable (pairs : List (Int × Int)) : Int → Int → Prop :=
  Relation.ReflTransGen (pair_edge pairs)

/-- The name `a` is a node of the graph of the pairs: it occurs in a pair. -/
def is_node (pairs : List (Int × Int)) (a : Int) : Prop :=
  ∃ p, p ∈ pairs ∧ (p.1 = a ∨ p.2 = a)

/-- Lines that `input` writes: the report of an edge or of a duplicate. -/
def is_input_line : Line → Bool
  | .edge _ _ => true
  | .skipped _ _ => true
  | _ => false

/-- Field `number` of the node that `exists( a )` returns (`0` when it returns no node). -/
def number_of (st : State) (a : Int) : Nat :=
  match exists_node a st with
  | .ok (some i) => num st.heap i
  | _ => 0

/-- Field `lowlink` of the node that `exists( a )` returns (`0` when it returns no node). -/
def lowlink_of (st : State) (a : Int) : Nat :=
  match exists_node a st with
  | .ok (some i) => low st.heap i
  | _ => 0

/-! ## The states a pass goes through

The functions below list, for each function of the traversal, the states it goes through after
its start state: the state after every statement that writes a global or a node (a call of
`push` or `pop` counts as one statement), in the order of execution.  They follow the run of
the function itself and stop where it stops. -/

/-- The states the loop `while` of `scc` goes through: one after every pop. -/
def pop_loop_states (v : node_ptr_tp) : Nat → State → List State
  | fuel, st =>
    match st.scc_stack with
    | none => []
    | some t =>
      match load st.heap (some t) with
      | .error _ => []
      | .ok top =>
        match load st.heap v with
        | .error _ => []
        | .ok vn =>
          if vn.number ≤ top.number then
            match fuel with
            | 0 => []
            | fuel + 1 =>
              match pop (print st (.member top.name)) with
              | .error _ => []
              | .ok st1 => st1 :: pop_loop_states v fuel st1
          else []

/-- The states the report of one component goes through: after the header, and after every
pop. -/
def emit_states (v : node_ptr_tp) (st : State) : List State :=
  let st1 := { st with scc_count := st.scc_count + 1 }
  print st1 (.header st1.scc_count) ::
    pop_loop_states v st1.heap.length (print st1 (.header st1.scc_count))

/-- The states the statements of `scc` after the loop go through. -/
def extract_states (v : Nat) (st : State) : List State :=
  match load st.heap (some v) with
  | .error _ => []
  | .ok vn =>
    if vn.lowlink = vn.number then
      if st.single = false then
        if st.scc_stack = some v then
          match pop st with
          | .error _ => []
          | .ok st1 => [st1]
        else emit_states (some v) st
      else emit_states (some v) st
    else []

/-- The states the body of the loop of `scc` goes through for the successor `w`: those of the
recursive call, if there is one, and the state after the body. -/
def visit_link_states (rec_scc : node_ptr_tp → State → Except Err State)
    (rec_states : node_ptr_tp → State → List State) (v : Nat) (w : node_ptr_tp)
    (st : State) : List State :=
  (match load st.heap w with
    | .error _ => []
    | .ok wn => if wn.number = 0 then rec_states w st else []) ++
  (match visit_link rec_scc v w st with
    | .error _ => []
    | .ok st1 => [st1])

/-- The states the loop of `scc` over the successors of `v` goes through. -/
def for_links_states (rec_scc : node_ptr_tp → State → Except Err State)
    (rec_states : node_ptr_tp → State → List State) (v : Nat) :
    List node_ptr_tp → State → List State
  | [], _ => []
  | w :: rest, st =>
    visit_link_states rec_scc rec_states v w st ++
    (match visit_link rec_scc v w st with
      | .error _ => []
      | .ok st1 => for_links_states rec_scc rec_states v rest st1)

/-- The states a call `scc( v )` goes through: after `++scc_number`, after the assignment to
`v->lowlink`, after the assignment to `v->number`, after `push( v )`, then those of the loop
and of the extraction. -/
def scc_states : Nat → node_ptr_tp → State → List State
  | 0, _, _ => []
  | fuel + 1, v, st =>
    match v with
    | none => []
    | some i =>
      match load st.heap v with
      | .error _ => []
      | .ok nd =>
        if nd.number = 0 then
          let st1 := { st with scc_number := st.scc_number + 1 }
          let st2 := set_lowlink st1 i st1.scc_number
          let st3 := set_number st2 i st1.scc_number
          st1 :: st2 :: st3 ::
            (match push v st3 with
              | .error _ => []
              | .ok st4 =>
                st4 :: (for_links_states (scc fuel) (scc_states fuel) i nd.link st4 ++
                  (match for_links (scc fuel) i nd.link st4 with
                    | .error _ => []
                    | .ok st5 => extract_states i st5)))
        else []

/-- The states the loop of `main` over the roots goes through. -/
def roots_states : Nat → node_ptr_tp → State → List State
  | _, none, _ => []
  | 0, some _, _ => []
  | fuel + 1, some i, st =>
    match load st.heap (some i) with
    | .error _ => []
    | .ok nd =>
      (if nd.visited = false then scc_states (st.heap.length + 1) (some i) st else []) ++
      (match (if nd.visited = false then scc (st.heap.length + 1) (some i) st else .ok st) with
        | .error _ => []
        | .ok st1 =>
          match load st1.heap (some i) with
          | .error _ => []
          | .ok nd1 => roots_states fuel nd1.finger st1)

/-- The states the traversal of the first pass goes through, from the state in which the graph
is built on. -/
def pass1_states (pairs : List (Int × Int)) : List State :=
  match inputs pairs State.init with
  | .error _ => []
  | .ok st => st :: roots_states st.heap.length st.finger st

/-- The states the traversal of the second pass goes through, from the state in which the
graph is built again on. -/
def pass2_states (pairs : List (Int × Int)) (st : State) : List State :=
  match inputs pairs (reset st) with
  | .error _ => []
  | .ok st1 => st1 :: roots_states st1.heap.length st1.finger st1

/-- In the heap every node that has a number has a `lowlink` that is not above it. -/
def lowlink_ok (heap : List node_tp) : Prop :=
  ∀ (i : Nat), num heap i ≠ 0 → low heap i ≤ num heap i

/-! ## The steps between the states of a pass -/

/-- The steps that lead from one state of a traversal to the next state that the functions
`scc_states`, `roots_states` list: the statements of `scc` that write a global or a node. -/
inductive Step : State → State → Prop where
  | count (s : State) : Step s { s with scc_number := s.scc_number + 1 }
  | first_lowlink (s : State) (i : Nat) :
      num s.heap i = 0 → Step s (set_lowlink s i s.scc_number)
  | number (s : State) (i : Nat) : num s.heap i = 0 → Step s (set_number s i s.scc_number)
  | push (s s1 : State) (i : Nat) : push (some i) s = .ok s1 → Step s s1
  | lower (s : State) (i x : Nat) : Step s (set_lowlink s i x)
  | stay (s : State) : Step s s
  | pop (s s1 : State) : pop s = .ok s1 → Step s s1
  | header (s : State) :
      Step s (print { s with scc_count := s.scc_count + 1 } (.header (s.scc_count + 1)))
  | pop_member (s s1 : State) (l : Line) : pop (print s l) = .ok s1 → Step s s1

/-- The list `l` of states leads from the state `s` to the state `r`, step by step (`r` is
the last state of `l`, or `s` when `l` is empty). -/
inductive Path : State → List State → State → Prop where
  | nil (s : State) : Path s [] s
  | cons {s s1 r : State} {l : List State} : Step s s1 → Path s1 l r → Path s (s1 :: l) r

/-- The numbers that nodes have in the state `s` are the numbers they have in the state
`s1`. -/
def keeps_numbers (s s1 : State) : Prop :=
  ∀ (i : Nat), num s.heap i ≠ 0 → num s1.heap i = num s.heap i

/-- The flag `visited` agrees with the extraction stack: the chain of `scc_pred` pointers from
`scc_stack` runs through the nodes of a list `L` without repetition and ends in `NULL`, and
the nodes whose flag `visited` is set are the nodes of `L`. -/
def stack_ok (st : State) : Prop :=
  ∃ (L : List Nat), stack_rep st.heap st.scc_stack L ∧ L.Nodup ∧
    ∀ (i : Nat), vis st.heap i = true ↔ i ∈ L

/-! ## Inside `push` and `pop`

The functions `push` and `pop` above take a call as one step.  The functions below list the
states after each assignment inside a call, in the order of the statements. -/

/-- Assignment `v->scc_pred = top`, on the node. -/
def with_scc_pred (top : node_ptr_tp) (nd : node_tp) : node_tp :=
  { nd with scc_pred := top }

/-- Assignment `v->visited = true`, on the node. -/
def with_visited (nd : node_tp) : node_tp :=
  { nd with visited := true }

/-- The states inside a call `push( v )` that passes its two assertions: the state after
`v->scc_pred = scc_stack`, the state after `v->visited = true`, and the state after
`scc_stack = v`, in which the call returns. -/
def push_steps (v : node_ptr_tp) (st : State) : List State :=
  match v with
  | none => []
  | some i =>
    match st.heap[i]? with
    | none => []
    | some nd =>
      if nd.visited then []
      else
        let st1 := { st with heap := st.heap.modify (with_scc_pred st.scc_stack) i }
        let st2 := { st1 with heap := st1.heap.modify with_visited i }
        let st3 := { st2 with scc_stack := some i }
        [st1, st2, st3]

/-- The states inside a call `pop()` that passes its assertion: the state after
`scc_stack->visited = false`, and the state after `scc_stack = scc_stack->scc_pred`, in which
the call returns. -/
def pop_steps (st : State) : List State :=
  match st.scc_stack with
  | none => []
  | some i =>
    match st.heap[i]? with
    | none => []
    | some _ =>
      let st1 := { st with heap := st.heap.modify clear_visited i }
      match st1.heap[i]? with
      | none => []
      | some nd1 => [st1, { st1 with scc_stack := nd1.scc_pred }]

/-! ## The traversal with the canonical test

The same program with one change: for a successor `w` that has a number, the test
`w->number < v->number` is left out, and `v->lowlink = min( v->lowlink, w->number )` is done
whenever `w->visited` holds. -/

/-- The body of the loop of `scc` with the canonical test `if( w->visited )` for a successor
that has a number. -/
def visit_link_canon (rec_scc : node_ptr_tp → State → Except Err State) (v : Nat)
    (w : node_ptr_tp) (st : State) : Except Err State :=
  match w with
  | none => .error .assertion
  | some _ =>
    match load st.heap w with
    | .error e => .error e
    | .ok wn =>
      if wn.number = 0 then
        match rec_scc w st with
        | .error e => .error e
        | .ok st1 =>
          match load st1.heap (some v) with
          | .error e => .error e
          | .ok vn =>
            match load st1.heap w with
            | .error e => .error e
            | .ok wn1 => .ok (set_lowlink st1 v (min vn.lowlink wn1.lowlink))
      else
        match load st.heap (some v) with
        | .error e => .error e
        | .ok vn =>
          if wn.visited then .ok (set_lowlink st v (min vn.lowlink wn.number))
          else .ok st

/-- The loop over the successors with the canonical test. -/
def for_links_canon (rec_scc : node_ptr_tp → State → Except Err State) (v : Nat) :
    List node_ptr_tp → State → Except Err State
  | [], st => .ok st
  | w :: rest, st =>
    match visit_link_canon rec_scc v w st with
    | .error e => .error e
    | .ok st1 => for_links_canon rec_scc v rest st1

/-- Function `scc( v )` with the canonical test. -/
def scc_canon : Nat → node_ptr_tp → State → Except Err State
  | 0, _, _ => .error .fuel
  | fuel + 1, v, st =>
    match v with
    | none => .error .assertion
    | some i =>
      match load st.heap v with
      | .error e => .error e
      | .ok nd =>
        if nd.number = 0 then
          let st1 := { st with scc_number := st.scc_number + 1 }
          let st2 := set_lowlink st1 i st1.scc_number
          let st3 := set_number st2 i st1.scc_number
          match push v st3 with
          | .error e => .error e
          | .ok st4 =>
            match for_links_canon (scc_canon fuel) i nd.link st4 with
            | .error e => .error e
            | .ok st5 => extract i st5
        else .ok st

/-- The loops of `main` over the roots, with the canonical test in `scc`. -/
def roots_loop_canon : Nat → node_ptr_tp → State → Except Err State
  | _, none, st => .ok st
  | 0, some _, _ => .error .fuel
  | fuel + 1, some i, st =>
    match load st.heap (some i) with
    | .error e => .error e
    | .ok nd =>
      match (if nd.visited = false then scc_canon (st.heap.length + 1) (some i) st
        else .ok st) with
      | .error e => .error e
      | .ok st1 =>
        match load st1.heap (some i) with
        | .error e => .error e
        | .ok nd1 => roots_loop_canon fuel nd1.finger st1

/-- First half of `main` with the canonical test in `scc`. -/
def pass1_canon (pairs : List (Int × Int)) : Except Err State :=
  match inputs pairs State.init with
  | .error e => .error e
  | .ok st => roots_loop_canon st.heap.length st.finger st

/-- Second half of `main` with the canonical test in `scc`. -/
def pass2_canon (pairs : List (Int × Int)) (st : State) : Except Err State :=
  match inputs pairs (reset st) with
  | .error e => .error e
  | .ok st1 => roots_loop_canon st1.heap.length st1.finger st1

/-- Function `main` with the canonical test in `scc`. -/
def main_canon (pairs : List (Int × Int)) : Except Err State :=
  match pass1_canon pairs with
  | .error e => .error e
  | .ok st => pass2_canon pairs st

/-! ## The events of a pass

For the properties that speak of what a pass does, the functions below list the events of the
traversal in the order in which they happen.  They follow the run of the function itself and
stop where it stops. -/

/-- What happens in a traversal: the body of `scc( v )` starts (`v->number` was `0`), `push`
has pushed `v`, `scc( v )` finds `v->lowlink == v->number` in the state `st`, `pop` has taken
`v` from the stack, and a call `scc( temp )` of `main` returns in the state `st`. -/
inductive Event where
  | body (v : Nat)
  | push (v : Nat)
  | found (v : Nat) (st : State)
  | pop (v : Nat)
  | back (st : State)

/-- The node of a `body` event. -/
def Event.body? : Event → Option Nat
  | .body v => some v
  | _ => none

/-- The node of a `push` event. -/
def Event.push? : Event → Option Nat
  | .push v => some v
  | _ => none

/-- The node of a `pop` event. -/
def Event.pop? : Event → Option Nat
  | .pop v => some v
  | _ => none

/-- The state of a `back` event. -/
def Event.back? : Event → Option State
  | .back st => some st
  | _ => none

/-- The node of a `found` event. -/
def Event.found? : Event → Option Nat
  | .found v _ => some v
  | _ => none

/-- The nodes for which the body of `scc` was started, in order. -/
def bodies_of (E : List Event) : List Nat :=
  E.filterMap Event.body?

/-- The nodes pushed, in order. -/
def pushes_of (E : List Event) : List Nat :=
  E.filterMap Event.push?

/-- The nodes popped, in order. -/
def pops_of (E : List Event) : List Nat :=
  E.filterMap Event.pop?

/-- The states in which the calls of `scc` from `main` returned, in order. -/
def backs_of (E : List Event) : List State :=
  E.filterMap Event.back?

/-- The nodes in which `scc` found `v->lowlink == v->number`, in order. -/
def founds_of (E : List Event) : List Nat :=
  E.filterMap Event.found?

/-- The event, for a graph that lies behind the nodes `old`, with the lines `pre` already in
the report. -/
def Event.shift (old : List node_tp) (pre : List Line) : Event → Event
  | .body v => .body (v + old.length)
  | .push v => .push (v + old.length)
  | .found v st => .found (v + old.length) (rebase old pre st)
  | .pop v => .pop (v + old.length)
  | .back st => .back (rebase old pre st)

/-- The event of a call of `pop` in the state `st`. -/
def pop_events (st : State) : List Event :=
  match st.scc_stack with
  | none => []
  | some t => [Event.pop t]

/-- The events of the loop `while` of `scc`: one pop for every iteration. -/
def pop_loop_events (v : node_ptr_tp) : Nat → State → List Event
  | fuel, st =>
    match st.scc_stack with
    | none => []
    | some t =>
      match load st.heap (some t) with
      | .error _ => []
      | .ok top =>
        match load st.heap v with
        | .error _ => []
        | .ok vn =>
          if vn.number ≤ top.number then
            match fuel with
            | 0 => []
            | fuel + 1 =>
              match pop (print st (.member top.name)) with
              | .error _ => []
              | .ok st1 => Event.pop t :: pop_loop_events v fuel st1
          else []

/-- The events of the report of one component. -/
def emit_events (v : node_ptr_tp) (st : State) : List Event :=
  let st1 := { st with scc_count := st.scc_count + 1 }
  pop_loop_events v st1.heap.length (print st1 (.header st1.scc_count))

/-- The events of the statements of `scc` after the loop: when the test
`v->lowlink == v->number` holds, that event and the pops that follow. -/
def extract_events (v : Nat) (st : State) : List Event :=
  match load st.heap (some v) with
  | .error _ => []
  | .ok vn =>
    if vn.lowlink = vn.number then
      Event.found v st ::
        (if st.single = false then
          if st.scc_stack = some v then pop_events st
          else emit_events (some v) st
        else emit_events (some v) st)
    else []

/-- The events of the body of the loop of `scc` for the successor `w`: those of the recursive
call, if there is one. -/
def visit_link_events (rec_events : node_ptr_tp → State → List Event) (w : node_ptr_tp)
    (st : State) : List Event :=
  match load st.heap w with
  | .error _ => []
  | .ok wn => if wn.number = 0 then rec_events w st else []

/-- The events of the loop of `scc` over the successors of `v`. -/
def for_links_events (rec_scc : node_ptr_tp → State → Except Err State)
    (rec_events : node_ptr_tp → State → List Event) (v : Nat) :
    List node_ptr_tp → State → List Event
  | [], _ => []
  | w :: rest, st =>
    visit_link_events rec_events w st ++
    (match visit_link rec_scc v w st with
      | .error _ => []
      | .ok st1 => for_links_events rec_scc rec_events v rest st1)

/-- The events of a call `scc( v )`. -/
def scc_events : Nat → node_ptr_tp → State → List Event
  | 0, _, _ => []
  | fuel + 1, v, st =>
    match v with
    | none => []
    | some i =>
      match load st.heap v with
      | .error _ => []
      | .ok nd =>
        if nd.number = 0 then
          let st1 := { st with scc_number := st.scc_number + 1 }
          let st2 := set_lowlink st1 i st1.scc_number
          let st3 := set_number st2 i st1.scc_number
          Event.body i ::
            (match push v st3 with
              | .error _ => []
              | .ok st4 =>
                Event.push i :: (for_links_events (scc fuel) (scc_events fuel) i nd.link st4 ++
                  (match for_links (scc fuel) i nd.link st4 with
                    | .error _ => []
                    | .ok st5 => extract_events i st5)))
        else []

/-- The events of the loop of `main` over the roots. -/
def roots_events : Nat → node_ptr_tp → State → List Event
  | _, none, _ => []
  | 0, some _, _ => []
  | fuel + 1, some i, st =>
    match load st.heap (some i) with
    | .error _ => []
    | .ok nd =>
      (if nd.visited = false then scc_events (st.heap.length + 1) (some i) st else []) ++
      (match (if nd.visited = false then scc (st.heap.length + 1) (some i) st else .ok st) with
        | .error _ => []
        | .ok st1 =>
          (if nd.visited = false then [Event.back st1] else []) ++
          (match load st1.heap (some i) with
            | .error _ => []
            | .ok nd1 => roots_events fuel nd1.finger st1))

/-- The events of the traversal of the first pass. -/
def pass1_events (pairs : List (Int × Int)) : List Event :=
  match inputs pairs State.init with
  | .error _ => []
  | .ok st => roots_events st.heap.length st.finger st

/-- The events of the traversal of the second pass. -/
def pass2_events (pairs : List (Int × Int)) (st : State) : List Event :=
  match inputs pairs (reset st) with
  | .error _ => []
  | .ok st1 => roots_events st1.heap.length st1.finger st1

/-- The nodes popped by the extractions of a traversal: for every event
`v->lowlink == v->number`, in the order of the events, the nodes that the extraction which
follows it pops. -/
def extractions_of : List Event → List (List Nat)
  | [] => []
  | Event.found v st :: E => pops_of (extract_events v st) :: extractions_of E
  | Event.body _ :: E => extractions_of E
  | Event.push _ :: E => extractions_of E
  | Event.pop _ :: E => extractions_of E
  | Event.back _ :: E => extractions_of E

/-- What the extraction does when `scc( v )` finds `v->lowlink == v->number` in the state
`st`: the stack is `S ++ v :: L` from the top down, the extraction ends, the nodes it pops are
those of `S` and then `v`, in this order, and it leaves the stack `L`; the numbers of the
nodes popped go down strictly, the nodes of `S` have numbers above that of `v` and the nodes
of `L` numbers below it. -/
def extraction_ok (v : Nat) (st : State) : Prop :=
  low st.heap v = num st.heap v ∧
  ∃ (S L : List Nat) (st1 : State),
    stack_rep st.heap st.scc_stack (S ++ v :: L) ∧
    extract v st = .ok st1 ∧
    pops_of (extract_events v st) = S ++ [v] ∧
    stack_rep st1.heap st1.scc_stack L ∧
    (S ++ [v]).Pairwise (fun a b => num st.heap b < num st.heap a) ∧
    (∀ (x : Nat), x ∈ S → num st.heap v < num st.heap x) ∧
    (∀ (x : Nat), x ∈ L → num st.heap x < num st.heap v)

/-- The node `z` has a number and is not on the stack: its component has been extracted. -/
def done_in (heap : List node_tp) (z : Nat) : Prop :=
  num heap z ≠ 0 ∧ vis heap z = false

/-- Every edge that leaves a component of the sequence `G` leads into a component that stands
earlier in `G`, or to a node of `D`. -/
def downward (adj : Nat → List node_ptr_tp) : (Nat → Prop) → List (List Nat) → Prop
  | _, [] => True
  | D, g :: rest =>
    (∀ (x : Nat), x ∈ g → ∀ (z : Nat), edge adj x z → D z ∨ z ∈ g) ∧
    downward adj (fun z => D z ∨ z ∈ g) rest

/-- The function `scc fuel` does what `CallSpec` says and, on top of it, its events are these:
the bodies started and the nodes pushed are the nodes `P`, which get the numbers after `K` in
this order; the nodes popped are those of the components `G`, in order; no call returns to
`main`; every extraction is as `extraction_ok` says, and there is one for every component, in
its last member, which pops the component; and the components are extracted in an order in
which every edge leads to an earlier component. -/
def ScanSpec (adj : Nat → List node_ptr_tp) (fuel : Nat) : Prop :=
  ∀ (heap : List node_tp) (K : Nat) (stk : node_ptr_tp) (L : List Nat) (w : Nat),
    Inv adj heap K stk L → w < heap.length → num heap w = 0 →
    (∀ x, x ∈ L → Reach adj x w) → heap.length < K + fuel →
    ∃ (heap1 : List node_tp) (K1 : Nat) (stk1 : node_ptr_tp) (seg : List Nat)
      (G : List (List Nat)) (P : List Nat),
      Post adj heap K L w heap1 K1 stk1 seg G ∧
      downward adj (done_in heap) G ∧
      P.map (num heap1) = List.range' (K + 1) (K1 - K) ∧
      ∀ (c : Nat) (fg : node_ptr_tp) (b : Bool) (o : List Line),
        scc fuel (some w) ⟨heap, K, stk, c, fg, b, o⟩ =
          .ok ⟨heap1, K1, stk1, c + (reported b G).length, fg, b,
            o ++ render (fun i => name_of heap (some i)) b c G⟩ ∧
        bodies_of (scc_events fuel (some w) ⟨heap, K, stk, c, fg, b, o⟩) = P ∧
        pushes_of (scc_events fuel (some w) ⟨heap, K, stk, c, fg, b, o⟩) = P ∧
        pops_of (scc_events fuel (some w) ⟨heap, K, stk, c, fg, b, o⟩) = G.flatten ∧
        backs_of (scc_events fuel (some w) ⟨heap, K, stk, c, fg, b, o⟩) = [] ∧
        (∀ (x : Nat) (s : State),
          Event.found x s ∈ scc_events fuel (some w) ⟨heap, K, stk, c, fg, b, o⟩ →
          extraction_ok x s) ∧
        (founds_of (scc_events fuel (some w) ⟨heap, K, stk, c, fg, b, o⟩)).map some =
          G.map root_of ∧
        extractions_of (scc_events fuel (some w) ⟨heap, K, stk, c, fg, b, o⟩) = G

/-- What the events `E` of a part of the loop of `main` are, for a graph whose nodes lie
behind `k` older nodes: the bodies started and the nodes pushed are the nodes `P`, the nodes
popped those of the components `G`, in order; every extraction is as `extraction_ok` says,
and there is one for every component, in its last member, which pops the component; `m`
calls have returned to `main`, each with the stack empty and no node flagged as visited. -/
def EventsSpec (k : Nat) (P : List Nat) (G : List (List Nat)) (m : Nat) (E : List Event) :
    Prop :=
  bodies_of E = P.map (fun i => i + k) ∧
  pushes_of E = P.map (fun i => i + k) ∧
  pops_of E = G.flatten.map (fun i => i + k) ∧
  (∀ (x : Nat) (s : State), Event.found x s ∈ E → extraction_ok x s) ∧
  (founds_of E).map some = (G.map root_of).map (shift_ptr k) ∧
  (backs_of E).length = m ∧
  (∀ (s : State), s ∈ backs_of E → s.scc_stack = none ∧ ∀ (i : Nat), vis s.heap i = false) ∧
  extractions_of E = G.map (List.map (fun i => i + k))

end TarjanSCC


namespace TarjanSCC

/-! ## Reading the heap -/

theorem load_of_get {heap : List node_tp} {i : Nat} {nd : node_tp} (h : heap[i]? = some nd) :
    load heap (some i) = .ok nd := by
  simp [load, h]

theorem load_of_get_none {heap : List node_tp} {i : Nat} (h : heap[i]? = none) :
    load heap (some i) = .error .null_deref := by
  simp [load, h]

theorem get_of_load {heap : List node_tp} {i : Nat} {nd : node_tp}
    (h : load heap (some i) = .ok nd) : heap[i]? = some nd := by
  cases hg : heap[i]? with
  | none => simp [load, hg] at h
  | some nd1 =>
    simp [load, hg] at h
    rw [h]

theorem get_of_lt {heap : List node_tp} {i : Nat} (h : i < heap.length) :
    ∃ nd, heap[i]? = some nd :=
  ⟨heap[i], List.getElem?_eq_getElem h⟩

theorem lt_of_get {heap : List node_tp} {i : Nat} {nd : node_tp} (h : heap[i]? = some nd) :
    i < heap.length := by
  rcases Nat.lt_or_ge i heap.length with h1 | h1
  · exact h1
  · rw [List.getElem?_eq_none h1] at h
    cases h

theorem name_of_get {heap : List node_tp} {i : Nat} {nd : node_tp} (h : heap[i]? = some nd) :
    name_of heap (some i) = nd.name := by
  simp [name_of, load_of_get h]

theorem links_of_get {heap : List node_tp} {i : Nat} {nd : node_tp} (h : heap[i]? = some nd) :
    links_of heap i = nd.link := by
  simp [links_of, h]

theorem links_of_none {heap : List node_tp} {i : Nat} (h : heap[i]? = none) :
    links_of heap i = [] := by
  simp [links_of, h]

/-! ## Looking a name up -/

theorem find_below_some {heap : List node_tp} {n : Int} :
    ∀ {m i : Nat}, find_below heap n m = some i →
      i < m ∧ ∃ nd, heap[i]? = some nd ∧ nd.name = n := by
  intro m
  induction m with
  | zero => intro i h; simp [find_below] at h
  | succ m ih =>
    intro i h
    unfold find_below at h
    split at h
    · rename_i nd hnd
      split at h
      · rename_i hn
        cases h
        exact ⟨Nat.lt_succ_self _, nd, hnd, hn.symm⟩
      · have := ih h
        exact ⟨Nat.lt_succ_of_lt this.1, this.2⟩
    · have := ih h
      exact ⟨Nat.lt_succ_of_lt this.1, this.2⟩

theorem find_below_none {heap : List node_tp} {n : Int} :
    ∀ {m : Nat}, find_below heap n m = none →
      ∀ i nd, i < m → heap[i]? = some nd → nd.name ≠ n := by
  intro m
  induction m with
  | zero => intro _ i nd hi; omega
  | succ m ih =>
    intro h i nd hi hnd
    unfold find_below at h
    split at h
    · rename_i nd1 hnd1
      split at h
      · cases h
      · rename_i hn
        rcases Nat.lt_succ_iff_lt_or_eq.mp hi with h1 | h1
        · exact ih h i nd h1 hnd
        · subst h1
          rw [hnd1] at hnd
          cases hnd
          exact fun h2 => hn h2.symm
    · rename_i hnone
      rcases Nat.lt_succ_iff_lt_or_eq.mp hi with h1 | h1
      · exact ih h i nd h1 hnd
      · subst h1
        rw [hnone] at hnd
        cases hnd

theorem exists_loop_eq {heap : List node_tp} (n : Int)
    (hf : ∀ (i : Nat) (nd : node_tp), heap[i]? = some nd →
      nd.finger = if i = 0 then none else some (i - 1)) :
    ∀ (m fuel : Nat), m ≤ heap.length → m ≤ fuel →
      exists_loop heap n fuel (if m = 0 then none else some (m - 1)) =
        .ok (find_below heap n m) := by
  intro m
  induction m with
  | zero =>
    intro fuel _ _
    cases fuel <;> simp [exists_loop, find_below]
  | succ m ih =>
    intro fuel hm hfuel
    obtain ⟨f, rfl⟩ : ∃ f, fuel = f + 1 := ⟨fuel - 1, by omega⟩
    obtain ⟨nd, hnd⟩ := get_of_lt (show m < heap.length by omega)
    have h1 : (if m + 1 = 0 then (none : node_ptr_tp) else some (m + 1 - 1)) = some m := by simp
    rw [h1]
    unfold exists_loop find_below
    rw [load_of_get hnd, hnd]
    simp only
    split
    · rfl
    · rw [hf m nd hnd]
      exact ih f (by omega) (by omega)

theorem exists_node_eq {st : State} (hb : Built st) (n : Int) :
    exists_node n st = .ok (find_below st.heap n st.heap.length) := by
  unfold exists_node
  rw [hb.finger_eq]
  exact exists_loop_eq n hb.node_finger _ _ (Nat.le_refl _) (Nat.le_refl _)

/-! ## Writing the heap -/

theorem get_modify {heap : List node_tp} {f : node_tp → node_tp} {i j : Nat} {nd1 : node_tp} :
    (heap.modify f i)[j]? = some nd1 ↔
      ∃ nd, heap[j]? = some nd ∧ nd1 = if i = j then f nd else nd := by
  rw [List.getElem?_modify]
  cases heap[j]? with
  | none => simp
  | some nd =>
    simp only [Option.map_eq_map, Option.map_some', Option.some.injEq, exists_eq_left']
    exact eq_comm

theorem get_snoc {heap : List node_tp} {x nd : node_tp} {i : Nat} :
    (heap ++ [x])[i]? = some nd ↔ heap[i]? = some nd ∨ (i = heap.length ∧ nd = x) := by
  rcases Nat.lt_trichotomy i heap.length with h | h | h
  · rw [List.getElem?_append_left h]
    constructor
    · exact Or.inl
    · rintro (h1 | ⟨h1, _⟩)
      · exact h1
      · omega
  · subst h
    simp only [List.getElem?_concat_length, Option.some.injEq, true_and]
    constructor
    · intro h1; exact Or.inr h1.symm
    · rintro (h1 | h1)
      · have := lt_of_get h1; omega
      · exact h1.symm
  · have h2 : (heap ++ [x]).length ≤ i := by simp; omega
    rw [List.getElem?_eq_none h2]
    constructor
    · intro h1; cases h1
    · rintro (h1 | ⟨h1, _⟩)
      · have := lt_of_get h1; omega
      · omega

/-! ## Creating nodes -/

theorem Built.make_node {st : State} (hb : Built st) (n : Int)
    (hn : ∀ (i : Nat) (nd : node_tp), st.heap[i]? = some nd → nd.name ≠ n) :
    Built (make_node n st).2 := by
  constructor
  · simp [TarjanSCC.make_node]
  · intro i nd h
    rcases get_snoc.mp h with h1 | ⟨h1, h2⟩
    · exact hb.node_finger i nd h1
    · subst h1 h2
      simp only
      rw [hb.finger_eq]
  · intro i j ni nj hi hj hname
    rcases get_snoc.mp hi with h1 | ⟨h1, h2⟩ <;> rcases get_snoc.mp hj with h3 | ⟨h3, h4⟩
    · exact hb.names_inj i j ni nj h1 h3 hname
    · subst h4
      exact absurd hname (hn i ni h1)
    · subst h2
      exact absurd hname.symm (hn j nj h3)
    · omega
  · intro i nd w h hw
    rcases get_snoc.mp h with h1 | ⟨h1, h2⟩
    · obtain ⟨j, hj, hlt⟩ := hb.link_valid i nd w h1 hw
      refine ⟨j, hj, ?_⟩
      simp [TarjanSCC.make_node]
      omega
    · subst h2
      simp at hw
  · intro i nd h
    rcases get_snoc.mp h with h1 | ⟨h1, h2⟩
    · exact hb.link_nodup i nd h1
    · subst h2
      simp
  · intro i nd h
    rcases get_snoc.mp h with h1 | ⟨h1, h2⟩
    · exact hb.untouched i nd h1
    · subst h2
      simp

/-- Outcome of the lookup-or-create step: either the name is there and nothing changes, or it
is not and a node is appended. -/
theorem find_or_make_spec {st : State} (hb : Built st) (n : Int) :
    (∃ i nd, st.heap[i]? = some nd ∧ nd.name = n ∧ find_or_make n st = .ok (some i, st)) ∨
    ((∀ (i : Nat) (nd : node_tp), st.heap[i]? = some nd → nd.name ≠ n) ∧
      find_or_make n st = .ok (make_node n st)) := by
  unfold find_or_make
  rw [exists_node_eq hb]
  cases hfb : find_below st.heap n st.heap.length with
  | none =>
    right
    refine ⟨fun i nd h => find_below_none hfb i nd (lt_of_get h) h, rfl⟩
  | some i =>
    left
    obtain ⟨_, nd, h1, h2⟩ := find_below_some hfb
    exact ⟨i, nd, h1, h2, rfl⟩

/-! ## Testing for a link -/

theorem new_link_loop_eq {heap : List node_tp}
    (hinj : ∀ (i j : Nat) (ni nj : node_tp), heap[i]? = some ni → heap[j]? = some nj →
      ni.name = nj.name → i = j)
    {j : Nat} {nj : node_tp} (hj : heap[j]? = some nj) :
    ∀ (links : List node_ptr_tp), (∀ w ∈ links, ∃ k, w = some k ∧ k < heap.length) →
      new_link_loop heap nj.name links = .ok (decide (some j ∉ links)) := by
  intro links
  induction links with
  | nil => intro _; simp [new_link_loop]
  | cons w rest ih =>
    intro hv
    obtain ⟨k, rfl, hk⟩ := hv w (List.mem_cons_self _ _)
    obtain ⟨nk, hnk⟩ := get_of_lt hk
    unfold new_link_loop
    rw [load_of_get hnk]
    simp only
    split
    · rename_i hname
      have : j = k := hinj j k nj nk hj hnk hname
      subst this
      simp
    · rename_i hname
      have hne : j ≠ k := by
        intro h
        subst h
        rw [hj] at hnk
        cases hnk
        exact hname rfl
      rw [ih (fun w hw => hv w (List.mem_cons_of_mem _ hw))]
      simp [hne]

theorem new_link_eq {st : State} (hb : Built st) {i j : Nat} {ni nj : node_tp}
    (hi : st.heap[i]? = some ni) (hj : st.heap[j]? = some nj) :
    new_link st.heap (some i) (some j) = .ok (decide (some j ∉ ni.link)) := by
  unfold new_link
  rw [load_of_get hi, load_of_get hj]
  exact new_link_loop_eq hb.names_inj hj ni.link (fun w hw => hb.link_valid i ni w hi hw)

/-! ## The lookup-or-create step -/

theorem find_below_of_get {st : State} (hb : Built st) {i : Nat} {nd : node_tp}
    (hi : st.heap[i]? = some nd) :
    find_below st.heap nd.name st.heap.length = some i := by
  cases hfb : find_below st.heap nd.name st.heap.length with
  | none => exact absurd rfl (find_below_none hfb i nd (lt_of_get hi) hi)
  | some k =>
    obtain ⟨_, nk, h1, h2⟩ := find_below_some hfb
    rw [hb.names_inj k i nk nd h1 hi h2]

theorem find_or_make_present {st : State} (hb : Built st) {i : Nat} {nd : node_tp}
    (hi : st.heap[i]? = some nd) :
    find_or_make nd.name st = .ok (some i, st) := by
  unfold find_or_make
  rw [exists_node_eq hb, find_below_of_get hb hi]

theorem ensure_present {st : State} (hb : Built st) {i : Nat} {nd : node_tp}
    (hi : st.heap[i]? = some nd) : ensure nd.name st = st := by
  unfold ensure
  rw [find_below_of_get hb hi]

theorem Built.ensure {st : State} (hb : Built st) (n : Int) : Built (ensure n st) := by
  unfold TarjanSCC.ensure
  cases hfb : find_below st.heap n st.heap.length with
  | none =>
    exact hb.make_node n (fun i nd h => find_below_none hfb i nd (lt_of_get h) h)
  | some i => exact hb

theorem find_or_make_ensure {st : State} (hb : Built st) (n : Int) :
    ∃ i nd, find_or_make n st = .ok (some i, ensure n st) ∧
      (ensure n st).heap[i]? = some nd ∧ nd.name = n := by
  unfold find_or_make ensure
  rw [exists_node_eq hb]
  cases hfb : find_below st.heap n st.heap.length with
  | none =>
    refine ⟨st.heap.length, ⟨[], st.finger, 0, 0, n, false, none⟩, rfl, ?_, rfl⟩
    simp [make_node]
  | some i =>
    obtain ⟨_, nd, h1, h2⟩ := find_below_some hfb
    exact ⟨i, nd, rfl, h1, h2⟩

theorem mem_heap_names {st : State} {n : Int} :
    n ∈ heap_names st ↔ ∃ (i : Nat) (nd : node_tp), st.heap[i]? = some nd ∧ nd.name = n := by
  unfold heap_names
  rw [List.mem_map]
  constructor
  · rintro ⟨nd, hmem, hn⟩
    obtain ⟨i, hget⟩ := List.mem_iff_getElem?.mp hmem
    exact ⟨i, nd, hget, hn⟩
  · rintro ⟨i, nd, hget, hn⟩
    exact ⟨nd, List.getElem?_mem hget, hn⟩

theorem heap_names_ensure (st : State) (n : Int) :
    heap_names (ensure n st) = add_name (heap_names st) n := by
  unfold ensure add_name
  cases hfb : find_below st.heap n st.heap.length with
  | none =>
    have : n ∉ heap_names st := by
      rw [mem_heap_names]
      rintro ⟨i, nd, h1, h2⟩
      exact find_below_none hfb i nd (lt_of_get h1) h1 h2
    rw [if_neg this]
    simp [heap_names, make_node]
  | some i =>
    obtain ⟨_, nd, h1, h2⟩ := find_below_some hfb
    have : n ∈ heap_names st := mem_heap_names.mpr ⟨i, nd, h1, h2⟩
    rw [if_pos this]

theorem get_ensure {st : State} (n : Int) {i : Nat} {nd : node_tp}
    (h : st.heap[i]? = some nd) : (ensure n st).heap[i]? = some nd := by
  unfold ensure
  cases find_below st.heap n st.heap.length with
  | none => exact get_snoc.mpr (Or.inl h)
  | some _ => exact h

theorem links_of_ensure (st : State) (n : Int) (i : Nat) :
    links_of (ensure n st).heap i = links_of st.heap i := by
  unfold ensure
  cases find_below st.heap n st.heap.length with
  | some _ => rfl
  | none =>
    dsimp only
    cases hg : st.heap[i]? with
    | some nd =>
      have h1 : (make_node n st).2.heap[i]? = some nd := get_snoc.mpr (Or.inl hg)
      rw [links_of_get hg, links_of_get h1]
    | none =>
      rw [links_of_none hg]
      cases hg1 : (make_node n st).2.heap[i]? with
      | none => rw [links_of_none hg1]
      | some nd1 =>
        rw [links_of_get hg1]
        rcases get_snoc.mp hg1 with h1 | ⟨_, h2⟩
        · rw [hg] at h1; cases h1
        · rw [h2]

theorem ensure_frame (st : State) (n : Int) :
    (ensure n st).scc_number = st.scc_number ∧ (ensure n st).scc_stack = st.scc_stack ∧
    (ensure n st).scc_count = st.scc_count ∧ (ensure n st).single = st.single ∧
    (ensure n st).outfile = st.outfile := by
  unfold ensure
  cases find_below st.heap n st.heap.length <;> simp [make_node]

/-! ## Connecting two nodes -/

theorem connect_eq {st : State} (hb : Built st) {i j : Nat} {ni nj : node_tp}
    (hi : st.heap[i]? = some ni) (hj : st.heap[j]? = some nj) :
    connect ni.name nj.name (some i) (some j) st =
      .ok (finish_input ni.name nj.name i j st) := by
  unfold connect finish_input
  rw [new_link_eq hb hi hj, load_of_get hi, load_of_get hj, links_of_get hi]
  by_cases hmem : some j ∈ ni.link
  · simp [hmem]
  · simp [hmem, set_link, print]

theorem input_eq {st : State} (hb : Built st) (a b : Int) :
    ∃ (i j : Nat) (ni nj : node_tp),
      (ensure b (ensure a st)).heap[i]? = some ni ∧ ni.name = a ∧
      (ensure b (ensure a st)).heap[j]? = some nj ∧ nj.name = b ∧
      input a b st = .ok (finish_input a b i j (ensure b (ensure a st))) := by
  obtain ⟨i, ni, h1, h2, h3⟩ := find_or_make_ensure hb a
  obtain ⟨j, nj, h4, h5, h6⟩ := find_or_make_ensure (hb.ensure a) b
  have h7 := get_ensure b h2
  refine ⟨i, j, ni, nj, h7, h3, h5, h6, ?_⟩
  unfold input
  rw [h1]
  simp only
  rw [h4]
  simp only
  subst h3 h6
  exact connect_eq ((hb.ensure _).ensure _) h7 h5

theorem Built.of_heap_eq {st st1 : State} (hb : Built st) (hh : st1.heap = st.heap)
    (hf : st1.finger = st.finger) : Built st1 := by
  constructor
  · rw [hh, hf]; exact hb.finger_eq
  · rw [hh]; exact hb.node_finger
  · rw [hh]; exact hb.names_inj
  · rw [hh]; exact hb.link_valid
  · rw [hh]; exact hb.link_nodup
  · rw [hh]; exact hb.untouched

theorem Built.set_link {st : State} (hb : Built st) {i j : Nat} {ni : node_tp}
    (hi : st.heap[i]? = some ni) (hj : j < st.heap.length) (hnew : some j ∉ ni.link) :
    Built (set_link st i (make_link ni.link (some j))) := by
  constructor
  · simp only [TarjanSCC.set_link, List.length_modify]
    exact hb.finger_eq
  · intro k nd h
    obtain ⟨nd0, h0, rfl⟩ := get_modify.mp h
    have := hb.node_finger k nd0 h0
    split <;> simpa using this
  · intro k l nk nl hk hl hname
    obtain ⟨nk0, hk0, rfl⟩ := get_modify.mp hk
    obtain ⟨nl0, hl0, rfl⟩ := get_modify.mp hl
    refine hb.names_inj k l nk0 nl0 hk0 hl0 ?_
    have e1 : ∀ (c : Prop) [Decidable c] (x : node_tp),
        (if c then with_link (make_link ni.link (some j)) x else x).name = x.name := by
      intro c _ x
      split <;> rfl
    rw [e1, e1] at hname
    exact hname
  · intro k nd w h hw
    obtain ⟨nd0, h0, rfl⟩ := get_modify.mp h
    simp only [TarjanSCC.set_link, List.length_modify]
    split at hw
    · rename_i hik
      subst hik
      rw [hi] at h0
      cases h0
      simp only [make_link, with_link, List.mem_cons] at hw
      rcases hw with rfl | hw
      · exact ⟨j, rfl, hj⟩
      · exact hb.link_valid i ni w hi hw
    · exact hb.link_valid k nd0 w h0 hw
  · intro k nd h
    obtain ⟨nd0, h0, rfl⟩ := get_modify.mp h
    split
    · rename_i hik
      subst hik
      rw [hi] at h0
      cases h0
      simp only [make_link, with_link]
      exact List.nodup_cons.mpr ⟨hnew, hb.link_nodup i ni hi⟩
    · exact hb.link_nodup k nd0 h0
  · intro k nd h
    obtain ⟨nd0, h0, rfl⟩ := get_modify.mp h
    have := hb.untouched k nd0 h0
    split <;> simpa using this

theorem Built.finish_input {st : State} (hb : Built st) (a b : Int) {i j : Nat}
    {ni nj : node_tp} (hi : st.heap[i]? = some ni) (hj : st.heap[j]? = some nj) :
    Built (finish_input a b i j st) := by
  unfold TarjanSCC.finish_input
  rw [links_of_get hi]
  by_cases hmem : some j ∈ ni.link
  · rw [if_pos hmem]
    split
    · exact hb.of_heap_eq rfl rfl
    · exact hb
  · rw [if_neg hmem]
    have h1 := hb.set_link hi (lt_of_get hj) hmem
    split
    · exact h1.of_heap_eq rfl rfl
    · exact h1

theorem finish_input_frame (a b : Int) (i j : Nat) (st : State) :
    (finish_input a b i j st).scc_number = st.scc_number ∧
    (finish_input a b i j st).scc_stack = st.scc_stack ∧
    (finish_input a b i j st).scc_count = st.scc_count ∧
    (finish_input a b i j st).single = st.single ∧
    (finish_input a b i j st).finger = st.finger ∧
    (finish_input a b i j st).heap.length = st.heap.length := by
  unfold finish_input
  split <;> split <;> simp [print, set_link]

theorem finish_input_outfile (a b : Int) (i j : Nat) (st : State) :
    (finish_input a b i j st).outfile =
      if st.single then
        st.outfile ++ [if some j ∈ links_of st.heap i then .skipped a b else .edge a b]
      else st.outfile := by
  unfold finish_input
  split <;> split <;> simp_all [print, set_link]

theorem get_finish_input {a b : Int} {i j k : Nat} {st : State} {nd1 : node_tp} :
    (finish_input a b i j st).heap[k]? = some nd1 ↔
      ∃ nd, st.heap[k]? = some nd ∧
        nd1 = if k = i ∧ some j ∉ nd.link then { nd with link := some j :: nd.link } else nd := by
  unfold finish_input
  by_cases hmem : some j ∈ links_of st.heap i
  · rw [if_pos hmem]
    have e : (if st.single = true then print st (Line.skipped a b) else st).heap = st.heap := by
      split <;> rfl
    rw [e]
    constructor
    · intro h
      refine ⟨nd1, h, ?_⟩
      split
      · rename_i hc
        rw [hc.1] at h
        rw [links_of_get h] at hmem
        exact absurd hmem hc.2
      · rfl
    · rintro ⟨nd, h, rfl⟩
      split
      · rename_i hc
        rw [hc.1] at h
        rw [links_of_get h] at hmem
        exact absurd hmem hc.2
      · exact h
  · rw [if_neg hmem]
    have e : (if st.single = true then
          print (set_link st i (make_link (links_of st.heap i) (some j))) (Line.edge a b)
        else set_link st i (make_link (links_of st.heap i) (some j))).heap =
        st.heap.modify (fun nd => { nd with link := some j :: links_of st.heap i }) i := by
      split <;> rfl
    rw [e, get_modify]
    constructor
    · rintro ⟨nd, h, rfl⟩
      refine ⟨nd, h, ?_⟩
      by_cases hki : i = k
      · subst hki
        rw [links_of_get h] at hmem
        rw [if_pos rfl, if_pos ⟨rfl, hmem⟩, links_of_get h]
      · rw [if_neg hki, if_neg (fun hc => hki hc.1.symm)]
    · rintro ⟨nd, h, rfl⟩
      refine ⟨nd, h, ?_⟩
      by_cases hki : i = k
      · subst hki
        rw [links_of_get h] at hmem
        rw [if_pos rfl, if_pos ⟨rfl, hmem⟩, links_of_get h]
      · rw [if_neg hki, if_neg (fun hc => hki hc.1.symm)]

theorem get_finish_input_of_get (a b : Int) (i j : Nat) {k : Nat} {st : State} {nd : node_tp}
    (h : st.heap[k]? = some nd) :
    (finish_input a b i j st).heap[k]? =
      some (if k = i ∧ some j ∉ nd.link then { nd with link := some j :: nd.link } else nd) :=
  get_finish_input.mpr ⟨nd, h, rfl⟩

theorem get_finish_input_none (a b : Int) (i j : Nat) {k : Nat} {st : State}
    (h : st.heap[k]? = none) : (finish_input a b i j st).heap[k]? = none := by
  cases h1 : (finish_input a b i j st).heap[k]? with
  | none => rfl
  | some nd1 =>
    obtain ⟨nd, h2, _⟩ := get_finish_input.mp h1
    rw [h] at h2
    cases h2

theorem heap_names_finish_input (a b : Int) (i j : Nat) (st : State) :
    heap_names (finish_input a b i j st) = heap_names st := by
  apply List.ext_getElem?
  intro k
  unfold heap_names
  rw [List.getElem?_map, List.getElem?_map]
  cases h : st.heap[k]? with
  | none => rw [get_finish_input_none a b i j h]
  | some nd =>
    rw [get_finish_input_of_get a b i j h]
    simp only [Option.map_some', Option.some.injEq]
    split <;> rfl

theorem links_of_finish_input (a b : Int) {i : Nat} (j k : Nat) {st : State} {ni : node_tp}
    (hi : st.heap[i]? = some ni) :
    links_of (finish_input a b i j st).heap k =
      if k = i then add_front (some j) (links_of st.heap i) else links_of st.heap k := by
  cases h : st.heap[k]? with
  | none =>
    rw [links_of_none (get_finish_input_none a b i j h)]
    have hki : k ≠ i := by
      intro hki
      subst hki
      rw [h] at hi
      cases hi
    rw [if_neg hki, links_of_none h]
  | some nd =>
    rw [links_of_get (get_finish_input_of_get a b i j h)]
    by_cases hki : k = i
    · subst hki
      rw [if_pos rfl, links_of_get h]
      unfold add_front
      by_cases hmem : some j ∈ nd.link
      · rw [if_pos hmem, if_neg (fun hc => hc.2 hmem)]
      · rw [if_neg hmem, if_pos ⟨rfl, hmem⟩]
    · rw [if_neg hki, if_neg (fun hc => hki hc.1), links_of_get h]

/-! ## Adjacency by name -/

theorem adj_by_name_of_get {st : State} (hb : Built st) {k : Nat} {nd : node_tp}
    (h : st.heap[k]? = some nd) : adj_by_name st nd.name = adj_names st.heap k := by
  unfold adj_by_name
  rw [find_below_of_get hb h]

theorem adj_by_name_absent {st : State} {c : Int} (h : c ∉ heap_names st) :
    adj_by_name st c = [] := by
  unfold adj_by_name
  cases hfb : find_below st.heap c st.heap.length with
  | none => rfl
  | some i =>
    obtain ⟨_, nd, h1, h2⟩ := find_below_some hfb
    exact absurd (mem_heap_names.mpr ⟨i, nd, h1, h2⟩) h

theorem name_of_ensure {st : State} (n : Int) {q : Nat} {nd : node_tp}
    (h : st.heap[q]? = some nd) :
    name_of (ensure n st).heap (some q) = name_of st.heap (some q) := by
  rw [name_of_get h, name_of_get (get_ensure n h)]

theorem name_of_finish_input (a b : Int) (i j : Nat) (st : State) (w : node_ptr_tp) :
    name_of (finish_input a b i j st).heap w = name_of st.heap w := by
  cases w with
  | none => rfl
  | some q =>
    cases h : st.heap[q]? with
    | none =>
      simp [name_of, load_of_get_none h, load_of_get_none (get_finish_input_none a b i j h)]
    | some nd =>
      rw [name_of_get h, name_of_get (get_finish_input_of_get a b i j h)]
      split <;> rfl

theorem adj_names_ensure {st : State} (hb : Built st) (n : Int) (k : Nat) :
    adj_names (ensure n st).heap k = adj_names st.heap k := by
  unfold adj_names
  rw [links_of_ensure]
  apply List.map_congr_left
  intro w hw
  cases h : st.heap[k]? with
  | none => rw [links_of_none h] at hw; cases hw
  | some nd =>
    rw [links_of_get h] at hw
    obtain ⟨q, rfl, hq⟩ := hb.link_valid k nd w h hw
    obtain ⟨nq, hnq⟩ := get_of_lt hq
    exact name_of_ensure n hnq

theorem adj_by_name_ensure {st : State} (hb : Built st) (n c : Int) :
    adj_by_name (ensure n st) c = adj_by_name st c := by
  by_cases hc : c ∈ heap_names st
  · obtain ⟨k, nd, h1, h2⟩ := mem_heap_names.mp hc
    subst h2
    rw [adj_by_name_of_get hb h1, adj_by_name_of_get (hb.ensure n) (get_ensure n h1)]
    exact adj_names_ensure hb n k
  · rw [adj_by_name_absent hc]
    by_cases hc1 : c ∈ heap_names (ensure n st)
    · obtain ⟨k, nd, h1, h2⟩ := mem_heap_names.mp hc1
      subst h2
      rw [adj_by_name_of_get (hb.ensure n) h1, adj_names_ensure hb n k]
      cases h : st.heap[k]? with
      | none => simp [adj_names, links_of_none h]
      | some nd0 =>
        have h3 := get_ensure n h
        rw [h1] at h3
        cases h3
        exact absurd (mem_heap_names.mpr ⟨k, nd, h, rfl⟩) hc
    · exact adj_by_name_absent hc1

theorem mem_adj_names_iff {st : State} (hb : Built st) (i : Nat) {j : Nat} {nj : node_tp}
    (hj : st.heap[j]? = some nj) :
    nj.name ∈ adj_names st.heap i ↔ some j ∈ links_of st.heap i := by
  unfold adj_names
  rw [List.mem_map]
  constructor
  · rintro ⟨w, hw, hname⟩
    cases h : st.heap[i]? with
    | none => rw [links_of_none h] at hw; cases hw
    | some ni =>
      rw [links_of_get h] at hw
      obtain ⟨q, rfl, hq⟩ := hb.link_valid i ni _ h hw
      obtain ⟨nq, hnq⟩ := get_of_lt hq
      rw [name_of_get hnq] at hname
      have := hb.names_inj q j nq nj hnq hj hname
      subst this
      rw [links_of_get h]
      exact hw
  · intro h
    exact ⟨some j, h, name_of_get hj⟩

theorem adj_names_finish_input {st : State} (hb : Built st) {i j : Nat} {ni nj : node_tp}
    (hi : st.heap[i]? = some ni) (hj : st.heap[j]? = some nj) (k : Nat) :
    adj_names (finish_input ni.name nj.name i j st).heap k =
      if k = i then add_front nj.name (adj_names st.heap i) else adj_names st.heap k := by
  have e : ∀ l : List node_ptr_tp,
      l.map (name_of (finish_input ni.name nj.name i j st).heap) = l.map (name_of st.heap) :=
    fun l => List.map_congr_left (fun w _ => name_of_finish_input _ _ i j st w)
  unfold adj_names
  rw [links_of_finish_input _ _ j k hi, e]
  by_cases hki : k = i
  · rw [if_pos hki, if_pos hki]
    have hiff := mem_adj_names_iff hb i hj
    unfold adj_names at hiff
    unfold add_front
    by_cases hmem : some j ∈ links_of st.heap i
    · rw [if_pos hmem, if_pos (hiff.mpr hmem)]
    · rw [if_neg hmem, if_neg (fun hc => hmem (hiff.mp hc))]
      simp [name_of_get hj]
  · rw [if_neg hki, if_neg hki]

theorem adj_by_name_finish_input {st : State} (hb : Built st) {i j : Nat} {ni nj : node_tp}
    (hi : st.heap[i]? = some ni) (hj : st.heap[j]? = some nj) (c : Int) :
    adj_by_name (finish_input ni.name nj.name i j st) c =
      if c = ni.name then add_front nj.name (adj_by_name st c) else adj_by_name st c := by
  have hb1 := hb.finish_input ni.name nj.name hi hj
  by_cases hc : c ∈ heap_names st
  · obtain ⟨k, nd, h1, h2⟩ := mem_heap_names.mp hc
    subst h2
    have h3 := get_finish_input_of_get ni.name nj.name i j h1
    have h4 := adj_by_name_of_get hb1 h3
    have e1 : (if k = i ∧ some j ∉ nd.link then { nd with link := some j :: nd.link }
        else nd).name = nd.name := by split <;> rfl
    rw [e1] at h4
    rw [h4, adj_names_finish_input hb hi hj k, adj_by_name_of_get hb h1]
    by_cases hki : k = i
    · subst hki
      rw [hi] at h1
      cases h1
      rw [if_pos rfl, if_pos rfl]
    · have hne : nd.name ≠ ni.name := fun h => hki (hb.names_inj k i nd ni h1 hi h)
      rw [if_neg hki, if_neg hne]
  · have hc1 : c ∉ heap_names (finish_input ni.name nj.name i j st) := by
      rw [heap_names_finish_input]; exact hc
    have hne : c ≠ ni.name := by
      intro h
      subst h
      exact hc (mem_heap_names.mpr ⟨i, ni, hi, rfl⟩)
    rw [adj_by_name_absent hc, adj_by_name_absent hc1, if_neg hne]

/-! ## One call of `input`, and the loop over the pairs -/

theorem input_step {st : State} (hb : Built st) (a b : Int) :
    ∃ st1, input a b st = .ok st1 ∧ Built st1 ∧
      heap_names st1 = add_name (add_name (heap_names st) a) b ∧
      (∀ c, adj_by_name st1 c =
        if c = a then add_front b (adj_by_name st c) else adj_by_name st c) ∧
      st1.scc_number = st.scc_number ∧ st1.scc_stack = st.scc_stack ∧
      st1.scc_count = st.scc_count ∧ st1.single = st.single ∧
      st1.outfile =
        (if st.single then
          st.outfile ++ [if b ∈ adj_by_name st a then .skipped a b else .edge a b]
        else st.outfile) := by
  obtain ⟨i, j, ni, nj, hi, hna, hj, hnb, heq⟩ := input_eq hb a b
  have hb2 : Built (ensure b (ensure a st)) := (hb.ensure a).ensure b
  have hadj : ∀ c, adj_by_name (ensure b (ensure a st)) c = adj_by_name st c := fun c => by
    rw [adj_by_name_ensure (hb.ensure a), adj_by_name_ensure hb]
  have hfr := finish_input_frame a b i j (ensure b (ensure a st))
  have hf1 := ensure_frame (ensure a st) b
  have hf2 := ensure_frame st a
  refine ⟨_, heq, hb2.finish_input a b hi hj, ?_, ?_, ?_, ?_, ?_, ?_, ?_⟩
  · rw [heap_names_finish_input, heap_names_ensure, heap_names_ensure]
  · intro c
    have := adj_by_name_finish_input hb2 hi hj c
    rw [hna, hnb, hadj] at this
    exact this
  · rw [hfr.1, hf1.1, hf2.1]
  · rw [hfr.2.1, hf1.2.1, hf2.2.1]
  · rw [hfr.2.2.1, hf1.2.2.1, hf2.2.2.1]
  · rw [hfr.2.2.2.1, hf1.2.2.2.1, hf2.2.2.2.1]
  · rw [finish_input_outfile, hf1.2.2.2.1, hf2.2.2.2.1, hf1.2.2.2.2, hf2.2.2.2.2]
    have h1 : some j ∈ links_of (ensure b (ensure a st)).heap i ↔ b ∈ adj_by_name st a := by
      rw [← hadj a]
      have h2 := adj_by_name_of_get hb2 hi
      rw [hna] at h2
      rw [h2]
      have h3 := mem_adj_names_iff hb2 i hj
      rw [hnb] at h3
      exact h3.symm
    simp only [h1]

theorem add_front_reverse (b : Int) (l : List Int) :
    (add_front b l).reverse = add_name l.reverse b := by
  unfold add_front add_name
  by_cases h : b ∈ l
  · rw [if_pos h, if_pos (List.mem_reverse.mpr h)]
  · rw [if_neg h, if_neg (fun hc => h (List.mem_reverse.mp hc))]
    simp

theorem targets_cons (c a b : Int) (rest : List (Int × Int)) :
    targets c ((a, b) :: rest) = if a = c then b :: targets c rest else targets c rest := by
  unfold targets
  by_cases h : a = c
  · simp [List.filter_cons, h]
  · simp [List.filter_cons, h]

theorem inputs_spec (pairs : List (Int × Int)) :
    ∀ {st : State}, Built st →
      ∃ st1, inputs pairs st = .ok st1 ∧ Built st1 ∧
        heap_names st1 = (flatten_pairs pairs).foldl add_name (heap_names st) ∧
        (∀ c, (adj_by_name st1 c).reverse =
          (targets c pairs).foldl add_name (adj_by_name st c).reverse) ∧
        st1.scc_number = st.scc_number ∧ st1.scc_stack = st.scc_stack ∧
        st1.scc_count = st.scc_count ∧ st1.single = st.single ∧
        (st.single = false → st1.outfile = st.outfile) := by
  induction pairs with
  | nil =>
    intro st hb
    exact ⟨st, rfl, hb, rfl, fun _ => rfl, rfl, rfl, rfl, rfl, fun _ => rfl⟩
  | cons p rest ih =>
    intro st hb
    obtain ⟨a, b⟩ := p
    obtain ⟨st1, h1, hb1, hn1, ha1, e1, e2, e3, e4, e5⟩ := input_step hb a b
    obtain ⟨st2, h2, hb2, hn2, ha2, f1, f2, f3, f4, f5⟩ := ih hb1
    refine ⟨st2, ?_, hb2, ?_, ?_, f1.trans e1, f2.trans e2, f3.trans e3, f4.trans e4, ?_⟩
    · simp only [inputs, h1]
      exact h2
    · rw [hn2, hn1]
      rfl
    · intro c
      rw [ha2 c, ha1 c, targets_cons]
      by_cases hc : c = a
      · subst hc
        rw [if_pos rfl, if_pos rfl, add_front_reverse]
        rfl
      · rw [if_neg hc, if_neg (fun h => hc h.symm)]
    · intro hs
      rw [f5 (e4.trans hs), e5, hs]
      rfl

theorem Built.fresh (single : Bool) : Built (State.fresh single) := by
  constructor
  · rfl
  all_goals
    intro i
    simp [State.fresh, State.init]

end TarjanSCC


namespace TarjanSCC

/-! ## Graph building behind older nodes -/

theorem shift_ptr_some (k i : Nat) : shift_ptr k (some i) = some (i + k) := rfl

theorem shift_ptr_none (k : Nat) : shift_ptr k none = none := rfl

theorem get_rebase_heap (old heap : List node_tp) (i : Nat) :
    (old ++ heap.map (shift_node old.length))[i + old.length]? =
      (heap[i]?).map (shift_node old.length) := by
  rw [List.getElem?_append_right (Nat.le_add_left _ _), Nat.add_sub_cancel, List.getElem?_map]

theorem load_rebase (old heap : List node_tp) (p : node_ptr_tp) :
    load (old ++ heap.map (shift_node old.length)) (shift_ptr old.length p) =
      (load heap p).map (shift_node old.length) := by
  cases p with
  | none => rfl
  | some i =>
    simp only [shift_ptr_some, load, get_rebase_heap]
    cases heap[i]? <;> rfl

theorem exists_loop_rebase (old heap : List node_tp) (n : Int) :
    ∀ (fuel : Nat) (p : node_ptr_tp),
      exists_loop (old ++ heap.map (shift_node old.length)) n fuel (shift_ptr old.length p) =
        (exists_loop heap n fuel p).map (shift_ptr old.length) := by
  intro fuel
  induction fuel with
  | zero =>
    intro p
    cases p <;> rfl
  | succ f ih =>
    intro p
    cases p with
    | none => rfl
    | some i =>
      have h := load_rebase old heap (some i)
      rw [shift_ptr_some] at h ⊢
      unfold exists_loop
      rw [h]
      cases hl : load heap (some i) with
      | error e => rfl
      | ok nd =>
        simp only [Except.map, shift_node]
        split
        · rfl
        · exact ih nd.finger

theorem exists_loop_mono {heap : List node_tp} {n : Int} :
    ∀ {fuel fuel1 : Nat} {p r : node_ptr_tp}, exists_loop heap n fuel p = .ok r →
      fuel ≤ fuel1 → exists_loop heap n fuel1 p = .ok r := by
  intro fuel
  induction fuel with
  | zero =>
    intro fuel1 p r h _
    cases p with
    | none =>
      cases fuel1 <;> exact h
    | some i => simp [exists_loop] at h
  | succ f ih =>
    intro fuel1 p r h hle
    obtain ⟨f1, rfl⟩ : ∃ f1, fuel1 = f1 + 1 := ⟨fuel1 - 1, by omega⟩
    cases p with
    | none => exact h
    | some i =>
      unfold exists_loop at h ⊢
      cases hl : load heap (some i) with
      | error e => rw [hl] at h; exact h
      | ok nd =>
        rw [hl] at h
        simp only at h ⊢
        split
        · rename_i hn
          rw [if_pos hn] at h
          exact h
        · rename_i hn
          rw [if_neg hn] at h
          exact ih h (by omega)

theorem exists_node_rebase (old : List node_tp) (pre : List Line) {st : State} {n : Int}
    {r : node_ptr_tp} (h : exists_node n st = .ok r) :
    exists_node n (rebase old pre st) = .ok (shift_ptr old.length r) := by
  unfold exists_node at h ⊢
  have h1 := exists_loop_rebase old st.heap n st.heap.length st.finger
  rw [h] at h1
  exact exists_loop_mono h1 (by simp [rebase])

theorem make_node_rebase (old : List node_tp) (pre : List Line) (st : State) (n : Int) :
    make_node n (rebase old pre st) =
      (shift_ptr old.length (make_node n st).1, rebase old pre (make_node n st).2) := by
  simp [make_node, rebase, shift_ptr, shift_node, Nat.add_comm]

theorem find_or_make_rebase (old : List node_tp) (pre : List Line) {st st1 : State} {n : Int}
    {p : node_ptr_tp} (h : find_or_make n st = .ok (p, st1)) :
    find_or_make n (rebase old pre st) = .ok (shift_ptr old.length p, rebase old pre st1) := by
  unfold find_or_make at h ⊢
  cases he : exists_node n st with
  | error e => rw [he] at h; cases h
  | ok r =>
    rw [he] at h
    rw [exists_node_rebase old pre he]
    cases r with
    | none =>
      simp only [Except.ok.injEq] at h
      rw [shift_ptr_none]
      simp only
      rw [make_node_rebase, h]
    | some i =>
      simp only [Except.ok.injEq, Prod.mk.injEq] at h
      rw [shift_ptr_some]
      simp only
      rw [← h.1, ← h.2]
      rfl

theorem new_link_loop_rebase (old heap : List node_tp) (target : Int) :
    ∀ (links : List node_ptr_tp),
      new_link_loop (old ++ heap.map (shift_node old.length)) target
        (links.map (shift_ptr old.length)) = new_link_loop heap target links := by
  intro links
  induction links with
  | nil => rfl
  | cons w rest ih =>
    simp only [List.map_cons, new_link_loop]
    rw [load_rebase]
    cases load heap w with
    | error e => rfl
    | ok wn =>
      simp only [Except.map, shift_node]
      split
      · rfl
      · exact ih

theorem new_link_rebase (old heap : List node_tp) (first second : node_ptr_tp) :
    new_link (old ++ heap.map (shift_node old.length)) (shift_ptr old.length first)
      (shift_ptr old.length second) = new_link heap first second := by
  unfold new_link
  rw [load_rebase, load_rebase]
  cases load heap second with
  | error e => cases load heap first <;> rfl
  | ok sn =>
    cases load heap first with
    | error e => rfl
    | ok fn =>
      simp only [Except.map, shift_node]
      exact new_link_loop_rebase old heap sn.name fn.link

theorem modify_rebase (old heap : List node_tp) (f g : node_tp → node_tp)
    (hfg : ∀ nd, f (shift_node old.length nd) = shift_node old.length (g nd)) (i : Nat) :
    (old ++ heap.map (shift_node old.length)).modify f (i + old.length) =
      old ++ (heap.modify g i).map (shift_node old.length) := by
  apply List.ext_getElem?
  intro m
  rw [List.getElem?_modify]
  rcases Nat.lt_or_ge m old.length with hm | hm
  · rw [List.getElem?_append_left hm, List.getElem?_append_left hm]
    have hne : i + old.length ≠ m := by omega
    cases old[m]? <;> simp [hne]
  · obtain ⟨m1, rfl⟩ : ∃ m1, m = m1 + old.length := ⟨m - old.length, by omega⟩
    rw [get_rebase_heap, get_rebase_heap, List.getElem?_modify]
    cases heap[m1]? with
    | none => rfl
    | some nd =>
      by_cases h : i = m1
      · subst h
        simp [hfg]
      · have h1 : i + old.length ≠ m1 + old.length := by omega
        simp [h, h1]

theorem set_link_rebase (old : List node_tp) (pre : List Line) (st : State) (i : Nat)
    (l : List node_ptr_tp) :
    set_link (rebase old pre st) (i + old.length) (l.map (shift_ptr old.length)) =
      rebase old pre (set_link st i l) := by
  unfold set_link rebase
  simp only
  rw [modify_rebase old st.heap _ (with_link l)]
  intro nd
  rfl

theorem print_rebase (old : List node_tp) (pre : List Line) (st : State) (l : Line) :
    print (rebase old pre st) l = rebase old pre (print st l) := by
  simp [print, rebase]

theorem connect_rebase (old : List node_tp) (pre : List Line) (st : State) (a b : Int)
    (first second : node_ptr_tp) :
    connect a b (shift_ptr old.length first) (shift_ptr old.length second)
        (rebase old pre st) =
      (connect a b first second st).map (rebase old pre) := by
  unfold connect
  have e1 : (rebase old pre st).heap = old ++ st.heap.map (shift_node old.length) := rfl
  have e2 : (rebase old pre st).single = st.single := rfl
  rw [e1, new_link_rebase, load_rebase, load_rebase]
  cases hnl : new_link st.heap first second with
  | error e => rfl
  | ok r =>
    cases r with
    | false =>
      simp only [Except.map, e2]
      split
      · rw [print_rebase]
      · rfl
    | true =>
      cases first with
      | none => rfl
      | some i =>
        simp only [shift_ptr_some]
        cases hlf : load st.heap (some i) with
        | error e => rfl
        | ok fn =>
          cases hls : load st.heap second with
          | error e => rfl
          | ok sn =>
            simp only [Except.map]
            have e3 : make_link (shift_node old.length fn).link (shift_ptr old.length second) =
                (make_link fn.link second).map (shift_ptr old.length) := rfl
            rw [e3, set_link_rebase]
            have e4 : (rebase old pre (set_link st i (make_link fn.link second))).single =
                (set_link st i (make_link fn.link second)).single := rfl
            rw [e4]
            split
            · rw [print_rebase]
              rfl
            · rfl

theorem input_rebase (old : List node_tp) (pre : List Line) {st st1 : State} {a b : Int}
    (h : input a b st = .ok st1) :
    input a b (rebase old pre st) = .ok (rebase old pre st1) := by
  unfold input at h ⊢
  cases h1 : find_or_make a st with
  | error e => rw [h1] at h; cases h
  | ok r1 =>
    obtain ⟨first, s1⟩ := r1
    rw [h1] at h
    simp only at h
    rw [find_or_make_rebase old pre h1]
    simp only
    cases h2 : find_or_make b s1 with
    | error e => rw [h2] at h; cases h
    | ok r2 =>
      obtain ⟨second, s2⟩ := r2
      rw [h2] at h
      simp only at h
      rw [find_or_make_rebase old pre h2]
      simp only
      rw [connect_rebase, h]
      rfl

theorem inputs_rebase (old : List node_tp) (pre : List Line) (pairs : List (Int × Int)) :
    ∀ {st st1 : State}, inputs pairs st = .ok st1 →
      inputs pairs (rebase old pre st) = .ok (rebase old pre st1) := by
  induction pairs with
  | nil =>
    intro st st1 h
    simp only [inputs, Except.ok.injEq] at h ⊢
    rw [h]
  | cons p rest ih =>
    intro st st1 h
    obtain ⟨a, b⟩ := p
    unfold inputs at h ⊢
    cases h1 : input a b st with
    | error e => rw [h1] at h; cases h
    | ok s1 =>
      rw [h1] at h
      rw [input_rebase old pre h1]
      exact ih h

theorem start_of_eq (o : Option State) :
    ∃ (old : List node_tp) (pre : List Line) (single : Bool),
      start_of o = rebase old pre (State.fresh single) ∧ old.length = base_of o := by
  cases o with
  | none => exact ⟨[], [], true, rfl, rfl⟩
  | some s =>
    refine ⟨s.heap, s.outfile, false, ?_, rfl⟩
    simp [start_of, reset, rebase, State.fresh, State.init, shift_ptr]

end TarjanSCC


namespace TarjanSCC

/-! ## The `finger` chain -/

theorem chain_loop_built {heap : List node_tp}
    (hf : ∀ (i : Nat) (nd : node_tp), heap[i]? = some nd →
      nd.finger = if i = 0 then none else some (i - 1)) :
    ∀ (m fuel : Nat), m ≤ heap.length → m ≤ fuel →
      chain_loop heap fuel (if m = 0 then none else some (m - 1)) = (List.range m).reverse := by
  intro m
  induction m with
  | zero =>
    intro fuel _ _
    cases fuel <;> rfl
  | succ m ih =>
    intro fuel hm hfuel
    obtain ⟨f, rfl⟩ : ∃ f, fuel = f + 1 := ⟨fuel - 1, by omega⟩
    obtain ⟨nd, hnd⟩ := get_of_lt (show m < heap.length by omega)
    have h1 : (if m + 1 = 0 then (none : node_ptr_tp) else some (m + 1 - 1)) = some m := by simp
    rw [h1]
    unfold chain_loop
    rw [hnd]
    simp only
    rw [hf m nd hnd, ih f (by omega) (by omega), List.range_succ]
    simp

theorem chain_loop_rebase (old heap : List node_tp) :
    ∀ (fuel : Nat) (p : node_ptr_tp),
      chain_loop (old ++ heap.map (shift_node old.length)) fuel (shift_ptr old.length p) =
        (chain_loop heap fuel p).map (fun i => i + old.length) := by
  intro fuel
  induction fuel with
  | zero =>
    intro p
    cases p <;> rfl
  | succ f ih =>
    intro p
    cases p with
    | none => rfl
    | some i =>
      simp only [shift_ptr_some, chain_loop, get_rebase_heap]
      cases heap[i]? with
      | none => rfl
      | some nd =>
        simp only [Option.map_some', List.map_cons, List.cons.injEq, true_and]
        exact ih nd.finger

theorem node_chain_built {st : State} (hb : Built st) :
    node_chain st = (List.range st.heap.length).reverse := by
  unfold node_chain
  rw [hb.finger_eq]
  exact chain_loop_built hb.node_finger _ _ (Nat.le_refl _) (Nat.le_refl _)

theorem node_chain_rebase (old : List node_tp) (pre : List Line) {st : State} (hb : Built st) :
    node_chain (rebase old pre st) =
      ((List.range st.heap.length).reverse).map (fun i => i + old.length) := by
  unfold node_chain
  have e : (rebase old pre st).finger = shift_ptr old.length st.finger := rfl
  have e1 : (rebase old pre st).heap = old ++ st.heap.map (shift_node old.length) := rfl
  rw [e, e1, chain_loop_rebase, hb.finger_eq]
  rw [chain_loop_built hb.node_finger _ _ (Nat.le_refl _) (by simp)]

theorem mem_node_chain_rebase (old : List node_tp) (pre : List Line) {st : State}
    (hb : Built st) (p : Nat) :
    p ∈ node_chain (rebase old pre st) ↔ ∃ i, i < st.heap.length ∧ p = i + old.length := by
  rw [node_chain_rebase old pre hb]
  simp only [List.mem_map, List.mem_reverse, List.mem_range]
  constructor
  · rintro ⟨i, hi, rfl⟩
    exact ⟨i, hi, rfl⟩
  · rintro ⟨i, hi, rfl⟩
    exact ⟨i, hi, rfl⟩

theorem get_rebase (old : List node_tp) (pre : List Line) (st : State) (i : Nat) :
    (rebase old pre st).heap[i + old.length]? = (st.heap[i]?).map (shift_node old.length) :=
  get_rebase_heap old st.heap i

theorem name_of_rebase (old : List node_tp) (pre : List Line) (st : State) (i : Nat) :
    name_of (rebase old pre st).heap (some (i + old.length)) = name_of st.heap (some i) := by
  unfold name_of load
  simp only [get_rebase]
  cases st.heap[i]? <;> rfl

theorem links_of_rebase (old : List node_tp) (pre : List Line) (st : State) (i : Nat) :
    links_of (rebase old pre st).heap (i + old.length) =
      (links_of st.heap i).map (shift_ptr old.length) := by
  unfold links_of
  simp only [get_rebase]
  cases st.heap[i]? <;> rfl

theorem adj_names_rebase (old : List node_tp) (pre : List Line) {st : State} (hb : Built st)
    (i : Nat) :
    adj_names (rebase old pre st).heap (i + old.length) = adj_names st.heap i := by
  unfold adj_names
  rw [links_of_rebase, List.map_map]
  apply List.map_congr_left
  intro w hw
  cases h : st.heap[i]? with
  | none => rw [links_of_none h] at hw; cases hw
  | some nd =>
    rw [links_of_get h] at hw
    obtain ⟨q, rfl, _⟩ := hb.link_valid i nd w h hw
    exact name_of_rebase old pre st q

theorem chain_names_rebase (old : List node_tp) (pre : List Line) {st : State}
    (hb : Built st) :
    chain_names (rebase old pre st) = (heap_names st).reverse := by
  unfold chain_names
  rw [node_chain_rebase old pre hb, List.map_map, heap_names, ← List.map_reverse]
  apply List.ext_getElem?
  intro m
  simp only [List.getElem?_map, List.getElem?_reverse, Function.comp]
  rcases Nat.lt_or_ge m st.heap.length with hm | hm
  · rw [List.getElem?_reverse (by simpa using hm), List.getElem?_reverse hm]
    simp only [List.length_range]
    have h1 : st.heap.length - 1 - m < st.heap.length := by omega
    obtain ⟨nd, hnd⟩ := get_of_lt h1
    rw [List.getElem?_range h1, hnd]
    simp only [Option.map_some', Option.some.injEq]
    show name_of (rebase old pre st).heap (some (st.heap.length - 1 - m + old.length)) = nd.name
    rw [name_of_rebase, name_of_get hnd]
  · rw [List.getElem?_eq_none (by simpa using hm), List.getElem?_eq_none (by simpa using hm)]
    rfl

end TarjanSCC


namespace TarjanSCC

/-! ## First occurrences -/

theorem mem_foldl_add_name (l : List Int) :
    ∀ (acc : List Int) (x : Int), x ∈ l.foldl add_name acc ↔ x ∈ acc ∨ x ∈ l := by
  induction l with
  | nil => intro acc x; simp
  | cons y rest ih =>
    intro acc x
    rw [List.foldl_cons, ih]
    unfold add_name
    by_cases hy : y ∈ acc
    · rw [if_pos hy]
      constructor
      · rintro (h | h)
        · exact Or.inl h
        · exact Or.inr (List.mem_cons_of_mem _ h)
      · rintro (h | h)
        · exact Or.inl h
        · rcases List.mem_cons.mp h with rfl | h1
          · exact Or.inl hy
          · exact Or.inr h1
    · rw [if_neg hy]
      simp only [List.mem_append, List.mem_singleton, List.mem_cons]
      tauto

theorem nodup_foldl_add_name (l : List Int) :
    ∀ (acc : List Int), acc.Nodup → (l.foldl add_name acc).Nodup := by
  induction l with
  | nil => intro acc h; exact h
  | cons y rest ih =>
    intro acc h
    rw [List.foldl_cons]
    apply ih
    unfold add_name
    by_cases hy : y ∈ acc
    · rw [if_pos hy]; exact h
    · rw [if_neg hy]
      exact List.Nodup.append h (List.nodup_singleton y) (by simpa using hy)

theorem mem_first_seen (l : List Int) (x : Int) : x ∈ first_seen l ↔ x ∈ l := by
  unfold first_seen
  rw [mem_foldl_add_name]
  simp

theorem nodup_first_seen (l : List Int) : (first_seen l).Nodup :=
  nodup_foldl_add_name l [] List.nodup_nil

theorem mem_targets {a b : Int} {pairs : List (Int × Int)} :
    b ∈ targets a pairs ↔ (a, b) ∈ pairs := by
  unfold targets
  simp only [List.mem_map, List.mem_filter, decide_eq_true_eq]
  constructor
  · rintro ⟨p, ⟨hp, h1⟩, h2⟩
    obtain ⟨x, y⟩ := p
    simp only at h1 h2
    subst h1 h2
    exact hp
  · intro h
    exact ⟨(a, b), ⟨h, rfl⟩, rfl⟩

/-! ## The graph `main` builds -/

theorem adj_by_name_fresh (single : Bool) (c : Int) : adj_by_name (State.fresh single) c = [] :=
  rfl

/-- The graph `inputs` builds from either start state, described by the run from an empty
heap. -/
theorem inputs_start (o : Option State) (pairs : List (Int × Int)) :
    ∃ (old : List node_tp) (pre : List Line) (sf : State),
      old.length = base_of o ∧
      inputs pairs (start_of o) = .ok (rebase old pre sf) ∧
      Built sf ∧
      heap_names sf = creation_order pairs ∧
      (∀ c, adj_by_name sf c = (first_seen (targets c pairs)).reverse) ∧
      sf.scc_number = 0 ∧ sf.scc_stack = none ∧ sf.scc_count = 0 ∧
      sf.single = (start_of o).single ∧
      (o = none → old = [] ∧ pre = []) := by
  obtain ⟨old, pre, single, h1, h2⟩ := start_of_eq o
  obtain ⟨sf, g1, g2, g3, g4, g5, g6, g7, g8, _⟩ := inputs_spec pairs (Built.fresh single)
  refine ⟨old, pre, sf, h2, ?_, g2, g3, ?_, g5, g6, g7, ?_, ?_⟩
  · rw [h1]
    exact inputs_rebase old pre pairs g1
  · intro c
    have := g4 c
    rw [adj_by_name_fresh] at this
    rw [← List.reverse_reverse (adj_by_name sf c), this]
    rfl
  · rw [g8, h1]
    rfl
  · intro ho
    subst ho
    simp only [start_of] at h1
    have e1 : (State.init).heap = (rebase old pre (State.fresh single)).heap := by rw [h1]
    have e2 : (State.init).outfile = (rebase old pre (State.fresh single)).outfile := by rw [h1]
    simp [State.init, rebase, State.fresh] at e1 e2
    exact ⟨e1, e2⟩

/-- A second call of `input` for an edge that is there changes nothing but the report. -/
theorem input_present_edge {st : State} (hb : Built st) {i j : Nat} {ni nj : node_tp}
    (hi : st.heap[i]? = some ni) (hj : st.heap[j]? = some nj) (hmem : some j ∈ ni.link) :
    input ni.name nj.name st =
      .ok (if st.single then print st (.skipped ni.name nj.name) else st) := by
  unfold input
  rw [find_or_make_present hb hi]
  simp only
  rw [find_or_make_present hb hj]
  simp only
  rw [connect_eq hb hi hj]
  unfold finish_input
  rw [links_of_get hi, if_pos hmem]

/-- One call of `input`, with the two nodes it connects. -/
theorem input_step_ptr {st : State} (hb : Built st) (a b : Int) :
    ∃ (st1 : State) (i j : Nat) (ni nj : node_tp),
      input a b st = .ok st1 ∧ Built st1 ∧
      st1.heap[i]? = some ni ∧ ni.name = a ∧ st1.heap[j]? = some nj ∧ nj.name = b ∧
      some j ∈ ni.link ∧
      (∀ k, links_of st1.heap k =
        if k = i then add_front (some j) (links_of st.heap i) else links_of st.heap k) ∧
      heap_names st1 = add_name (add_name (heap_names st) a) b ∧
      (∀ (q : Nat) (nq : node_tp), st.heap[q]? = some nq →
        name_of st1.heap (some q) = nq.name) := by
  obtain ⟨i, j, ni, nj, hi, hna, hj, hnb, heq⟩ := input_eq hb a b
  have hb2 : Built (ensure b (ensure a st)) := (hb.ensure a).ensure b
  have hl : ∀ k, links_of (finish_input a b i j (ensure b (ensure a st))).heap k =
      if k = i then add_front (some j) (links_of st.heap i) else links_of st.heap k := by
    intro k
    rw [links_of_finish_input a b j k hi, links_of_ensure, links_of_ensure, links_of_ensure,
      links_of_ensure]
  have hi1 := get_finish_input_of_get a b i j hi
  have hj1 := get_finish_input_of_get a b i j hj
  refine ⟨_, i, j, _, _, heq, hb2.finish_input a b hi hj, hi1, ?_, hj1, ?_, ?_, hl, ?_, ?_⟩
  · split <;> exact hna
  · split <;> exact hnb
  · have h1 := hl i
    rw [links_of_get hi1, if_pos rfl] at h1
    rw [h1]
    unfold add_front
    split
    · assumption
    · exact List.mem_cons_self _ _
  · rw [heap_names_finish_input, heap_names_ensure, heap_names_ensure]
  · intro q nq hq
    rw [name_of_finish_input, name_of_get (get_ensure b (get_ensure a hq))]

end TarjanSCC


namespace TarjanSCC

/-! ## Properties of the graph store -/

theorem heap_drop_rebase (old : List node_tp) (pre : List Line) (st : State) :
    ((rebase old pre st).heap.drop old.length).map (fun nd => nd.name) = heap_names st := by
  have e : (rebase old pre st).heap = old ++ st.heap.map (shift_node old.length) := rfl
  rw [e, List.drop_left, List.map_map]
  rfl

theorem range_reverse_shift (k n : Nat) :
    ((List.range n).reverse).map (fun i => i + k) = (List.range' k n).reverse := by
  rw [List.range'_eq_map_range, List.map_reverse]
  congr 1
  apply List.map_congr_left
  intro i _
  exact Nat.add_comm i k

/-- C6 (amended): the `finger` chain that `main` walks to pick roots lists the nodes in the
reverse of their creation order.  The nodes a run of `input` calls allocates carry, in
allocation order, the names in order of first occurrence in the pairs; the chain visits the
pointers from the node allocated last down to the node allocated first. -/
theorem C6_finger_chain_is_reverse_creation_order (o : Option State)
    (pairs : List (Int × Int)) :
    ∃ st, inputs pairs (start_of o) = .ok st ∧
      (st.heap.drop (base_of o)).map (fun nd => nd.name) = creation_order pairs ∧
      node_chain st = (List.range' (base_of o) (creation_order pairs).length).reverse ∧
      chain_names st = (creation_order pairs).reverse := by
  obtain ⟨old, pre, sf, h1, h2, hb, h3, -⟩ := inputs_start o pairs
  refine ⟨_, h2, ?_, ?_, ?_⟩
  · rw [← h1, heap_drop_rebase, h3]
  · rw [node_chain_rebase old pre hb, range_reverse_shift, h1, ← h3]
    simp [heap_names]
  · rw [chain_names_rebase old pre hb, h3]

/-- C6 fails as stated: for the single pair `(1, 2)` the node named `1` is created first
(it is the first node of the heap), but the chain offers the node named `2` first. -/
theorem C6_counterexample :
    ∃ st, inputs [(1, 2)] State.init = .ok st ∧
      heap_names st = [1, 2] ∧ creation_order [(1, 2)] = [1, 2] ∧
      chain_names st = [2, 1] ∧ chain_names st ≠ creation_order [(1, 2)] := by
  refine ⟨{ heap := [⟨[some 1], none, 0, 0, 1, false, none⟩,
                      ⟨[], some 0, 0, 0, 2, false, none⟩],
            scc_number := 0, scc_stack := none, scc_count := 0, finger := some 1,
            single := true, outfile := [.edge 1 2] }, ?_, ?_, ?_, ?_, ?_⟩
  · simp [inputs, input, find_or_make, exists_node, exists_loop, make_node, State.init,
      load, connect, new_link, new_link_loop, make_link, set_link, with_link, print,
      List.modify]
  · simp [heap_names]
  · simp [creation_order, first_seen, flatten_pairs, add_name]
  · simp [chain_names, node_chain, chain_loop, name_of, load]
  · simp [chain_names, node_chain, chain_loop, name_of, load, creation_order, first_seen,
      flatten_pairs, add_name]

/-! ### Names -/

theorem exists_node_on_rebase (old : List node_tp) (pre : List Line) {sf : State}
    (hb : Built sf) (n : Int) :
    (n ∈ heap_names sf →
      ∃ i, exists_node n (rebase old pre sf) = .ok (some i) ∧
        i ∈ node_chain (rebase old pre sf) ∧ name_of (rebase old pre sf).heap (some i) = n) ∧
    (n ∉ heap_names sf → exists_node n (rebase old pre sf) = .ok none) := by
  have h := exists_node_rebase old pre (exists_node_eq hb n)
  constructor
  · intro hn
    obtain ⟨i, nd, h1, h2⟩ := mem_heap_names.mp hn
    subst h2
    rw [find_below_of_get hb h1] at h
    refine ⟨i + old.length, h, ?_, ?_⟩
    · exact (mem_node_chain_rebase old pre hb _).mpr ⟨i, lt_of_get h1, rfl⟩
    · rw [name_of_rebase, name_of_get h1]
  · intro hn
    cases hfb : find_below sf.heap n sf.heap.length with
    | none =>
      rw [hfb] at h
      exact h
    | some i =>
      obtain ⟨_, nd, h1, h2⟩ := find_below_some hfb
      exact absurd (mem_heap_names.mpr ⟨i, nd, h1, h2⟩) hn

theorem input_on_rebase (old : List node_tp) (pre : List Line) {sf : State} (hb : Built sf)
    (a b : Int) :
    ∃ (sf1 : State) (i j : Nat) (ni nj : node_tp),
      input a b (rebase old pre sf) = .ok (rebase old pre sf1) ∧ Built sf1 ∧
      sf1.heap[i]? = some ni ∧ ni.name = a ∧ sf1.heap[j]? = some nj ∧ nj.name = b ∧
      some j ∈ ni.link ∧
      (∀ k, links_of sf1.heap k =
        if k = i then add_front (some j) (links_of sf.heap i) else links_of sf.heap k) ∧
      heap_names sf1 = add_name (add_name (heap_names sf) a) b ∧
      (∀ (q : Nat) (nq : node_tp), sf.heap[q]? = some nq →
        name_of sf1.heap (some q) = nq.name) := by
  obtain ⟨sf1, i, j, ni, nj, h1, h2⟩ := input_step_ptr hb a b
  exact ⟨sf1, i, j, ni, nj, input_rebase old pre h1, h2⟩

/-- C8: node names are unique in every graph `input` builds.  In the state after `main` has
read the pairs (in either pass) no two nodes of the `finger` chain carry the same name, the
names on the chain are exactly the integers that occur in the pairs, `exists` returns the
node on the chain that carries a name whenever there is one and `NULL` otherwise, and a
further call `input( a, b )` creates a node for `a` and for `b` only if the name is not yet
there (one node when `a = b`), after which names are unique again. -/
theorem C8_node_names_unique (o : Option State) (pairs : List (Int × Int)) :
    ∃ st, inputs pairs (start_of o) = .ok st ∧
      (chain_names st).Nodup ∧
      (∀ n, n ∈ chain_names st ↔ n ∈ flatten_pairs pairs) ∧
      (∀ n, n ∈ chain_names st →
        ∃ i, exists_node n st = .ok (some i) ∧ i ∈ node_chain st ∧
          name_of st.heap (some i) = n) ∧
      (∀ n, n ∉ chain_names st → exists_node n st = .ok none) ∧
      (∀ a b, ∃ st1, input a b st = .ok st1 ∧
        (chain_names st1).reverse = add_name (add_name (chain_names st).reverse a) b ∧
        (chain_names st1).Nodup) := by
  obtain ⟨old, pre, sf, h1, h2, hb, h3, -⟩ := inputs_start o pairs
  have hc := chain_names_rebase old pre hb
  have hmem : ∀ n, n ∈ chain_names (rebase old pre sf) ↔ n ∈ heap_names sf := by
    intro n
    rw [hc, List.mem_reverse]
  have hnd : (heap_names sf).Nodup := by
    rw [h3]
    exact nodup_first_seen _
  refine ⟨_, h2, ?_, ?_, ?_, ?_, ?_⟩
  · rw [hc]
    exact List.nodup_reverse.mpr hnd
  · intro n
    rw [hmem, h3]
    exact mem_first_seen _ n
  · intro n hn
    exact (exists_node_on_rebase old pre hb n).1 ((hmem n).mp hn)
  · intro n hn
    exact (exists_node_on_rebase old pre hb n).2 (fun h => hn ((hmem n).mpr h))
  · intro a b
    obtain ⟨sf1, i, j, ni, nj, g1, g2, -, -, -, -, -, -, g3, -⟩ := input_on_rebase old pre hb a b
    refine ⟨_, g1, ?_, ?_⟩
    · rw [chain_names_rebase old pre g2, hc, List.reverse_reverse, List.reverse_reverse, g3]
    · rw [chain_names_rebase old pre g2, g3]
      apply List.nodup_reverse.mpr
      exact nodup_foldl_add_name [a, b] _ hnd

/-! ### Edges -/

theorem mem_map_shift_ptr {k : Nat} {j : Nat} {l : List node_ptr_tp}
    (h : some j ∈ l.map (shift_ptr k)) : ∃ j1, j = j1 + k ∧ some j1 ∈ l := by
  obtain ⟨w, hw, hs⟩ := List.mem_map.mp h
  cases w with
  | none => cases hs
  | some j1 =>
    simp only [shift_ptr_some, Option.some.injEq] at hs
    exact ⟨j1, hs.symm, hw⟩

theorem rebase_if_print (old : List node_tp) (pre : List Line) (st : State) (l : Line) :
    rebase old pre (if st.single = true then print st l else st) =
      if (rebase old pre st).single = true then print (rebase old pre st) l
      else rebase old pre st := by
  have e : (rebase old pre st).single = st.single := rfl
  rw [e]
  split
  · rw [print_rebase]
  · rfl

theorem shift_ptr_injective (k : Nat) : Function.Injective (shift_ptr k) := by
  intro p q h
  cases p <;> cases q <;> simp [shift_ptr] at h ⊢
  exact h

theorem nodup_adj_names {st : State} (hb : Built st) (i : Nat) :
    (adj_names st.heap i).Nodup := by
  unfold adj_names
  cases h : st.heap[i]? with
  | none => rw [links_of_none h]; exact List.nodup_nil
  | some ni =>
    rw [links_of_get h]
    apply List.Nodup.map_on _ (hb.link_nodup i ni h)
    intro x hx y hy hxy
    obtain ⟨q, rfl, hq⟩ := hb.link_valid i ni x h hx
    obtain ⟨r, rfl, hr⟩ := hb.link_valid i ni y h hy
    obtain ⟨nq, hnq⟩ := get_of_lt hq
    obtain ⟨nr, hnr⟩ := get_of_lt hr
    rw [name_of_get hnq, name_of_get hnr] at hxy
    rw [hb.names_inj q r nq nr hnq hnr hxy]

/-- C7: edge insertion is idempotent.  In the state after `main` has read the pairs (in
either pass): a call of `input` for an edge that is there takes the duplicate branch, which
changes nothing but the report; after `input( a, b )` a second `input( a, b )` leaves the heap
and the chain as they are and the node named `a` has the node named `b` exactly once among its
successors; and no link list holds the same successor twice. -/
theorem C7_edge_insertion_idempotent (o : Option State) (pairs : List (Int × Int)) :
    ∃ st, inputs pairs (start_of o) = .ok st ∧
      (∀ i j, i ∈ node_chain st → some j ∈ links_of st.heap i →
        input (name_of st.heap (some i)) (name_of st.heap (some j)) st =
          .ok (if st.single then
                print st (.skipped (name_of st.heap (some i)) (name_of st.heap (some j)))
              else st)) ∧
      (∀ a b, ∃ (st1 st2 : State) (i j : Nat),
        input a b st = .ok st1 ∧ input a b st1 = .ok st2 ∧
        st2.heap = st1.heap ∧ st2.finger = st1.finger ∧
        i ∈ node_chain st1 ∧ j ∈ node_chain st1 ∧
        name_of st1.heap (some i) = a ∧ name_of st1.heap (some j) = b ∧
        some j ∈ links_of st1.heap i ∧ (links_of st1.heap i).Nodup ∧
        (adj_names st1.heap i).count b = 1) ∧
      (∀ i, i ∈ node_chain st →
        (links_of st.heap i).Nodup ∧ (adj_names st.heap i).Nodup) := by
  obtain ⟨old, pre, sf, h1, h2, hb, h3, h4, -⟩ := inputs_start o pairs
  refine ⟨_, h2, ?_, ?_, ?_⟩
  · intro i j hi hj
    obtain ⟨i1, hi1, rfl⟩ := (mem_node_chain_rebase old pre hb i).mp hi
    obtain ⟨ni, hni⟩ := get_of_lt hi1
    rw [links_of_rebase, links_of_get hni] at hj
    obtain ⟨j1, rfl, hj1⟩ := mem_map_shift_ptr hj
    obtain ⟨_, hj2, hj3⟩ := hb.link_valid i1 ni _ hni hj1
    cases hj2
    obtain ⟨nj, hnj⟩ := get_of_lt hj3
    rw [name_of_rebase, name_of_rebase, name_of_get hni, name_of_get hnj,
      ← rebase_if_print]
    exact input_rebase old pre (input_present_edge hb hni hnj hj1)
  · intro a b
    obtain ⟨sf1, i, j, ni, nj, g1, g2, g3, g4, g5, g6, g7, -, -, -⟩ :=
      input_on_rebase old pre hb a b
    have g8 := input_rebase old pre (input_present_edge g2 g3 g5 g7)
    rw [g4, g6] at g8
    refine ⟨_, _, i + old.length, j + old.length, g1, g8, ?_, ?_, ?_, ?_, ?_, ?_, ?_, ?_, ?_⟩
    · split <;> rfl
    · split <;> rfl
    · exact (mem_node_chain_rebase old pre g2 _).mpr ⟨i, lt_of_get g3, rfl⟩
    · exact (mem_node_chain_rebase old pre g2 _).mpr ⟨j, lt_of_get g5, rfl⟩
    · rw [name_of_rebase, name_of_get g3, g4]
    · rw [name_of_rebase, name_of_get g5, g6]
    · rw [links_of_rebase, links_of_get g3]
      exact List.mem_map.mpr ⟨some j, g7, rfl⟩
    · rw [links_of_rebase, links_of_get g3]
      exact (g2.link_nodup i ni g3).map (shift_ptr_injective _)
    · rw [adj_names_rebase old pre g2]
      apply List.count_eq_one_of_mem (nodup_adj_names g2 i)
      rw [← g6]
      apply (mem_adj_names_iff g2 i g5).mpr
      rw [links_of_get g3]
      exact g7
  · intro i hi
    obtain ⟨i1, hi1, rfl⟩ := (mem_node_chain_rebase old pre hb i).mp hi
    obtain ⟨ni, hni⟩ := get_of_lt hi1
    constructor
    · rw [links_of_rebase, links_of_get hni]
      exact (hb.link_nodup i1 ni hni).map (shift_ptr_injective _)
    · rw [adj_names_rebase old pre hb]
      exact nodup_adj_names hb i1

end TarjanSCC


namespace TarjanSCC

/-! ## Fields of the nodes -/

theorem num_of_get {heap : List node_tp} {i : Nat} {nd : node_tp} (h : heap[i]? = some nd) :
    num heap i = nd.number := by
  simp [num, h]

theorem low_of_get {heap : List node_tp} {i : Nat} {nd : node_tp} (h : heap[i]? = some nd) :
    low heap i = nd.lowlink := by
  simp [low, h]

theorem vis_of_get {heap : List node_tp} {i : Nat} {nd : node_tp} (h : heap[i]? = some nd) :
    vis heap i = nd.visited := by
  simp [vis, h]

theorem num_of_none {heap : List node_tp} {i : Nat} (h : heap[i]? = none) : num heap i = 0 := by
  simp [num, h]

theorem vis_of_none {heap : List node_tp} {i : Nat} (h : heap[i]? = none) :
    vis heap i = false := by
  simp [vis, h]

theorem lt_of_num_ne {heap : List node_tp} {i : Nat} (h : num heap i ≠ 0) :
    i < heap.length := by
  rcases Nat.lt_or_ge i heap.length with h1 | h1
  · exact h1
  · exact absurd (num_of_none (List.getElem?_eq_none h1)) h

theorem lt_of_vis {heap : List node_tp} {i : Nat} (h : vis heap i = true) :
    i < heap.length := by
  rcases Nat.lt_or_ge i heap.length with h1 | h1
  · exact h1
  · rw [vis_of_none (List.getElem?_eq_none h1)] at h
    cases h

theorem get_modify_self {heap : List node_tp} (f : node_tp → node_tp) {i : Nat} {nd : node_tp}
    (h : heap[i]? = some nd) : (heap.modify f i)[i]? = some (f nd) := by
  rw [List.getElem?_modify_eq, h]
  rfl

theorem get_modify_other {heap : List node_tp} (f : node_tp → node_tp) {i j : Nat}
    (h : i ≠ j) : (heap.modify f i)[j]? = heap[j]? :=
  List.getElem?_modify_ne f heap h

theorem static_modify (heap : List node_tp) (f : node_tp → node_tp) (i : Nat)
    (hf : ∀ nd, static_of (f nd) = static_of nd) :
    (heap.modify f i).map static_of = heap.map static_of := by
  apply List.ext_getElem?
  intro j
  rw [List.getElem?_map, List.getElem?_map, List.getElem?_modify]
  cases heap[j]? with
  | none => rfl
  | some nd =>
    by_cases h : i = j
    · simp [h, hf]
    · simp [h]

theorem num_modify (heap : List node_tp) (f : node_tp → node_tp) (i j : Nat)
    (hf : ∀ nd, (f nd).number = nd.number) : num (heap.modify f i) j = num heap j := by
  unfold num
  rw [List.getElem?_modify]
  cases heap[j]? with
  | none => rfl
  | some nd =>
    by_cases h : i = j
    · simp [h, hf]
    · simp [h]

theorem low_modify (heap : List node_tp) (f : node_tp → node_tp) (i j : Nat)
    (hf : ∀ nd, (f nd).lowlink = nd.lowlink) : low (heap.modify f i) j = low heap j := by
  unfold low
  rw [List.getElem?_modify]
  cases heap[j]? with
  | none => rfl
  | some nd =>
    by_cases h : i = j
    · simp [h, hf]
    · simp [h]

theorem vis_modify (heap : List node_tp) (f : node_tp → node_tp) (i j : Nat)
    (hf : ∀ nd, (f nd).visited = nd.visited) : vis (heap.modify f i) j = vis heap j := by
  unfold vis
  rw [List.getElem?_modify]
  cases heap[j]? with
  | none => rfl
  | some nd =>
    by_cases h : i = j
    · simp [h, hf]
    · simp [h]

theorem num_modify_other (heap : List node_tp) (f : node_tp → node_tp) {i j : Nat}
    (h : i ≠ j) : num (heap.modify f i) j = num heap j := by
  unfold num
  rw [get_modify_other f h]

theorem low_modify_other (heap : List node_tp) (f : node_tp → node_tp) {i j : Nat}
    (h : i ≠ j) : low (heap.modify f i) j = low heap j := by
  unfold low
  rw [get_modify_other f h]

theorem vis_modify_other (heap : List node_tp) (f : node_tp → node_tp) {i j : Nat}
    (h : i ≠ j) : vis (heap.modify f i) j = vis heap j := by
  unfold vis
  rw [get_modify_other f h]

theorem links_of_static {heap heap1 : List node_tp}
    (h : heap1.map static_of = heap.map static_of) (i : Nat) :
    links_of heap1 i = links_of heap i := by
  have h1 := congrArg (fun l => l[i]?) h
  simp only [List.getElem?_map] at h1
  cases h2 : heap1[i]? with
  | none =>
    cases h3 : heap[i]? with
    | none => rw [links_of_none h2, links_of_none h3]
    | some nd => rw [h2, h3] at h1; cases h1
  | some nd1 =>
    cases h3 : heap[i]? with
    | none => rw [h2, h3] at h1; cases h1
    | some nd =>
      rw [h2, h3] at h1
      simp only [Option.map_some', Option.some.injEq, static_of, Prod.mk.injEq] at h1
      rw [links_of_get h2, links_of_get h3]
      exact h1.1

theorem name_of_static {heap heap1 : List node_tp}
    (h : heap1.map static_of = heap.map static_of) (p : node_ptr_tp) :
    name_of heap1 p = name_of heap p := by
  cases p with
  | none => rfl
  | some i =>
    have h1 := congrArg (fun l => l[i]?) h
    simp only [List.getElem?_map] at h1
    cases h2 : heap1[i]? with
    | none =>
      cases h3 : heap[i]? with
      | none => simp [name_of, load, h2, h3]
      | some nd => rw [h2, h3] at h1; cases h1
    | some nd1 =>
      cases h3 : heap[i]? with
      | none => rw [h2, h3] at h1; cases h1
      | some nd =>
        rw [h2, h3] at h1
        simp only [Option.map_some', Option.some.injEq, static_of, Prod.mk.injEq] at h1
        rw [name_of_get h2, name_of_get h3]
        exact h1.2.2

theorem length_static {heap heap1 : List node_tp}
    (h : heap1.map static_of = heap.map static_of) : heap1.length = heap.length := by
  have := congrArg List.length h
  simpa using this

theorem finger_static {heap heap1 : List node_tp}
    (h : heap1.map static_of = heap.map static_of) {i : Nat} {nd nd1 : node_tp}
    (h0 : heap[i]? = some nd) (h1 : heap1[i]? = some nd1) : nd1.finger = nd.finger := by
  have h2 := congrArg (fun l => l[i]?) h
  simp only [List.getElem?_map, h0, h1, Option.map_some', Option.some.injEq, static_of,
    Prod.mk.injEq] at h2
  exact h2.2.1

end TarjanSCC


namespace TarjanSCC

/-! ## The stack as a list -/

theorem stack_rep_of_same {heap heap1 : List node_tp} :
    ∀ (L : List Nat) (p : node_ptr_tp), stack_rep heap p L →
      (∀ i ∈ L, ∀ nd, heap[i]? = some nd →
        ∃ nd1, heap1[i]? = some nd1 ∧ nd1.scc_pred = nd.scc_pred) →
      stack_rep heap1 p L := by
  intro L
  induction L with
  | nil => intro p h _; exact h
  | cons i rest ih =>
    intro p h hs
    obtain ⟨hp, nd, hnd, hrest⟩ := h
    obtain ⟨nd1, hnd1, hpred⟩ := hs i (List.mem_cons_self _ _) nd hnd
    refine ⟨hp, nd1, hnd1, ?_⟩
    rw [hpred]
    exact ih _ hrest (fun j hj => hs j (List.mem_cons_of_mem _ hj))

theorem stack_rep_valid {heap : List node_tp} :
    ∀ (L : List Nat) (p : node_ptr_tp), stack_rep heap p L → ∀ i ∈ L, i < heap.length := by
  intro L
  induction L with
  | nil => intro p _ i hi; cases hi
  | cons j rest ih =>
    intro p h i hi
    obtain ⟨_, nd, hnd, hrest⟩ := h
    rcases List.mem_cons.mp hi with rfl | h1
    · exact lt_of_get hnd
    · exact ih _ hrest i h1

theorem stack_rep_modify {heap : List node_tp} (f : node_tp → node_tp) (k : Nat)
    (hf : ∀ nd, (f nd).scc_pred = nd.scc_pred) {L : List Nat} {p : node_ptr_tp}
    (h : stack_rep heap p L) : stack_rep (heap.modify f k) p L := by
  apply stack_rep_of_same L p h
  intro i _ nd hnd
  by_cases hk : k = i
  · subst hk
    exact ⟨f nd, get_modify_self f hnd, hf nd⟩
  · exact ⟨nd, by rw [get_modify_other f hk]; exact hnd, rfl⟩

theorem stack_rep_modify_notin {heap : List node_tp} (f : node_tp → node_tp) {k : Nat}
    {L : List Nat} {p : node_ptr_tp} (hk : k ∉ L) (h : stack_rep heap p L) :
    stack_rep (heap.modify f k) p L := by
  apply stack_rep_of_same L p h
  intro i hi nd hnd
  have hne : k ≠ i := fun e => hk (e ▸ hi)
  exact ⟨nd, by rw [get_modify_other f hne]; exact hnd, rfl⟩

theorem length_le_of_nodup_lt {L : List Nat} {n : Nat} (hnd : L.Nodup)
    (hlt : ∀ i ∈ L, i < n) : L.length ≤ n := by
  have h1 : L.toFinset ⊆ Finset.range n := by
    intro i hi
    exact Finset.mem_range.mpr (hlt i (List.mem_toFinset.mp hi))
  have h2 := Finset.card_le_card h1
  rw [List.toFinset_card_of_nodup hnd, Finset.card_range] at h2
  exact h2

/-! ## Clearing `visited` -/

theorem get_unvisit (S : List Nat) :
    ∀ (heap : List node_tp) (i : Nat),
      (unvisit S heap)[i]? =
        (heap[i]?).map (fun nd => if i ∈ S then clear_visited nd else nd) := by
  induction S with
  | nil =>
    intro heap i
    simp [unvisit]
  | cons t rest ih =>
    intro heap i
    have e : unvisit (t :: rest) heap =
        unvisit rest (heap.modify clear_visited t) := rfl
    rw [e, ih, List.getElem?_modify]
    cases heap[i]? with
    | none => rfl
    | some nd =>
      by_cases h1 : t = i
      · subst h1
        by_cases h2 : t ∈ rest <;> simp [h2, clear_visited]
      · have h3 : i ≠ t := fun e => h1 e.symm
        by_cases h2 : i ∈ rest <;> simp [h1, h2, h3]

theorem num_unvisit (S : List Nat) (heap : List node_tp) (i : Nat) :
    num (unvisit S heap) i = num heap i := by
  unfold num
  rw [get_unvisit]
  cases heap[i]? with
  | none => rfl
  | some nd => simp only [Option.map_some']; split <;> rfl

theorem low_unvisit (S : List Nat) (heap : List node_tp) (i : Nat) :
    low (unvisit S heap) i = low heap i := by
  unfold low
  rw [get_unvisit]
  cases heap[i]? with
  | none => rfl
  | some nd => simp only [Option.map_some']; split <;> rfl

theorem vis_unvisit (S : List Nat) (heap : List node_tp) (i : Nat) :
    vis (unvisit S heap) i = if i ∈ S then false else vis heap i := by
  unfold vis
  rw [get_unvisit]
  cases heap[i]? with
  | none => simp
  | some nd => simp only [Option.map_some']; split <;> rfl

theorem static_unvisit (S : List Nat) (heap : List node_tp) :
    (unvisit S heap).map static_of = heap.map static_of := by
  apply List.ext_getElem?
  intro i
  rw [List.getElem?_map, List.getElem?_map, get_unvisit]
  cases heap[i]? with
  | none => rfl
  | some nd => simp only [Option.map_some']; split <;> rfl

theorem get_unvisit_notin {S : List Nat} (heap : List node_tp) {i : Nat} (h : i ∉ S) :
    (unvisit S heap)[i]? = heap[i]? := by
  rw [get_unvisit]
  cases heap[i]? with
  | none => rfl
  | some nd => simp [h]

theorem stack_rep_unvisit (S : List Nat) {heap : List node_tp} {L : List Nat}
    {p : node_ptr_tp} (h : stack_rep heap p L) : stack_rep (unvisit S heap) p L := by
  apply stack_rep_of_same L p h
  intro i _ nd hnd
  rw [get_unvisit, hnd]
  simp only [Option.map_some']
  split
  · exact ⟨_, rfl, rfl⟩
  · exact ⟨_, rfl, rfl⟩

theorem unvisit_cons (t : Nat) (S : List Nat) (heap : List node_tp) :
    unvisit (t :: S) heap =
      unvisit S (heap.modify clear_visited t) := rfl

end TarjanSCC


namespace TarjanSCC

/-! ## The primitives on explicit states -/

theorem push_eq {heap : List node_tp} {v : Nat} {nd : node_tp} (h : heap[v]? = some nd)
    (hv : nd.visited = false) (K : Nat) (stk : node_ptr_tp) (c : Nat) (fg : node_ptr_tp)
    (b : Bool) (o : List Line) :
    push (some v) ⟨heap, K, stk, c, fg, b, o⟩ =
      .ok ⟨heap.modify (mark_pushed stk) v, K, some v, c, fg, b, o⟩ := by
  simp [push, h, hv]

theorem pop_eq {heap : List node_tp} {t : Nat} {nd : node_tp} (h : heap[t]? = some nd)
    (K : Nat) (c : Nat) (fg : node_ptr_tp) (b : Bool) (o : List Line) :
    pop ⟨heap, K, some t, c, fg, b, o⟩ =
      .ok ⟨heap.modify clear_visited t, K, nd.scc_pred, c, fg, b, o⟩ := by
  simp [pop, h]

theorem pop_loop_succ (v : node_ptr_tp) (fuel : Nat) (st : State) :
    pop_loop v (fuel + 1) st =
      match st.scc_stack with
      | none => .ok st
      | some t =>
        match load st.heap (some t) with
        | .error e => .error e
        | .ok top =>
          match load st.heap v with
          | .error e => .error e
          | .ok vn =>
            if vn.number ≤ top.number then
              match pop (print st (.member top.name)) with
              | .error e => .error e
              | .ok st1 => pop_loop v fuel st1
            else .ok st := by
  rw [pop_loop]
  try rfl

theorem pop_loop_spec (v nv : Nat) :
    ∀ (S : List Nat) (heap : List node_tp) (stk : node_ptr_tp) (L : List Nat) (fuel : Nat),
      stack_rep heap stk (S ++ L) → (S ++ L).Nodup → num heap v = nv → v < heap.length →
      (∀ x ∈ S, nv ≤ num heap x) → (∀ x ∈ L, num heap x < nv) → S.length ≤ fuel →
      ∃ stk1, stack_rep heap stk1 L ∧
        ∀ (K c : Nat) (fg : node_ptr_tp) (b : Bool) (o : List Line),
          pop_loop (some v) fuel ⟨heap, K, stk, c, fg, b, o⟩ =
            .ok ⟨unvisit S heap, K, stk1, c, fg, b,
              o ++ S.map (fun i => Line.member (name_of heap (some i)))⟩ := by
  intro S
  induction S with
  | nil =>
    intro heap stk L fuel hrep _ hnv hv _ hL _
    refine ⟨stk, hrep, ?_⟩
    intro K c fg b o
    obtain ⟨vn, hvn⟩ := get_of_lt hv
    cases L with
    | nil =>
      have : stk = none := hrep
      subst this
      cases fuel <;> simp [pop_loop, unvisit]
    | cons t rest =>
      obtain ⟨hp, nd, hnd, _⟩ := hrep
      subst hp
      have h1 : num heap t < nv := hL t (List.mem_cons_self _ _)
      rw [num_of_get hnd] at h1
      rw [num_of_get hvn] at hnv
      have h2 : ¬ vn.number ≤ nd.number := by omega
      cases fuel <;> simp [pop_loop, load_of_get hnd, load_of_get hvn, h2, unvisit]
  | cons t S1 ih =>
    intro heap stk L fuel hrep hnodup hnv hv hS hL hfuel
    obtain ⟨hp, nd, hnd, hrest⟩ := hrep
    subst hp
    obtain ⟨vn, hvn⟩ := get_of_lt hv
    obtain ⟨f, rfl⟩ : ∃ f, fuel = f + 1 := ⟨fuel - 1, by simp at hfuel; omega⟩
    have hnd2 : (S1 ++ L).Nodup := (List.nodup_cons.mp hnodup).2
    have htn : t ∉ S1 ++ L := (List.nodup_cons.mp hnodup).1
    have hrep1 : stack_rep (heap.modify clear_visited t) nd.scc_pred (S1 ++ L) :=
      stack_rep_modify clear_visited t (fun _ => rfl) hrest
    have hnum1 : ∀ i, num (heap.modify clear_visited t) i = num heap i :=
      fun i => num_modify heap clear_visited t i (fun _ => rfl)
    obtain ⟨stk1, hstk1, hrun⟩ := ih (heap.modify clear_visited t)
      nd.scc_pred L f hrep1 hnd2 (by rw [hnum1]; exact hnv) (by simpa using hv)
      (fun x hx => by rw [hnum1]; exact hS x (List.mem_cons_of_mem _ hx))
      (fun x hx => by rw [hnum1]; exact hL x hx) (by simp at hfuel; omega)
    refine ⟨stk1, ?_, ?_⟩
    · apply stack_rep_of_same L stk1 hstk1
      intro i hi nd1 hnd1
      have hne : t ≠ i := fun e => htn (e ▸ List.mem_append_right _ hi)
      rw [get_modify_other _ hne] at hnd1
      exact ⟨nd1, hnd1, rfl⟩
    · intro K c fg b o
      have h1 : nv ≤ num heap t := hS t (List.mem_cons_self _ _)
      rw [num_of_get hnd] at h1
      rw [num_of_get hvn] at hnv
      have h2 : vn.number ≤ nd.number := by omega
      have hname : ∀ i, name_of (heap.modify clear_visited t) (some i) =
          name_of heap (some i) :=
        fun i => name_of_static (static_modify heap clear_visited t (fun _ => rfl)) (some i)
      rw [pop_loop_succ]
      simp only [load_of_get hnd, load_of_get hvn, h2, if_true, print]
      rw [pop_eq hnd]
      simp only
      rw [hrun, unvisit_cons]
      simp only [List.map_cons, hname, name_of_get hnd, List.append_assoc, List.singleton_append]

end TarjanSCC


namespace TarjanSCC

/-! ## Counting the numbered nodes -/

theorem countP_modify_same (p : node_tp → Bool) (f : node_tp → node_tp)
    (hf : ∀ nd, p (f nd) = p nd) :
    ∀ (heap : List node_tp) (i : Nat), (heap.modify f i).countP p = heap.countP p := by
  intro heap
  induction heap with
  | nil => intro i; simp
  | cons a rest ih =>
    intro i
    cases i with
    | zero => simp [List.countP_cons, hf]
    | succ k => simp [List.countP_cons, ih k]

theorem countP_modify_flip (p : node_tp → Bool) (f : node_tp → node_tp) :
    ∀ (heap : List node_tp) (i : Nat) (nd : node_tp), heap[i]? = some nd → p nd = false →
      p (f nd) = true → (heap.modify f i).countP p = heap.countP p + 1 := by
  intro heap
  induction heap with
  | nil => intro i nd h; simp at h
  | cons a rest ih =>
    intro i nd h h1 h2
    cases i with
    | zero =>
      simp only [List.getElem?_cons_zero, Option.some.injEq] at h
      subst h
      simp [List.countP_cons, h1, h2]
    | succ k =>
      simp only [List.getElem?_cons_succ] at h
      simp only [List.modify_succ_cons, List.countP_cons]
      rw [ih k nd h h1 h2]
      omega

theorem countP_lt_of_unnumbered {heap : List node_tp} {i : Nat} (hi : i < heap.length)
    (h : num heap i = 0) :
    heap.countP is_numbered < heap.length := by
  obtain ⟨nd, hnd⟩ := get_of_lt hi
  rw [num_of_get hnd] at h
  have hmem : nd ∈ heap := List.getElem?_mem hnd
  have h2 : heap.countP is_numbered ≤ heap.length :=
    List.countP_le_length _
  rcases Nat.lt_or_eq_of_le h2 with h1 | h3
  · exact h1
  · have h4 := List.countP_eq_length.mp h3 nd hmem
    simp [is_numbered, h] at h4

/-! ## Keeping the invariant -/

theorem sorted_congr {heap heap1 : List node_tp} {L : List Nat}
    (hn : ∀ i, num heap1 i = num heap i)
    (h : L.Pairwise (fun a b => num heap b < num heap a)) :
    L.Pairwise (fun a b => num heap1 b < num heap1 a) := by
  apply List.Pairwise.imp _ h
  intro a b hab
  rw [hn, hn]
  exact hab

theorem links_of_eq_of_static {adj : Nat → List node_ptr_tp} {heap heap1 : List node_tp}
    (hs : heap1.map static_of = heap.map static_of) (h : ∀ i, links_of heap i = adj i) :
    ∀ i, links_of heap1 i = adj i := by
  intro i
  rw [links_of_static hs, h]

theorem Inv.nodup {adj : Nat → List node_ptr_tp} {heap : List node_tp} {K : Nat}
    {stk : node_ptr_tp} {L : List Nat} (h : Inv adj heap K stk L) : L.Nodup := by
  apply List.Pairwise.imp _ h.sorted
  intro a b hab e
  subst e
  exact Nat.lt_irrefl _ hab

theorem Inv.of_same {adj : Nat → List node_ptr_tp} {heap heap1 : List node_tp} {K : Nat}
    {stk : node_ptr_tp} {L : List Nat} (h : Inv adj heap K stk L)
    (hs : heap1.map static_of = heap.map static_of)
    (hn : ∀ i, num heap1 i = num heap i) (hv : ∀ i, vis heap1 i = vis heap i)
    (hst : stack_rep heap1 stk L)
    (hc : heap1.countP is_numbered = K)
    (hl : ∀ i, low heap1 i ≤ num heap1 i) (hp : ∀ i, num heap1 i ≠ 0 → low heap1 i ≠ 0) :
    Inv adj heap1 K stk L := by
  constructor
  · exact links_of_eq_of_static hs h.links_eq
  · intro i w hw
    rw [length_static hs]
    exact h.link_valid i w hw
  · exact hst
  · intro i
    rw [hv]
    exact h.vis_iff i
  · exact sorted_congr hn h.sorted
  · intro i
    rw [hn]
    exact h.num_le i
  · exact hl
  · exact hp
  · intro i j
    rw [hn, hn]
    exact h.num_inj i j
  · intro i hi
    rw [hn]
    exact h.stack_num i hi
  · exact hc
  · intro i j
    rw [hn, hn, hv, hv]
    exact h.done_closed i j

theorem low_set_low (heap : List node_tp) (v x i : Nat) :
    low (heap.modify (with_lowlink x) v) i =
      if i = v ∧ v < heap.length then x else low heap i := by
  by_cases hiv : i = v
  · subst hiv
    rcases Nat.lt_or_ge i heap.length with hlt | hge
    · obtain ⟨nd, hnd⟩ := get_of_lt hlt
      rw [low_of_get (get_modify_self (with_lowlink x) hnd), if_pos ⟨rfl, hlt⟩]
      rfl
    · rw [if_neg (fun hc => absurd hc.2 (by omega)), List.modify_eq_self hge]
  · rw [if_neg (fun hc => hiv hc.1)]
    exact low_modify_other heap (with_lowlink x) (fun e => hiv e.symm)

theorem Inv.set_low {adj : Nat → List node_ptr_tp} {heap : List node_tp} {K : Nat}
    {stk : node_ptr_tp} {L : List Nat} (h : Inv adj heap K stk L) (v x : Nat)
    (hx : x ≤ num heap v) (hpos : num heap v ≠ 0 → x ≠ 0) :
    Inv adj (heap.modify (with_lowlink x) v) K stk L := by
  have hn : ∀ i, num (heap.modify (with_lowlink x) v) i = num heap i :=
    fun i => num_modify heap (with_lowlink x) v i (fun _ => rfl)
  apply h.of_same (static_modify heap (with_lowlink x) v (fun _ => rfl)) hn
    (fun i => vis_modify heap (with_lowlink x) v i (fun _ => rfl))
    (stack_rep_modify (with_lowlink x) v (fun _ => rfl) h.stack)
  · rw [countP_modify_same is_numbered (with_lowlink x) (fun _ => rfl)]
    exact h.count
  · intro i
    rw [hn, low_set_low]
    split
    · rename_i hc
      rw [hc.1]
      exact hx
    · exact h.low_le i
  · intro i hi
    rw [hn] at hi
    rw [low_set_low]
    split
    · rename_i hc
      rw [hc.1] at hi
      exact hpos hi
    · exact h.low_pos i hi

end TarjanSCC


namespace TarjanSCC

/-! ## Entering a node -/

theorem enter_heap (heap : List node_tp) (K : Nat) (stk : node_ptr_tp) (v : Nat) :
    ((heap.modify (with_lowlink (K + 1)) v).modify (with_number (K + 1)) v).modify
      (mark_pushed stk) v = heap.modify (enter K stk) v := by
  rw [List.modify_modify_eq, List.modify_modify_eq]
  rfl

theorem num_enter {heap : List node_tp} {v : Nat} {nd : node_tp} (h : heap[v]? = some nd)
    (K : Nat) (stk : node_ptr_tp) (i : Nat) :
    num (heap.modify (enter K stk) v) i = if i = v then K + 1 else num heap i := by
  by_cases hiv : i = v
  · subst hiv
    rw [if_pos rfl, num_of_get (get_modify_self (enter K stk) h)]
    rfl
  · rw [if_neg hiv]
    exact num_modify_other heap (enter K stk) (fun e => hiv e.symm)

theorem low_enter {heap : List node_tp} {v : Nat} {nd : node_tp} (h : heap[v]? = some nd)
    (K : Nat) (stk : node_ptr_tp) (i : Nat) :
    low (heap.modify (enter K stk) v) i = if i = v then K + 1 else low heap i := by
  by_cases hiv : i = v
  · subst hiv
    rw [if_pos rfl, low_of_get (get_modify_self (enter K stk) h)]
    rfl
  · rw [if_neg hiv]
    exact low_modify_other heap (enter K stk) (fun e => hiv e.symm)

theorem vis_enter {heap : List node_tp} {v : Nat} {nd : node_tp} (h : heap[v]? = some nd)
    (K : Nat) (stk : node_ptr_tp) (i : Nat) :
    vis (heap.modify (enter K stk) v) i = if i = v then true else vis heap i := by
  by_cases hiv : i = v
  · subst hiv
    rw [if_pos rfl, vis_of_get (get_modify_self (enter K stk) h)]
    rfl
  · rw [if_neg hiv]
    exact vis_modify_other heap (enter K stk) (fun e => hiv e.symm)

theorem static_enter (heap : List node_tp) (K : Nat) (stk : node_ptr_tp) (v : Nat) :
    (heap.modify (enter K stk) v).map static_of = heap.map static_of :=
  static_modify heap (enter K stk) v (fun _ => rfl)

theorem Inv.entered {adj : Nat → List node_ptr_tp} {heap : List node_tp} {K : Nat}
    {stk : node_ptr_tp} {L : List Nat} (h : Inv adj heap K stk L) {v : Nat} {nd : node_tp}
    (hv : heap[v]? = some nd) (hn : nd.number = 0) :
    Inv adj (heap.modify (enter K stk) v) (K + 1) (some v) (v :: L) := by
  have hnv : num heap v = 0 := by rw [num_of_get hv]; exact hn
  have hvL : v ∉ L := fun hm => h.stack_num v hm hnv
  constructor
  · exact links_of_eq_of_static (static_enter heap K stk v) h.links_eq
  · intro i w hw
    rw [List.length_modify]
    exact h.link_valid i w hw
  · refine ⟨rfl, enter K stk nd, get_modify_self (enter K stk) hv, ?_⟩
    exact stack_rep_modify_notin (enter K stk) hvL h.stack
  · intro i
    rw [vis_enter hv]
    by_cases hiv : i = v
    · simp [hiv]
    · rw [if_neg hiv, h.vis_iff]
      simp [hiv]
  · rw [List.pairwise_cons]
    constructor
    · intro b hb
      have hbv : b ≠ v := fun e => hvL (e ▸ hb)
      rw [num_enter hv, num_enter hv, if_pos rfl, if_neg hbv]
      exact Nat.lt_succ_of_le (h.num_le b)
    · apply List.Pairwise.imp_of_mem _ h.sorted
      intro a b ha hb hab
      have hav : a ≠ v := fun e => hvL (e ▸ ha)
      have hbv : b ≠ v := fun e => hvL (e ▸ hb)
      rw [num_enter hv, num_enter hv, if_neg hav, if_neg hbv]
      exact hab
  · intro i
    rw [num_enter hv]
    split
    · exact Nat.le_refl _
    · exact Nat.le_succ_of_le (h.num_le i)
  · intro i
    rw [num_enter hv, low_enter hv]
    split
    · exact Nat.le_refl _
    · exact h.low_le i
  · intro i
    rw [num_enter hv, low_enter hv]
    split
    · intro _; exact Nat.succ_ne_zero _
    · exact h.low_pos i
  · intro i j
    rw [num_enter hv, num_enter hv]
    have hi := h.num_le i
    have hj := h.num_le j
    by_cases hiv : i = v <;> by_cases hjv : j = v
    · intro _ _; rw [hiv, hjv]
    · rw [if_pos hiv, if_neg hjv]; intro e; omega
    · rw [if_neg hiv, if_pos hjv]; intro e; omega
    · rw [if_neg hiv, if_neg hjv]; exact h.num_inj i j
  · intro i hi
    rw [num_enter hv]
    split
    · exact Nat.succ_ne_zero _
    · rename_i hiv
      rcases List.mem_cons.mp hi with e | hm
      · exact absurd e hiv
      · exact h.stack_num i hm
  · rw [countP_modify_flip is_numbered (enter K stk) heap v nd hv (by simp [is_numbered, hn])
      (by simp [is_numbered, enter, mark_pushed, with_number]), h.count]
  · intro i j
    rw [num_enter hv, num_enter hv, vis_enter hv, vis_enter hv]
    by_cases hiv : i = v
    · rw [if_pos hiv, if_pos hiv]
      intro _ hc
      cases hc
    · rw [if_neg hiv, if_neg hiv]
      intro h1 h2 h3
      have h4 := h.done_closed i j h1 h2 h3
      have hjv : j ≠ v := fun e => h4.1 (e ▸ hnv)
      rw [if_neg hjv, if_neg hjv]
      exact h4

/-! ## Popping a segment -/

theorem Inv.popped {adj : Nat → List node_ptr_tp} {heap : List node_tp} {K : Nat}
    {stk stk1 : node_ptr_tp} {S L : List Nat} (h : Inv adj heap K stk (S ++ L))
    (hst : stack_rep heap stk1 L)
    (hcl : ∀ y, y ∈ S → ∀ z, edge adj y z → num heap z ≠ 0 ∧ z ∉ L) :
    Inv adj (unvisit S heap) K stk1 L := by
  have hnd := h.nodup
  have hdisj : ∀ x, x ∈ S → x ∉ L := fun x hx hl =>
    (List.nodup_append.mp hnd).2.2 hx hl
  constructor
  · exact links_of_eq_of_static (static_unvisit S heap) h.links_eq
  · intro i w hw
    rw [length_static (static_unvisit S heap)]
    exact h.link_valid i w hw
  · exact stack_rep_unvisit S hst
  · intro i
    rw [vis_unvisit]
    by_cases hi : i ∈ S
    · rw [if_pos hi]
      constructor
      · intro hc; cases hc
      · intro hl; exact absurd hl (hdisj i hi)
    · rw [if_neg hi, h.vis_iff]
      simp [hi]
  · apply sorted_congr (num_unvisit S heap)
    exact (List.pairwise_append.mp h.sorted).2.1
  · intro i
    rw [num_unvisit]
    exact h.num_le i
  · intro i
    rw [num_unvisit, low_unvisit]
    exact h.low_le i
  · intro i
    rw [num_unvisit, low_unvisit]
    exact h.low_pos i
  · intro i j
    rw [num_unvisit, num_unvisit]
    exact h.num_inj i j
  · intro i hi
    rw [num_unvisit]
    exact h.stack_num i (List.mem_append_right _ hi)
  · have e : (unvisit S heap).countP is_numbered = heap.countP is_numbered := by
      clear hcl hdisj hnd hst h
      induction S generalizing heap with
      | nil => rfl
      | cons t rest ih =>
        rw [unvisit_cons, ih, countP_modify_same is_numbered clear_visited (fun _ => rfl)]
    rw [e]
    exact h.count
  · intro i j
    rw [num_unvisit, num_unvisit, vis_unvisit, vis_unvisit]
    intro h1 h2 h3
    by_cases hi : i ∈ S
    · obtain ⟨h4, h5⟩ := hcl i hi j h3
      refine ⟨h4, ?_⟩
      by_cases hj : j ∈ S
      · rw [if_pos hj]
      · rw [if_neg hj]
        cases hvj : vis heap j with
        | false => rfl
        | true =>
          have := (h.vis_iff j).mp hvj
          rcases List.mem_append.mp this with h6 | h6
          · exact absurd h6 hj
          · exact absurd h6 h5
    · rw [if_neg hi] at h2
      obtain ⟨h4, h5⟩ := h.done_closed i j h1 h2 h3
      refine ⟨h4, ?_⟩
      split
      · rfl
      · exact h5

end TarjanSCC


namespace TarjanSCC

/-! ## Later states of a pass -/

theorem Later.refl (heap : List node_tp) (K : Nat) : Later heap K heap K :=
  ⟨rfl, fun _ _ => rfl, fun _ h1 h2 => absurd h1 h2, Nat.le_refl _⟩

theorem Later.num_old {heap0 heap : List node_tp} {K0 K : Nat} (h : Later heap0 K0 heap K)
    {i : Nat} (hi : num heap0 i ≠ 0) : num heap i = num heap0 i := by
  unfold num
  rw [h.old_same i hi]

theorem Later.low_old {heap0 heap : List node_tp} {K0 K : Nat} (h : Later heap0 K0 heap K)
    {i : Nat} (hi : num heap0 i ≠ 0) : low heap i = low heap0 i := by
  unfold low
  rw [h.old_same i hi]

theorem Later.vis_old {heap0 heap : List node_tp} {K0 K : Nat} (h : Later heap0 K0 heap K)
    {i : Nat} (hi : num heap0 i ≠ 0) : vis heap i = vis heap0 i := by
  unfold vis
  rw [h.old_same i hi]

theorem Later.num_ne {heap0 heap : List node_tp} {K0 K : Nat} (h : Later heap0 K0 heap K)
    {i : Nat} (hi : num heap0 i ≠ 0) : num heap i ≠ 0 := by
  rw [h.num_old hi]
  exact hi

theorem Later.length {heap0 heap : List node_tp} {K0 K : Nat} (h : Later heap0 K0 heap K) :
    heap.length = heap0.length :=
  length_static h.frame

theorem Later.name {heap0 heap : List node_tp} {K0 K : Nat} (h : Later heap0 K0 heap K) :
    (fun i => name_of heap (some i)) = (fun i => name_of heap0 (some i)) := by
  funext i
  exact name_of_static h.frame (some i)

theorem Later.trans {heap0 heap1 heap2 : List node_tp} {K0 K1 K2 : Nat}
    (h1 : Later heap0 K0 heap1 K1) (h2 : Later heap1 K1 heap2 K2) :
    Later heap0 K0 heap2 K2 := by
  constructor
  · rw [h2.frame, h1.frame]
  · intro i hi
    rw [h2.old_same i (h1.num_ne hi), h1.old_same i hi]
  · intro i hi0 hi2
    by_cases hi1 : num heap1 i = 0
    · exact Nat.lt_of_le_of_lt h1.K_le (h2.new_gt i hi1 hi2)
    · rw [h2.num_old hi1]
      exact h1.new_gt i hi0 hi1
  · exact Nat.le_trans h1.K_le h2.K_le

theorem Later.of_enter {heap : List node_tp} {v : Nat} {nd : node_tp} (hv : heap[v]? = some nd)
    (hn : nd.number = 0) (K : Nat) (stk : node_ptr_tp) :
    Later heap K (heap.modify (enter K stk) v) (K + 1) := by
  have hnv : num heap v = 0 := by rw [num_of_get hv]; exact hn
  constructor
  · exact static_enter heap K stk v
  · intro i hi
    have hiv : v ≠ i := fun e => hi (e ▸ hnv)
    exact get_modify_other (enter K stk) hiv
  · intro i _ hi
    rw [num_enter hv] at hi ⊢
    split
    · exact Nat.lt_succ_self _
    · rename_i hiv
      rw [if_neg hiv] at hi
      contradiction
  · exact Nat.le_succ _

theorem Later.of_set_low {heap0 heap : List node_tp} {K0 K : Nat} (h : Later heap0 K0 heap K)
    {v : Nat} (hv : num heap0 v = 0) (x : Nat) :
    Later heap0 K0 (heap.modify (with_lowlink x) v) K := by
  constructor
  · rw [static_modify heap (with_lowlink x) v (fun _ => rfl), h.frame]
  · intro i hi
    have hiv : v ≠ i := fun e => hi (e ▸ hv)
    rw [get_modify_other (with_lowlink x) hiv]
    exact h.old_same i hi
  · intro i hi0 hi
    rw [num_modify heap (with_lowlink x) v i (fun _ => rfl)] at hi ⊢
    exact h.new_gt i hi0 hi
  · exact h.K_le

theorem Later.of_unvisit {heap0 heap : List node_tp} {K0 K : Nat} (h : Later heap0 K0 heap K)
    {S : List Nat} (hS : ∀ x, x ∈ S → num heap0 x = 0) :
    Later heap0 K0 (unvisit S heap) K := by
  constructor
  · rw [static_unvisit, h.frame]
  · intro i hi
    have hiS : i ∉ S := fun hm => hi (hS i hm)
    rw [get_unvisit_notin heap hiS]
    exact h.old_same i hi
  · intro i hi0 hi
    rw [num_unvisit] at hi ⊢
    exact h.new_gt i hi0 hi
  · exact h.K_le

/-! ## The report of a sequence of components -/

theorem reported_append (b : Bool) (G1 G2 : List (List Nat)) :
    reported b (G1 ++ G2) = reported b G1 ++ reported b G2 := by
  unfold reported
  cases b <;> simp

theorem render_append (name : Nat → Int) (b : Bool) :
    ∀ (G1 G2 : List (List Nat)) (c : Nat),
      render name b c (G1 ++ G2) =
        render name b c G1 ++ render name b (c + (reported b G1).length) G2 := by
  intro G1
  induction G1 with
  | nil => intro G2 c; simp [render, reported]
  | cons g rest ih =>
    intro G2 c
    simp only [List.cons_append, render, List.append_eq]
    by_cases hg : b = false ∧ g.length = 1
    · rw [if_pos hg, if_pos hg, ih]
      have e : (reported b (g :: rest)).length = (reported b rest).length := by
        obtain ⟨hb, hl⟩ := hg
        subst hb
        simp [reported, List.filter_cons, hl]
      rw [e]
    · rw [if_neg hg, if_neg hg, ih]
      have e : (reported b (g :: rest)).length = (reported b rest).length + 1 := by
        cases b with
        | true => simp [reported]
        | false =>
          have hl : g.length ≠ 1 := fun hl => hg ⟨rfl, hl⟩
          simp [reported, List.filter_cons, hl]
      rw [e]
      have e2 : c + ((reported b rest).length + 1) = c + 1 + (reported b rest).length := by
        omega
      rw [e2]
      simp only [List.append_assoc, List.cons_append]

theorem render_nil (name : Nat → Int) (b : Bool) (c : Nat) : render name b c [] = [] := rfl

theorem reported_nil (b : Bool) : reported b [] = [] := by
  cases b <;> rfl

end TarjanSCC


namespace TarjanSCC

/-! ## Extracted components -/

theorem root_mem {g : List Nat} {r : Nat} (h : root_of g = some r) : r ∈ g :=
  List.mem_of_getLast?_eq_some h

theorem root_of_concat (seg : List Nat) (v : Nat) : root_of (seg ++ [v]) = some v :=
  List.getLast?_concat seg

theorem Groups.nil_of {adj : Nat → List node_ptr_tp} {heap0 heap : List node_tp}
    (h : ∀ i, num heap0 i = 0 → num heap i ≠ 0 → vis heap i = true) :
    Groups adj heap0 heap [] := by
  constructor
  · simp
  · intro i
    constructor
    · intro hi; simp at hi
    · rintro ⟨h1, h2, h3⟩
      rw [h i h1 h2] at h3
      cases h3
  · intro g hg; cases hg
  · intro g hg; cases hg
  · exact List.Pairwise.nil

theorem Groups.same_fields {adj : Nat → List node_ptr_tp} {heap0 heap heap1 : List node_tp}
    {G : List (List Nat)} (h : Groups adj heap0 heap G)
    (hn : ∀ i, num heap1 i = num heap i) (hv : ∀ i, vis heap1 i = vis heap i) :
    Groups adj heap0 heap1 G := by
  constructor
  · exact h.nodup
  · intro i
    rw [hn, hv]
    exact h.mem i
  · exact h.scc
  · intro g hg
    obtain ⟨r, h1, h2⟩ := h.root g hg
    refine ⟨r, h1, ?_⟩
    intro x hx
    rw [hn, hn]
    exact h2 x hx
  · apply List.Pairwise.imp _ h.order
    intro g1 g2 h12 r1 r2 h1 h2
    rcases h12 r1 r2 h1 h2 with h3 | h3
    · left
      intro x hx
      rw [hn, hn]
      exact h3 x hx
    · right
      rw [hn, hn]
      exact h3

theorem Groups.mem_group {adj : Nat → List node_ptr_tp} {heap0 heap : List node_tp}
    {G : List (List Nat)} (h : Groups adj heap0 heap G) {g : List Nat} (hg : g ∈ G) {x : Nat}
    (hx : x ∈ g) : num heap0 x = 0 ∧ num heap x ≠ 0 ∧ vis heap x = false :=
  (h.mem x).mp (List.mem_flatten.mpr ⟨g, hg, hx⟩)

theorem Groups.append {adj : Nat → List node_ptr_tp} {heap0 heap heap1 : List node_tp}
    {K0 K K1 : Nat} {G Gw : List (List Nat)} (hg : Groups adj heap0 heap G)
    (hl0 : Later heap0 K0 heap K) (hnl : ∀ i, num heap i ≤ K)
    (hgw : Groups adj heap heap1 Gw) (hl : Later heap K heap1 K1) :
    Groups adj heap0 heap1 (G ++ Gw) := by
  have keepn : ∀ g, g ∈ G → ∀ x, x ∈ g → num heap1 x = num heap x := fun g hgm x hx =>
    hl.num_old (hg.mem_group hgm hx).2.1
  constructor
  · rw [List.flatten_append]
    apply List.Nodup.append hg.nodup hgw.nodup
    intro i h1 h2
    exact ((hg.mem i).mp h1).2.1 ((hgw.mem i).mp h2).1
  · intro i
    rw [List.flatten_append, List.mem_append, hg.mem, hgw.mem]
    constructor
    · rintro (⟨h1, h2, h3⟩ | ⟨h1, h2, h3⟩)
      · exact ⟨h1, hl.num_ne h2, by rw [hl.vis_old h2]; exact h3⟩
      · refine ⟨?_, h2, h3⟩
        by_contra hc
        exact hl0.num_ne hc h1
    · rintro ⟨h1, h2, h3⟩
      by_cases hm : num heap i = 0
      · exact Or.inr ⟨hm, h2, h3⟩
      · left
        refine ⟨h1, hm, ?_⟩
        rw [← hl.vis_old hm]
        exact h3
  · intro g hgm
    rcases List.mem_append.mp hgm with h1 | h1
    · exact hg.scc g h1
    · exact hgw.scc g h1
  · intro g hgm
    rcases List.mem_append.mp hgm with h1 | h1
    · obtain ⟨r, hr, hmin⟩ := hg.root g h1
      refine ⟨r, hr, ?_⟩
      intro x hx
      rw [keepn g h1 x hx, keepn g h1 r (root_mem hr)]
      exact hmin x hx
    · exact hgw.root g h1
  · rw [List.pairwise_append]
    refine ⟨?_, hgw.order, ?_⟩
    · apply List.Pairwise.imp_of_mem _ hg.order
      intro g1 g2 hm1 hm2 h12 r1 r2 hr1 hr2
      rcases h12 r1 r2 hr1 hr2 with h3 | h3
      · left
        intro x hx
        rw [keepn g1 hm1 x hx, keepn g2 hm2 r2 (root_mem hr2)]
        exact h3 x hx
      · right
        rw [keepn g1 hm1 r1 (root_mem hr1), keepn g2 hm2 r2 (root_mem hr2)]
        exact h3
    · intro g1 hm1 g2 hm2 r1 r2 _ hr2
      left
      intro x hx
      rw [keepn g1 hm1 x hx]
      have h4 := hgw.mem_group hm2 (root_mem hr2)
      exact Nat.lt_of_le_of_lt (hnl x) (hl.new_gt r2 h4.1 h4.2.1)

theorem Groups.snoc {adj : Nat → List node_ptr_tp} {heap0 heap : List node_tp}
    {G : List (List Nat)} (hg : Groups adj heap0 heap G) {g : List Nat} {v : Nat}
    (hroot : root_of g = some v) (hnd : g.Nodup)
    (hfresh : ∀ x, x ∈ g → num heap0 x = 0) (hnum : ∀ x, x ∈ g → num heap x ≠ 0)
    (hvis : ∀ x, x ∈ g → vis heap x = true)
    (hscc : ∀ x, x ∈ g → ∀ z, z ∈ g ↔ (Reach adj x z ∧ Reach adj z x))
    (hmin : ∀ x, x ∈ g → num heap v ≤ num heap x)
    (hlow : ∀ i, num heap0 i = 0 → num heap i ≠ 0 → vis heap i = false →
      num heap v < num heap i) :
    Groups adj heap0 (unvisit g heap) (G ++ [g]) := by
  constructor
  · rw [List.flatten_append, List.flatten_singleton]
    apply List.Nodup.append hg.nodup hnd
    intro i h1 h2
    have h3 := ((hg.mem i).mp h1).2.2
    rw [hvis i h2] at h3
    cases h3
  · intro i
    rw [List.flatten_append, List.flatten_singleton, List.mem_append, hg.mem, num_unvisit,
      vis_unvisit]
    constructor
    · rintro (⟨h1, h2, h3⟩ | h1)
      · refine ⟨h1, h2, ?_⟩
        split
        · rfl
        · exact h3
      · exact ⟨hfresh i h1, hnum i h1, by rw [if_pos h1]⟩
    · rintro ⟨h1, h2, h3⟩
      by_cases hm : i ∈ g
      · exact Or.inr hm
      · rw [if_neg hm] at h3
        exact Or.inl ⟨h1, h2, h3⟩
  · intro g1 hgm
    rcases List.mem_append.mp hgm with h1 | h1
    · exact hg.scc g1 h1
    · rw [List.mem_singleton] at h1
      subst h1
      exact hscc
  · intro g1 hgm
    rcases List.mem_append.mp hgm with h1 | h1
    · obtain ⟨r, hr, hm⟩ := hg.root g1 h1
      refine ⟨r, hr, ?_⟩
      intro x hx
      rw [num_unvisit, num_unvisit]
      exact hm x hx
    · rw [List.mem_singleton] at h1
      subst h1
      refine ⟨v, hroot, ?_⟩
      intro x hx
      rw [num_unvisit, num_unvisit]
      exact hmin x hx
  · rw [List.pairwise_append]
    refine ⟨?_, List.pairwise_singleton _ _, ?_⟩
    · apply List.Pairwise.imp _ hg.order
      intro g1 g2 h12 r1 r2 hr1 hr2
      rcases h12 r1 r2 hr1 hr2 with h3 | h3
      · left
        intro x hx
        rw [num_unvisit, num_unvisit]
        exact h3 x hx
      · right
        rw [num_unvisit, num_unvisit]
        exact h3
    · intro g1 hm1 g2 hm2 r1 r2 hr1 hr2
      rw [List.mem_singleton] at hm2
      subst hm2
      rw [hroot] at hr2
      cases hr2
      right
      rw [num_unvisit, num_unvisit]
      have h4 := hg.mem_group hm1 (root_mem hr1)
      exact hlow r1 h4.1 h4.2.1 h4.2.2

end TarjanSCC


namespace TarjanSCC

/-! ## Inside the loop of `scc` -/

theorem Mid.v_lt {adj : Nat → List node_ptr_tp} {heap0 heap : List node_tp} {K0 K : Nat}
    {L seg : List Nat} {v : Nat} {stk : node_ptr_tp} {G : List (List Nat)}
    {links : List node_ptr_tp} (h : Mid adj heap0 K0 L v heap K stk seg G links) :
    v < heap.length :=
  lt_of_num_ne (by rw [h.num_v]; exact Nat.succ_ne_zero _)

theorem Mid.K_lt {adj : Nat → List node_ptr_tp} {heap0 heap : List node_tp} {K0 K : Nat}
    {L seg : List Nat} {v : Nat} {stk : node_ptr_tp} {G : List (List Nat)}
    {links : List node_ptr_tp} (h : Mid adj heap0 K0 L v heap K stk seg G links) :
    K0 < K := by
  have := h.inv.num_le v
  rw [h.num_v] at this
  exact this

theorem Mid.seg_gt {adj : Nat → List node_ptr_tp} {heap0 heap : List node_tp} {K0 K : Nat}
    {L seg : List Nat} {v : Nat} {stk : node_ptr_tp} {G : List (List Nat)}
    {links : List node_ptr_tp} (h : Mid adj heap0 K0 L v heap K stk seg G links) {x : Nat}
    (hx : x ∈ seg) : num heap v < num heap x := by
  have h1 := (List.pairwise_append.mp h.inv.sorted).2.2
  exact h1 x hx v (List.mem_cons_self _ _)

theorem Mid.L_lt {adj : Nat → List node_ptr_tp} {heap0 heap : List node_tp} {K0 K : Nat}
    {L seg : List Nat} {v : Nat} {stk : node_ptr_tp} {G : List (List Nat)}
    {links : List node_ptr_tp} (h : Mid adj heap0 K0 L v heap K stk seg G links) {x : Nat}
    (hx : x ∈ L) : num heap x < num heap v := by
  have h1 := (List.pairwise_append.mp h.inv.sorted).2.1
  exact (List.pairwise_cons.mp h1).1 x hx

theorem Mid.L_num {adj : Nat → List node_ptr_tp} {heap0 heap : List node_tp} {K0 K : Nat}
    {L seg : List Nat} {v : Nat} {stk : node_ptr_tp} {G : List (List Nat)}
    {links : List node_ptr_tp} (h : Mid adj heap0 K0 L v heap K stk seg G links) {x : Nat}
    (hx : x ∈ L) : num heap x ≠ 0 :=
  h.inv.stack_num x (List.mem_append_right _ (List.mem_cons_of_mem _ hx))

theorem Segment.of_le {adj : Nat → List node_ptr_tp} {heap0 heap heap1 : List node_tp}
    {L seg : List Nat} {v : Nat} (h : Segment adj heap0 heap L v seg)
    (hn : ∀ i, num heap1 i = num heap i) (hl : low heap1 v ≤ low heap v) :
    Segment adj heap0 heap1 L v seg := by
  constructor
  · exact h.fresh
  · exact h.reach
  · intro y hy z hz
    rw [hn]
    exact h.closed y hy z hz
  · intro y hy z hz he
    rw [hn]
    exact Nat.le_trans hl (h.edges y hy z hz he)

theorem Segment.nil (adj : Nat → List node_ptr_tp) (heap0 heap : List node_tp) (L : List Nat)
    (v : Nat) : Segment adj heap0 heap L v [] := by
  constructor <;> (intro x hx; cases hx)

/-- Lowering the `lowlink` of `v` to a value that is the number of a node of the old stack
reached from `v` keeps the state of the loop. -/
theorem Mid.lower {adj : Nat → List node_ptr_tp} {heap0 heap : List node_tp}
    {K0 K : Nat} {L seg : List Nat} {v : Nat} {stk : node_ptr_tp} {G : List (List Nat)}
    {links : List node_ptr_tp} (h : Mid adj heap0 K0 L v heap K stk seg G links) (x : Nat)
    (hx1 : x ≤ low heap v) (hx0 : x ≠ 0)
    (hach : x = low heap v ∨ ∃ y, y ∈ L ∧ num heap y = x ∧ Reach adj v y) :
    Mid adj heap0 K0 L v (heap.modify (with_lowlink x) v) K stk seg G links := by
  have hn : ∀ i, num (heap.modify (with_lowlink x) v) i = num heap i :=
    fun i => num_modify heap (with_lowlink x) v i (fun _ => rfl)
  have hvs : ∀ i, vis (heap.modify (with_lowlink x) v) i = vis heap i :=
    fun i => vis_modify heap (with_lowlink x) v i (fun _ => rfl)
  have hlv : low (heap.modify (with_lowlink x) v) v = x := by
    rw [low_set_low, if_pos ⟨rfl, h.v_lt⟩]
  constructor
  · exact h.inv.set_low v x (Nat.le_trans hx1 (h.inv.low_le v)) (fun _ => hx0)
  · exact h.later.of_set_low h.fresh_v x
  · exact h.fresh_v
  · exact h.pre
  · rw [hn]; exact h.num_v
  · rw [hlv, hn]
    rcases hach with h1 | ⟨y, hy, h1, h2⟩
    · rcases h.low_v with h3 | ⟨y, hy, h3, h4⟩
      · exact Or.inl (h1.trans h3)
      · exact Or.inr ⟨y, hy, by rw [hn, h3]; exact h1.symm, h4⟩
    · exact Or.inr ⟨y, hy, by rw [hn]; exact h1, h2⟩
  · intro u hu
    obtain ⟨j, hj, h2, h3⟩ := h.proc u hu
    refine ⟨j, hj, by rw [hn]; exact h2, ?_⟩
    intro hjL
    rw [hlv, hn]
    exact Nat.le_trans hx1 (h3 hjL)
  · apply h.segment.of_le hn
    rw [hlv]
    exact hx1
  · exact h.groups.same_fields hn hvs

/-- A successor that has a number, and whose number is not below the `lowlink` of `v` if it
is on the old stack, is dealt with. -/
theorem Mid.add_link {adj : Nat → List node_ptr_tp} {heap0 heap : List node_tp}
    {K0 K : Nat} {L seg : List Nat} {v : Nat} {stk : node_ptr_tp} {G : List (List Nat)}
    {links : List node_ptr_tp} (h : Mid adj heap0 K0 L v heap K stk seg G links) {w : Nat}
    (hw : num heap w ≠ 0) (hwl : w ∈ L → low heap v ≤ num heap w) :
    Mid adj heap0 K0 L v heap K stk seg G (links ++ [some w]) := by
  constructor
  · exact h.inv
  · exact h.later
  · exact h.fresh_v
  · exact h.pre
  · exact h.num_v
  · exact h.low_v
  · intro u hu
    rcases List.mem_append.mp hu with h1 | h1
    · exact h.proc u h1
    · rw [List.mem_singleton] at h1
      exact ⟨w, h1, hw, hwl⟩
  · exact h.segment
  · exact h.groups

/-- The loop step for a successor that already has a number. -/
theorem Mid.step_numbered {adj : Nat → List node_ptr_tp} {heap0 heap : List node_tp}
    {K0 K : Nat} {L seg : List Nat} {v : Nat} {stk : node_ptr_tp} {G : List (List Nat)}
    {links : List node_ptr_tp} (h : Mid adj heap0 K0 L v heap K stk seg G links) {w : Nat}
    (hw : num heap w ≠ 0) (he : edge adj v w) :
    Mid adj heap0 K0 L v
      (if num heap w < num heap v ∧ vis heap w = true then
        heap.modify (with_lowlink (min (low heap v) (num heap w))) v else heap)
      K stk seg G (links ++ [some w]) := by
  by_cases hc : num heap w < num heap v ∧ vis heap w = true
  · rw [if_pos hc]
    obtain ⟨hlt, hvis⟩ := hc
    have hwL : w ∈ L := by
      have h1 := (h.inv.vis_iff w).mp hvis
      rcases List.mem_append.mp h1 with h2 | h2
      · have := h.seg_gt h2; omega
      · rcases List.mem_cons.mp h2 with h3 | h3
        · rw [h3] at hlt; omega
        · exact h3
    have hv0 : num heap v ≠ 0 := by rw [h.num_v]; exact Nat.succ_ne_zero _
    have hl0 := h.inv.low_pos v hv0
    have h1 : Mid adj heap0 K0 L v
        (heap.modify (with_lowlink (min (low heap v) (num heap w))) v) K stk seg G links := by
      apply h.lower _ (Nat.min_le_left _ _)
      · intro hmin
        rcases Nat.min_eq_zero_iff.mp hmin with h1 | h1
        · exact hl0 h1
        · exact hw h1
      · by_cases hcmp : low heap v ≤ num heap w
        · exact Or.inl (Nat.min_eq_left hcmp)
        · right
          exact ⟨w, hwL, (Nat.min_eq_right (by omega)).symm,
            Relation.ReflTransGen.single he⟩
    have hnw : num (heap.modify (with_lowlink (min (low heap v) (num heap w))) v) w =
        num heap w := num_modify heap (with_lowlink _) v w (fun _ => rfl)
    apply h1.add_link
    · rw [hnw]
      exact hw
    · intro _
      rw [low_set_low, if_pos ⟨rfl, h.v_lt⟩, hnw]
      exact Nat.min_le_right _ _
  · rw [if_neg hc]
    apply h.add_link hw
    intro hwL
    exfalso
    apply hc
    refine ⟨h.L_lt hwL, ?_⟩
    exact (h.inv.vis_iff w).mpr (List.mem_append_right _ (List.mem_cons_of_mem _ hwL))

end TarjanSCC


namespace TarjanSCC

theorem Mid.reach_back {adj : Nat → List node_ptr_tp} {heap0 heap : List node_tp}
    {K0 K : Nat} {L seg : List Nat} {v : Nat} {stk : node_ptr_tp} {G : List (List Nat)}
    {links : List node_ptr_tp} (h : Mid adj heap0 K0 L v heap K stk seg G links) {y : Nat}
    (hy : y ∈ seg ++ v :: L) : Reach adj y v := by
  rcases List.mem_append.mp hy with h1 | h1
  · exact (h.segment.reach y h1).2
  · rcases List.mem_cons.mp h1 with h2 | h2
    · rw [h2]
      exact Relation.ReflTransGen.refl
    · exact h.pre y h2

/-- The loop step for a successor without a number: the state after the recursive call and
the update of the `lowlink` of `v`. -/
theorem Mid.step_child {adj : Nat → List node_ptr_tp} {heap0 heap heap1 : List node_tp}
    {K0 K K1 : Nat} {L seg segw : List Nat} {v w : Nat} {stk stk1 : node_ptr_tp}
    {G Gw : List (List Nat)} {links : List node_ptr_tp}
    (h : Mid adj heap0 K0 L v heap K stk seg G links)
    (hw : num heap w = 0) (he : edge adj v w)
    (hp : Post adj heap K (seg ++ v :: L) w heap1 K1 stk1 segw Gw) :
    Mid adj heap0 K0 L v
      (heap1.modify (with_lowlink (min (low heap1 v) (low heap1 w))) v) K1 stk1
      (segw ++ seg) (G ++ Gw) (links ++ [some w]) := by
  have hv0 : num heap v ≠ 0 := by rw [h.num_v]; exact Nat.succ_ne_zero _
  have hnv1 : num heap1 v = num heap v := hp.later.num_old hv0
  have hlv1 : low heap1 v = low heap v := hp.later.low_old hv0
  have hw1 : num heap1 w = K + 1 := hp.num_v
  have hK : num heap v ≤ K := h.inv.num_le v
  have hlow1 : low heap1 v ≤ num heap1 v := hp.inv.low_le v
  have hv1lt : v < heap1.length := lt_of_num_ne (by rw [hnv1]; exact hv0)
  have hl0v : low heap1 v ≠ 0 := hp.inv.low_pos v (by rw [hnv1]; exact hv0)
  have hl0w : low heap1 w ≠ 0 := hp.inv.low_pos w (by rw [hw1]; exact Nat.succ_ne_zero _)
  have hnL : ∀ y, y ∈ L → num heap1 y = num heap y := fun y hy => hp.later.num_old (h.L_num hy)
  obtain ⟨x, hxdef⟩ : ∃ x, x = min (low heap1 v) (low heap1 w) := ⟨_, rfl⟩
  rw [← hxdef]
  have hx1 : x ≤ low heap1 v := by rw [hxdef]; exact Nat.min_le_left _ _
  have hx2 : x ≤ low heap1 w := by rw [hxdef]; exact Nat.min_le_right _ _
  have hx0 : x ≠ 0 := by
    rw [hxdef]
    intro hmin
    rcases Nat.min_eq_zero_iff.mp hmin with h1 | h1
    · exact hl0v h1
    · exact hl0w h1
  have hn2 : ∀ i, num (heap1.modify (with_lowlink x) v) i = num heap1 i :=
    fun i => num_modify heap1 (with_lowlink x) v i (fun _ => rfl)
  have hvs2 : ∀ i, vis (heap1.modify (with_lowlink x) v) i = vis heap1 i :=
    fun i => vis_modify heap1 (with_lowlink x) v i (fun _ => rfl)
  have hlv2 : low (heap1.modify (with_lowlink x) v) v = x := by
    rw [low_set_low, if_pos ⟨rfl, hv1lt⟩]
  have hinv1 : Inv adj heap1 K1 stk1 ((segw ++ seg) ++ v :: L) := by
    rw [List.append_assoc]
    exact hp.inv
  have hwL : w ∉ L := fun hm => h.L_num hm hw
  constructor
  · exact hinv1.set_low v x (Nat.le_trans hx1 hlow1) (fun _ => hx0)
  · exact (h.later.trans hp.later).of_set_low h.fresh_v x
  · exact h.fresh_v
  · exact h.pre
  · rw [hn2, hnv1]
    exact h.num_v
  · rw [hlv2, hn2, hnv1]
    by_cases hcmp : low heap1 v ≤ low heap1 w
    · have hxv : x = low heap v := by
        rw [hxdef, Nat.min_eq_left hcmp, hlv1]
      rcases h.low_v with h3 | ⟨y, hy, h3, h4⟩
      · exact Or.inl (hxv.trans h3)
      · exact Or.inr ⟨y, hy, by rw [hn2, hnL y hy, h3]; exact hxv.symm, h4⟩
    · have hxw : x = low heap1 w := by
        rw [hxdef, Nat.min_eq_right (by omega)]
      right
      rcases hp.low_v with h3 | ⟨y, hy, h3, h4⟩
      · omega
      · rcases List.mem_append.mp hy with h5 | h5
        · have h6 := h.seg_gt h5
          have h7 : num heap1 y = num heap y :=
            hp.later.num_old (by omega)
          omega
        · rcases List.mem_cons.mp h5 with h6 | h6
          · rw [h6] at h3
            omega
          · refine ⟨y, h6, ?_, ?_⟩
            · rw [hn2, h3]
              exact hxw.symm
            · exact Relation.ReflTransGen.head he h4
  · intro u hu
    rcases List.mem_append.mp hu with h1 | h1
    · obtain ⟨j, hj, h2, h3⟩ := h.proc u h1
      refine ⟨j, hj, by rw [hn2]; exact hp.later.num_ne h2, ?_⟩
      intro hjL
      rw [hlv2, hn2, hnL j hjL]
      have := h3 hjL
      omega
    · rw [List.mem_singleton] at h1
      refine ⟨w, h1, by rw [hn2, hw1]; exact Nat.succ_ne_zero _, ?_⟩
      intro hc
      exact absurd hc hwL
  · constructor
    · intro y hy
      rcases List.mem_append.mp hy with h1 | h1
      · have h2 := hp.segment.fresh y h1
        by_contra hc
        exact h.later.num_ne hc h2
      · exact h.segment.fresh y h1
    · intro y hy
      rcases List.mem_append.mp hy with h1 | h1
      · obtain ⟨h2, h3⟩ := hp.segment.reach y h1
        refine ⟨Relation.ReflTransGen.head he h2, ?_⟩
        have hwv : Reach adj w v := by
          rcases hp.seg_cases with ⟨_, h4⟩ | ⟨h4, _⟩
          · rw [h4] at h1
            cases h1
          · rcases hp.low_v with h5 | ⟨y1, hy1, _, h6⟩
            · omega
            · exact Relation.ReflTransGen.trans h6 (h.reach_back hy1)
        exact Relation.ReflTransGen.trans h3 hwv
      · exact h.segment.reach y h1
    · intro y hy z hz
      rw [hn2]
      rcases List.mem_append.mp hy with h1 | h1
      · exact hp.segment.closed y h1 z hz
      · exact hp.later.num_ne (h.segment.closed y h1 z hz)
    · intro y hy z hz hyz
      rw [hlv2, hn2]
      rcases List.mem_append.mp hy with h1 | h1
      · have := hp.segment.edges y h1 z
          (List.mem_append_right _ (List.mem_cons_of_mem _ hz)) hyz
        omega
      · have := h.segment.edges y h1 z hz hyz
        rw [hnL z hz]
        omega
  · exact (h.groups.append h.later h.inv.num_le hp.groups hp.later).same_fields hn2 hvs2

end TarjanSCC


namespace TarjanSCC

/-! ## Entering and leaving a call -/

theorem Mid.entry {adj : Nat → List node_ptr_tp} {heap : List node_tp} {K : Nat}
    {stk : node_ptr_tp} {L : List Nat} (h : Inv adj heap K stk L) {v : Nat} {nd : node_tp}
    (hv : heap[v]? = some nd) (hn : nd.number = 0) (hpre : ∀ x, x ∈ L → Reach adj x v) :
    Mid adj heap K L v (heap.modify (enter K stk) v) (K + 1) (some v) [] [] [] := by
  constructor
  · exact h.entered hv hn
  · exact Later.of_enter hv hn K stk
  · rw [num_of_get hv]; exact hn
  · exact hpre
  · rw [num_enter hv, if_pos rfl]
  · left
    rw [num_enter hv, low_enter hv, if_pos rfl, if_pos rfl]
  · intro w hw
    cases hw
  · exact Segment.nil adj heap _ L v
  · apply Groups.nil_of
    intro i h1 h2
    rw [num_enter hv] at h2
    rw [vis_enter hv]
    by_cases hiv : i = v
    · rw [if_pos hiv]
    · rw [if_neg hiv] at h2
      contradiction

theorem Mid.closed_v {adj : Nat → List node_ptr_tp} {heap0 heap : List node_tp}
    {K0 K : Nat} {L seg : List Nat} {v : Nat} {stk : node_ptr_tp} {G : List (List Nat)}
    {links : List node_ptr_tp} (h : Mid adj heap0 K0 L v heap K stk seg G links)
    (hall : ∀ w, w ∈ adj v → w ∈ links) {z : Nat} (hz : edge adj v z) :
    num heap z ≠ 0 ∧ (z ∈ L → low heap v ≤ num heap z) := by
  obtain ⟨j, hj, h1, h2⟩ := h.proc (some z) (hall _ hz)
  cases hj
  exact ⟨h1, h2⟩

/-- After the loop, a node whose `lowlink` is below its number stays on the stack. -/
theorem Mid.finish_keep {adj : Nat → List node_ptr_tp} {heap0 heap : List node_tp}
    {K0 K : Nat} {L seg : List Nat} {v : Nat} {stk : node_ptr_tp} {G : List (List Nat)}
    {links : List node_ptr_tp} (h : Mid adj heap0 K0 L v heap K stk seg G links)
    (hall : ∀ w, w ∈ adj v → w ∈ links) (hlow : low heap v ≠ num heap v) :
    Post adj heap0 K0 L v heap K stk (seg ++ [v]) G := by
  have hlt : low heap v < num heap v := Nat.lt_of_le_of_ne (h.inv.low_le v) hlow
  constructor
  · rw [List.append_assoc]
    exact h.inv
  · exact h.later
  · exact h.num_v
  · exact h.low_v
  · exact Or.inr ⟨hlt, seg, rfl⟩
  · constructor
    · intro y hy
      rcases List.mem_append.mp hy with h1 | h1
      · exact h.segment.fresh y h1
      · rw [List.mem_singleton] at h1
        rw [h1]
        exact h.fresh_v
    · intro y hy
      rcases List.mem_append.mp hy with h1 | h1
      · exact h.segment.reach y h1
      · rw [List.mem_singleton] at h1
        rw [h1]
        exact ⟨Relation.ReflTransGen.refl, Relation.ReflTransGen.refl⟩
    · intro y hy z hz
      rcases List.mem_append.mp hy with h1 | h1
      · exact h.segment.closed y h1 z hz
      · rw [List.mem_singleton] at h1
        rw [h1] at hz
        exact (h.closed_v hall hz).1
    · intro y hy z hz hyz
      rcases List.mem_append.mp hy with h1 | h1
      · exact h.segment.edges y h1 z hz hyz
      · rw [List.mem_singleton] at h1
        rw [h1] at hyz
        exact (h.closed_v hall hyz).2 hz
  · exact h.groups

theorem reach_done {adj : Nat → List node_ptr_tp} {heap : List node_tp} {K : Nat}
    {stk : node_ptr_tp} {L : List Nat} (h : Inv adj heap K stk L) {y z : Nat}
    (hr : Reach adj y z) (hy : num heap y ≠ 0 ∧ vis heap y = false) :
    num heap z ≠ 0 ∧ vis heap z = false := by
  induction hr with
  | refl => exact hy
  | tail _ hbc ih => exact h.done_closed _ _ ih.1 ih.2 hbc

/-- After the loop, a node whose `lowlink` equals its number closes a component: the part of
the stack from the top down to the node. -/
theorem Mid.finish_pop {adj : Nat → List node_ptr_tp} {heap0 heap : List node_tp}
    {K0 K : Nat} {L seg : List Nat} {v : Nat} {stk stk1 : node_ptr_tp} {G : List (List Nat)}
    {links : List node_ptr_tp} (h : Mid adj heap0 K0 L v heap K stk seg G links)
    (hall : ∀ w, w ∈ adj v → w ∈ links) (hlow : low heap v = num heap v)
    (hst : stack_rep heap stk1 L) :
    Post adj heap0 K0 L v (unvisit (seg ++ [v]) heap) K stk1 [] (G ++ [seg ++ [v]]) := by
  have hinv : Inv adj heap K stk ((seg ++ [v]) ++ L) := by
    rw [List.append_assoc]
    exact h.inv
  have hv0 : num heap v ≠ 0 := by rw [h.num_v]; exact Nat.succ_ne_zero _
  have hcl : ∀ y, y ∈ seg ++ [v] → ∀ z, edge adj y z → num heap z ≠ 0 ∧ z ∉ L := by
    intro y hy z hz
    rcases List.mem_append.mp hy with h1 | h1
    · refine ⟨h.segment.closed y h1 z hz, ?_⟩
      intro hzL
      have h2 := h.segment.edges y h1 z hzL hz
      have h3 := h.L_lt hzL
      omega
    · rw [List.mem_singleton] at h1
      rw [h1] at hz
      obtain ⟨h2, h3⟩ := h.closed_v hall hz
      refine ⟨h2, ?_⟩
      intro hzL
      have h4 := h3 hzL
      have h5 := h.L_lt hzL
      omega
  have hfresh : ∀ x, x ∈ seg ++ [v] → num heap0 x = 0 := by
    intro x hx
    rcases List.mem_append.mp hx with h1 | h1
    · exact h.segment.fresh x h1
    · rw [List.mem_singleton] at h1
      rw [h1]
      exact h.fresh_v
  have hvisg : ∀ x, x ∈ seg ++ [v] → vis heap x = true := fun x hx =>
    (hinv.vis_iff x).mpr (List.mem_append_left _ hx)
  have hstep : ∀ y, y ∈ seg ++ [v] → ∀ z, edge adj y z →
      z ∈ seg ++ [v] ∨ (num heap z ≠ 0 ∧ vis heap z = false) := by
    intro y hy z hz
    obtain ⟨h1, h2⟩ := hcl y hy z hz
    cases hvz : vis heap z with
    | false => exact Or.inr ⟨h1, rfl⟩
    | true =>
      left
      rcases List.mem_append.mp ((hinv.vis_iff z).mp hvz) with h3 | h3
      · exact h3
      · exact absurd h3 h2
  have hreach : ∀ x z, Reach adj x z → x ∈ seg ++ [v] →
      z ∈ seg ++ [v] ∨ (num heap z ≠ 0 ∧ vis heap z = false) := by
    intro x z hr hx
    induction hr with
    | refl => exact Or.inl hx
    | tail _ hbc ih =>
      rcases ih with h1 | h1
      · exact hstep _ h1 _ hbc
      · exact Or.inr (hinv.done_closed _ _ h1.1 h1.2 hbc)
  have hrv : ∀ x, x ∈ seg ++ [v] → Reach adj v x ∧ Reach adj x v := by
    intro x hx
    rcases List.mem_append.mp hx with h1 | h1
    · exact h.segment.reach x h1
    · rw [List.mem_singleton] at h1
      rw [h1]
      exact ⟨Relation.ReflTransGen.refl, Relation.ReflTransGen.refl⟩
  constructor
  · exact hinv.popped hst hcl
  · exact h.later.of_unvisit hfresh
  · rw [num_unvisit]
    exact h.num_v
  · left
    rw [num_unvisit, low_unvisit]
    exact hlow
  · left
    rw [num_unvisit, low_unvisit]
    exact ⟨hlow, rfl⟩
  · exact Segment.nil adj heap0 _ L v
  · apply h.groups.snoc (root_of_concat seg v)
    · exact (List.nodup_append.mp hinv.nodup).1
    · exact hfresh
    · intro x hx
      exact hinv.stack_num x (List.mem_append_left _ hx)
    · exact hvisg
    · intro x hx z
      constructor
      · intro hz
        exact ⟨Relation.ReflTransGen.trans (hrv x hx).2 (hrv z hz).1,
          Relation.ReflTransGen.trans (hrv z hz).2 (hrv x hx).1⟩
      · rintro ⟨h1, h2⟩
        rcases hreach x z h1 hx with h3 | h3
        · exact h3
        · have h4 := reach_done hinv h2 h3
          rw [hvisg x hx] at h4
          cases h4.2
    · intro x hx
      rcases List.mem_append.mp hx with h1 | h1
      · exact Nat.le_of_lt (h.seg_gt h1)
      · rw [List.mem_singleton] at h1
        rw [h1]
    · intro i h1 h2 h3
      have h4 := h.later.new_gt i h1 h2
      have h5 := h.num_v
      have h6 : num heap i ≠ num heap v := by
        intro e
        have := h.inv.num_inj i v e h2
        rw [this, hvisg v (List.mem_append_right _ (List.mem_singleton.mpr rfl))] at h3
        cases h3
      omega

end TarjanSCC


namespace TarjanSCC

/-! ## The statements of `scc` on explicit states -/

theorem visit_link_numbered_eq (f : node_ptr_tp → State → Except Err State)
    {heap : List node_tp} {v w : Nat} {vn wn : node_tp} (hv : heap[v]? = some vn)
    (hw : heap[w]? = some wn) (hn : wn.number ≠ 0) (K : Nat) (stk : node_ptr_tp) (c : Nat)
    (fg : node_ptr_tp) (b : Bool) (o : List Line) :
    visit_link f v (some w) ⟨heap, K, stk, c, fg, b, o⟩ =
      .ok ⟨if num heap w < num heap v ∧ vis heap w = true then
          heap.modify (with_lowlink (min (low heap v) (num heap w))) v else heap,
        K, stk, c, fg, b, o⟩ := by
  simp only [visit_link, load_of_get hw, load_of_get hv, hn, if_false, num_of_get hv,
    num_of_get hw, vis_of_get hw, low_of_get hv, set_lowlink]
  by_cases h1 : wn.number < vn.number
  · by_cases h2 : wn.visited = true
    · simp [h1, h2]
    · simp [h1, h2]
  · simp [h1]

theorem visit_link_child_eq (f : node_ptr_tp → State → Except Err State) (st : State)
    {st1 : State} (v : Nat) {w : Nat} {wn : node_tp} (hw : st.heap[w]? = some wn) (hn : wn.number = 0)
    (hf : f (some w) st = .ok st1) (hv1 : v < st1.heap.length) (hw1 : w < st1.heap.length) :
    visit_link f v (some w) st =
      .ok (set_lowlink st1 v (min (low st1.heap v) (low st1.heap w))) := by
  obtain ⟨vn, hvn⟩ := get_of_lt hv1
  obtain ⟨wn1, hwn1⟩ := get_of_lt hw1
  simp only [visit_link, load_of_get hw, hn, if_true, hf, load_of_get hvn, load_of_get hwn1,
    low_of_get hvn, low_of_get hwn1]

theorem stack_rep_inj {heap : List node_tp} {L : List Nat} {p q : node_ptr_tp}
    (hp : stack_rep heap p L) (hq : stack_rep heap q L) : p = q := by
  cases L with
  | nil =>
    have e1 : p = none := hp
    have e2 : q = none := hq
    rw [e1, e2]
  | cons i rest =>
    rw [hp.1, hq.1]

theorem emit_eq (v : node_ptr_tp) (heap : List node_tp) (K : Nat) (stk : node_ptr_tp)
    (c : Nat) (fg : node_ptr_tp) (b : Bool) (o : List Line) :
    emit v ⟨heap, K, stk, c, fg, b, o⟩ =
      pop_loop v heap.length ⟨heap, K, stk, c + 1, fg, b, o ++ [Line.header (c + 1)]⟩ := rfl

theorem extract_keep_eq {heap : List node_tp} {v : Nat} (hv : v < heap.length)
    (hlow : low heap v ≠ num heap v) (K : Nat) (stk : node_ptr_tp)
    (c : Nat) (fg : node_ptr_tp) (b : Bool) (o : List Line) :
    extract v ⟨heap, K, stk, c, fg, b, o⟩ = .ok ⟨heap, K, stk, c, fg, b, o⟩ := by
  obtain ⟨vn, hvn⟩ := get_of_lt hv
  rw [low_of_get hvn, num_of_get hvn] at hlow
  simp [extract, load_of_get hvn, hlow]

/-- The extraction step of a call whose node closes a component. -/
theorem Mid.extract_eq {adj : Nat → List node_ptr_tp} {heap0 heap : List node_tp}
    {K0 K : Nat} {L seg : List Nat} {v : Nat} {stk : node_ptr_tp} {G : List (List Nat)}
    {links : List node_ptr_tp} (h : Mid adj heap0 K0 L v heap K stk seg G links)
    (hlow : low heap v = num heap v) :
    ∃ stk1, stack_rep heap stk1 L ∧
      ∀ (c : Nat) (fg : node_ptr_tp) (b : Bool) (o : List Line),
        extract v ⟨heap, K, stk, c, fg, b, o⟩ =
          .ok ⟨unvisit (seg ++ [v]) heap, K, stk1, c + (reported b [seg ++ [v]]).length, fg, b,
            o ++ render (fun i => name_of heap (some i)) b c [seg ++ [v]]⟩ := by
  have hinv : Inv adj heap K stk ((seg ++ [v]) ++ L) := by
    rw [List.append_assoc]
    exact h.inv
  have hnodup := hinv.nodup
  have hlen : (seg ++ [v]).length ≤ heap.length := by
    apply length_le_of_nodup_lt (List.nodup_append.mp hnodup).1
    intro i hi
    exact stack_rep_valid _ _ hinv.stack i (List.mem_append_left _ hi)
  obtain ⟨stk1, hstk1, hrun⟩ := pop_loop_spec v (num heap v) (seg ++ [v]) heap stk L
    heap.length hinv.stack hnodup rfl h.v_lt
    (by
      intro x hx
      rcases List.mem_append.mp hx with h1 | h1
      · exact Nat.le_of_lt (h.seg_gt h1)
      · rw [List.mem_singleton] at h1
        rw [h1])
    (fun x hx => h.L_lt hx) hlen
  refine ⟨stk1, hstk1, ?_⟩
  intro c fg b o
  obtain ⟨vn, hvn⟩ := get_of_lt h.v_lt
  have hlow1 : vn.lowlink = vn.number := by
    rw [low_of_get hvn, num_of_get hvn] at hlow
    exact hlow
  have hemit : emit (some v) ⟨heap, K, stk, c, fg, b, o⟩ =
      .ok ⟨unvisit (seg ++ [v]) heap, K, stk1, c + 1, fg, b,
        o ++ (Line.header (c + 1) ::
          (seg ++ [v]).map (fun i => Line.member (name_of heap (some i))))⟩ := by
    rw [emit_eq, hrun]
    simp
  cases seg with
  | nil =>
    have hstk : stk = some v := h.inv.stack.1
    obtain ⟨_, nd, hnd, hrest⟩ := h.inv.stack
    have hstk1' : stk1 = nd.scc_pred := stack_rep_inj hstk1 hrest
    cases b with
    | false =>
      simp only [extract, load_of_get hvn, hlow1, if_true, hstk]
      rw [pop_eq hnd]
      simp [reported, render, unvisit, hstk1']
    | true =>
      simp only [extract, load_of_get hvn, hlow1, if_true]
      rw [if_neg (by simp), hemit]
      simp [reported, render]
  | cons y s1 =>
    have hstk : stk = some y := h.inv.stack.1
    have hyv : y ≠ v := by
      intro e
      have := (List.nodup_append.mp hnodup).1
      rw [e] at this
      simp at this
    have hne : stk ≠ some v := by
      rw [hstk]
      intro e
      exact hyv (Option.some.inj e)
    have hlen1 : (y :: s1 ++ [v]).length ≠ 1 := by simp
    cases b with
    | false =>
      simp only [extract, load_of_get hvn, hlow1, if_true]
      rw [if_neg hne, hemit]
      simp [reported, render]
    | true =>
      simp only [extract, load_of_get hvn, hlow1, if_true]
      rw [if_neg (by simp), hemit]
      simp [reported, render]

end TarjanSCC


namespace TarjanSCC

/-! ## The loop over the successors and the whole call -/

theorem scc_succ_eq (fuel : Nat) {heap : List node_tp} {w : Nat} {nd : node_tp}
    (hw : heap[w]? = some nd) (hn : nd.number = 0) (hv : nd.visited = false) (K : Nat)
    (stk : node_ptr_tp) (c : Nat) (fg : node_ptr_tp) (b : Bool) (o : List Line) :
    scc (fuel + 1) (some w) ⟨heap, K, stk, c, fg, b, o⟩ =
      match for_links (scc fuel) w nd.link
          ⟨heap.modify (enter K stk) w, K + 1, some w, c, fg, b, o⟩ with
      | .error e => .error e
      | .ok st5 => extract w st5 := by
  have hget : ((heap.modify (with_lowlink (K + 1)) w).modify (with_number (K + 1)) w)[w]? =
      some (with_number (K + 1) (with_lowlink (K + 1) nd)) := by
    have h1 : (heap.modify (with_lowlink (K + 1)) w)[w]? = some (with_lowlink (K + 1) nd) :=
      get_modify_self (with_lowlink (K + 1)) hw
    exact get_modify_self (with_number (K + 1)) h1
  have hpush := push_eq hget (by simpa [with_number, with_lowlink] using hv) (K + 1) stk c fg b o
  rw [enter_heap] at hpush
  simp only [scc, load_of_get hw, hn, if_true, set_lowlink, set_number]
  rw [hpush]
  try rfl

theorem for_links_nil (f : node_ptr_tp → State → Except Err State) (v : Nat) (st : State) :
    for_links f v [] st = .ok st := rfl

theorem for_links_cons_ok {f : node_ptr_tp → State → Except Err State} {v : Nat}
    {w : node_ptr_tp} {st st1 : State} (h : visit_link f v w st = .ok st1)
    (rest : List node_ptr_tp) :
    for_links f v (w :: rest) st = for_links f v rest st1 := by
  simp only [for_links, h]

theorem for_links_spec {adj : Nat → List node_ptr_tp}
    {f : node_ptr_tp → State → Except Err State} {fuel : Nat} (hf : CallSpec adj f fuel)
    {heap0 : List node_tp} {K0 : Nat} {L : List Nat} {v : Nat}
    (hfuel : heap0.length < K0 + (fuel + 1)) :
    ∀ (rest : List node_ptr_tp) (heap : List node_tp) (K : Nat) (stk : node_ptr_tp)
      (seg : List Nat) (G : List (List Nat)) (links : List node_ptr_tp),
      Mid adj heap0 K0 L v heap K stk seg G links →
      (∀ w, w ∈ rest → w ∈ adj v) →
      ∃ (heap1 : List node_tp) (K1 : Nat) (stk1 : node_ptr_tp) (seg1 : List Nat)
        (G1 : List (List Nat)),
        Mid adj heap0 K0 L v heap1 K1 stk1 seg1 (G ++ G1) (links ++ rest) ∧
        ∀ (c : Nat) (fg : node_ptr_tp) (b : Bool) (o : List Line),
          for_links f v rest ⟨heap, K, stk, c, fg, b, o⟩ =
            .ok ⟨heap1, K1, stk1, c + (reported b G1).length, fg, b,
              o ++ render (fun i => name_of heap0 (some i)) b c G1⟩ := by
  intro rest
  induction rest with
  | nil =>
    intro heap K stk seg G links h _
    refine ⟨heap, K, stk, seg, [], ?_, ?_⟩
    · rw [List.append_nil, List.append_nil]
      exact h
    · intro c fg b o
      rw [for_links_nil, reported_nil, render_nil]
      simp
  | cons w rest ih =>
    intro heap K stk seg G links h hall
    have hwadj : w ∈ adj v := hall w (List.mem_cons_self _ _)
    have hrest : ∀ x, x ∈ rest → x ∈ adj v := fun x hx => hall x (List.mem_cons_of_mem _ hx)
    obtain ⟨j, hj, hjlt⟩ := h.inv.link_valid v w hwadj
    subst hj
    have he : edge adj v j := hwadj
    obtain ⟨wn, hwn⟩ := get_of_lt hjlt
    obtain ⟨vn, hvn⟩ := get_of_lt h.v_lt
    by_cases hn : wn.number = 0
    · -- the successor has no number: the call recurs
      have hnum : num heap j = 0 := by rw [num_of_get hwn]; exact hn
      have hreach : ∀ x, x ∈ seg ++ v :: L → Reach adj x j := fun x hx =>
        Relation.ReflTransGen.tail (h.reach_back hx) he
      have hfuel1 : heap.length < K + fuel := by
        have h1 := h.later.length
        have h2 := h.K_lt
        omega
      obtain ⟨heap1, K1, stk1, segw, Gw, hpost, hrun⟩ :=
        hf heap K stk (seg ++ v :: L) j h.inv hjlt hnum hreach hfuel1
      have hlen1 : heap1.length = heap.length := hpost.later.length
      have hmid := h.step_child hnum he hpost
      obtain ⟨heap2, K2, stk2, seg2, G2, hmid2, hrun2⟩ :=
        ih _ K1 stk1 (segw ++ seg) (G ++ Gw) (links ++ [some j]) hmid hrest
      refine ⟨heap2, K2, stk2, seg2, Gw ++ G2, ?_, ?_⟩
      · rw [← List.append_assoc, List.append_cons links (some j) rest]
        exact hmid2
      · intro c fg b o
        have hvl := visit_link_child_eq f ⟨heap, K, stk, c, fg, b, o⟩ v hwn hn (hrun c fg b o)
          (by show v < heap1.length; rw [hlen1]; exact h.v_lt)
          (by show j < heap1.length; rw [hlen1]; exact hjlt)
        rw [for_links_cons_ok hvl]
        simp only [set_lowlink]
        rw [hrun2, reported_append, render_append, h.later.name, List.length_append]
        simp only [List.append_assoc, Nat.add_assoc]
    · -- the successor has a number
      have hnum : num heap j ≠ 0 := by rw [num_of_get hwn]; exact hn
      have hmid := h.step_numbered hnum he
      obtain ⟨heap2, K2, stk2, seg2, G2, hmid2, hrun2⟩ :=
        ih _ K stk seg G (links ++ [some j]) hmid hrest
      refine ⟨heap2, K2, stk2, seg2, G2, ?_, ?_⟩
      · rw [List.append_cons links (some j) rest]
        exact hmid2
      · intro c fg b o
        rw [for_links_cons_ok (visit_link_numbered_eq f hvn hwn hn K stk c fg b o)]
        exact hrun2 c fg b o

/-- Every call of `scc` on a node without a number ends, with the state and the report that
`Post` and `render` describe, as soon as the first argument of the model exceeds the number of
nodes that are still without a number. -/
theorem scc_spec (adj : Nat → List node_ptr_tp) : ∀ (fuel : Nat), CallSpec adj (scc fuel) fuel := by
  intro fuel
  induction fuel with
  | zero =>
    intro heap K stk L w hinv hw hnum hpre hfuel
    have h1 : heap.countP is_numbered ≤ heap.length := List.countP_le_length _
    rw [hinv.count] at h1
    omega
  | succ fuel ih =>
    intro heap K stk L w hinv hw hnum hpre hfuel
    obtain ⟨nd, hnd⟩ := get_of_lt hw
    have hn : nd.number = 0 := by rw [num_of_get hnd] at hnum; exact hnum
    have hvis : nd.visited = false := by
      have h1 : ¬ (vis heap w = true) := by
        intro h2
        exact hinv.stack_num w ((hinv.vis_iff w).mp h2) hnum
      rw [vis_of_get hnd] at h1
      simpa using h1
    have hentry := Mid.entry hinv hnd hn hpre
    have hlinks : nd.link = adj w := by rw [← hinv.links_eq w, links_of_get hnd]
    obtain ⟨heap1, K1, stk1, seg1, G1, hmid, hrun⟩ :=
      for_links_spec ih hfuel (adj w) _ (K + 1) (some w) [] [] [] hentry (fun x hx => hx)
    rw [List.nil_append, List.nil_append] at hmid
    have hall : ∀ x, x ∈ adj w → x ∈ adj w := fun x hx => hx
    by_cases hlow : low heap1 w = num heap1 w
    · obtain ⟨stk2, hstk2, hex⟩ := hmid.extract_eq hlow
      refine ⟨unvisit (seg1 ++ [w]) heap1, K1, stk2, [], G1 ++ [seg1 ++ [w]],
        hmid.finish_pop hall hlow hstk2, ?_⟩
      intro c fg b o
      rw [scc_succ_eq fuel hnd hn hvis, hlinks, hrun]
      simp only []
      rw [hex, reported_append, render_append, hmid.later.name, List.length_append]
      simp only [List.append_assoc, Nat.add_assoc]
    · refine ⟨heap1, K1, stk1, seg1 ++ [w], G1, hmid.finish_keep hall hlow, ?_⟩
      intro c fg b o
      rw [scc_succ_eq fuel hnd hn hvis, hlinks, hrun]
      simp only []
      rw [extract_keep_eq hmid.v_lt hlow]

end TarjanSCC


namespace TarjanSCC

/-! ## The traversal of a graph that lies behind older nodes -/

theorem rebase_heap (old : List node_tp) (pre : List Line) (st : State) :
    (rebase old pre st).heap = old ++ st.heap.map (shift_node old.length) := rfl

theorem set_lowlink_rebase (old : List node_tp) (pre : List Line) (st : State) (i x : Nat) :
    set_lowlink (rebase old pre st) (i + old.length) x = rebase old pre (set_lowlink st i x) := by
  unfold set_lowlink rebase
  simp only
  rw [modify_rebase old st.heap _ (with_lowlink x)]
  intro nd
  rfl

theorem set_number_rebase (old : List node_tp) (pre : List Line) (st : State) (i x : Nat) :
    set_number (rebase old pre st) (i + old.length) x = rebase old pre (set_number st i x) := by
  unfold set_number rebase
  simp only
  rw [modify_rebase old st.heap _ (with_number x)]
  intro nd
  rfl

theorem push_rebase (old : List node_tp) (pre : List Line) (v : node_ptr_tp) (st : State) :
    push (shift_ptr old.length v) (rebase old pre st) = (push v st).map (rebase old pre) := by
  cases v with
  | none => rfl
  | some i =>
    simp only [shift_ptr_some, push, rebase_heap, get_rebase_heap]
    cases hg : st.heap[i]? with
    | none => rfl
    | some nd =>
      simp only [Option.map_some']
      have e1 : (shift_node old.length nd).visited = nd.visited := rfl
      rw [e1]
      cases hv : nd.visited with
      | true => rfl
      | false =>
        simp only [Bool.false_eq_true, if_false, Except.map]
        have e2 : (rebase old pre st).scc_stack = shift_ptr old.length st.scc_stack := rfl
        rw [e2, modify_rebase old st.heap _ (mark_pushed st.scc_stack) (fun nd => rfl)]
        rfl

theorem pop_rebase (old : List node_tp) (pre : List Line) (st : State) :
    pop (rebase old pre st) = (pop st).map (rebase old pre) := by
  unfold pop
  have e2 : (rebase old pre st).scc_stack = shift_ptr old.length st.scc_stack := rfl
  rw [e2]
  cases hs : st.scc_stack with
  | none => rfl
  | some i =>
    simp only [shift_ptr_some, rebase_heap, get_rebase_heap]
    cases hg : st.heap[i]? with
    | none => rfl
    | some nd =>
      simp only [Option.map_some', Except.map]
      rw [modify_rebase old st.heap _ clear_visited (fun nd => rfl)]
      rfl

theorem pop_loop_rebase (old : List node_tp) (pre : List Line) (v : node_ptr_tp) :
    ∀ (fuel : Nat) (st : State),
      pop_loop (shift_ptr old.length v) fuel (rebase old pre st) =
        (pop_loop v fuel st).map (rebase old pre) := by
  intro fuel
  induction fuel with
  | zero =>
    intro st
    unfold pop_loop
    have e2 : (rebase old pre st).scc_stack = shift_ptr old.length st.scc_stack := rfl
    rw [e2]
    cases hs : st.scc_stack with
    | none => rfl
    | some t =>
      simp only [shift_ptr_some, rebase_heap]
      rw [← shift_ptr_some, load_rebase, load_rebase]
      cases hl : load st.heap (some t) with
      | error e => rfl
      | ok top =>
        cases hl2 : load st.heap v with
        | error e => rfl
        | ok vn =>
          simp only [Except.map]
          have e3 : (shift_node old.length vn).number = vn.number := rfl
          have e4 : (shift_node old.length top).number = top.number := rfl
          rw [e3, e4]
          split <;> rfl
  | succ fuel ih =>
    intro st
    unfold pop_loop
    have e2 : (rebase old pre st).scc_stack = shift_ptr old.length st.scc_stack := rfl
    rw [e2]
    cases hs : st.scc_stack with
    | none => rfl
    | some t =>
      simp only [shift_ptr_some, rebase_heap]
      rw [← shift_ptr_some, load_rebase, load_rebase]
      cases hl : load st.heap (some t) with
      | error e => rfl
      | ok top =>
        cases hl2 : load st.heap v with
        | error e => rfl
        | ok vn =>
          simp only [Except.map]
          have e3 : (shift_node old.length vn).number = vn.number := rfl
          have e4 : (shift_node old.length top).number = top.number := rfl
          have e5 : (shift_node old.length top).name = top.name := rfl
          rw [e3, e4, e5]
          split
          · rw [print_rebase, pop_rebase]
            cases hp : pop (print st (Line.member top.name)) with
            | error e => rfl
            | ok st1 =>
              simp only [Except.map]
              exact ih st1
          · rfl

theorem pop_loop_mono {v : node_ptr_tp} :
    ∀ {fuel fuel1 : Nat} {st st1 : State}, pop_loop v fuel st = .ok st1 → fuel ≤ fuel1 →
      pop_loop v fuel1 st = .ok st1 := by
  intro fuel
  induction fuel with
  | zero =>
    intro fuel1 st st1 h _
    unfold pop_loop at h ⊢
    cases hs : st.scc_stack with
    | none => rw [hs] at h; exact h
    | some t =>
      rw [hs] at h
      simp only at h ⊢
      cases hl : load st.heap (some t) with
      | error e => rw [hl] at h; cases h
      | ok top =>
        rw [hl] at h
        simp only at h ⊢
        cases hl2 : load st.heap v with
        | error e => rw [hl2] at h; cases h
        | ok vn =>
          rw [hl2] at h
          simp only at h ⊢
          by_cases hc : vn.number ≤ top.number
          · rw [if_pos hc] at h; cases h
          · rw [if_neg hc] at h ⊢; exact h
  | succ fuel ih =>
    intro fuel1 st st1 h hle
    obtain ⟨f1, rfl⟩ : ∃ f1, fuel1 = f1 + 1 := ⟨fuel1 - 1, by omega⟩
    unfold pop_loop at h ⊢
    cases hs : st.scc_stack with
    | none => rw [hs] at h; exact h
    | some t =>
      rw [hs] at h
      simp only at h ⊢
      cases hl : load st.heap (some t) with
      | error e => rw [hl] at h; cases h
      | ok top =>
        rw [hl] at h
        simp only at h ⊢
        cases hl2 : load st.heap v with
        | error e => rw [hl2] at h; cases h
        | ok vn =>
          rw [hl2] at h
          simp only at h ⊢
          by_cases hc : vn.number ≤ top.number
          · rw [if_pos hc] at h ⊢
            cases hp : pop (print st (Line.member top.name)) with
            | error e => rw [hp] at h; cases h
            | ok st2 =>
              rw [hp] at h
              simp only at h ⊢
              exact ih h (by omega)
          · rw [if_neg hc] at h ⊢; exact h

theorem emit_rebase (old : List node_tp) (pre : List Line) {v : node_ptr_tp} {st st1 : State}
    (h : emit v st = .ok st1) :
    emit (shift_ptr old.length v) (rebase old pre st) = .ok (rebase old pre st1) := by
  unfold emit at h ⊢
  have h1 := pop_loop_rebase old pre v st.heap.length
    (print { st with scc_count := st.scc_count + 1 } (Line.header (st.scc_count + 1)))
  rw [h] at h1
  have e : print { rebase old pre st with scc_count := (rebase old pre st).scc_count + 1 }
        (Line.header ((rebase old pre st).scc_count + 1)) =
      rebase old pre (print { st with scc_count := st.scc_count + 1 }
        (Line.header (st.scc_count + 1))) := by
    simp [print, rebase]
  simp only at e ⊢
  rw [e]
  refine pop_loop_mono h1 ?_
  simp [rebase]

end TarjanSCC


namespace TarjanSCC

theorem extract_rebase (old : List node_tp) (pre : List Line) {v : Nat} {st st1 : State}
    (h : extract v st = .ok st1) :
    extract (v + old.length) (rebase old pre st) = .ok (rebase old pre st1) := by
  unfold extract at h ⊢
  rw [rebase_heap, ← shift_ptr_some, load_rebase]
  cases hl : load st.heap (some v) with
  | error e => rw [hl] at h; cases h
  | ok vn =>
    rw [hl] at h
    simp only [Except.map] at h ⊢
    have e1 : (shift_node old.length vn).lowlink = vn.lowlink := rfl
    have e2 : (shift_node old.length vn).number = vn.number := rfl
    have e3 : (rebase old pre st).single = st.single := rfl
    have e4 : (rebase old pre st).scc_stack = shift_ptr old.length st.scc_stack := rfl
    rw [e1, e2, e3, e4]
    by_cases hc : vn.lowlink = vn.number
    · rw [if_pos hc] at h ⊢
      by_cases hs : st.single = false
      · rw [if_pos hs] at h ⊢
        by_cases ht : st.scc_stack = some v
        · rw [if_pos ht] at h
          rw [ht, if_pos rfl, pop_rebase, h]
          rfl
        · rw [if_neg ht] at h
          have ht1 : shift_ptr old.length st.scc_stack ≠ shift_ptr old.length (some v) := by
            cases hst : st.scc_stack with
            | none => simp [shift_ptr]
            | some t =>
              rw [hst] at ht
              simp only [shift_ptr_some, ne_eq, Option.some.injEq]
              intro e
              apply ht
              rw [Nat.add_right_cancel e]
          rw [if_neg ht1]
          exact emit_rebase old pre h
      · rw [if_neg hs] at h ⊢
        exact emit_rebase old pre h
    · rw [if_neg hc] at h ⊢
      cases h
      rfl

theorem visit_link_rebase (old : List node_tp) (pre : List Line)
    {f g : node_ptr_tp → State → Except Err State}
    (hfg : ∀ (p : node_ptr_tp) (st st1 : State), f p st = .ok st1 →
      g (shift_ptr old.length p) (rebase old pre st) = .ok (rebase old pre st1))
    {v : Nat} {w : node_ptr_tp} {st st1 : State} (h : visit_link f v w st = .ok st1) :
    visit_link g (v + old.length) (shift_ptr old.length w) (rebase old pre st) =
      .ok (rebase old pre st1) := by
  cases w with
  | none => cases h
  | some j =>
    unfold visit_link at h ⊢
    simp only [shift_ptr_some] at h ⊢
    rw [rebase_heap, ← shift_ptr_some, load_rebase]
    cases hl : load st.heap (some j) with
    | error e => rw [hl] at h; cases h
    | ok wn =>
      rw [hl] at h
      simp only [Except.map] at h ⊢
      have e1 : (shift_node old.length wn).number = wn.number := rfl
      have e2 : (shift_node old.length wn).visited = wn.visited := rfl
      rw [e1, e2]
      by_cases hn : wn.number = 0
      · rw [if_pos hn] at h ⊢
        cases hf : f (some j) st with
        | error e => rw [hf] at h; cases h
        | ok st2 =>
          rw [hf] at h
          rw [hfg _ _ _ hf]
          simp only at h ⊢
          rw [rebase_heap, ← shift_ptr_some, load_rebase, load_rebase]
          cases hl1 : load st2.heap (some v) with
          | error e => rw [hl1] at h; cases h
          | ok vn =>
            rw [hl1] at h
            simp only [Except.map] at h ⊢
            cases hl2 : load st2.heap (some j) with
            | error e => rw [hl2] at h; cases h
            | ok wn1 =>
              rw [hl2] at h
              simp only at h ⊢
              cases h
              rw [set_lowlink_rebase]
              rfl
      · rw [if_neg hn] at h ⊢
        rw [← shift_ptr_some, load_rebase]
        cases hl1 : load st.heap (some v) with
        | error e => rw [hl1] at h; cases h
        | ok vn =>
          rw [hl1] at h
          simp only [Except.map] at h ⊢
          have e3 : (shift_node old.length vn).number = vn.number := rfl
          have e4 : (shift_node old.length vn).lowlink = vn.lowlink := rfl
          rw [e3, e4]
          by_cases h1 : wn.number < vn.number
          · rw [if_pos h1] at h ⊢
            by_cases h2 : wn.visited = true
            · rw [if_pos h2] at h ⊢
              cases h
              rw [set_lowlink_rebase]
            · rw [if_neg h2] at h ⊢
              cases h
              rfl
          · rw [if_neg h1] at h ⊢
            cases h
            rfl

theorem for_links_rebase (old : List node_tp) (pre : List Line)
    {f g : node_ptr_tp → State → Except Err State}
    (hfg : ∀ (p : node_ptr_tp) (st st1 : State), f p st = .ok st1 →
      g (shift_ptr old.length p) (rebase old pre st) = .ok (rebase old pre st1))
    (v : Nat) :
    ∀ (links : List node_ptr_tp) (st st1 : State), for_links f v links st = .ok st1 →
      for_links g (v + old.length) (links.map (shift_ptr old.length)) (rebase old pre st) =
        .ok (rebase old pre st1) := by
  intro links
  induction links with
  | nil =>
    intro st st1 h
    cases h
    rfl
  | cons w rest ih =>
    intro st st1 h
    simp only [for_links, List.map_cons] at h ⊢
    cases hv : visit_link f v w st with
    | error e => rw [hv] at h; cases h
    | ok st2 =>
      rw [hv] at h
      rw [visit_link_rebase old pre hfg hv]
      exact ih st2 st1 h

/-- A call of `scc` on a graph that lies behind older nodes does what it does on the graph
alone, also when the bound on the depth of the recursion is raised. -/
theorem scc_rebase (old : List node_tp) (pre : List Line) :
    ∀ (fuel fuel1 : Nat) (p : node_ptr_tp) (st st1 : State), scc fuel p st = .ok st1 →
      fuel ≤ fuel1 →
      scc fuel1 (shift_ptr old.length p) (rebase old pre st) = .ok (rebase old pre st1) := by
  intro fuel
  induction fuel with
  | zero =>
    intro fuel1 p st st1 h
    cases h
  | succ fuel ih =>
    intro fuel1 p st st1 h hle
    obtain ⟨f1, rfl⟩ : ∃ f1, fuel1 = f1 + 1 := ⟨fuel1 - 1, by omega⟩
    have ih1 : ∀ (p : node_ptr_tp) (st st1 : State), scc fuel p st = .ok st1 →
        scc f1 (shift_ptr old.length p) (rebase old pre st) = .ok (rebase old pre st1) :=
      fun p st st1 h => ih f1 p st st1 h (by omega)
    cases p with
    | none => cases h
    | some i =>
      unfold scc at h ⊢
      simp only [shift_ptr_some] at h ⊢
      rw [rebase_heap, ← shift_ptr_some, load_rebase]
      cases hl : load st.heap (some i) with
      | error e => rw [hl] at h; cases h
      | ok nd =>
        rw [hl] at h
        simp only [Except.map] at h ⊢
        have e1 : (shift_node old.length nd).number = nd.number := rfl
        rw [e1]
        by_cases hn : nd.number = 0
        · rw [if_pos hn] at h ⊢
          change (match push (shift_ptr old.length (some i))
              (set_number (set_lowlink
                (rebase old pre { st with scc_number := st.scc_number + 1 })
                (i + old.length) (st.scc_number + 1)) (i + old.length) (st.scc_number + 1)) with
            | Except.error e => Except.error e
            | Except.ok st4 =>
              match for_links (scc f1) (i + old.length)
                  (nd.link.map (shift_ptr old.length)) st4 with
              | Except.error e => Except.error e
              | Except.ok st5 => extract (i + old.length) st5) = Except.ok (rebase old pre st1)
          rw [set_lowlink_rebase, set_number_rebase, push_rebase]
          cases hp : push (some i) (set_number (set_lowlink
              { st with scc_number := st.scc_number + 1 } i (st.scc_number + 1)) i
              (st.scc_number + 1)) with
          | error e => rw [hp] at h; cases h
          | ok st4 =>
            rw [hp] at h
            simp only [Except.map] at h ⊢
            cases hfl : for_links (scc fuel) i nd.link st4 with
            | error e => rw [hfl] at h; cases h
            | ok st5 =>
              rw [hfl] at h
              rw [for_links_rebase old pre ih1 i nd.link st4 st5 hfl]
              exact extract_rebase old pre h
        · rw [if_neg hn] at h ⊢
          cases h
          rfl

end TarjanSCC


namespace TarjanSCC

/-! ## The loop of `main` over the roots -/

theorem scc_numbered_eq (fuel : Nat) {st : State} {i : Nat} {nd : node_tp}
    (h : st.heap[i]? = some nd) (hn : nd.number ≠ 0) :
    scc (fuel + 1) (some i) st = .ok st := by
  simp only [scc, load_of_get h, hn, if_false]

theorem roots_loop_none (fuel : Nat) (st : State) : roots_loop fuel none st = .ok st := by
  cases fuel <;> rfl

theorem roots_loop_succ_eq {fuel i : Nat} {st st1 : State} {nd nd1 : node_tp}
    (hl : load st.heap (some i) = .ok nd) (hv : nd.visited = false)
    (hs : scc (st.heap.length + 1) (some i) st = .ok st1)
    (hl1 : load st1.heap (some i) = .ok nd1) :
    roots_loop (fuel + 1) (some i) st = roots_loop fuel nd1.finger st1 := by
  simp only [roots_loop, hl, hv, if_true, hs, hl1]

/-- Before the first root is offered the invariant holds. -/
theorem Top.start {sf : State} (hb : Built sf) :
    Top (links_of sf.heap) sf.heap sf.heap 0 [] := by
  have hnum : ∀ i, num sf.heap i = 0 := by
    intro i
    cases hg : sf.heap[i]? with
    | none => exact num_of_none hg
    | some nd => rw [num_of_get hg]; exact (hb.untouched i nd hg).1
  have hvis : ∀ i, vis sf.heap i = false := by
    intro i
    cases hg : sf.heap[i]? with
    | none => exact vis_of_none hg
    | some nd => rw [vis_of_get hg]; exact (hb.untouched i nd hg).2.2.1
  have hlow : ∀ i, low sf.heap i = 0 := by
    intro i
    cases hg : sf.heap[i]? with
    | none => simp [low, hg]
    | some nd => rw [low_of_get hg]; exact (hb.untouched i nd hg).2.1
  refine ⟨?_, Later.refl _ _, Groups.nil_of (fun i _ h => absurd (hnum i) h)⟩
  constructor
  · intro i; rfl
  · intro i w hw
    cases hg : sf.heap[i]? with
    | none => rw [links_of_none hg] at hw; cases hw
    | some nd =>
      rw [links_of_get hg] at hw
      exact hb.link_valid i nd w hg hw
  · rfl
  · intro i
    rw [hvis i]
    simp
  · exact List.Pairwise.nil
  · intro i; rw [hnum i]
  · intro i; rw [hnum i, hlow i]
  · intro i h; exact absurd (hnum i) h
  · intro i j _ h; exact absurd (hnum i) h
  · intro i h; cases h
  · rw [List.countP_eq_zero]
    intro nd hnd
    obtain ⟨i, hi, hget⟩ := List.getElem_of_mem hnd
    have hg : sf.heap[i]? = some nd := by rw [List.getElem?_eq_getElem hi, hget]
    have := (hb.untouched i nd hg).1
    simp [is_numbered, this]
  · intro i j h; exact absurd (hnum i) h

/-- One root: the call of `scc` from the loop of `main`. -/
theorem Top.root_step {adj : Nat → List node_ptr_tp} {heap0 heap : List node_tp} {K : Nat}
    {G : List (List Nat)} (h : Top adj heap0 heap K G) {i : Nat} (hi : i < heap.length)
    {fuel : Nat} (hfuel : heap.length < fuel) :
    ∃ (heap1 : List node_tp) (K1 : Nat) (Gw : List (List Nat)),
      Top adj heap0 heap1 K1 (G ++ Gw) ∧ num heap1 i ≠ 0 ∧
      (∀ j, num heap j ≠ 0 → num heap1 j ≠ 0) ∧
      ∀ (c : Nat) (fg : node_ptr_tp) (b : Bool) (o : List Line),
        scc fuel (some i) ⟨heap, K, none, c, fg, b, o⟩ =
          .ok ⟨heap1, K1, none, c + (reported b Gw).length, fg, b,
            o ++ render (fun i => name_of heap0 (some i)) b c Gw⟩ := by
  obtain ⟨nd, hnd⟩ := get_of_lt hi
  by_cases hn : nd.number = 0
  · have hnum : num heap i = 0 := by rw [num_of_get hnd]; exact hn
    obtain ⟨heap1, K1, stk1, seg, Gw, hpost, hrun⟩ :=
      scc_spec adj fuel heap K none [] i h.inv hi hnum (fun x hx => by cases hx) (by omega)
    have hseg : seg = [] := by
      rcases hpost.seg_cases with h1 | h1
      · exact h1.2
      · rcases hpost.low_v with h2 | ⟨x, hx, _⟩
        · rw [h2] at h1
          exact absurd h1.1 (Nat.lt_irrefl _)
        · cases hx
    subst hseg
    have hstk : stk1 = none := hpost.inv.stack
    subst hstk
    refine ⟨heap1, K1, Gw, ⟨hpost.inv, h.later.trans hpost.later, ?_⟩, ?_, ?_, ?_⟩
    · exact h.groups.append h.later h.inv.num_le hpost.groups hpost.later
    · rw [hpost.num_v]
      exact Nat.succ_ne_zero _
    · intro j hj
      rw [hpost.later.num_old hj]
      exact hj
    · intro c fg b o
      rw [hrun, h.later.name]
  · obtain ⟨f1, rfl⟩ : ∃ f1, fuel = f1 + 1 := ⟨fuel - 1, by omega⟩
    refine ⟨heap, K, [], ?_, ?_, fun j hj => hj, ?_⟩
    · rw [List.append_nil]
      exact h
    · rw [num_of_get hnd]
      exact hn
    · intro c fg b o
      rw [scc_numbered_eq f1 (by exact hnd) hn, reported_nil, render_nil]
      simp

end TarjanSCC


namespace TarjanSCC

/-- The loop of `main` over the roots, from the node at `m - 1` down to the first node: it
ends, every node has got a number, and the report has grown by the components extracted, for
either value of `single`, also when the graph lies behind older nodes. -/
theorem roots_loop_spec {sf : State} (hb : Built sf) :
    ∀ (m : Nat), m ≤ sf.heap.length →
      ∀ (heap : List node_tp) (K : Nat) (G : List (List Nat)),
      Top (links_of sf.heap) sf.heap heap K G →
      (∀ j, m ≤ j → j < sf.heap.length → num heap j ≠ 0) →
      ∃ (heapF : List node_tp) (KF : Nat) (GF : List (List Nat)),
        Top (links_of sf.heap) sf.heap heapF KF (G ++ GF) ∧
        (∀ j, j < sf.heap.length → num heapF j ≠ 0) ∧
        ∀ (old : List node_tp) (pre : List Line) (fuel c : Nat) (fg : node_ptr_tp) (b : Bool)
          (o : List Line), m ≤ fuel →
          roots_loop fuel (shift_ptr old.length (if m = 0 then none else some (m - 1)))
              (rebase old pre ⟨heap, K, none, c, fg, b, o⟩) =
            .ok (rebase old pre ⟨heapF, KF, none, c + (reported b GF).length, fg, b,
              o ++ render (fun i => name_of sf.heap (some i)) b c GF⟩) := by
  intro m
  induction m with
  | zero =>
    intro _ heap K G h hdone
    refine ⟨heap, K, [], ?_, fun j hj => hdone j (Nat.zero_le _) hj, ?_⟩
    · rw [List.append_nil]; exact h
    · intro old pre fuel c fg b o _
      rw [if_pos rfl, shift_ptr_none, roots_loop_none, reported_nil, render_nil]
      simp
  | succ m ih =>
    intro hm heap K G h hdone
    have hlen : heap.length = sf.heap.length := h.later.length
    have hmlt : m < heap.length := by omega
    obtain ⟨heap1, K1, Gw, htop1, hnum1, hkeep, hrun⟩ :=
      h.root_step hmlt (Nat.lt_succ_self heap.length)
    have hdone1 : ∀ j, m ≤ j → j < sf.heap.length → num heap1 j ≠ 0 := by
      intro j hj hjn
      rcases Nat.eq_or_lt_of_le hj with h1 | h1
      · rw [← h1]; exact hnum1
      · exact hkeep j (hdone j h1 hjn)
    obtain ⟨heapF, KF, GF, htopF, hall, hrunF⟩ := ih (by omega) heap1 K1 (G ++ Gw) htop1 hdone1
    refine ⟨heapF, KF, Gw ++ GF, ?_, hall, ?_⟩
    · rw [← List.append_assoc]; exact htopF
    · intro old pre fuel c fg b o hfuel
      obtain ⟨f1, rfl⟩ : ∃ f1, fuel = f1 + 1 := ⟨fuel - 1, by omega⟩
      obtain ⟨nd, hnd⟩ := get_of_lt hmlt
      have hlen1 : heap1.length = sf.heap.length := htop1.later.length
      obtain ⟨nd1, hnd1⟩ := get_of_lt (show m < heap1.length by omega)
      obtain ⟨nd0, hnd0⟩ := get_of_lt (show m < sf.heap.length by omega)
      have hvis : nd.visited = false := by
        have h1 : ¬ (vis heap m = true) := by
          intro h2
          cases (h.inv.vis_iff m).mp h2
        rw [vis_of_get hnd] at h1
        simpa using h1
      have hfinger : nd1.finger = if m = 0 then none else some (m - 1) := by
        rw [finger_static htop1.later.frame hnd0 hnd1]
        exact hb.node_finger m nd0 hnd0
      have hl : load (rebase old pre ⟨heap, K, none, c, fg, b, o⟩).heap (some (m + old.length)) =
          .ok (shift_node old.length nd) := by
        rw [rebase_heap, ← shift_ptr_some, load_rebase, load_of_get hnd]
        rfl
      have hl1 : load (rebase old pre ⟨heap1, K1, none, c + (reported b Gw).length, fg, b,
          o ++ render (fun i => name_of sf.heap (some i)) b c Gw⟩).heap (some (m + old.length)) =
          .ok (shift_node old.length nd1) := by
        rw [rebase_heap, ← shift_ptr_some, load_rebase, load_of_get hnd1]
        rfl
      have hs := scc_rebase old pre (heap.length + 1)
        ((rebase old pre ⟨heap, K, none, c, fg, b, o⟩).heap.length + 1) (some m) _ _
        (hrun c fg b o) (by simp [rebase])
      rw [shift_ptr_some] at hs
      rw [if_neg (Nat.succ_ne_zero m), Nat.add_sub_cancel, shift_ptr_some,
        roots_loop_succ_eq hl hvis hs hl1]
      have e1 : (shift_node old.length nd1).finger =
          shift_ptr old.length (if m = 0 then none else some (m - 1)) := by
        rw [← hfinger]
        rfl
      rw [e1, hrunF old pre f1 _ fg b _ (by omega), reported_append, render_append,
        List.length_append]
      simp only [List.append_assoc, Nat.add_assoc]

end TarjanSCC


namespace TarjanSCC

/-! ## The graph does not depend on the flag `single` -/

theorem ensure_congr {st st1 : State} (hh : st.heap = st1.heap) (hf : st.finger = st1.finger)
    (n : Int) :
    (ensure n st).heap = (ensure n st1).heap ∧ (ensure n st).finger = (ensure n st1).finger := by
  unfold ensure
  rw [hh]
  cases find_below st1.heap n st1.heap.length with
  | none => simp [make_node, hh, hf]
  | some _ => exact ⟨hh, hf⟩

theorem finish_input_congr {st st1 : State} (hh : st.heap = st1.heap) (a b : Int) (i j : Nat) :
    (finish_input a b i j st).heap = (finish_input a b i j st1).heap := by
  unfold finish_input
  rw [hh]
  by_cases hm : some j ∈ links_of st1.heap i
  · rw [if_pos hm, if_pos hm]
    cases st.single <;> cases st1.single <;> simp [print, hh]
  · rw [if_neg hm, if_neg hm]
    cases st.single <;> cases st1.single <;> simp [print, set_link, hh]

theorem input_congr {st st1 : State} (hb : Built st) (hb1 : Built st1)
    (hh : st.heap = st1.heap) (hf : st.finger = st1.finger) (a b : Int) :
    ∃ s s1, input a b st = .ok s ∧ input a b st1 = .ok s1 ∧ Built s ∧ Built s1 ∧
      s.heap = s1.heap ∧ s.finger = s1.finger := by
  obtain ⟨i, j, ni, nj, hi, hna, hj, hnb, heq⟩ := input_eq hb a b
  obtain ⟨i1, j1, ni1, nj1, hi1, hna1, hj1, hnb1, heq1⟩ := input_eq hb1 a b
  obtain ⟨e1, e2⟩ := ensure_congr hh hf a
  obtain ⟨e3, e4⟩ := ensure_congr e1 e2 b
  have hbe : Built (ensure b (ensure a st)) := (hb.ensure a).ensure b
  have hbe1 : Built (ensure b (ensure a st1)) := (hb1.ensure a).ensure b
  rw [← e3] at hi1 hj1
  have hii : i = i1 := hbe.names_inj i i1 ni ni1 hi hi1 (by rw [hna, hna1])
  have hjj : j = j1 := hbe.names_inj j j1 nj nj1 hj hj1 (by rw [hnb, hnb1])
  subst hii
  subst hjj
  obtain ⟨s, hs, hbs, _⟩ := input_step hb a b
  obtain ⟨s1, hs1, hbs1, _⟩ := input_step hb1 a b
  refine ⟨s, s1, hs, hs1, hbs, hbs1, ?_, ?_⟩
  · rw [heq] at hs
    rw [heq1] at hs1
    cases hs
    cases hs1
    exact finish_input_congr e3 a b i j
  · rw [heq] at hs
    rw [heq1] at hs1
    cases hs
    cases hs1
    rw [(finish_input_frame a b i j _).2.2.2.2.1, (finish_input_frame a b i j _).2.2.2.2.1]
    exact e4

theorem inputs_congr (pairs : List (Int × Int)) :
    ∀ {st st1 : State}, Built st → Built st1 → st.heap = st1.heap → st.finger = st1.finger →
      ∃ s s1, inputs pairs st = .ok s ∧ inputs pairs st1 = .ok s1 ∧
        s.heap = s1.heap ∧ s.finger = s1.finger := by
  induction pairs with
  | nil =>
    intro st st1 _ _ hh hf
    exact ⟨st, st1, rfl, rfl, hh, hf⟩
  | cons p rest ih =>
    intro st st1 hb hb1 hh hf
    obtain ⟨a, b⟩ := p
    obtain ⟨s, s1, hs, hs1, hbs, hbs1, e1, e2⟩ := input_congr hb hb1 hh hf a b
    obtain ⟨t, t1, ht, ht1, e3, e4⟩ := ih hbs hbs1 e1 e2
    refine ⟨t, t1, ?_, ?_, e3, e4⟩
    · simp only [inputs, hs]
      exact ht
    · simp only [inputs, hs1]
      exact ht1

/-! ## A graph behind no older nodes -/

theorem shift_ptr_zero (p : node_ptr_tp) : shift_ptr 0 p = p := by
  cases p <;> rfl

theorem shift_node_zero (nd : node_tp) : shift_node 0 nd = nd := by
  unfold shift_node
  have e : (fun p => shift_ptr 0 p) = id := funext shift_ptr_zero
  have e1 : List.map (shift_ptr 0) nd.link = nd.link := by
    rw [show shift_ptr 0 = id from e, List.map_id]
  rw [e1, shift_ptr_zero, shift_ptr_zero]

theorem rebase_nil (st : State) : rebase [] [] st = st := by
  unfold rebase
  have e : st.heap.map (shift_node 0) = st.heap := by
    rw [show shift_node 0 = id from funext shift_node_zero, List.map_id]
  simp only [List.length_nil, List.nil_append, e, shift_ptr_zero]

end TarjanSCC


namespace TarjanSCC

/-! ## A whole pass -/

theorem Top.count_all {adj : Nat → List node_ptr_tp} {heap0 heap : List node_tp} {K : Nat}
    {G : List (List Nat)} (h : Top adj heap0 heap K G)
    (hall : ∀ j, j < heap.length → num heap j ≠ 0) : K = heap.length := by
  rw [← h.inv.count, List.countP_eq_length]
  intro nd hnd
  obtain ⟨i, hi, hget⟩ := List.getElem_of_mem hnd
  have hg : heap[i]? = some nd := by rw [List.getElem?_eq_getElem hi, hget]
  have := hall i hi
  rw [num_of_get hg] at this
  simp [is_numbered, this]

/-- The traversal of a graph that `input` built: the loop of `main` ends with every node
numbered, and reports the components `G`, the same for either value of `single`. -/
theorem traverse_spec {sf : State} (hb : Built sf) :
    ∃ (heapF : List node_tp) (G : List (List Nat)),
      Top (links_of sf.heap) sf.heap heapF sf.heap.length G ∧
      (∀ j, j < sf.heap.length → num heapF j ≠ 0) ∧
      ∀ (old : List node_tp) (pre : List Line) (c : Nat) (b : Bool) (o : List Line),
        roots_loop (old.length + sf.heap.length) (shift_ptr old.length sf.finger)
            (rebase old pre ⟨sf.heap, 0, none, c, sf.finger, b, o⟩) =
          .ok (rebase old pre ⟨heapF, sf.heap.length, none, c + (reported b G).length,
            sf.finger, b, o ++ render (fun i => name_of sf.heap (some i)) b c G⟩) := by
  obtain ⟨heapF, KF, GF, htop, hall, hrun⟩ :=
    roots_loop_spec hb sf.heap.length (Nat.le_refl _) sf.heap 0 [] (Top.start hb)
      (fun j h1 h2 => absurd h2 (Nat.not_lt.mpr h1))
  rw [List.nil_append] at htop
  have hlen : heapF.length = sf.heap.length := htop.later.length
  have hK : KF = sf.heap.length := by
    rw [← hlen]
    exact htop.count_all (fun j hj => hall j (by omega))
  subst hK
  refine ⟨heapF, GF, htop, hall, ?_⟩
  intro old pre c b o
  have h1 := hrun old pre (old.length + sf.heap.length) c sf.finger b o (by omega)
  rw [← hb.finger_eq] at h1
  exact h1

end TarjanSCC


namespace TarjanSCC

theorem State.eta (st : State) :
    st = ⟨st.heap, st.scc_number, st.scc_stack, st.scc_count, st.finger, st.single,
      st.outfile⟩ := rfl

/-- Both passes of `main`: they end, on the same graph `sf`, with the same final heap `heapF`
and the same components `G`; the first pass reports all of them and the second those of more
than one node. -/
theorem main_spec (pairs : List (Int × Int)) :
    ∃ (sf : State) (heapF : List node_tp) (G : List (List Nat)) (s1 s2 : State),
      inputs pairs State.init = .ok sf ∧ Built sf ∧
      heap_names sf = creation_order pairs ∧
      (∀ c, adj_by_name sf c = (first_seen (targets c pairs)).reverse) ∧
      Top (links_of sf.heap) sf.heap heapF sf.heap.length G ∧
      (∀ j, j < sf.heap.length → num heapF j ≠ 0) ∧
      pass1 pairs = .ok s1 ∧
      s1 = ⟨heapF, sf.heap.length, none, (reported true G).length, sf.finger, true,
        sf.outfile ++ render (fun i => name_of sf.heap (some i)) true 0 G⟩ ∧
      pass2 pairs s1 = .ok s2 ∧ main pairs = .ok s2 ∧
      s2 = rebase s1.heap s1.outfile ⟨heapF, sf.heap.length, none, (reported false G).length,
        sf.finger, false, render (fun i => name_of sf.heap (some i)) false 0 G⟩ ∧
      inputs pairs (reset s1) =
        .ok (rebase s1.heap s1.outfile ⟨sf.heap, 0, none, 0, sf.finger, false, []⟩) := by
  obtain ⟨old, pre, sf, _, hin, hb, hnames, hadj, e1, e2, e3, e4, hnil⟩ :=
    inputs_start none pairs
  obtain ⟨rfl, rfl⟩ := hnil rfl
  rw [rebase_nil] at hin
  have hin0 : inputs pairs State.init = .ok sf := hin
  have e4 : sf.single = true := e4
  obtain ⟨heapF, G, htop, hall, hrun⟩ := traverse_spec hb
  -- the first pass
  have hsf : sf = ⟨sf.heap, 0, none, 0, sf.finger, true, sf.outfile⟩ := by
    conv_lhs => rw [sf.eta]
    rw [e1, e2, e3, e4]
  have hp1 : pass1 pairs = .ok ⟨heapF, sf.heap.length, none, (reported true G).length,
      sf.finger, true,
      sf.outfile ++ render (fun i => name_of sf.heap (some i)) true 0 G⟩ := by
    unfold pass1
    rw [hin0]
    simp only
    have h1 := hrun [] [] 0 true sf.outfile
    rw [rebase_nil, rebase_nil, ← hsf] at h1
    simp only [List.length_nil, Nat.zero_add, shift_ptr_zero] at h1
    exact h1
  -- the second pass
  obtain ⟨sf2, g1, g2, _, _, f1, f2, f3, f4, f5⟩ := inputs_spec pairs (Built.fresh false)
  obtain ⟨t, t1, ht, ht1, c1, c2⟩ :=
    inputs_congr pairs (Built.fresh true) (Built.fresh false) rfl rfl
  have ht0 : inputs pairs State.init = .ok t := ht
  rw [hin0] at ht0
  cases ht0
  rw [g1] at ht1
  cases ht1
  have hsf2 : sf2 = ⟨sf.heap, 0, none, 0, sf.finger, false, []⟩ := by
    have f5 := f5 rfl
    conv_lhs => rw [sf2.eta]
    rw [c1, c2, f1, f2, f3, f4, f5]
    rfl
  have hp2 : pass2 pairs ⟨heapF, sf.heap.length, none, (reported true G).length, sf.finger,
      true, sf.outfile ++ render (fun i => name_of sf.heap (some i)) true 0 G⟩ =
      .ok (rebase heapF (sf.outfile ++ render (fun i => name_of sf.heap (some i)) true 0 G)
        ⟨heapF, sf.heap.length, none, (reported false G).length, sf.finger, false,
          render (fun i => name_of sf.heap (some i)) false 0 G⟩) := by
    unfold pass2
    have hr : reset ⟨heapF, sf.heap.length, none, (reported true G).length, sf.finger, true,
        sf.outfile ++ render (fun i => name_of sf.heap (some i)) true 0 G⟩ =
        rebase heapF (sf.outfile ++ render (fun i => name_of sf.heap (some i)) true 0 G)
          (State.fresh false) := by
      simp [reset, rebase, State.fresh, State.init, shift_ptr]
    rw [hr, inputs_rebase _ _ pairs g1]
    simp only
    have h1 := hrun heapF (sf.outfile ++ render (fun i => name_of sf.heap (some i)) true 0 G)
      0 false []
    rw [← hsf2] at h1
    simp only [Nat.zero_add, List.nil_append] at h1
    have e5 : (rebase heapF
        (sf.outfile ++ render (fun i => name_of sf.heap (some i)) true 0 G) sf2).heap.length =
        heapF.length + sf.heap.length := by
      rw [c1]
      simp [rebase]
    have e6 : (rebase heapF
        (sf.outfile ++ render (fun i => name_of sf.heap (some i)) true 0 G) sf2).finger =
        shift_ptr heapF.length sf.finger := by
      rw [c2]
      rfl
    rw [e5, e6]
    exact h1
  refine ⟨sf, heapF, G, _, _, hin0, hb, hnames, hadj, htop, hall, hp1, rfl, hp2, ?_, rfl, ?_⟩
  · unfold main
    rw [hp1]
    exact hp2
  · have hr : reset ⟨heapF, sf.heap.length, none, (reported true G).length, sf.finger, true,
        sf.outfile ++ render (fun i => name_of sf.heap (some i)) true 0 G⟩ =
        rebase heapF (sf.outfile ++ render (fun i => name_of sf.heap (some i)) true 0 G)
          (State.fresh false) := by
      simp [reset, rebase, State.fresh, State.init, shift_ptr]
    rw [hr, inputs_rebase _ _ pairs g1, hsf2]

end TarjanSCC


namespace TarjanSCC

/-! ## Names and pointers -/

theorem mem_flatten_pairs {pairs : List (Int × Int)} {a : Int} :
    a ∈ flatten_pairs pairs ↔ is_node pairs a := by
  induction pairs with
  | nil =>
    constructor
    · intro h; cases h
    · rintro ⟨p, hp, _⟩; cases hp
  | cons q rest ih =>
    obtain ⟨x, y⟩ := q
    simp only [flatten_pairs, List.mem_cons, ih]
    constructor
    · rintro (h | h | ⟨p, hp, h⟩)
      · exact ⟨(x, y), List.mem_cons_self _ _, Or.inl h.symm⟩
      · exact ⟨(x, y), List.mem_cons_self _ _, Or.inr h.symm⟩
      · exact ⟨p, List.mem_cons_of_mem _ hp, h⟩
    · rintro ⟨p, hp, h⟩
      rcases List.mem_cons.mp hp with h1 | h1
      · subst h1
        rcases h with h | h
        · exact Or.inl h.symm
        · exact Or.inr (Or.inl h.symm)
      · exact Or.inr (Or.inr ⟨p, h1, h⟩)

theorem mem_creation_order {pairs : List (Int × Int)} {a : Int} :
    a ∈ creation_order pairs ↔ is_node pairs a := by
  unfold creation_order
  rw [mem_first_seen, mem_flatten_pairs]

theorem node_iff {sf : State} {pairs : List (Int × Int)}
    (hnames : heap_names sf = creation_order pairs) (a : Int) :
    is_node pairs a ↔ ∃ (i : Nat) (nd : node_tp), sf.heap[i]? = some nd ∧ nd.name = a := by
  rw [← mem_creation_order, ← hnames, mem_heap_names]

theorem edge_iff {sf : State} {pairs : List (Int × Int)} (hb : Built sf)
    (hadj : ∀ c, adj_by_name sf c = (first_seen (targets c pairs)).reverse)
    {i j : Nat} {ni nj : node_tp} (hi : sf.heap[i]? = some ni) (hj : sf.heap[j]? = some nj) :
    edge (links_of sf.heap) i j ↔ pair_edge pairs ni.name nj.name := by
  unfold edge pair_edge
  rw [← mem_adj_names_iff hb i hj]
  have h1 : adj_by_name sf ni.name = adj_names sf.heap i := by
    unfold adj_by_name
    rw [find_below_of_get hb hi]
  rw [← h1, hadj, List.mem_reverse, mem_first_seen, mem_targets]

theorem edge_valid {sf : State} (hb : Built sf) {i j : Nat}
    (h : edge (links_of sf.heap) i j) : i < sf.heap.length ∧ j < sf.heap.length := by
  unfold edge at h
  cases hi : sf.heap[i]? with
  | none => rw [links_of_none hi] at h; cases h
  | some ni =>
    rw [links_of_get hi] at h
    obtain ⟨k, hk, hlt⟩ := hb.link_valid i ni (some j) hi h
    cases hk
    exact ⟨lt_of_get hi, hlt⟩

theorem reach_names {sf : State} {pairs : List (Int × Int)} (hb : Built sf)
    (hadj : ∀ c, adj_by_name sf c = (first_seen (targets c pairs)).reverse)
    {i j : Nat} (hi : i < sf.heap.length) (h : Reach (links_of sf.heap) i j) :
    j < sf.heap.length ∧
      reachable pairs (name_of sf.heap (some i)) (name_of sf.heap (some j)) := by
  induction h with
  | refl => exact ⟨hi, Relation.ReflTransGen.refl⟩
  | tail _ hstep ih =>
    obtain ⟨h1, h2⟩ := ih
    obtain ⟨h3, h4⟩ := edge_valid hb hstep
    refine ⟨h4, Relation.ReflTransGen.tail h2 ?_⟩
    obtain ⟨nk, hk⟩ := get_of_lt h3
    obtain ⟨nj, hj⟩ := get_of_lt h4
    rw [name_of_get hk, name_of_get hj]
    exact (edge_iff hb hadj hk hj).mp hstep

theorem names_reach {sf : State} {pairs : List (Int × Int)} (hb : Built sf)
    (hnames : heap_names sf = creation_order pairs)
    (hadj : ∀ c, adj_by_name sf c = (first_seen (targets c pairs)).reverse)
    {i : Nat} {ni : node_tp} (hi : sf.heap[i]? = some ni) {b : Int}
    (h : reachable pairs ni.name b) :
    ∃ (j : Nat) (nj : node_tp), sf.heap[j]? = some nj ∧ nj.name = b ∧
      Reach (links_of sf.heap) i j := by
  induction h with
  | refl => exact ⟨i, ni, hi, rfl, Relation.ReflTransGen.refl⟩
  | @tail c d _ hstep ih =>
    obtain ⟨k, nk, hk, hkn, hreach⟩ := ih
    have hd : is_node pairs d := ⟨(c, d), hstep, Or.inr rfl⟩
    obtain ⟨j, nj, hj, hjn⟩ := (node_iff hnames d).mp hd
    refine ⟨j, nj, hj, hjn, Relation.ReflTransGen.tail hreach ?_⟩
    rw [edge_iff hb hadj hk hj, hkn, hjn]
    exact hstep

/-- Two nodes reach each other along links exactly when their names reach each other along
pairs. -/
theorem reach_iff {sf : State} {pairs : List (Int × Int)} (hb : Built sf)
    (hnames : heap_names sf = creation_order pairs)
    (hadj : ∀ c, adj_by_name sf c = (first_seen (targets c pairs)).reverse)
    {i j : Nat} {ni nj : node_tp} (hi : sf.heap[i]? = some ni) (hj : sf.heap[j]? = some nj) :
    Reach (links_of sf.heap) i j ↔ reachable pairs ni.name nj.name := by
  constructor
  · intro h
    have := (reach_names hb hadj (lt_of_get hi) h).2
    rw [name_of_get hi, name_of_get hj] at this
    exact this
  · intro h
    obtain ⟨k, nk, hk, hkn, hreach⟩ := names_reach hb hnames hadj hi h
    have : k = j := hb.names_inj k j nk nj hk hj hkn
    rw [← this]
    exact hreach

end TarjanSCC


namespace TarjanSCC

/-! ## Reading the report -/

theorem components_aux_members (name : Nat → Int) (g : List Nat) (rest : List Line) :
    components_aux (g.map (fun i => Line.member (name i)) ++ rest) =
      (g.map name ++ (components_aux rest).1, (components_aux rest).2) := by
  induction g with
  | nil => rfl
  | cons x g ih =>
    simp only [List.map_cons, List.cons_append, components_aux, List.append_eq, ih]

theorem components_aux_render (name : Nat → Int) (b : Bool) :
    ∀ (G : List (List Nat)) (c : Nat),
      components_aux (render name b c G) = ([], (reported b G).map (List.map name)) := by
  intro G
  induction G with
  | nil =>
    intro c
    cases b <;> rfl
  | cons g rest ih =>
    intro c
    by_cases hc : b = false ∧ g.length = 1
    · have e1 : render name b c (g :: rest) = render name b c rest := by
        simp only [render, if_pos hc]
      have e2 : reported b (g :: rest) = reported b rest := by
        obtain ⟨hb, hg⟩ := hc
        subst hb
        simp [reported, List.filter_cons, hg]
      rw [e1, e2, ih]
    · have e1 : render name b c (g :: rest) =
          (Line.header (c + 1) :: g.map (fun i => Line.member (name i))) ++
            render name b (c + 1) rest := by
        simp only [render, if_neg hc]
      have e2 : reported b (g :: rest) = g :: reported b rest := by
        cases b with
        | true => simp [reported]
        | false =>
          have hg : g.length ≠ 1 := fun h => hc ⟨rfl, h⟩
          simp [reported, List.filter_cons, hg]
      rw [e1, e2, List.cons_append]
      simp only [components_aux]
      rw [components_aux_members, ih]
      simp

theorem components_aux_input_lines (pre l : List Line)
    (hpre : ∀ x, x ∈ pre → is_input_line x = true) :
    components_aux (pre ++ l) = components_aux l := by
  induction pre with
  | nil => rfl
  | cons x pre ih =>
    have h1 := hpre x (List.mem_cons_self _ _)
    have h2 := ih (fun y hy => hpre y (List.mem_cons_of_mem _ hy))
    cases x with
    | edge a b => simp only [List.cons_append, components_aux, List.append_eq, h2]
    | skipped a b => simp only [List.cons_append, components_aux, List.append_eq, h2]
    | header k => cases h1
    | member n => cases h1

/-- The components a pass lists are the components it extracted and reports, by name. -/
theorem components_render (name : Nat → Int) (b : Bool) (G : List (List Nat)) (c : Nat)
    (pre : List Line) (hpre : ∀ x, x ∈ pre → is_input_line x = true) :
    components (pre ++ render name b c G) = (reported b G).map (List.map name) := by
  unfold components
  rw [components_aux_input_lines pre _ hpre, components_aux_render]

theorem header_numbers_members (name : Nat → Int) (g : List Nat) (rest : List Line) :
    header_numbers (g.map (fun i => Line.member (name i)) ++ rest) = header_numbers rest := by
  induction g with
  | nil => rfl
  | cons x g ih =>
    simp only [List.map_cons, List.cons_append, header_numbers, List.append_eq, ih]

theorem header_numbers_render (name : Nat → Int) (b : Bool) :
    ∀ (G : List (List Nat)) (c : Nat),
      header_numbers (render name b c G) = List.range' (c + 1) (reported b G).length := by
  intro G
  induction G with
  | nil =>
    intro c
    cases b <;> rfl
  | cons g rest ih =>
    intro c
    by_cases hc : b = false ∧ g.length = 1
    · have e1 : render name b c (g :: rest) = render name b c rest := by
        simp only [render, if_pos hc]
      have e2 : reported b (g :: rest) = reported b rest := by
        obtain ⟨hb, hg⟩ := hc
        subst hb
        simp [reported, List.filter_cons, hg]
      rw [e1, e2, ih]
    · have e1 : render name b c (g :: rest) =
          (Line.header (c + 1) :: g.map (fun i => Line.member (name i))) ++
            render name b (c + 1) rest := by
        simp only [render, if_neg hc]
      have e2 : reported b (g :: rest) = g :: reported b rest := by
        cases b with
        | true => simp [reported]
        | false =>
          have hg : g.length ≠ 1 := fun h => hc ⟨rfl, h⟩
          simp [reported, List.filter_cons, hg]
      rw [e1, e2, List.cons_append]
      simp only [header_numbers]
      rw [header_numbers_members, ih, List.length_cons, List.range'_succ]

theorem header_numbers_input_lines (pre l : List Line)
    (hpre : ∀ x, x ∈ pre → is_input_line x = true) :
    header_numbers (pre ++ l) = header_numbers l := by
  induction pre with
  | nil => rfl
  | cons x pre ih =>
    have h1 := hpre x (List.mem_cons_self _ _)
    have h2 := ih (fun y hy => hpre y (List.mem_cons_of_mem _ hy))
    cases x with
    | edge a b => simp only [List.cons_append, header_numbers, List.append_eq, h2]
    | skipped a b => simp only [List.cons_append, header_numbers, List.append_eq, h2]
    | header k => cases h1
    | member n => cases h1

/-- The lines `inputs` writes are lines of `input`. -/
theorem inputs_lines (pairs : List (Int × Int)) :
    ∀ {st st1 : State}, Built st → inputs pairs st = .ok st1 →
      (∀ x, x ∈ st.outfile → is_input_line x = true) →
      ∀ x, x ∈ st1.outfile → is_input_line x = true := by
  induction pairs with
  | nil =>
    intro st st1 _ h hst
    cases h
    exact hst
  | cons p rest ih =>
    intro st st1 hb h hst
    obtain ⟨a, b⟩ := p
    obtain ⟨s, hs, hbs, _, _, _, _, _, _, hout⟩ := input_step hb a b
    simp only [inputs, hs] at h
    refine ih hbs h ?_
    intro x hx
    rw [hout] at hx
    by_cases hsingle : st.single = true
    · rw [if_pos hsingle] at hx
      rcases List.mem_append.mp hx with h1 | h1
      · exact hst x h1
      · rw [List.mem_singleton] at h1
        rw [h1]
        split <;> rfl
    · rw [if_neg hsingle] at hx
      exact hst x hx

end TarjanSCC


namespace TarjanSCC

/-! ## The components of the two passes, by name -/

theorem final_mem {sf : State} (hb : Built sf) {heapF : List node_tp} {G : List (List Nat)}
    (htop : Top (links_of sf.heap) sf.heap heapF sf.heap.length G)
    (hall : ∀ j, j < sf.heap.length → num heapF j ≠ 0) (i : Nat) :
    i ∈ G.flatten ↔ i < sf.heap.length := by
  rw [htop.groups.mem i]
  constructor
  · rintro ⟨_, h2, _⟩
    have := lt_of_num_ne h2
    rw [htop.later.length] at this
    exact this
  · intro hi
    obtain ⟨nd, hnd⟩ := get_of_lt hi
    refine ⟨?_, hall i hi, ?_⟩
    · rw [num_of_get hnd]
      exact (hb.untouched i nd hnd).1
    · cases hv : vis heapF i with
      | false => rfl
      | true => cases (htop.inv.vis_iff i).mp hv

theorem name_inj {sf : State} (hb : Built sf) {i j : Nat} (hi : i < sf.heap.length)
    (hj : j < sf.heap.length) (h : name_of sf.heap (some i) = name_of sf.heap (some j)) :
    i = j := by
  obtain ⟨ni, hni⟩ := get_of_lt hi
  obtain ⟨nj, hnj⟩ := get_of_lt hj
  rw [name_of_get hni, name_of_get hnj] at h
  exact hb.names_inj i j ni nj hni hnj h

theorem reported_false_map (name : Nat → Int) (G : List (List Nat)) :
    (reported false G).map (List.map name) =
      (G.map (List.map name)).filter (fun g => decide (g.length ≠ 1)) := by
  unfold reported
  simp only [Bool.false_eq_true, if_false]
  induction G with
  | nil => rfl
  | cons g rest ih =>
    by_cases hg : g.length = 1
    · rw [List.filter_cons, if_neg (by simp [hg]), List.map_cons, List.filter_cons,
        if_neg (by simp [hg]), ih]
    · rw [List.filter_cons, if_pos (by simp [hg]), List.map_cons, List.map_cons,
        List.filter_cons, if_pos (by simp [hg]), ih]

theorem reported_true (G : List (List Nat)) : reported true G = G := rfl

/-- The two passes of `main` end; the first lists the components `NG`, which are the strongly
connected components of the graph of the pairs, each node once; the second lists those of
them that have more than one member; both number the components they list from 1 on. -/
theorem report_spec (pairs : List (Int × Int)) :
    ∃ (NG : List (List Int)) (s1 s2 : State) (out2 : List Line),
      pass1 pairs = .ok s1 ∧ pass2 pairs s1 = .ok s2 ∧ main pairs = .ok s2 ∧
      components s1.outfile = NG ∧
      header_numbers s1.outfile = List.range' 1 NG.length ∧
      s2.outfile = s1.outfile ++ out2 ∧
      components out2 = NG.filter (fun g => decide (g.length ≠ 1)) ∧
      header_numbers out2 =
        List.range' 1 (NG.filter (fun g => decide (g.length ≠ 1))).length ∧
      NG.flatten.Nodup ∧
      (∀ a, a ∈ NG.flatten ↔ is_node pairs a) ∧
      (∀ g, g ∈ NG → ∀ a, a ∈ g → ∀ b, b ∈ g ↔ (reachable pairs a b ∧ reachable pairs b a)) ∧
      (∀ g, g ∈ NG → g ≠ []) := by
  obtain ⟨sf, heapF, G, s1, s2, hin, hb, hnames, hadj, htop, hall, hp1, hs1, hp2, hmain, hs2, _⟩ :=
    main_spec pairs
  have hlines : ∀ x, x ∈ sf.outfile → is_input_line x = true :=
    inputs_lines pairs (Built.fresh true) hin (fun x hx => by cases hx)
  have hmem := final_mem hb htop hall
  have hout1 : s1.outfile =
      sf.outfile ++ render (fun i => name_of sf.heap (some i)) true 0 G := by rw [hs1]
  have hout2 : s2.outfile =
      s1.outfile ++ render (fun i => name_of sf.heap (some i)) false 0 G := by rw [hs2]; rfl
  refine ⟨G.map (List.map (fun i => name_of sf.heap (some i))), s1, s2,
    render (fun i => name_of sf.heap (some i)) false 0 G, hp1, hp2, hmain, ?_, ?_, hout2,
    ?_, ?_, ?_, ?_, ?_, ?_⟩
  · rw [hout1, components_render _ _ _ _ _ hlines, reported_true]
  · rw [hout1, header_numbers_input_lines _ _ hlines, header_numbers_render, reported_true,
      List.length_map]
  · have := components_render (fun i => name_of sf.heap (some i)) false G 0 []
      (fun x hx => by cases hx)
    rw [List.nil_append] at this
    rw [this, reported_false_map]
  · rw [header_numbers_render, ← reported_false_map, List.length_map]
  · have e : (G.map (List.map (fun i => name_of sf.heap (some i)))).flatten =
        G.flatten.map (fun i => name_of sf.heap (some i)) := by
      rw [List.map_flatten]
    rw [e]
    apply List.Nodup.map_on _ htop.groups.nodup
    intro x hx y hy hxy
    exact name_inj hb ((hmem x).mp hx) ((hmem y).mp hy) hxy
  · intro a
    have e : (G.map (List.map (fun i => name_of sf.heap (some i)))).flatten =
        G.flatten.map (fun i => name_of sf.heap (some i)) := by
      rw [List.map_flatten]
    rw [e, List.mem_map, node_iff hnames]
    constructor
    · rintro ⟨i, hi, hia⟩
      obtain ⟨nd, hnd⟩ := get_of_lt ((hmem i).mp hi)
      refine ⟨i, nd, hnd, ?_⟩
      rw [← hia, name_of_get hnd]
    · rintro ⟨i, nd, hnd, hia⟩
      refine ⟨i, (hmem i).mpr (lt_of_get hnd), ?_⟩
      rw [← hia, name_of_get hnd]
  · intro g hg a ha b
    obtain ⟨g0, hg0, rfl⟩ := List.mem_map.mp hg
    obtain ⟨x, hx, rfl⟩ := List.mem_map.mp ha
    have hxf : x ∈ G.flatten := List.mem_flatten.mpr ⟨g0, hg0, hx⟩
    obtain ⟨nx, hnx⟩ := get_of_lt ((hmem x).mp hxf)
    rw [List.mem_map]
    constructor
    · rintro ⟨z, hz, rfl⟩
      have hzf : z ∈ G.flatten := List.mem_flatten.mpr ⟨g0, hg0, hz⟩
      obtain ⟨nz, hnz⟩ := get_of_lt ((hmem z).mp hzf)
      obtain ⟨r1, r2⟩ := (htop.groups.scc g0 hg0 x hx z).mp hz
      simp only [name_of_get hnx, name_of_get hnz]
      exact ⟨(reach_iff hb hnames hadj hnx hnz).mp r1, (reach_iff hb hnames hadj hnz hnx).mp r2⟩
    · rintro ⟨r1, r2⟩
      simp only [name_of_get hnx] at r1 r2
      obtain ⟨j, nj, hj, hjn, hreach⟩ := names_reach hb hnames hadj hnx r1
      rw [← hjn] at r2
      have hback := (reach_iff hb hnames hadj hj hnx).mpr r2
      refine ⟨j, (htop.groups.scc g0 hg0 x hx j).mpr ⟨hreach, hback⟩, ?_⟩
      rw [name_of_get hj, hjn]
  · intro g hg hnil
    obtain ⟨g0, hg0, rfl⟩ := List.mem_map.mp hg
    obtain ⟨r, hr, _⟩ := htop.groups.root g0 hg0
    rw [List.map_eq_nil_iff] at hnil
    rw [hnil] at hr
    cases hr

end TarjanSCC


namespace TarjanSCC

/-! ## Lists of components -/

theorem exists_ne_of_length {g : List Int} (hn : g.Nodup) {a : Int} (hl : g.length ≠ 1)
    (ha : a ∈ g) : ∃ b, b ∈ g ∧ b ≠ a := by
  by_contra hcon
  have hall : ∀ b, b ∈ g → b = a := by
    intro b hb
    by_contra hne
    exact hcon ⟨b, hb, hne⟩
  apply hl
  cases g with
  | nil => cases ha
  | cons x rest =>
    cases rest with
    | nil => rfl
    | cons y rest2 =>
      have h1 := hall x (List.mem_cons_self _ _)
      have h2 := hall y (List.mem_cons_of_mem _ (List.mem_cons_self _ _))
      rw [h1, h2] at hn
      simp at hn

theorem length_ne_one_of_two {g : List Int} {a b : Int} (ha : a ∈ g) (hb : b ∈ g)
    (hab : b ≠ a) : g.length ≠ 1 := by
  intro hl
  obtain ⟨x, rfl⟩ := List.length_eq_one.mp hl
  rw [List.mem_singleton] at ha hb
  exact hab (hb.trans ha.symm)

theorem nodup_of_mem_flatten_nodup {NG : List (List Int)} (h : NG.flatten.Nodup)
    {g : List Int} (hg : g ∈ NG) : g.Nodup :=
  (List.nodup_flatten.mp h).1 g hg

theorem flatten_filter_sublist (p : List Int → Bool) :
    ∀ (NG : List (List Int)), (NG.filter p).flatten.Sublist NG.flatten := by
  intro NG
  induction NG with
  | nil => exact List.Sublist.refl _
  | cons g rest ih =>
    rw [List.filter_cons]
    by_cases hp : p g = true
    · rw [if_pos hp, List.flatten_cons, List.flatten_cons]
      exact List.Sublist.append (List.Sublist.refl g) ih
    · rw [if_neg hp, List.flatten_cons]
      exact List.Sublist.trans ih (List.sublist_append_right g _)

theorem flatten_filter_nodup {NG : List (List Int)} (h : NG.flatten.Nodup)
    (p : List Int → Bool) : (NG.filter p).flatten.Nodup :=
  List.Nodup.sublist (flatten_filter_sublist p NG) h

theorem two_le_length {g : List Int} (h0 : g ≠ []) (h1 : g.length ≠ 1) : 2 ≤ g.length := by
  cases g with
  | nil => exact absurd rfl h0
  | cons x rest =>
    cases rest with
    | nil => exact absurd rfl h1
    | cons y r => simp

theorem flatten_length_of_singletons :
    ∀ (NG : List (List Int)), (∀ g, g ∈ NG → g.length = 1) → NG.flatten.length = NG.length := by
  intro NG
  induction NG with
  | nil => intro _; rfl
  | cons g rest ih =>
    intro h
    rw [List.flatten_cons, List.length_append, List.length_cons,
      h g (List.mem_cons_self _ _), ih (fun x hx => h x (List.mem_cons_of_mem _ hx))]
    omega

/-- A name that reaches a different name has an edge to a name from which that name is
reached. -/
theorem reachable_head {pairs : List (Int × Int)} {a b : Int} (h : reachable pairs a b)
    (hab : b ≠ a) : ∃ c, (a, c) ∈ pairs ∧ reachable pairs c b := by
  rcases Relation.ReflTransGen.cases_head h with h1 | ⟨c, h1, h2⟩
  · exact absurd h1.symm hab
  · exact ⟨c, h1, h2⟩

end TarjanSCC


namespace TarjanSCC

/-! ## The components that the passes emit -/

/-- C1: for every list of pairs the include-singletons pass ends, and the components it lists
are exactly the strongly connected components of the graph of the pairs: two nodes are listed
in the same component if and only if each is reachable from the other, every node is listed in
some component, and only nodes are listed. -/
theorem C1_include_pass_emits_the_sccs (pairs : List (Int × Int)) :
    ∃ s1, pass1 pairs = .ok s1 ∧
      (∀ a b, is_node pairs a → is_node pairs b →
        ((∃ g, g ∈ components s1.outfile ∧ a ∈ g ∧ b ∈ g) ↔
          (reachable pairs a b ∧ reachable pairs b a))) ∧
      (∀ a, is_node pairs a → ∃ g, g ∈ components s1.outfile ∧ a ∈ g) ∧
      (∀ g, g ∈ components s1.outfile → ∀ a, a ∈ g → is_node pairs a) := by
  obtain ⟨NG, s1, s2, out2, hp1, _, _, hc1, _, _, _, _, _, hmem, hscc, _⟩ := report_spec pairs
  refine ⟨s1, hp1, ?_, ?_, ?_⟩
  · intro a b ha _
    rw [hc1]
    constructor
    · rintro ⟨g, hg, hag, hbg⟩
      exact (hscc g hg a hag b).mp hbg
    · intro hr
      obtain ⟨g, hg, hag⟩ := List.mem_flatten.mp ((hmem a).mpr ha)
      exact ⟨g, hg, hag, (hscc g hg a hag b).mpr hr⟩
  · intro a ha
    rw [hc1]
    obtain ⟨g, hg, hag⟩ := List.mem_flatten.mp ((hmem a).mpr ha)
    exact ⟨g, hg, hag⟩
  · intro g hg a ha
    rw [hc1] at hg
    exact (hmem a).mp (List.mem_flatten.mpr ⟨g, hg, ha⟩)

/-- C2 fails as stated: for the single pair `(1, 2)` both passes end, `1` is a node of the
graph, and the exclude-singletons pass writes nothing at all, so the node `1` belongs to none
of its components. -/
theorem C2_counterexample :
    ∃ s1 s2, pass1 [(1, 2)] = .ok s1 ∧ pass2 [(1, 2)] s1 = .ok s2 ∧
      main [(1, 2)] = .ok s2 ∧ is_node [(1, 2)] 1 ∧
      s2.outfile = s1.outfile ∧
      components (s2.outfile.drop s1.outfile.length) = [] ∧
      ¬ ∃ g, g ∈ components (s2.outfile.drop s1.outfile.length) ∧ (1 : Int) ∈ g := by
  have h1 : pass1 [(1, 2)] = .ok
      { heap := [⟨[some 1], none, 2, 2, 1, false, none⟩, ⟨[], some 0, 1, 1, 2, false, none⟩],
        scc_number := 2, scc_stack := none, scc_count := 2, finger := some 1, single := true,
        outfile := [.edge 1 2, .header 1, .member 2, .header 2, .member 1] } := by
    simp [pass1, inputs, input, find_or_make, exists_node, exists_loop, make_node, State.init,
      load, connect, new_link, new_link_loop, make_link, set_link, with_link, print,
      roots_loop, scc, push, pop, for_links, visit_link, extract, emit, pop_loop, set_lowlink,
      set_number, with_lowlink, with_number, mark_pushed, clear_visited, List.modify]
  have h2 : pass2 [(1, 2)]
      { heap := [⟨[some 1], none, 2, 2, 1, false, none⟩, ⟨[], some 0, 1, 1, 2, false, none⟩],
        scc_number := 2, scc_stack := none, scc_count := 2, finger := some 1, single := true,
        outfile := [.edge 1 2, .header 1, .member 2, .header 2, .member 1] } = .ok
      { heap := [⟨[some 1], none, 2, 2, 1, false, none⟩, ⟨[], some 0, 1, 1, 2, false, none⟩,
                 ⟨[some 3], none, 2, 2, 1, false, none⟩, ⟨[], some 2, 1, 1, 2, false, none⟩],
        scc_number := 2, scc_stack := none, scc_count := 0, finger := some 3, single := false,
        outfile := [.edge 1 2, .header 1, .member 2, .header 2, .member 1] } := by
    simp [pass2, reset, inputs, input, find_or_make, exists_node, exists_loop, make_node,
      load, connect, new_link, new_link_loop, make_link, set_link, with_link, print,
      roots_loop, scc, push, pop, for_links, visit_link, extract, emit, pop_loop, set_lowlink,
      set_number, with_lowlink, with_number, mark_pushed, clear_visited, List.modify]
  refine ⟨_, _, h1, h2, ?_, ⟨(1, 2), List.mem_singleton.mpr rfl, Or.inl rfl⟩, rfl, ?_, ?_⟩
  · unfold main
    rw [h1]
    exact h2
  · simp [components, components_aux]
  · simp [components, components_aux]

/-- C2, amended: both passes end.  In the include-singletons pass no name is listed twice and
the names listed are exactly the nodes, so every node belongs to exactly one emitted
component.  In the exclude-singletons pass no name is listed twice either, so a node belongs
to at most one emitted component, and the names listed are exactly the nodes that reach, and
are reached from, a node other than themselves. -/
theorem C2_every_node_in_one_component (pairs : List (Int × Int)) :
    ∃ s1 s2 out2, pass1 pairs = .ok s1 ∧ pass2 pairs s1 = .ok s2 ∧ main pairs = .ok s2 ∧
      s2.outfile = s1.outfile ++ out2 ∧
      (components s1.outfile).flatten.Nodup ∧
      (∀ a, a ∈ (components s1.outfile).flatten ↔ is_node pairs a) ∧
      (components out2).flatten.Nodup ∧
      (∀ a, a ∈ (components out2).flatten ↔
        (is_node pairs a ∧ ∃ b, b ≠ a ∧ reachable pairs a b ∧ reachable pairs b a)) := by
  obtain ⟨NG, s1, s2, out2, hp1, hp2, hmain, hc1, _, hout, hc2, _, hnd, hmem, hscc, _⟩ :=
    report_spec pairs
  refine ⟨s1, s2, out2, hp1, hp2, hmain, hout, ?_, ?_, ?_, ?_⟩
  · rw [hc1]; exact hnd
  · rw [hc1]; exact hmem
  · rw [hc2]; exact flatten_filter_nodup hnd _
  · intro a
    rw [hc2, List.mem_flatten]
    constructor
    · rintro ⟨g, hg, hag⟩
      obtain ⟨hgN, hlen⟩ := List.mem_filter.mp hg
      have hlen1 : g.length ≠ 1 := by simpa using hlen
      obtain ⟨b, hb, hba⟩ := exists_ne_of_length (nodup_of_mem_flatten_nodup hnd hgN) hlen1 hag
      exact ⟨(hmem a).mp (List.mem_flatten.mpr ⟨g, hgN, hag⟩), b, hba,
        (hscc g hgN a hag b).mp hb⟩
    · rintro ⟨ha, b, hba, hr⟩
      obtain ⟨g, hg, hag⟩ := List.mem_flatten.mp ((hmem a).mpr ha)
      have hbg := (hscc g hg a hag b).mpr hr
      refine ⟨g, List.mem_filter.mpr ⟨hg, ?_⟩, hag⟩
      simpa using length_ne_one_of_two hag hbg hba

/-- C3: both passes end, and the components the exclude-singletons pass lists are those of the
include-singletons pass without the components of one member, in the same order and with the
same members in the same order; they are numbered 1, 2, ..., k, and each has at least two
members. -/
theorem C3_exclude_pass_drops_the_singletons (pairs : List (Int × Int)) :
    ∃ s1 s2 out2, pass1 pairs = .ok s1 ∧ pass2 pairs s1 = .ok s2 ∧ main pairs = .ok s2 ∧
      s2.outfile = s1.outfile ++ out2 ∧
      components out2 = (components s1.outfile).filter (fun g => decide (g.length ≠ 1)) ∧
      header_numbers out2 = List.range' 1 (components out2).length ∧
      (∀ g, g ∈ components out2 → 2 ≤ g.length) := by
  obtain ⟨NG, s1, s2, out2, hp1, hp2, hmain, hc1, _, hout, hc2, hh2, _, _, _, hne⟩ :=
    report_spec pairs
  refine ⟨s1, s2, out2, hp1, hp2, hmain, hout, ?_, ?_, ?_⟩
  · rw [hc1]; exact hc2
  · rw [hc2]; exact hh2
  · intro g hg
    rw [hc2] at hg
    obtain ⟨hgN, hlen⟩ := List.mem_filter.mp hg
    exact two_le_length (hne g hgN) (by simpa using hlen)

/-- C4: when the graph of the pairs has no cycle (no edge leads to a node from which its
source is reached), both passes end, the exclude-singletons pass lists no component and
writes no header, and the include-singletons pass lists components of exactly one member,
one for every node: no name is listed twice, the names listed are the nodes, and the number
of components is the number of distinct names in the pairs. -/
theorem C4_acyclic_graph_gives_singletons (pairs : List (Int × Int))
    (hacyc : ∀ a b, (a, b) ∈ pairs → ¬ reachable pairs b a) :
    ∃ s1 s2 out2, pass1 pairs = .ok s1 ∧ pass2 pairs s1 = .ok s2 ∧ main pairs = .ok s2 ∧
      s2.outfile = s1.outfile ++ out2 ∧
      components out2 = [] ∧ header_numbers out2 = [] ∧
      (∀ g, g ∈ components s1.outfile → g.length = 1) ∧
      (components s1.outfile).flatten.Nodup ∧
      (∀ a, is_node pairs a ↔ [a] ∈ components s1.outfile) ∧
      (components s1.outfile).length = (flatten_pairs pairs).toFinset.card := by
  obtain ⟨NG, s1, s2, out2, hp1, hp2, hmain, hc1, _, hout, hc2, hh2, hnd, hmem, hscc, hne⟩ :=
    report_spec pairs
  have hone : ∀ g, g ∈ NG → g.length = 1 := by
    intro g hg
    by_contra hlen
    obtain ⟨a, ha⟩ := List.exists_mem_of_ne_nil g (hne g hg)
    obtain ⟨b, hb, hba⟩ := exists_ne_of_length (nodup_of_mem_flatten_nodup hnd hg) hlen ha
    obtain ⟨r1, r2⟩ := (hscc g hg a ha b).mp hb
    obtain ⟨c, hc, hcb⟩ := reachable_head r1 hba
    exact hacyc a c hc (Relation.ReflTransGen.trans hcb r2)
  have hfilter : NG.filter (fun g => decide (g.length ≠ 1)) = [] := by
    rw [List.filter_eq_nil_iff]
    intro g hg
    simp [hone g hg]
  refine ⟨s1, s2, out2, hp1, hp2, hmain, hout, ?_, ?_, ?_, ?_, ?_, ?_⟩
  · rw [hc2, hfilter]
  · rw [hh2, hfilter]; rfl
  · rw [hc1]; exact hone
  · rw [hc1]; exact hnd
  · intro a
    rw [hc1, ← hmem a, List.mem_flatten]
    constructor
    · rintro ⟨g, hg, hag⟩
      obtain ⟨x, rfl⟩ := List.length_eq_one.mp (hone g hg)
      rw [List.mem_singleton] at hag
      rw [hag]
      exact hg
    · intro h
      exact ⟨[a], h, List.mem_singleton.mpr rfl⟩
  · rw [hc1, ← flatten_length_of_singletons NG hone, ← List.toFinset_card_of_nodup hnd]
    congr 1
    ext a
    rw [List.mem_toFinset, List.mem_toFinset, hmem a, mem_flatten_pairs]

/-- C4 applies to the single pair `(1, 2)`, whose graph has no cycle. -/
theorem C4_witness :
    (∀ a b, (a, b) ∈ [((1 : Int), (2 : Int))] → ¬ reachable [(1, 2)] b a) ∧
    ∃ s1 s2 out2, pass1 [(1, 2)] = .ok s1 ∧ pass2 [(1, 2)] s1 = .ok s2 ∧
      main [(1, 2)] = .ok s2 ∧ s2.outfile = s1.outfile ++ out2 ∧
      components out2 = [] ∧ header_numbers out2 = [] ∧
      (∀ g, g ∈ components s1.outfile → g.length = 1) ∧
      (components s1.outfile).flatten.Nodup ∧
      (∀ a, is_node [(1, 2)] a ↔ [a] ∈ components s1.outfile) ∧
      (components s1.outfile).length = (flatten_pairs [(1, 2)]).toFinset.card :=
  have hacyc : ∀ a b, (a, b) ∈ [((1 : Int), (2 : Int))] → ¬ reachable [(1, 2)] b a := by
    intro a b hab hr
    simp only [List.mem_singleton, Prod.mk.injEq] at hab
    obtain ⟨rfl, rfl⟩ := hab
    obtain ⟨c, hc, _⟩ := reachable_head hr (by decide)
    simp at hc
  ⟨hacyc, C4_acyclic_graph_gives_singletons [(1, 2)] hacyc⟩

end TarjanSCC


namespace TarjanSCC

/-! ## The fields of a node found by its name -/

theorem find_below_static {heap heap1 : List node_tp}
    (h : heap1.map static_of = heap.map static_of) (n : Int) :
    ∀ (m : Nat), find_below heap1 n m = find_below heap n m := by
  intro m
  induction m with
  | zero => rfl
  | succ m ih =>
    have h1 := congrArg (fun l => l[m]?) h
    simp only [List.getElem?_map] at h1
    unfold find_below
    cases h2 : heap1[m]? with
    | none =>
      rw [h2] at h1
      cases h3 : heap[m]? with
      | none => simp only [ih]
      | some nd => rw [h3] at h1; cases h1
    | some nd1 =>
      rw [h2] at h1
      cases h3 : heap[m]? with
      | none => rw [h3] at h1; cases h1
      | some nd =>
        rw [h3] at h1
        simp only [Option.map_some', Option.some.injEq, static_of, Prod.mk.injEq] at h1
        simp only [h1.2.2, ih]

theorem exists_node_final {sf : State} (hb : Built sf) {heapF : List node_tp}
    (hs : heapF.map static_of = sf.heap.map static_of) (K : Nat) (stk : node_ptr_tp) (c : Nat)
    (b : Bool) (o : List Line) (a : Int) :
    exists_node a ⟨heapF, K, stk, c, sf.finger, b, o⟩ =
      .ok (find_below sf.heap a sf.heap.length) := by
  unfold exists_node
  have hlen : heapF.length = sf.heap.length := length_static hs
  have hf : ∀ (i : Nat) (nd : node_tp), heapF[i]? = some nd →
      nd.finger = if i = 0 then none else some (i - 1) := by
    intro i nd hnd
    obtain ⟨nd0, hnd0⟩ := get_of_lt (show i < sf.heap.length by rw [← hlen]; exact lt_of_get hnd)
    rw [finger_static hs hnd0 hnd]
    exact hb.node_finger i nd0 hnd0
  have h1 := exists_loop_eq a hf heapF.length heapF.length (Nat.le_refl _) (Nat.le_refl _)
  rw [find_below_static hs, hlen] at h1
  simp only
  rw [hb.finger_eq, hlen]
  exact h1

/-- In the state a pass ends in, also behind older nodes, the node found by the name of the
node at `i` has the fields of the node at `i` in the final heap of the pass. -/
theorem fields_final {sf : State} (hb : Built sf) {heapF : List node_tp}
    (hs : heapF.map static_of = sf.heap.map static_of) (old : List node_tp) (pre : List Line)
    (K : Nat) (stk : node_ptr_tp) (c : Nat) (b : Bool) (o : List Line) {i : Nat}
    (hi : i < sf.heap.length) :
    number_of (rebase old pre ⟨heapF, K, stk, c, sf.finger, b, o⟩)
        (name_of sf.heap (some i)) = num heapF i ∧
    lowlink_of (rebase old pre ⟨heapF, K, stk, c, sf.finger, b, o⟩)
        (name_of sf.heap (some i)) = low heapF i := by
  obtain ⟨nd, hnd⟩ := get_of_lt hi
  have h1 := exists_node_final hb hs K stk c b o (name_of sf.heap (some i))
  rw [name_of_get hnd, find_below_of_get hb hnd] at h1
  have h2 := exists_node_rebase old pre h1
  rw [shift_ptr_some] at h2
  have hget := get_rebase old pre ⟨heapF, K, stk, c, sf.finger, b, o⟩ i
  have hlen : heapF.length = sf.heap.length := length_static hs
  obtain ⟨ndF, hndF⟩ := get_of_lt (show i < heapF.length by rw [hlen]; exact hi)
  simp only [hndF, Option.map_some'] at hget
  constructor
  · unfold number_of
    rw [name_of_get hnd, h2]
    simp only
    rw [num_of_get hget, num_of_get hndF]
    rfl
  · unfold lowlink_of
    rw [name_of_get hnd, h2]
    simp only
    rw [low_of_get hget, low_of_get hndF]
    rfl

end TarjanSCC


namespace TarjanSCC

/-! ## The order of the components -/

/-- The root and the order of extracted components, read by name in a state in which the
node found by a name has the number it has in the final heap. -/
theorem order_names {adj : Nat → List node_ptr_tp} {heap0 heapF : List node_tp}
    {G G1 : List (List Nat)} (hg : Groups adj heap0 heapF G) (hsub : G1.Sublist G)
    (name : Nat → Int) (n : Nat) (hmem : ∀ i, i ∈ G.flatten → i < n) (st : State)
    (hnum : ∀ i, i < n → number_of st (name i) = num heapF i) :
    (∀ g, g ∈ G1.map (List.map name) →
      ∃ r, g.getLast? = some r ∧ ∀ x, x ∈ g → number_of st r ≤ number_of st x) ∧
    (G1.map (List.map name)).Pairwise (fun g1 g2 => ∀ r1 r2,
      g1.getLast? = some r1 → g2.getLast? = some r2 →
      (∀ x, x ∈ g1 → number_of st x < number_of st r2) ∨
        number_of st r2 < number_of st r1) := by
  have hlt : ∀ g, g ∈ G1 → ∀ x, x ∈ g → x < n := fun g hgm x hx =>
    hmem x (List.mem_flatten.mpr ⟨g, hsub.subset hgm, hx⟩)
  constructor
  · intro g hgm
    obtain ⟨g0, hg0, rfl⟩ := List.mem_map.mp hgm
    obtain ⟨r, hr, hmin⟩ := hg.root g0 (hsub.subset hg0)
    have hr1 : g0.getLast? = some r := hr
    refine ⟨name r, ?_, ?_⟩
    · rw [List.getLast?_map, hr1]
      rfl
    · intro x hx
      obtain ⟨y, hy, rfl⟩ := List.mem_map.mp hx
      rw [hnum r (hlt g0 hg0 r (root_mem hr)), hnum y (hlt g0 hg0 y hy)]
      exact hmin y hy
  · rw [List.pairwise_map]
    refine List.Pairwise.imp_of_mem ?_ (List.Pairwise.sublist hsub hg.order)
    intro g1 g2 hg1 hg2 hR r1 r2 h1 h2
    rw [List.getLast?_map] at h1 h2
    cases hq1 : g1.getLast? with
    | none => rw [hq1] at h1; cases h1
    | some q1 =>
      cases hq2 : g2.getLast? with
      | none => rw [hq2] at h2; cases h2
      | some q2 =>
        rw [hq1] at h1
        rw [hq2] at h2
        simp only [Option.map_some', Option.some.injEq] at h1 h2
        subst h1
        subst h2
        have e1 := hnum q1 (hlt g1 hg1 q1 (List.mem_of_getLast?_eq_some hq1))
        have e2 := hnum q2 (hlt g2 hg2 q2 (List.mem_of_getLast?_eq_some hq2))
        rcases hR q1 q2 hq1 hq2 with h3 | h3
        · left
          intro x hx
          obtain ⟨y, hy, rfl⟩ := List.mem_map.mp hx
          rw [hnum y (hlt g1 hg1 y hy), e2]
          exact h3 y hy
        · right
          rw [e1, e2]
          exact h3

/-- C5 fails as stated: for the pairs `(1, 1)`, `(2, 1)` the include-singletons pass lists
the component of the node `1` before the component of the node `2`, and the root of the first,
the node `1`, has the discovery number 2, which is larger than the discovery number 1 of the
root of the second, the node `2`. -/
theorem C5_counterexample :
    ∃ s1, pass1 [(1, 1), (2, 1)] = .ok s1 ∧ components s1.outfile = [[1], [2]] ∧
      number_of s1 1 = 2 ∧ number_of s1 2 = 1 ∧ ¬ (number_of s1 1 < number_of s1 2) := by
  have h1 : pass1 [(1, 1), (2, 1)] = .ok
      { heap := [⟨[some 0], none, 2, 2, 1, false, some 1⟩,
                 ⟨[some 0], some 0, 1, 1, 2, false, none⟩],
        scc_number := 2, scc_stack := none, scc_count := 2, finger := some 1, single := true,
        outfile := [.edge 1 1, .edge 2 1, .header 1, .member 1, .header 2, .member 2] } := by
    simp [pass1, inputs, input, find_or_make, exists_node, exists_loop, make_node, State.init,
      load, connect, new_link, new_link_loop, make_link, set_link, with_link, print,
      roots_loop, scc, push, pop, for_links, visit_link, extract, emit, pop_loop, set_lowlink,
      set_number, with_lowlink, with_number, mark_pushed, clear_visited, List.modify]
  refine ⟨_, h1, ?_, ?_, ?_, ?_⟩
  · simp [components, components_aux]
  · simp [number_of, exists_node, exists_loop, load, num]
  · simp [number_of, exists_node, exists_loop, load, num]
  · simp [number_of, exists_node, exists_loop, load, num]

end TarjanSCC


namespace TarjanSCC

/-! ## The bound on `lowlink` in every state of a pass -/

theorem lowlink_ok_same {heap heap1 : List node_tp} (hn : ∀ i, num heap1 i = num heap i)
    (hl : ∀ i, low heap1 i = low heap i) (h : lowlink_ok heap) : lowlink_ok heap1 := by
  intro i hi
  rw [hn i] at hi ⊢
  rw [hl i]
  exact h i hi

theorem lowlink_ok_set_low {heap : List node_tp} (h : lowlink_ok heap) (v x : Nat)
    (hx : num heap v ≠ 0 → x ≤ num heap v) :
    lowlink_ok (heap.modify (with_lowlink x) v) := by
  intro i hi
  rw [num_modify heap (with_lowlink x) v i (fun _ => rfl)] at hi ⊢
  rw [low_set_low]
  by_cases hc : i = v ∧ v < heap.length
  · rw [if_pos hc]
    obtain ⟨rfl, _⟩ := hc
    exact hx hi
  · rw [if_neg hc]
    exact h i hi

theorem num_set_num (heap : List node_tp) (v x i : Nat) :
    num (heap.modify (with_number x) v) i =
      if i = v ∧ v < heap.length then x else num heap i := by
  by_cases hiv : i = v
  · subst hiv
    rcases Nat.lt_or_ge i heap.length with hlt | hge
    · obtain ⟨nd, hnd⟩ := get_of_lt hlt
      rw [num_of_get (get_modify_self (with_number x) hnd), if_pos ⟨rfl, hlt⟩]
      rfl
    · rw [if_neg (fun hc => absurd hc.2 (by omega)), List.modify_eq_self hge]
  · rw [if_neg (fun hc => hiv hc.1)]
    exact num_modify_other heap (with_number x) (fun e => hiv e.symm)

theorem lowlink_ok_set_num {heap : List node_tp} (h : lowlink_ok heap) (v x : Nat)
    (hx : low heap v ≤ x) (h0 : num heap v = 0) :
    lowlink_ok (heap.modify (with_number x) v) := by
  intro i hi
  rw [num_set_num] at hi ⊢
  rw [low_modify heap (with_number x) v i (fun _ => rfl)]
  by_cases hc : i = v ∧ v < heap.length
  · rw [if_pos hc]
    obtain ⟨rfl, _⟩ := hc
    exact hx
  · rw [if_neg hc] at hi ⊢
    exact h i hi

theorem lowlink_ok_push {v : node_ptr_tp} {st st1 : State} (hp : push v st = .ok st1)
    (h : lowlink_ok st.heap) : lowlink_ok st1.heap := by
  cases v with
  | none => cases hp
  | some i =>
    unfold push at hp
    simp only at hp
    cases hg : st.heap[i]? with
    | none => rw [hg] at hp; cases hp
    | some nd =>
      rw [hg] at hp
      simp only at hp
      by_cases hv : nd.visited = true
      · rw [if_pos hv] at hp; cases hp
      · rw [if_neg hv] at hp
        cases hp
        exact lowlink_ok_same (fun j => num_modify _ _ _ j (fun _ => rfl))
          (fun j => low_modify _ _ _ j (fun _ => rfl)) h

theorem lowlink_ok_pop {st st1 : State} (hp : pop st = .ok st1)
    (h : lowlink_ok st.heap) : lowlink_ok st1.heap := by
  unfold pop at hp
  cases hs : st.scc_stack with
  | none => rw [hs] at hp; cases hp
  | some i =>
    rw [hs] at hp
    simp only at hp
    cases hg : st.heap[i]? with
    | none => rw [hg] at hp; cases hp
    | some nd =>
      rw [hg] at hp
      cases hp
      exact lowlink_ok_same (fun j => num_modify _ _ _ j (fun _ => rfl))
        (fun j => low_modify _ _ _ j (fun _ => rfl)) h

/-- The loop `while` of `scc` keeps the bound, in its result and in every state it goes
through. -/
theorem lowlink_ok_pop_loop (v : node_ptr_tp) :
    ∀ (fuel : Nat) (st : State), lowlink_ok st.heap →
      (∀ st1, pop_loop v fuel st = .ok st1 → lowlink_ok st1.heap) ∧
      (∀ s, s ∈ pop_loop_states v fuel st → lowlink_ok s.heap) := by
  intro fuel
  induction fuel with
  | zero =>
    intro st h
    unfold pop_loop pop_loop_states
    cases hs : st.scc_stack with
    | none =>
      refine ⟨?_, ?_⟩
      · intro st1 h1; cases h1; exact h
      · intro s hs1; cases hs1
    | some t =>
      simp only
      cases hl : load st.heap (some t) with
      | error e =>
        refine ⟨?_, ?_⟩
        · intro st1 h1; cases h1
        · intro s hs1; cases hs1
      | ok top =>
        simp only
        cases hl2 : load st.heap v with
        | error e =>
          refine ⟨?_, ?_⟩
          · intro st1 h1; cases h1
          · intro s hs1; cases hs1
        | ok vn =>
          simp only
          by_cases hc : vn.number ≤ top.number
          · rw [if_pos hc, if_pos hc]
            refine ⟨?_, ?_⟩
            · intro st1 h1; cases h1
            · intro s hs1; cases hs1
          · rw [if_neg hc, if_neg hc]
            refine ⟨?_, ?_⟩
            · intro st1 h1; cases h1; exact h
            · intro s hs1; cases hs1
  | succ fuel ih =>
    intro st h
    unfold pop_loop pop_loop_states
    cases hs : st.scc_stack with
    | none =>
      refine ⟨?_, ?_⟩
      · intro st1 h1; cases h1; exact h
      · intro s hs1; cases hs1
    | some t =>
      simp only
      cases hl : load st.heap (some t) with
      | error e =>
        refine ⟨?_, ?_⟩
        · intro st1 h1; cases h1
        · intro s hs1; cases hs1
      | ok top =>
        simp only
        cases hl2 : load st.heap v with
        | error e =>
          refine ⟨?_, ?_⟩
          · intro st1 h1; cases h1
          · intro s hs1; cases hs1
        | ok vn =>
          simp only
          by_cases hc : vn.number ≤ top.number
          · rw [if_pos hc, if_pos hc]
            cases hp : pop (print st (Line.member top.name)) with
            | error e =>
              refine ⟨?_, ?_⟩
              · intro st1 h1; cases h1
              · intro s hs1; cases hs1
            | ok st2 =>
              simp only
              have h2 : lowlink_ok st2.heap := lowlink_ok_pop hp h
              obtain ⟨a1, a2⟩ := ih st2 h2
              refine ⟨a1, ?_⟩
              intro s hs1
              rcases List.mem_cons.mp hs1 with e | e
              · rw [e]; exact h2
              · exact a2 s e
          · rw [if_neg hc, if_neg hc]
            refine ⟨?_, ?_⟩
            · intro st1 h1; cases h1; exact h
            · intro s hs1; cases hs1

theorem lowlink_ok_emit (v : node_ptr_tp) (st : State) (h : lowlink_ok st.heap) :
    (∀ st1, emit v st = .ok st1 → lowlink_ok st1.heap) ∧
    (∀ s, s ∈ emit_states v st → lowlink_ok s.heap) := by
  have h1 : lowlink_ok (print { st with scc_count := st.scc_count + 1 }
      (Line.header (st.scc_count + 1))).heap := h
  obtain ⟨a1, a2⟩ := lowlink_ok_pop_loop v st.heap.length _ h1
  refine ⟨a1, ?_⟩
  intro s hs
  unfold emit_states at hs
  rcases List.mem_cons.mp hs with e | e
  · rw [e]; exact h1
  · exact a2 s e

theorem lowlink_ok_extract (v : Nat) (st : State) (h : lowlink_ok st.heap) :
    (∀ st1, extract v st = .ok st1 → lowlink_ok st1.heap) ∧
    (∀ s, s ∈ extract_states v st → lowlink_ok s.heap) := by
  unfold extract extract_states
  cases hl : load st.heap (some v) with
  | error e =>
    refine ⟨?_, ?_⟩
    · intro st1 h1; cases h1
    · intro s hs1; cases hs1
  | ok vn =>
    simp only
    by_cases hc : vn.lowlink = vn.number
    · rw [if_pos hc, if_pos hc]
      by_cases hs : st.single = false
      · rw [if_pos hs, if_pos hs]
        by_cases ht : st.scc_stack = some v
        · rw [if_pos ht, if_pos ht]
          refine ⟨fun st1 h1 => lowlink_ok_pop h1 h, ?_⟩
          intro s hs1
          cases hp : pop st with
          | error e => rw [hp] at hs1; cases hs1
          | ok st2 =>
            rw [hp] at hs1
            simp only [List.mem_singleton] at hs1
            rw [hs1]
            exact lowlink_ok_pop hp h
        · rw [if_neg ht, if_neg ht]
          exact lowlink_ok_emit (some v) st h
      · rw [if_neg hs, if_neg hs]
        exact lowlink_ok_emit (some v) st h
    · rw [if_neg hc, if_neg hc]
      refine ⟨?_, ?_⟩
      · intro st1 h1; cases h1; exact h
      · intro s hs1; cases hs1

end TarjanSCC


namespace TarjanSCC

theorem lowlink_ok_min {st : State} (h : lowlink_ok st.heap) {v : Nat} {vn : node_tp}
    (hl : load st.heap (some v) = .ok vn) (y : Nat) :
    lowlink_ok (set_lowlink st v (min vn.lowlink y)).heap := by
  have hg := get_of_load hl
  apply lowlink_ok_set_low h
  intro hv
  have := h v hv
  rw [low_of_get hg] at this
  exact Nat.le_trans (Nat.min_le_left _ _) this

theorem lowlink_ok_visit_link {f : node_ptr_tp → State → Except Err State}
    (hf : ∀ w st st1, f w st = .ok st1 → lowlink_ok st.heap → lowlink_ok st1.heap)
    {v : Nat} {w : node_ptr_tp} {st st1 : State} (hv : visit_link f v w st = .ok st1)
    (h : lowlink_ok st.heap) : lowlink_ok st1.heap := by
  cases w with
  | none => cases hv
  | some j =>
    unfold visit_link at hv
    simp only at hv
    cases hl : load st.heap (some j) with
    | error e => rw [hl] at hv; cases hv
    | ok wn =>
      rw [hl] at hv
      simp only at hv
      by_cases hn : wn.number = 0
      · rw [if_pos hn] at hv
        cases hr : f (some j) st with
        | error e => rw [hr] at hv; cases hv
        | ok st2 =>
          rw [hr] at hv
          simp only at hv
          have h2 := hf _ _ _ hr h
          cases hl1 : load st2.heap (some v) with
          | error e => rw [hl1] at hv; cases hv
          | ok vn =>
            rw [hl1] at hv
            simp only at hv
            cases hl2 : load st2.heap (some j) with
            | error e => rw [hl2] at hv; cases hv
            | ok wn1 =>
              rw [hl2] at hv
              cases hv
              exact lowlink_ok_min h2 hl1 _
      · rw [if_neg hn] at hv
        cases hl1 : load st.heap (some v) with
        | error e => rw [hl1] at hv; cases hv
        | ok vn =>
          rw [hl1] at hv
          simp only at hv
          by_cases h1 : wn.number < vn.number
          · rw [if_pos h1] at hv
            by_cases h2 : wn.visited = true
            · rw [if_pos h2] at hv
              cases hv
              exact lowlink_ok_min h hl1 _
            · rw [if_neg h2] at hv
              cases hv
              exact h
          · rw [if_neg h1] at hv
            cases hv
            exact h

theorem lowlink_ok_visit_link_states {f : node_ptr_tp → State → Except Err State}
    {g : node_ptr_tp → State → List State}
    (hf : ∀ w st st1, f w st = .ok st1 → lowlink_ok st.heap → lowlink_ok st1.heap)
    (hg : ∀ w st, lowlink_ok st.heap → ∀ s, s ∈ g w st → lowlink_ok s.heap)
    (v : Nat) (w : node_ptr_tp) (st : State) (h : lowlink_ok st.heap) :
    ∀ s, s ∈ visit_link_states f g v w st → lowlink_ok s.heap := by
  intro s hs
  unfold visit_link_states at hs
  rcases List.mem_append.mp hs with h1 | h1
  · cases hl : load st.heap w with
    | error e => rw [hl] at h1; cases h1
    | ok wn =>
      rw [hl] at h1
      simp only at h1
      by_cases hn : wn.number = 0
      · rw [if_pos hn] at h1
        exact hg w st h s h1
      · rw [if_neg hn] at h1
        cases h1
  · cases hv : visit_link f v w st with
    | error e => rw [hv] at h1; cases h1
    | ok st1 =>
      rw [hv] at h1
      simp only [List.mem_singleton] at h1
      rw [h1]
      exact lowlink_ok_visit_link hf hv h

theorem lowlink_ok_for_links {f : node_ptr_tp → State → Except Err State}
    {g : node_ptr_tp → State → List State}
    (hf : ∀ w st st1, f w st = .ok st1 → lowlink_ok st.heap → lowlink_ok st1.heap)
    (hg : ∀ w st, lowlink_ok st.heap → ∀ s, s ∈ g w st → lowlink_ok s.heap) (v : Nat) :
    ∀ (links : List node_ptr_tp) (st : State), lowlink_ok st.heap →
      (∀ st1, for_links f v links st = .ok st1 → lowlink_ok st1.heap) ∧
      (∀ s, s ∈ for_links_states f g v links st → lowlink_ok s.heap) := by
  intro links
  induction links with
  | nil =>
    intro st h
    refine ⟨?_, ?_⟩
    · intro st1 h1; cases h1; exact h
    · intro s hs; cases hs
  | cons w rest ih =>
    intro st h
    unfold for_links for_links_states
    cases hv : visit_link f v w st with
    | error e =>
      refine ⟨?_, ?_⟩
      · intro st1 h1; cases h1
      · intro s hs
        simp only [List.append_nil] at hs
        exact lowlink_ok_visit_link_states hf hg v w st h s hs
    | ok st2 =>
      simp only
      have h2 := lowlink_ok_visit_link hf hv h
      obtain ⟨a1, a2⟩ := ih st2 h2
      refine ⟨a1, ?_⟩
      intro s hs
      rcases List.mem_append.mp hs with e | e
      · exact lowlink_ok_visit_link_states hf hg v w st h s e
      · exact a2 s e

/-- A call of `scc` keeps the bound, in its result and in every state it goes through. -/
theorem lowlink_ok_scc :
    ∀ (fuel : Nat) (v : node_ptr_tp) (st : State), lowlink_ok st.heap →
      (∀ st1, scc fuel v st = .ok st1 → lowlink_ok st1.heap) ∧
      (∀ s, s ∈ scc_states fuel v st → lowlink_ok s.heap) := by
  intro fuel
  induction fuel with
  | zero =>
    intro v st h
    refine ⟨?_, ?_⟩
    · intro st1 h1; cases h1
    · intro s hs; cases hs
  | succ fuel ih =>
    intro v st h
    have hf : ∀ w st st1, scc fuel w st = .ok st1 → lowlink_ok st.heap →
        lowlink_ok st1.heap := fun w st st1 h1 h2 => (ih w st h2).1 st1 h1
    have hg : ∀ w st, lowlink_ok st.heap → ∀ s, s ∈ scc_states fuel w st →
        lowlink_ok s.heap := fun w st h2 => (ih w st h2).2
    cases v with
    | none =>
      refine ⟨?_, ?_⟩
      · intro st1 h1; cases h1
      · intro s hs; cases hs
    | some i =>
      unfold scc scc_states
      simp only
      cases hl : load st.heap (some i) with
      | error e =>
        refine ⟨?_, ?_⟩
        · intro st1 h1; cases h1
        · intro s hs; cases hs
      | ok nd =>
        simp only
        by_cases hn : nd.number = 0
        · rw [if_pos hn, if_pos hn]
          have hget := get_of_load hl
          have hnum : num st.heap i = 0 := by rw [num_of_get hget]; exact hn
          have h2 : lowlink_ok (set_lowlink { st with scc_number := st.scc_number + 1 } i
              (st.scc_number + 1)).heap :=
            lowlink_ok_set_low h i _ (fun hc => absurd hnum hc)
          have h3 : lowlink_ok (set_number (set_lowlink
              { st with scc_number := st.scc_number + 1 } i (st.scc_number + 1)) i
              (st.scc_number + 1)).heap := by
            apply lowlink_ok_set_num h2
            · show low (st.heap.modify (with_lowlink (st.scc_number + 1)) i) i ≤ _
              rw [low_set_low, if_pos ⟨rfl, lt_of_get hget⟩]
            · show num (st.heap.modify (with_lowlink (st.scc_number + 1)) i) i = 0
              rw [num_modify st.heap (with_lowlink (st.scc_number + 1)) i i (fun _ => rfl)]
              exact hnum
          cases hp : push (some i) (set_number (set_lowlink
              { st with scc_number := st.scc_number + 1 } i (st.scc_number + 1)) i
              (st.scc_number + 1)) with
          | error e =>
            refine ⟨?_, ?_⟩
            · intro st1 h1; cases h1
            · intro s hs
              simp only [List.mem_cons, List.not_mem_nil, or_false] at hs
              rcases hs with e1 | e1 | e1
              · rw [e1]; exact h
              · rw [e1]; exact h2
              · rw [e1]; exact h3
          | ok st4 =>
            simp only
            have h4 := lowlink_ok_push hp h3
            obtain ⟨a1, a2⟩ := lowlink_ok_for_links hf hg i nd.link st4 h4
            cases hfl : for_links (scc fuel) i nd.link st4 with
            | error e =>
              refine ⟨?_, ?_⟩
              · intro st1 h1; cases h1
              · intro s hs
                simp only [List.mem_cons, List.append_nil] at hs
                rcases hs with e1 | e1 | e1 | e1 | e1
                · rw [e1]; exact h
                · rw [e1]; exact h2
                · rw [e1]; exact h3
                · rw [e1]; exact h4
                · exact a2 s e1
            | ok st5 =>
              simp only
              have h5 := a1 st5 hfl
              obtain ⟨b1, b2⟩ := lowlink_ok_extract i st5 h5
              refine ⟨b1, ?_⟩
              intro s hs
              simp only [List.mem_cons, List.mem_append] at hs
              rcases hs with e1 | e1 | e1 | e1 | e1 | e1
              · rw [e1]; exact h
              · rw [e1]; exact h2
              · rw [e1]; exact h3
              · rw [e1]; exact h4
              · exact a2 s e1
              · exact b2 s e1
        · rw [if_neg hn, if_neg hn]
          refine ⟨?_, ?_⟩
          · intro st1 h1; cases h1; exact h
          · intro s hs; cases hs

/-- The loop of `main` over the roots keeps the bound, in its result and in every state it
goes through. -/
theorem lowlink_ok_roots :
    ∀ (fuel : Nat) (p : node_ptr_tp) (st : State), lowlink_ok st.heap →
      (∀ st1, roots_loop fuel p st = .ok st1 → lowlink_ok st1.heap) ∧
      (∀ s, s ∈ roots_states fuel p st → lowlink_ok s.heap) := by
  intro fuel
  induction fuel with
  | zero =>
    intro p st h
    cases p with
    | none =>
      refine ⟨?_, ?_⟩
      · intro st1 h1; cases h1; exact h
      · intro s hs; cases hs
    | some i =>
      refine ⟨?_, ?_⟩
      · intro st1 h1; cases h1
      · intro s hs; cases hs
  | succ fuel ih =>
    intro p st h
    cases p with
    | none =>
      refine ⟨?_, ?_⟩
      · intro st1 h1; cases h1; exact h
      · intro s hs; cases hs
    | some i =>
      unfold roots_loop roots_states
      cases hl : load st.heap (some i) with
      | error e =>
        refine ⟨?_, ?_⟩
        · intro st1 h1; cases h1
        · intro s hs; cases hs
      | ok nd =>
        simp only
        obtain ⟨c1, c2⟩ := lowlink_ok_scc (st.heap.length + 1) (some i) st h
        have hstates : ∀ s, s ∈ (if nd.visited = false then
            scc_states (st.heap.length + 1) (some i) st else []) → lowlink_ok s.heap := by
          intro s hs
          by_cases hv : nd.visited = false
          · rw [if_pos hv] at hs; exact c2 s hs
          · rw [if_neg hv] at hs; cases hs
        cases hr : (if nd.visited = false then scc (st.heap.length + 1) (some i) st
            else Except.ok st) with
        | error e =>
          refine ⟨?_, ?_⟩
          · intro st1 h1; cases h1
          · intro s hs
            simp only [List.append_nil] at hs
            exact hstates s hs
        | ok st2 =>
          simp only
          have h2 : lowlink_ok st2.heap := by
            by_cases hv : nd.visited = false
            · rw [if_pos hv] at hr; exact c1 st2 hr
            · rw [if_neg hv] at hr; cases hr; exact h
          cases hl2 : load st2.heap (some i) with
          | error e =>
            refine ⟨?_, ?_⟩
            · intro st1 h1; cases h1
            · intro s hs
              simp only [List.append_nil] at hs
              exact hstates s hs
          | ok nd1 =>
            simp only
            obtain ⟨a1, a2⟩ := ih nd1.finger st2 h2
            refine ⟨a1, ?_⟩
            intro s hs
            rcases List.mem_append.mp hs with e | e
            · exact hstates s e
            · exact a2 s e

end TarjanSCC


namespace TarjanSCC

/-! ## The state a function ends in is the last state it goes through -/

theorem pop_loop_result_mem (v : node_ptr_tp) :
    ∀ (fuel : Nat) (st st1 : State), pop_loop v fuel st = .ok st1 →
      st1 = st ∨ st1 ∈ pop_loop_states v fuel st := by
  intro fuel
  induction fuel with
  | zero =>
    intro st st1 h
    unfold pop_loop at h
    cases hs : st.scc_stack with
    | none => rw [hs] at h; cases h; exact Or.inl rfl
    | some t =>
      rw [hs] at h
      simp only at h
      cases hl : load st.heap (some t) with
      | error e => rw [hl] at h; cases h
      | ok top =>
        rw [hl] at h
        simp only at h
        cases hl2 : load st.heap v with
        | error e => rw [hl2] at h; cases h
        | ok vn =>
          rw [hl2] at h
          simp only at h
          by_cases hc : vn.number ≤ top.number
          · rw [if_pos hc] at h; cases h
          · rw [if_neg hc] at h; cases h; exact Or.inl rfl
  | succ fuel ih =>
    intro st st1 h
    unfold pop_loop at h
    unfold pop_loop_states
    cases hs : st.scc_stack with
    | none => rw [hs] at h; cases h; exact Or.inl rfl
    | some t =>
      rw [hs] at h
      simp only at h ⊢
      cases hl : load st.heap (some t) with
      | error e => rw [hl] at h; cases h
      | ok top =>
        rw [hl] at h
        simp only at h ⊢
        cases hl2 : load st.heap v with
        | error e => rw [hl2] at h; cases h
        | ok vn =>
          rw [hl2] at h
          simp only at h ⊢
          by_cases hc : vn.number ≤ top.number
          · rw [if_pos hc] at h ⊢
            cases hp : pop (print st (Line.member top.name)) with
            | error e => rw [hp] at h; cases h
            | ok st2 =>
              rw [hp] at h
              simp only at h ⊢
              right
              rcases ih st2 st1 h with e | e
              · rw [e]; exact List.mem_cons_self _ _
              · exact List.mem_cons_of_mem _ e
          · rw [if_neg hc] at h; cases h; exact Or.inl rfl

theorem emit_result_mem {v : node_ptr_tp} {st st1 : State} (h : emit v st = .ok st1) :
    st1 ∈ emit_states v st := by
  unfold emit at h
  unfold emit_states
  rcases pop_loop_result_mem v _ _ _ h with e | e
  · rw [e]; exact List.mem_cons_self _ _
  · exact List.mem_cons_of_mem _ e

theorem extract_result_mem {v : Nat} {st st1 : State} (h : extract v st = .ok st1) :
    st1 = st ∨ st1 ∈ extract_states v st := by
  unfold extract at h
  unfold extract_states
  cases hl : load st.heap (some v) with
  | error e => rw [hl] at h; cases h
  | ok vn =>
    rw [hl] at h
    simp only at h ⊢
    by_cases hc : vn.lowlink = vn.number
    · rw [if_pos hc] at h ⊢
      by_cases hs : st.single = false
      · rw [if_pos hs] at h ⊢
        by_cases ht : st.scc_stack = some v
        · rw [if_pos ht] at h ⊢
          rw [h]
          exact Or.inr (List.mem_singleton.mpr rfl)
        · rw [if_neg ht] at h ⊢
          exact Or.inr (emit_result_mem h)
      · rw [if_neg hs] at h ⊢
        exact Or.inr (emit_result_mem h)
    · rw [if_neg hc] at h
      cases h
      exact Or.inl rfl

theorem visit_link_result_mem {f : node_ptr_tp → State → Except Err State}
    (g : node_ptr_tp → State → List State) {v : Nat} {w : node_ptr_tp} {st st1 : State}
    (h : visit_link f v w st = .ok st1) : st1 ∈ visit_link_states f g v w st := by
  unfold visit_link_states
  rw [h]
  exact List.mem_append_right _ (List.mem_singleton.mpr rfl)

theorem for_links_result_mem {f : node_ptr_tp → State → Except Err State}
    (g : node_ptr_tp → State → List State) (v : Nat) :
    ∀ (links : List node_ptr_tp) (st st1 : State), for_links f v links st = .ok st1 →
      st1 = st ∨ st1 ∈ for_links_states f g v links st := by
  intro links
  induction links with
  | nil =>
    intro st st1 h
    cases h
    exact Or.inl rfl
  | cons w rest ih =>
    intro st st1 h
    unfold for_links at h
    unfold for_links_states
    cases hv : visit_link f v w st with
    | error e => rw [hv] at h; cases h
    | ok st2 =>
      rw [hv] at h
      simp only at h ⊢
      right
      rcases ih st2 st1 h with e | e
      · rw [e]
        exact List.mem_append_left _ (visit_link_result_mem g hv)
      · exact List.mem_append_right _ e

theorem scc_result_mem :
    ∀ (fuel : Nat) (v : node_ptr_tp) (st st1 : State), scc fuel v st = .ok st1 →
      st1 = st ∨ st1 ∈ scc_states fuel v st := by
  intro fuel v st st1 h
  cases fuel with
  | zero => cases h
  | succ fuel =>
    cases v with
    | none => cases h
    | some i =>
      unfold scc at h
      unfold scc_states
      simp only at h ⊢
      cases hl : load st.heap (some i) with
      | error e => rw [hl] at h; cases h
      | ok nd =>
        rw [hl] at h
        simp only at h ⊢
        by_cases hn : nd.number = 0
        · rw [if_pos hn] at h ⊢
          cases hp : push (some i) (set_number (set_lowlink
              { st with scc_number := st.scc_number + 1 } i (st.scc_number + 1)) i
              (st.scc_number + 1)) with
          | error e => rw [hp] at h; cases h
          | ok st4 =>
            rw [hp] at h
            simp only at h ⊢
            cases hfl : for_links (scc fuel) i nd.link st4 with
            | error e => rw [hfl] at h; cases h
            | ok st5 =>
              rw [hfl] at h
              simp only at h ⊢
              right
              simp only [List.mem_cons, List.mem_append]
              rcases extract_result_mem h with e | e
              · rcases for_links_result_mem (scc_states fuel) i nd.link st4 st5 hfl with e1 | e1
                · rw [e, e1]
                  exact Or.inr (Or.inr (Or.inr (Or.inl rfl)))
                · rw [e]
                  exact Or.inr (Or.inr (Or.inr (Or.inr (Or.inl e1))))
              · exact Or.inr (Or.inr (Or.inr (Or.inr (Or.inr e))))
        · rw [if_neg hn] at h
          cases h
          exact Or.inl rfl

theorem roots_result_mem :
    ∀ (fuel : Nat) (p : node_ptr_tp) (st st1 : State), roots_loop fuel p st = .ok st1 →
      st1 = st ∨ st1 ∈ roots_states fuel p st := by
  intro fuel
  induction fuel with
  | zero =>
    intro p st st1 h
    cases p with
    | none => cases h; exact Or.inl rfl
    | some i => cases h
  | succ fuel ih =>
    intro p st st1 h
    cases p with
    | none => cases h; exact Or.inl rfl
    | some i =>
      unfold roots_loop at h
      unfold roots_states
      cases hl : load st.heap (some i) with
      | error e => rw [hl] at h; cases h
      | ok nd =>
        rw [hl] at h
        simp only at h ⊢
        by_cases hv : nd.visited = false
        · rw [if_pos hv] at h
          rw [if_pos hv, if_pos hv]
          cases hr : scc (st.heap.length + 1) (some i) st with
          | error e => rw [hr] at h; cases h
          | ok st2 =>
            rw [hr] at h
            simp only at h ⊢
            cases hl2 : load st2.heap (some i) with
            | error e => rw [hl2] at h; cases h
            | ok nd1 =>
              rw [hl2] at h
              simp only at h ⊢
              rcases ih nd1.finger st2 st1 h with e | e
              · rcases scc_result_mem _ _ _ _ hr with e1 | e1
                · left; rw [e, e1]
                · right; rw [e]; exact List.mem_append_left _ e1
              · exact Or.inr (List.mem_append_right _ e)
        · rw [if_neg hv] at h
          rw [if_neg hv, if_neg hv]
          simp only at h ⊢
          cases hl2 : load st.heap (some i) with
          | error e => rw [hl2] at h; cases h
          | ok nd1 =>
            rw [hl2] at h
            simp only at h ⊢
            rcases ih nd1.finger st st1 h with e | e
            · exact Or.inl e
            · exact Or.inr (by simpa using e)

end TarjanSCC


namespace TarjanSCC

theorem lowlink_ok_built {sf : State} (hb : Built sf) : lowlink_ok sf.heap := by
  intro i hi
  exfalso
  apply hi
  cases hg : sf.heap[i]? with
  | none => exact num_of_none hg
  | some nd => rw [num_of_get hg]; exact (hb.untouched i nd hg).1

/-- The heap in which the second pass builds its graph keeps the bound: the nodes of the first
pass have it, and the new nodes have no number. -/
theorem lowlink_ok_rebase {old : List node_tp} (hold : lowlink_ok old) {sf : State}
    (hb : Built sf) (pre : List Line) : lowlink_ok (rebase old pre sf).heap := by
  intro i hi
  rcases Nat.lt_or_ge i old.length with hlt | hge
  · have e : (rebase old pre sf).heap[i]? = old[i]? := by
      rw [rebase_heap, List.getElem?_append_left hlt]
    have e1 : num (rebase old pre sf).heap i = num old i := by unfold num; rw [e]
    have e2 : low (rebase old pre sf).heap i = low old i := by unfold low; rw [e]
    rw [e1] at hi ⊢
    rw [e2]
    exact hold i hi
  · exfalso
    apply hi
    obtain ⟨j, rfl⟩ : ∃ j, i = j + old.length := ⟨i - old.length, by omega⟩
    unfold num
    rw [get_rebase]
    cases hg : sf.heap[j]? with
    | none => rfl
    | some nd =>
      simp only [Option.map_some']
      exact (hb.untouched j nd hg).1

/-- C10: both passes end; in the state each pass ends in, every node of the graph has
`1 <= lowlink <= number`; and in every state the traversal of either pass goes through, the
final state included, every node of the heap that has a number has a `lowlink` that is not
above its number. -/
theorem C10_lowlink_at_most_number (pairs : List (Int × Int)) :
    ∃ s1 s2, pass1 pairs = .ok s1 ∧ pass2 pairs s1 = .ok s2 ∧ main pairs = .ok s2 ∧
      (∀ a, is_node pairs a → 1 ≤ lowlink_of s1 a ∧ lowlink_of s1 a ≤ number_of s1 a) ∧
      (∀ a, is_node pairs a → 1 ≤ lowlink_of s2 a ∧ lowlink_of s2 a ≤ number_of s2 a) ∧
      s1 ∈ pass1_states pairs ∧ s2 ∈ pass2_states pairs s1 ∧
      (∀ s, s ∈ pass1_states pairs → lowlink_ok s.heap) ∧
      (∀ s, s ∈ pass2_states pairs s1 → lowlink_ok s.heap) := by
  obtain ⟨sf, heapF, G, s1, s2, hin, hb, hnames, hadj, htop, hall, hp1, hs1, hp2, hmain, hs2,
    hin2⟩ := main_spec pairs
  have hfinal : ∀ i, i < sf.heap.length → 1 ≤ low heapF i ∧ low heapF i ≤ num heapF i := by
    intro i hi
    have h1 := htop.inv.low_pos i (hall i hi)
    exact ⟨Nat.one_le_iff_ne_zero.mpr h1, htop.inv.low_le i⟩
  have hb2 : Built ⟨sf.heap, 0, none, 0, sf.finger, false, []⟩ := hb.of_heap_eq rfl rfl
  have hs1heap : s1.heap = heapF := by rw [hs1]
  have hQ1 : lowlink_ok s1.heap := by
    rw [hs1heap]
    intro i _
    exact htop.inv.low_le i
  refine ⟨s1, s2, hp1, hp2, hmain, ?_, ?_, ?_, ?_, ?_, ?_⟩
  · intro a ha
    obtain ⟨i, nd, hnd, hname⟩ := (node_iff hnames a).mp ha
    have hi := lt_of_get hnd
    obtain ⟨e1, e2⟩ := fields_final hb htop.later.frame [] [] sf.heap.length none
      (reported true G).length true
      (sf.outfile ++ render (fun i => name_of sf.heap (some i)) true 0 G) hi
    rw [rebase_nil, ← hs1, name_of_get hnd, hname] at e1 e2
    rw [e1, e2]
    exact hfinal i hi
  · intro a ha
    obtain ⟨i, nd, hnd, hname⟩ := (node_iff hnames a).mp ha
    have hi := lt_of_get hnd
    obtain ⟨e1, e2⟩ := fields_final hb htop.later.frame s1.heap s1.outfile sf.heap.length none
      (reported false G).length false
      (render (fun i => name_of sf.heap (some i)) false 0 G) hi
    rw [← hs2, name_of_get hnd, hname] at e1 e2
    rw [e1, e2]
    exact hfinal i hi
  · unfold pass1 at hp1
    unfold pass1_states
    rw [hin] at hp1 ⊢
    simp only at hp1 ⊢
    rcases roots_result_mem _ _ _ _ hp1 with e | e
    · rw [e]; exact List.mem_cons_self _ _
    · exact List.mem_cons_of_mem _ e
  · unfold pass2 at hp2
    unfold pass2_states
    rw [hin2] at hp2 ⊢
    simp only at hp2 ⊢
    rcases roots_result_mem _ _ _ _ hp2 with e | e
    · rw [e]; exact List.mem_cons_self _ _
    · exact List.mem_cons_of_mem _ e
  · intro s hs
    unfold pass1_states at hs
    rw [hin] at hs
    simp only at hs
    rcases List.mem_cons.mp hs with e | e
    · rw [e]; exact lowlink_ok_built hb
    · exact (lowlink_ok_roots _ _ sf (lowlink_ok_built hb)).2 s e
  · intro s hs
    unfold pass2_states at hs
    rw [hin2] at hs
    simp only at hs
    have hQ := lowlink_ok_rebase hQ1 hb2 s1.outfile
    rcases List.mem_cons.mp hs with e | e
    · rw [e]; exact hQ
    · exact (lowlink_ok_roots _ _ _ hQ).2 s e

end TarjanSCC


namespace TarjanSCC

/-! ## Self-loops, and the fatal branches -/

/-- C11: a node `v` that reaches, and is reached from, no node other than itself (so that it
lies on no cycle but possibly the self-loop `v -> v`) is listed by the include-singletons pass
as a component of its own, `[v]`, and is in no component that the exclude-singletons pass
lists. -/
theorem C11_self_loop_is_a_singleton (pairs : List (Int × Int)) (v : Int)
    (hv : is_node pairs v)
    (hcyc : ∀ b, b ≠ v → ¬ (reachable pairs v b ∧ reachable pairs b v)) :
    ∃ s1 s2 out2, pass1 pairs = .ok s1 ∧ pass2 pairs s1 = .ok s2 ∧ main pairs = .ok s2 ∧
      s2.outfile = s1.outfile ++ out2 ∧
      [v] ∈ components s1.outfile ∧
      (∀ g, g ∈ components out2 → v ∉ g) := by
  obtain ⟨NG, s1, s2, out2, hp1, hp2, hmain, hc1, _, hout, hc2, _, hnd, hmem, hscc, hne⟩ :=
    report_spec pairs
  obtain ⟨g, hg, hvg⟩ := List.mem_flatten.mp ((hmem v).mpr hv)
  have hlen : g.length = 1 := by
    by_contra hl
    obtain ⟨b, hb, hbv⟩ := exists_ne_of_length (nodup_of_mem_flatten_nodup hnd hg) hl hvg
    exact hcyc b hbv ((hscc g hg v hvg b).mp hb)
  obtain ⟨x, rfl⟩ := List.length_eq_one.mp hlen
  rw [List.mem_singleton] at hvg
  subst hvg
  refine ⟨s1, s2, out2, hp1, hp2, hmain, hout, ?_, ?_⟩
  · rw [hc1]; exact hg
  · intro g2 hg2 hv2
    rw [hc2] at hg2
    obtain ⟨hg2N, hlen2⟩ := List.mem_filter.mp hg2
    have hl2 : g2.length ≠ 1 := by simpa using hlen2
    obtain ⟨b, hb, hbv⟩ := exists_ne_of_length (nodup_of_mem_flatten_nodup hnd hg2N) hl2 hv2
    exact hcyc b hbv ((hscc g2 hg2N v hv2 b).mp hb)

/-- C11 applies to the node `1` of the single pair `(1, 1)`, whose only cycle is its
self-loop. -/
theorem C11_witness :
    is_node [((1 : Int), (1 : Int))] 1 ∧
    (∀ b, b ≠ (1 : Int) → ¬ (reachable [(1, 1)] 1 b ∧ reachable [(1, 1)] b 1)) ∧
    ∃ s1 s2 out2, pass1 [(1, 1)] = .ok s1 ∧ pass2 [(1, 1)] s1 = .ok s2 ∧
      main [(1, 1)] = .ok s2 ∧ s2.outfile = s1.outfile ++ out2 ∧
      [(1 : Int)] ∈ components s1.outfile ∧
      (∀ g, g ∈ components out2 → (1 : Int) ∉ g) :=
  have hv : is_node [((1 : Int), (1 : Int))] 1 := ⟨(1, 1), List.mem_singleton.mpr rfl, Or.inl rfl⟩
  have hcyc : ∀ b, b ≠ (1 : Int) →
      ¬ (reachable [(1, 1)] 1 b ∧ reachable [(1, 1)] b 1) := by
    intro b hb h
    obtain ⟨c, hc, _⟩ := reachable_head h.2 (Ne.symm hb)
    simp only [List.mem_singleton, Prod.mk.injEq] at hc
    exact hb hc.1
  ⟨hv, hcyc, C11_self_loop_is_a_singleton [(1, 1)] 1 hv hcyc⟩

/-- C17: for every list of pairs both passes of `main` end with a result, so that no run
takes a fatal branch: in the model a call of `push` on `NULL` or on a node that is `visited`,
a call of `pop` on the empty stack, a call of `scc` on `NULL` and a `NULL` successor in the
loop of `scc` all end the run at once with `Err.assertion`.  With no pairs the report stays
empty and no component is counted. -/
theorem C17_no_fatal_branch (pairs : List (Int × Int)) :
    (∃ s1 s2, pass1 pairs = .ok s1 ∧ pass2 pairs s1 = .ok s2 ∧ main pairs = .ok s2) ∧
    (∃ s1 s2, pass1 [] = .ok s1 ∧ pass2 [] s1 = .ok s2 ∧ main [] = .ok s2 ∧
      s1.outfile = [] ∧ s2.outfile = [] ∧ s1.scc_count = 0 ∧ s2.scc_count = 0 ∧
      components s1.outfile = [] ∧ components s2.outfile = []) ∧
    (∀ st, push none st = .error .assertion) ∧
    (∀ i nd st, st.heap[i]? = some nd → nd.visited = true →
      push (some i) st = .error .assertion) ∧
    (∀ st, st.scc_stack = none → pop st = .error .assertion) ∧
    (∀ fuel st, scc (fuel + 1) none st = .error .assertion) ∧
    (∀ f v st, visit_link f v none st = .error .assertion) := by
  obtain ⟨_, s1, s2, _, hp1, hp2, hmain, _⟩ := report_spec pairs
  refine ⟨⟨s1, s2, hp1, hp2, hmain⟩, ?_, ?_, ?_, ?_, ?_, ?_⟩
  · have h1 : pass1 [] = .ok State.init := by
      simp [pass1, inputs, roots_loop, State.init]
    have h2 : pass2 [] State.init = .ok
        { heap := [], scc_number := 0, scc_stack := none, scc_count := 0, finger := none,
          single := false, outfile := [] } := by
      simp [pass2, reset, inputs, roots_loop, State.init]
    refine ⟨_, _, h1, h2, ?_, rfl, rfl, rfl, rfl, rfl, rfl⟩
    unfold main
    rw [h1]
    exact h2
  · intro st; rfl
  · intro i nd st hnd hvis
    simp [push, hnd, hvis]
  · intro st hst
    simp [pop, hst]
  · intro fuel st; rfl
  · intro f v st; rfl

end TarjanSCC


namespace TarjanSCC

/-! ## The states of a pass form a path of steps -/

theorem Path.join {s m r : State} {l1 l2 : List State} (h1 : Path s l1 m)
    (h2 : Path m l2 r) : Path s (l1 ++ l2) r := by
  induction h1 with
  | nil s => exact h2
  | cons hstep _ ih => exact Path.cons hstep (ih h2)

theorem Path.single {s s1 : State} (h : Step s s1) : Path s [s1] s1 :=
  Path.cons h (Path.nil s1)

/-- A property of states that every step keeps holds in every state of a path. -/
theorem Path.all {Q : State → Prop} (hQ : ∀ s s1, Q s → Step s s1 → Q s1) {s r : State}
    {l : List State} (h : Path s l r) (hs : Q s) : (∀ x, x ∈ l → Q x) ∧ Q r := by
  induction h with
  | nil s => exact ⟨fun x hx => (by cases hx), hs⟩
  | cons hstep _ ih =>
    have h1 := hQ _ _ hs hstep
    obtain ⟨a1, a2⟩ := ih h1
    refine ⟨?_, a2⟩
    intro x hx
    rcases List.mem_cons.mp hx with e | e
    · rw [e]; exact h1
    · exact a1 x e

/-- A transitive and reflexive relation that holds along every step holds between every
earlier and every later state of a path, the start and the end included. -/
theorem Path.pairwise {R : State → State → Prop} (hrefl : ∀ s, R s s)
    (htrans : ∀ a b c, R a b → R b c → R a c) (hR : ∀ s s1, Step s s1 → R s s1)
    {s r : State} {l : List State} (h : Path s l r) :
    (s :: l).Pairwise R ∧ R s r ∧ ∀ x, x ∈ l → R x r := by
  induction h with
  | nil s => exact ⟨List.pairwise_singleton R s, hrefl s, fun x hx => (by cases hx)⟩
  | @cons s s1 r l hstep _ ih =>
    obtain ⟨a1, a2, a3⟩ := ih
    have h1 := hR _ _ hstep
    refine ⟨?_, htrans _ _ _ h1 a2, ?_⟩
    · rw [List.pairwise_cons]
      refine ⟨?_, a1⟩
      intro x hx
      rcases List.mem_cons.mp hx with e | e
      · rw [e]; exact h1
      · exact htrans _ _ _ h1 ((List.pairwise_cons.mp a1).1 x e)
    · intro x hx
      rcases List.mem_cons.mp hx with e | e
      · rw [e]; exact a2
      · exact a3 x e

theorem pop_loop_path (v : node_ptr_tp) :
    ∀ (fuel : Nat) (st r : State), pop_loop v fuel st = .ok r →
      Path st (pop_loop_states v fuel st) r := by
  intro fuel
  induction fuel with
  | zero =>
    intro st r h
    unfold pop_loop at h
    unfold pop_loop_states
    cases hs : st.scc_stack with
    | none => rw [hs] at h; cases h; exact Path.nil _
    | some t =>
      rw [hs] at h
      simp only at h ⊢
      cases hl : load st.heap (some t) with
      | error e => rw [hl] at h; cases h
      | ok top =>
        rw [hl] at h
        simp only at h ⊢
        cases hl2 : load st.heap v with
        | error e => rw [hl2] at h; cases h
        | ok vn =>
          rw [hl2] at h
          simp only at h ⊢
          by_cases hc : vn.number ≤ top.number
          · rw [if_pos hc] at h; cases h
          · rw [if_neg hc] at h ⊢; cases h; exact Path.nil _
  | succ fuel ih =>
    intro st r h
    unfold pop_loop at h
    unfold pop_loop_states
    cases hs : st.scc_stack with
    | none => rw [hs] at h; cases h; exact Path.nil _
    | some t =>
      rw [hs] at h
      simp only at h ⊢
      cases hl : load st.heap (some t) with
      | error e => rw [hl] at h; cases h
      | ok top =>
        rw [hl] at h
        simp only at h ⊢
        cases hl2 : load st.heap v with
        | error e => rw [hl2] at h; cases h
        | ok vn =>
          rw [hl2] at h
          simp only at h ⊢
          by_cases hc : vn.number ≤ top.number
          · rw [if_pos hc] at h ⊢
            cases hp : pop (print st (Line.member top.name)) with
            | error e => rw [hp] at h; cases h
            | ok st2 =>
              rw [hp] at h
              simp only at h ⊢
              exact Path.cons (Step.pop_member st st2 _ hp) (ih st2 r h)
          · rw [if_neg hc] at h ⊢; cases h; exact Path.nil _

theorem emit_path {v : node_ptr_tp} {st r : State} (h : emit v st = .ok r) :
    Path st (emit_states v st) r := by
  unfold emit at h
  unfold emit_states
  exact Path.cons (Step.header st) (pop_loop_path v _ _ _ h)

theorem extract_path {v : Nat} {st r : State} (h : extract v st = .ok r) :
    Path st (extract_states v st) r := by
  unfold extract at h
  unfold extract_states
  cases hl : load st.heap (some v) with
  | error e => rw [hl] at h; cases h
  | ok vn =>
    rw [hl] at h
    simp only at h ⊢
    by_cases hc : vn.lowlink = vn.number
    · rw [if_pos hc] at h ⊢
      by_cases hs : st.single = false
      · rw [if_pos hs] at h ⊢
        by_cases ht : st.scc_stack = some v
        · rw [if_pos ht] at h ⊢
          rw [h]
          exact Path.single (Step.pop st r h)
        · rw [if_neg ht] at h ⊢
          exact emit_path h
      · rw [if_neg hs] at h ⊢
        exact emit_path h
    · rw [if_neg hc] at h ⊢
      cases h
      exact Path.nil _

end TarjanSCC


namespace TarjanSCC

theorem visit_link_path {f : node_ptr_tp → State → Except Err State}
    {g : node_ptr_tp → State → List State}
    (hf : ∀ w st r, f w st = .ok r → Path st (g w st) r)
    {v : Nat} {w : node_ptr_tp} {st r : State} (h : visit_link f v w st = .ok r) :
    Path st (visit_link_states f g v w st) r := by
  have h0 := h
  unfold visit_link_states
  rw [h0]
  cases w with
  | none => cases h
  | some j =>
    unfold visit_link at h
    simp only at h
    cases hl : load st.heap (some j) with
    | error e => rw [hl] at h; cases h
    | ok wn =>
      rw [hl] at h
      simp only at h ⊢
      by_cases hn : wn.number = 0
      · rw [if_pos hn] at h ⊢
        cases hr : f (some j) st with
        | error e => rw [hr] at h; cases h
        | ok st2 =>
          rw [hr] at h
          simp only at h
          cases hl1 : load st2.heap (some v) with
          | error e => rw [hl1] at h; cases h
          | ok vn =>
            rw [hl1] at h
            simp only at h
            cases hl2 : load st2.heap (some j) with
            | error e => rw [hl2] at h; cases h
            | ok wn1 =>
              rw [hl2] at h
              cases h
              exact Path.join (hf _ _ _ hr) (Path.single (Step.lower st2 v _))
      · rw [if_neg hn] at h ⊢
        cases hl1 : load st.heap (some v) with
        | error e => rw [hl1] at h; cases h
        | ok vn =>
          rw [hl1] at h
          simp only at h
          by_cases h1 : wn.number < vn.number
          · rw [if_pos h1] at h
            by_cases h2 : wn.visited = true
            · rw [if_pos h2] at h
              cases h
              exact Path.single (Step.lower st v _)
            · rw [if_neg h2] at h
              cases h
              exact Path.single (Step.stay st)
          · rw [if_neg h1] at h
            cases h
            exact Path.single (Step.stay st)

theorem for_links_path {f : node_ptr_tp → State → Except Err State}
    {g : node_ptr_tp → State → List State}
    (hf : ∀ w st r, f w st = .ok r → Path st (g w st) r) (v : Nat) :
    ∀ (links : List node_ptr_tp) (st r : State), for_links f v links st = .ok r →
      Path st (for_links_states f g v links st) r := by
  intro links
  induction links with
  | nil =>
    intro st r h
    cases h
    exact Path.nil _
  | cons w rest ih =>
    intro st r h
    unfold for_links at h
    unfold for_links_states
    cases hv : visit_link f v w st with
    | error e => rw [hv] at h; cases h
    | ok st2 =>
      rw [hv] at h
      simp only at h ⊢
      exact Path.join (visit_link_path hf hv) (ih st2 r h)

/-- The states `scc_states` lists lead, step by step, from the start of a call of `scc` to
its result. -/
theorem scc_path :
    ∀ (fuel : Nat) (v : node_ptr_tp) (st r : State), scc fuel v st = .ok r →
      Path st (scc_states fuel v st) r := by
  intro fuel
  induction fuel with
  | zero =>
    intro v st r h
    cases h
  | succ fuel ih =>
    intro v st r h
    cases v with
    | none => cases h
    | some i =>
      unfold scc at h
      unfold scc_states
      simp only at h ⊢
      cases hl : load st.heap (some i) with
      | error e => rw [hl] at h; cases h
      | ok nd =>
        rw [hl] at h
        simp only at h ⊢
        by_cases hn : nd.number = 0
        · rw [if_pos hn] at h ⊢
          have hget := get_of_load hl
          have hnum : num st.heap i = 0 := by rw [num_of_get hget]; exact hn
          cases hp : push (some i) (set_number (set_lowlink
              { st with scc_number := st.scc_number + 1 } i (st.scc_number + 1)) i
              (st.scc_number + 1)) with
          | error e => rw [hp] at h; cases h
          | ok st4 =>
            rw [hp] at h
            simp only at h ⊢
            cases hfl : for_links (scc fuel) i nd.link st4 with
            | error e => rw [hfl] at h; cases h
            | ok st5 =>
              rw [hfl] at h
              simp only at h ⊢
              refine Path.cons (Step.count st) (Path.cons ?_ (Path.cons ?_
                (Path.cons (Step.push _ st4 i hp)
                  (Path.join (for_links_path ih i nd.link st4 st5 hfl) (extract_path h)))))
              · exact Step.first_lowlink { st with scc_number := st.scc_number + 1 } i hnum
              · refine Step.number (set_lowlink { st with scc_number := st.scc_number + 1 } i
                  (st.scc_number + 1)) i ?_
                show num (st.heap.modify (with_lowlink (st.scc_number + 1)) i) i = 0
                rw [num_modify st.heap (with_lowlink (st.scc_number + 1)) i i (fun _ => rfl)]
                exact hnum
        · rw [if_neg hn] at h ⊢
          cases h
          exact Path.nil _

/-- The states `roots_states` lists lead, step by step, from the start of the loop of `main`
to its result. -/
theorem roots_path :
    ∀ (fuel : Nat) (p : node_ptr_tp) (st r : State), roots_loop fuel p st = .ok r →
      Path st (roots_states fuel p st) r := by
  intro fuel
  induction fuel with
  | zero =>
    intro p st r h
    cases p with
    | none => cases h; exact Path.nil _
    | some i => cases h
  | succ fuel ih =>
    intro p st r h
    cases p with
    | none => cases h; exact Path.nil _
    | some i =>
      unfold roots_loop at h
      unfold roots_states
      cases hl : load st.heap (some i) with
      | error e => rw [hl] at h; cases h
      | ok nd =>
        rw [hl] at h
        simp only at h ⊢
        by_cases hv : nd.visited = false
        · rw [if_pos hv] at h
          rw [if_pos hv, if_pos hv]
          cases hr : scc (st.heap.length + 1) (some i) st with
          | error e => rw [hr] at h; cases h
          | ok st2 =>
            rw [hr] at h
            simp only at h ⊢
            cases hl2 : load st2.heap (some i) with
            | error e => rw [hl2] at h; cases h
            | ok nd1 =>
              rw [hl2] at h
              simp only at h ⊢
              exact Path.join (scc_path _ _ _ _ hr) (ih nd1.finger st2 r h)
        · rw [if_neg hv] at h
          rw [if_neg hv, if_neg hv]
          simp only at h ⊢
          cases hl2 : load st.heap (some i) with
          | error e => rw [hl2] at h; cases h
          | ok nd1 =>
            rw [hl2] at h
            simp only at h ⊢
            exact ih nd1.finger st r h

end TarjanSCC


namespace TarjanSCC

/-! ## What every step keeps -/

theorem keeps_numbers_refl (s : State) : keeps_numbers s s := fun _ _ => rfl

theorem keeps_numbers_trans (a b c : State) (h1 : keeps_numbers a b)
    (h2 : keeps_numbers b c) : keeps_numbers a c := by
  intro i hi
  have e1 := h1 i hi
  have e2 := h2 i (by rw [e1]; exact hi)
  rw [e2, e1]

theorem keeps_numbers_push {v : node_ptr_tp} {s s1 : State} (hp : push v s = .ok s1) :
    keeps_numbers s s1 := by
  cases v with
  | none => cases hp
  | some i =>
    unfold push at hp
    simp only at hp
    cases hg : s.heap[i]? with
    | none => rw [hg] at hp; cases hp
    | some nd =>
      rw [hg] at hp
      simp only at hp
      by_cases hv : nd.visited = true
      · rw [if_pos hv] at hp; cases hp
      · rw [if_neg hv] at hp
        cases hp
        intro j _
        exact num_modify _ _ _ j (fun _ => rfl)

theorem keeps_numbers_pop {s s1 : State} (hp : pop s = .ok s1) : keeps_numbers s s1 := by
  unfold pop at hp
  cases hs : s.scc_stack with
  | none => rw [hs] at hp; cases hp
  | some i =>
    rw [hs] at hp
    simp only at hp
    cases hg : s.heap[i]? with
    | none => rw [hg] at hp; cases hp
    | some nd =>
      rw [hg] at hp
      cases hp
      intro j _
      exact num_modify _ _ _ j (fun _ => rfl)

/-- No step changes a number that is not `0`. -/
theorem keeps_numbers_step (s s1 : State) (h : Step s s1) : keeps_numbers s s1 := by
  cases h with
  | count => exact fun _ _ => rfl
  | first_lowlink i _ =>
    intro j _
    exact num_modify _ _ _ j (fun _ => rfl)
  | number i h0 =>
    intro j hj
    show num (s.heap.modify (with_number s.scc_number) i) j = _
    rw [num_set_num]
    by_cases hc : j = i ∧ i < s.heap.length
    · exfalso
      rw [hc.1] at hj
      exact hj h0
    · rw [if_neg hc]
  | push _ i hp => exact keeps_numbers_push hp
  | lower i x =>
    intro j _
    exact num_modify _ _ _ j (fun _ => rfl)
  | stay => exact keeps_numbers_refl s
  | pop _ hp => exact keeps_numbers_pop hp
  | header => exact fun _ _ => rfl
  | pop_member _ l hp =>
    have h1 : keeps_numbers (print s l) s1 := keeps_numbers_pop hp
    exact h1

theorem stack_ok_modify {s : State} (h : stack_ok s) (f : node_tp → node_tp) (k : Nat)
    (hp : ∀ nd, (f nd).scc_pred = nd.scc_pred) (hv : ∀ nd, (f nd).visited = nd.visited)
    {s1 : State} (hh : s1.heap = s.heap.modify f k) (hs : s1.scc_stack = s.scc_stack) :
    stack_ok s1 := by
  obtain ⟨L, h1, h2, h3⟩ := h
  refine ⟨L, ?_, h2, ?_⟩
  · rw [hh, hs]
    exact stack_rep_modify f k hp h1
  · intro i
    rw [hh, vis_modify s.heap f k i hv]
    exact h3 i

theorem stack_ok_push {i : Nat} {s s1 : State} (hp : push (some i) s = .ok s1)
    (h : stack_ok s) : stack_ok s1 := by
  obtain ⟨L, h1, h2, h3⟩ := h
  unfold push at hp
  simp only at hp
  cases hg : s.heap[i]? with
  | none => rw [hg] at hp; cases hp
  | some nd =>
    rw [hg] at hp
    simp only at hp
    by_cases hv : nd.visited = true
    · rw [if_pos hv] at hp; cases hp
    · rw [if_neg hv] at hp
      cases hp
      have hnot : i ∉ L := by
        intro hi
        have := (h3 i).mpr hi
        rw [vis_of_get hg] at this
        exact hv this
      refine ⟨i :: L, ?_, List.nodup_cons.mpr ⟨hnot, h2⟩, ?_⟩
      · exact ⟨rfl, mark_pushed s.scc_stack nd, get_modify_self _ hg,
          stack_rep_modify_notin _ hnot h1⟩
      · intro j
        by_cases hj : j = i
        · subst hj
          have e : vis (s.heap.modify (mark_pushed s.scc_stack) j) j = true := by
            rw [vis_of_get (get_modify_self (mark_pushed s.scc_stack) hg)]
            rfl
          simp only [e, List.mem_cons, true_or]
        · have e : vis (s.heap.modify (mark_pushed s.scc_stack) i) j = vis s.heap j :=
            vis_modify_other _ _ (fun e => hj e.symm)
          show vis (s.heap.modify (mark_pushed s.scc_stack) i) j = true ↔ _
          rw [e, h3 j, List.mem_cons]
          constructor
          · exact Or.inr
          · rintro (e1 | e1)
            · exact absurd e1 hj
            · exact e1

theorem stack_ok_pop {s s1 : State} (hp : pop s = .ok s1) (h : stack_ok s) :
    stack_ok s1 := by
  obtain ⟨L, h1, h2, h3⟩ := h
  unfold pop at hp
  cases hs : s.scc_stack with
  | none => rw [hs] at hp; cases hp
  | some t =>
    rw [hs] at hp h1
    simp only at hp
    cases hg : s.heap[t]? with
    | none => rw [hg] at hp; cases hp
    | some nd =>
      rw [hg] at hp
      cases hp
      cases L with
      | nil => cases h1
      | cons t1 L1 =>
        obtain ⟨e, nd1, hnd1, hrest⟩ := h1
        cases e
        rw [hg] at hnd1
        cases hnd1
        obtain ⟨hnot, hnd2⟩ := List.nodup_cons.mp h2
        refine ⟨L1, stack_rep_modify clear_visited t (fun _ => rfl) hrest, hnd2, ?_⟩
        intro j
        show vis (s.heap.modify clear_visited t) j = true ↔ _
        by_cases hj : j = t
        · subst hj
          have e : vis (s.heap.modify clear_visited j) j = false := by
            rw [vis_of_get (get_modify_self clear_visited hg)]
            rfl
          rw [e]
          constructor
          · intro hc; cases hc
          · intro hc; exact absurd hc hnot
        · rw [vis_modify_other _ _ (fun e => hj e.symm), h3 j, List.mem_cons]
          constructor
          · rintro (e1 | e1)
            · exact absurd e1 hj
            · exact e1
          · exact Or.inr

/-- Every step keeps the flag `visited` in agreement with the stack. -/
theorem stack_ok_step (s s1 : State) (h : stack_ok s) (hstep : Step s s1) : stack_ok s1 := by
  cases hstep with
  | count => exact h
  | first_lowlink i _ =>
    exact stack_ok_modify h (with_lowlink s.scc_number) i (fun _ => rfl) (fun _ => rfl) rfl rfl
  | number i _ =>
    exact stack_ok_modify h (with_number s.scc_number) i (fun _ => rfl) (fun _ => rfl) rfl rfl
  | push _ i hp => exact stack_ok_push hp h
  | lower i x =>
    exact stack_ok_modify h (with_lowlink x) i (fun _ => rfl) (fun _ => rfl) rfl rfl
  | stay => exact h
  | pop _ hp => exact stack_ok_pop hp h
  | header => exact h
  | pop_member _ l hp =>
    have h1 : stack_ok (print s l) := h
    exact stack_ok_pop hp h1

end TarjanSCC


namespace TarjanSCC

/-! ## The canonical test changes nothing -/

theorem modify_lowlink_self {heap : List node_tp} {v : Nat} {vn : node_tp}
    (h : heap[v]? = some vn) : heap.modify (with_lowlink vn.lowlink) v = heap := by
  apply List.ext_getElem?
  intro j
  by_cases hj : v = j
  · subst hj
    rw [get_modify_self (with_lowlink vn.lowlink) h, h]
    rfl
  · rw [get_modify_other (with_lowlink vn.lowlink) hj]

theorem set_lowlink_self {st : State} {v : Nat} {vn : node_tp}
    (h : load st.heap (some v) = .ok vn) : set_lowlink st v vn.lowlink = st := by
  unfold set_lowlink
  rw [modify_lowlink_self (get_of_load h)]

/-- For a successor with a number the two tests lead to the same state, as the `lowlink` of a
numbered node is at most its number. -/
theorem visit_link_canon_eq {f fc : node_ptr_tp → State → Except Err State}
    {v : Nat} {w : node_ptr_tp} {st : State} (hrec : fc w st = f w st)
    (hok : lowlink_ok st.heap) (hv : num st.heap v ≠ 0) :
    visit_link_canon fc v w st = visit_link f v w st := by
  cases w with
  | none => rfl
  | some j =>
    unfold visit_link_canon visit_link
    simp only
    cases hl : load st.heap (some j) with
    | error e => rfl
    | ok wn =>
      simp only
      by_cases hn : wn.number = 0
      · rw [if_pos hn, if_pos hn, hrec]
      · rw [if_neg hn, if_neg hn]
        cases hl1 : load st.heap (some v) with
        | error e => rfl
        | ok vn =>
          simp only
          by_cases h1 : wn.number < vn.number
          · rw [if_pos h1]
          · rw [if_neg h1]
            by_cases h2 : wn.visited = true
            · rw [if_pos h2]
              have hg := get_of_load hl1
              have h3 := hok v hv
              rw [low_of_get hg, num_of_get hg] at h3
              have h4 : min vn.lowlink wn.number = vn.lowlink := by
                apply Nat.min_eq_left
                omega
              rw [h4, set_lowlink_self hl1]
            · rw [if_neg h2]

theorem keeps_numbers_visit_link {fuel : Nat} {v : Nat} {w : node_ptr_tp} {st r : State}
    (h : visit_link (scc fuel) v w st = .ok r) : keeps_numbers st r :=
  (Path.pairwise keeps_numbers_refl keeps_numbers_trans keeps_numbers_step
    (visit_link_path (scc_path fuel) h)).2.1

theorem for_links_canon_eq {fuel : Nat}
    (ih : ∀ (w : node_ptr_tp) (st : State), lowlink_ok st.heap →
      scc_canon fuel w st = scc fuel w st) (v : Nat) :
    ∀ (links : List node_ptr_tp) (st : State), lowlink_ok st.heap → num st.heap v ≠ 0 →
      for_links_canon (scc_canon fuel) v links st = for_links (scc fuel) v links st := by
  intro links
  induction links with
  | nil => intro st _ _; rfl
  | cons w rest ihl =>
    intro st hok hv
    unfold for_links_canon for_links
    rw [visit_link_canon_eq (ih w st hok) hok hv]
    cases hvl : visit_link (scc fuel) v w st with
    | error e => rfl
    | ok st1 =>
      simp only
      have hok1 : lowlink_ok st1.heap :=
        lowlink_ok_visit_link (fun w st st1 h1 h2 => (lowlink_ok_scc fuel w st h2).1 st1 h1)
          hvl hok
      have hv1 : num st1.heap v ≠ 0 := by
        rw [keeps_numbers_visit_link hvl v hv]
        exact hv
      exact ihl st1 hok1 hv1

/-- A call of `scc` with the canonical test does what the call of `scc` does. -/
theorem scc_canon_eq :
    ∀ (fuel : Nat) (v : node_ptr_tp) (st : State), lowlink_ok st.heap →
      scc_canon fuel v st = scc fuel v st := by
  intro fuel
  induction fuel with
  | zero => intro v st _; rfl
  | succ fuel ih =>
    intro v st hok
    cases v with
    | none => rfl
    | some i =>
      unfold scc_canon scc
      simp only
      cases hl : load st.heap (some i) with
      | error e => rfl
      | ok nd =>
        simp only
        by_cases hn : nd.number = 0
        · rw [if_pos hn, if_pos hn]
          have hget := get_of_load hl
          have hnum : num st.heap i = 0 := by rw [num_of_get hget]; exact hn
          cases hp : push (some i) (set_number (set_lowlink
              { st with scc_number := st.scc_number + 1 } i (st.scc_number + 1)) i
              (st.scc_number + 1)) with
          | error e => rfl
          | ok st4 =>
            simp only
            have h2 : lowlink_ok (set_lowlink { st with scc_number := st.scc_number + 1 } i
                (st.scc_number + 1)).heap :=
              lowlink_ok_set_low hok i _ (fun hc => absurd hnum hc)
            have h3 : lowlink_ok (set_number (set_lowlink
                { st with scc_number := st.scc_number + 1 } i (st.scc_number + 1)) i
                (st.scc_number + 1)).heap := by
              apply lowlink_ok_set_num h2
              · show low (st.heap.modify (with_lowlink (st.scc_number + 1)) i) i ≤ _
                rw [low_set_low, if_pos ⟨rfl, lt_of_get hget⟩]
              · show num (st.heap.modify (with_lowlink (st.scc_number + 1)) i) i = 0
                rw [num_modify st.heap (with_lowlink (st.scc_number + 1)) i i (fun _ => rfl)]
                exact hnum
            have h4 := lowlink_ok_push hp h3
            have hn3 : num (set_number (set_lowlink
                { st with scc_number := st.scc_number + 1 } i (st.scc_number + 1)) i
                (st.scc_number + 1)).heap i = st.scc_number + 1 := by
              show num ((st.heap.modify (with_lowlink (st.scc_number + 1)) i).modify
                (with_number (st.scc_number + 1)) i) i = _
              rw [num_set_num, if_pos ⟨rfl, by rw [List.length_modify]; exact lt_of_get hget⟩]
            have hn4 : num st4.heap i ≠ 0 := by
              rw [keeps_numbers_push hp i (by rw [hn3]; exact Nat.succ_ne_zero _), hn3]
              exact Nat.succ_ne_zero _
            rw [for_links_canon_eq ih i nd.link st4 h4 hn4]
        · rw [if_neg hn, if_neg hn]

theorem roots_loop_canon_eq :
    ∀ (fuel : Nat) (p : node_ptr_tp) (st : State), lowlink_ok st.heap →
      roots_loop_canon fuel p st = roots_loop fuel p st := by
  intro fuel
  induction fuel with
  | zero =>
    intro p st _
    cases p <;> rfl
  | succ fuel ih =>
    intro p st hok
    cases p with
    | none => rfl
    | some i =>
      unfold roots_loop_canon roots_loop
      cases hl : load st.heap (some i) with
      | error e => rfl
      | ok nd =>
        simp only
        rw [scc_canon_eq _ _ st hok]
        cases hr : (if nd.visited = false then scc (st.heap.length + 1) (some i) st
            else Except.ok st) with
        | error e => rfl
        | ok st2 =>
          simp only
          have h2 : lowlink_ok st2.heap := by
            by_cases hv : nd.visited = false
            · rw [if_pos hv] at hr
              exact (lowlink_ok_scc _ _ st hok).1 st2 hr
            · rw [if_neg hv] at hr; cases hr; exact hok
          cases hl2 : load st2.heap (some i) with
          | error e => rfl
          | ok nd1 =>
            simp only
            exact ih nd1.finger st2 h2

/-- C12: with the canonical test `if( w->visited )` in place of
`if( w->number < v->number ) if( w->visited )`, both passes of `main` end in the very states
in which they end with the test of the code, for every list of pairs: every field of every
node, `lowlink` included, and the whole report are the same. -/
theorem C12_canonical_test_is_equivalent (pairs : List (Int × Int)) :
    ∃ s1 s2, pass1 pairs = .ok s1 ∧ pass1_canon pairs = .ok s1 ∧
      pass2 pairs s1 = .ok s2 ∧ pass2_canon pairs s1 = .ok s2 ∧
      main pairs = .ok s2 ∧ main_canon pairs = .ok s2 := by
  obtain ⟨sf, heapF, G, s1, s2, hin, hb, hnames, hadj, htop, hall, hp1, hs1, hp2, hmain, hs2,
    hin2⟩ := main_spec pairs
  have hb2 : Built ⟨sf.heap, 0, none, 0, sf.finger, false, []⟩ := hb.of_heap_eq rfl rfl
  have hQ1 : lowlink_ok s1.heap := by
    rw [hs1]
    intro i _
    exact htop.inv.low_le i
  have hc1 : pass1_canon pairs = .ok s1 := by
    unfold pass1_canon
    unfold pass1 at hp1
    rw [hin] at hp1 ⊢
    simp only at hp1 ⊢
    rw [roots_loop_canon_eq _ _ sf (lowlink_ok_built hb)]
    exact hp1
  have hc2 : pass2_canon pairs s1 = .ok s2 := by
    unfold pass2_canon
    unfold pass2 at hp2
    rw [hin2] at hp2 ⊢
    simp only at hp2 ⊢
    rw [roots_loop_canon_eq _ _ _ (lowlink_ok_rebase hQ1 hb2 s1.outfile)]
    exact hp2
  refine ⟨s1, s2, hp1, hc1, hp2, hc2, hmain, ?_⟩
  unfold main_canon
  rw [hc1]
  exact hc2

end TarjanSCC


namespace TarjanSCC

/-! ## The events of an extraction -/

theorem pop_loop_events_succ (v : node_ptr_tp) (fuel : Nat) (st : State) :
    pop_loop_events v (fuel + 1) st =
      match st.scc_stack with
      | none => []
      | some t =>
        match load st.heap (some t) with
        | .error _ => []
        | .ok top =>
          match load st.heap v with
          | .error _ => []
          | .ok vn =>
            if vn.number ≤ top.number then
              match pop (print st (.member top.name)) with
              | .error _ => []
              | .ok st1 => Event.pop t :: pop_loop_events v fuel st1
            else [] := by
  rw [pop_loop_events]
  try rfl

/-- The loop `while` of `scc` pops the nodes above the limit, from the top down. -/
theorem pop_loop_events_spec (v nv : Nat) :
    ∀ (S : List Nat) (heap : List node_tp) (stk : node_ptr_tp) (L : List Nat) (fuel : Nat),
      stack_rep heap stk (S ++ L) → (S ++ L).Nodup → num heap v = nv → v < heap.length →
      (∀ x ∈ S, nv ≤ num heap x) → (∀ x ∈ L, num heap x < nv) → S.length ≤ fuel →
      ∀ (K c : Nat) (fg : node_ptr_tp) (b : Bool) (o : List Line),
        pop_loop_events (some v) fuel ⟨heap, K, stk, c, fg, b, o⟩ = S.map Event.pop := by
  intro S
  induction S with
  | nil =>
    intro heap stk L fuel hrep _ hnv hv _ hL _ K c fg b o
    obtain ⟨vn, hvn⟩ := get_of_lt hv
    cases L with
    | nil =>
      have : stk = none := hrep
      subst this
      cases fuel <;> simp [pop_loop_events]
    | cons t rest =>
      obtain ⟨hp, nd, hnd, _⟩ := hrep
      subst hp
      have h1 : num heap t < nv := hL t (List.mem_cons_self _ _)
      rw [num_of_get hnd] at h1
      rw [num_of_get hvn] at hnv
      have h2 : ¬ vn.number ≤ nd.number := by omega
      cases fuel <;> simp [pop_loop_events, load_of_get hnd, load_of_get hvn, h2]
  | cons t S1 ih =>
    intro heap stk L fuel hrep hnodup hnv hv hS hL hfuel K c fg b o
    obtain ⟨hp, nd, hnd, hrest⟩ := hrep
    subst hp
    obtain ⟨vn, hvn⟩ := get_of_lt hv
    obtain ⟨f, rfl⟩ : ∃ f, fuel = f + 1 := ⟨fuel - 1, by simp at hfuel; omega⟩
    have hnd2 : (S1 ++ L).Nodup := (List.nodup_cons.mp hnodup).2
    have hrep1 : stack_rep (heap.modify clear_visited t) nd.scc_pred (S1 ++ L) :=
      stack_rep_modify clear_visited t (fun _ => rfl) hrest
    have hnum1 : ∀ i, num (heap.modify clear_visited t) i = num heap i :=
      fun i => num_modify heap clear_visited t i (fun _ => rfl)
    have hrun := ih (heap.modify clear_visited t)
      nd.scc_pred L f hrep1 hnd2 (by rw [hnum1]; exact hnv) (by simpa using hv)
      (fun x hx => by rw [hnum1]; exact hS x (List.mem_cons_of_mem _ hx))
      (fun x hx => by rw [hnum1]; exact hL x hx) (by simp at hfuel; omega)
    have h1 : nv ≤ num heap t := hS t (List.mem_cons_self _ _)
    rw [num_of_get hnd] at h1
    rw [num_of_get hvn] at hnv
    have h2 : vn.number ≤ nd.number := by omega
    rw [pop_loop_events_succ]
    simp only [load_of_get hnd, load_of_get hvn, h2, if_true, print]
    rw [pop_eq hnd]
    simp only
    rw [hrun, List.map_cons]

theorem extract_events_keep {heap : List node_tp} {v : Nat} (hv : v < heap.length)
    (hlow : low heap v ≠ num heap v) (K : Nat) (stk : node_ptr_tp)
    (c : Nat) (fg : node_ptr_tp) (b : Bool) (o : List Line) :
    extract_events v ⟨heap, K, stk, c, fg, b, o⟩ = [] := by
  obtain ⟨vn, hvn⟩ := get_of_lt hv
  rw [low_of_get hvn, num_of_get hvn] at hlow
  simp [extract_events, load_of_get hvn, hlow]

/-- The events of the extraction step of a call whose node closes a component. -/
theorem Mid.extract_events_eq {adj : Nat → List node_ptr_tp} {heap0 heap : List node_tp}
    {K0 K : Nat} {L seg : List Nat} {v : Nat} {stk : node_ptr_tp} {G : List (List Nat)}
    {links : List node_ptr_tp} (h : Mid adj heap0 K0 L v heap K stk seg G links)
    (hlow : low heap v = num heap v) (c : Nat) (fg : node_ptr_tp) (b : Bool) (o : List Line) :
    extract_events v ⟨heap, K, stk, c, fg, b, o⟩ =
      Event.found v ⟨heap, K, stk, c, fg, b, o⟩ :: (seg ++ [v]).map Event.pop := by
  have hinv : Inv adj heap K stk ((seg ++ [v]) ++ L) := by
    rw [List.append_assoc]
    exact h.inv
  have hnodup := hinv.nodup
  have hlen : (seg ++ [v]).length ≤ heap.length := by
    apply length_le_of_nodup_lt (List.nodup_append.mp hnodup).1
    intro i hi
    exact stack_rep_valid _ _ hinv.stack i (List.mem_append_left _ hi)
  have hrun := pop_loop_events_spec v (num heap v) (seg ++ [v]) heap stk L
    heap.length hinv.stack hnodup rfl h.v_lt
    (by
      intro x hx
      rcases List.mem_append.mp hx with h1 | h1
      · exact Nat.le_of_lt (h.seg_gt h1)
      · rw [List.mem_singleton] at h1
        rw [h1])
    (fun x hx => h.L_lt hx) hlen
  obtain ⟨vn, hvn⟩ := get_of_lt h.v_lt
  have hlow1 : vn.lowlink = vn.number := by
    rw [low_of_get hvn, num_of_get hvn] at hlow
    exact hlow
  have hemit : emit_events (some v) ⟨heap, K, stk, c, fg, b, o⟩ =
      (seg ++ [v]).map Event.pop := by
    unfold emit_events
    exact hrun K (c + 1) fg b _
  cases seg with
  | nil =>
    have hstk : stk = some v := h.inv.stack.1
    cases b with
    | false =>
      simp only [extract_events, load_of_get hvn, hlow1, if_true, hstk, pop_events]
      rfl
    | true =>
      simp only [extract_events, load_of_get hvn, hlow1, if_true]
      rw [if_neg (by simp), hemit]
  | cons y s1 =>
    have hstk : stk = some y := h.inv.stack.1
    have hyv : y ≠ v := by
      intro e
      have := (List.nodup_append.mp hnodup).1
      rw [e] at this
      simp at this
    have hne : stk ≠ some v := by
      rw [hstk]
      intro e
      exact hyv (Option.some.inj e)
    cases b with
    | false =>
      simp only [extract_events, load_of_get hvn, hlow1, if_true]
      rw [if_neg hne, hemit]
    | true =>
      simp only [extract_events, load_of_get hvn, hlow1, if_true]
      rw [if_neg (by simp), hemit]

theorem pops_of_pops (S : List Nat) : pops_of (S.map Event.pop) = S := by
  unfold pops_of
  induction S with
  | nil => rfl
  | cons x S ih =>
    rw [List.map_cons, List.filterMap_cons]
    simp only [Event.pop?]
    rw [ih]

/-- What C13 says holds at the extraction step of a call whose node closes a component. -/
theorem Mid.extraction_holds {adj : Nat → List node_ptr_tp} {heap0 heap : List node_tp}
    {K0 K : Nat} {L seg : List Nat} {v : Nat} {stk : node_ptr_tp} {G : List (List Nat)}
    {links : List node_ptr_tp} (h : Mid adj heap0 K0 L v heap K stk seg G links)
    (hlow : low heap v = num heap v) (c : Nat) (fg : node_ptr_tp) (b : Bool) (o : List Line) :
    extraction_ok v ⟨heap, K, stk, c, fg, b, o⟩ := by
  obtain ⟨stk1, hstk1, hrun⟩ := h.extract_eq hlow
  refine ⟨hlow, seg, L, _, h.inv.stack, hrun c fg b o, ?_, stack_rep_unvisit _ hstk1, ?_,
    fun x hx => h.seg_gt hx, fun x hx => h.L_lt hx⟩
  · rw [h.extract_events_eq hlow]
    show pops_of (Event.found v _ :: (seg ++ [v]).map Event.pop) = _
    unfold pops_of
    rw [List.filterMap_cons]
    simp only [Event.pop?]
    exact pops_of_pops _
  · have hs := h.inv.sorted
    have e : seg ++ v :: L = (seg ++ [v]) ++ L := by simp
    rw [e] at hs
    exact (List.pairwise_append.mp hs).1

end TarjanSCC


namespace TarjanSCC

/-! ## Edges lead to earlier components -/

theorem downward_mono {adj : Nat → List node_ptr_tp} :
    ∀ (G : List (List Nat)) (D D1 : Nat → Prop), (∀ z, D z → D1 z) →
      downward adj D G → downward adj D1 G := by
  intro G
  induction G with
  | nil => intro _ _ _ _; trivial
  | cons g rest ih =>
    intro D D1 hD h
    obtain ⟨h1, h2⟩ := h
    refine ⟨?_, ih _ _ ?_ h2⟩
    · intro x hx z hz
      rcases h1 x hx z hz with e | e
      · exact Or.inl (hD z e)
      · exact Or.inr e
    · intro z hz
      rcases hz with e | e
      · exact Or.inl (hD z e)
      · exact Or.inr e

theorem downward_append {adj : Nat → List node_ptr_tp} :
    ∀ (G Gw : List (List Nat)) (D : Nat → Prop),
      downward adj D G → downward adj (fun z => D z ∨ z ∈ G.flatten) Gw →
      downward adj D (G ++ Gw) := by
  intro G
  induction G with
  | nil =>
    intro Gw D _ h2
    refine downward_mono Gw _ _ ?_ h2
    intro z hz
    rcases hz with e | e
    · exact e
    · simp at e
  | cons g rest ih =>
    intro Gw D h1 h2
    obtain ⟨a1, a2⟩ := h1
    refine ⟨a1, ih Gw _ a2 (downward_mono Gw _ _ ?_ h2)⟩
    intro z hz
    rcases hz with e | e
    · exact Or.inl (Or.inl e)
    · rw [List.flatten_cons, List.mem_append] at e
      rcases e with e1 | e1
      · exact Or.inl (Or.inr e1)
      · exact Or.inr e1

/-- Read with positions: an edge from the component at position `i` leads to a node of `D`
or into a component at a position not after `i`. -/
theorem downward_index {adj : Nat → List node_ptr_tp} :
    ∀ (G : List (List Nat)) (D : Nat → Prop), downward adj D G →
      ∀ (i : Nat) (g : List Nat), G[i]? = some g → ∀ x, x ∈ g → ∀ z, edge adj x z →
        D z ∨ ∃ (j : Nat) (g1 : List Nat), j ≤ i ∧ G[j]? = some g1 ∧ z ∈ g1 := by
  intro G
  induction G with
  | nil =>
    intro D _ i g hg
    simp at hg
  | cons g0 rest ih =>
    intro D h i g hg x hx z hz
    obtain ⟨h1, h2⟩ := h
    cases i with
    | zero =>
      simp only [List.getElem?_cons_zero, Option.some.injEq] at hg
      subst hg
      rcases h1 x hx z hz with e | e
      · exact Or.inl e
      · exact Or.inr ⟨0, g0, Nat.le_refl _, List.getElem?_cons_zero, e⟩
    | succ i =>
      simp only [List.getElem?_cons_succ] at hg
      rcases ih _ h2 i g hg x hx z hz with e | ⟨j, g1, hj, hg1, hz1⟩
      · rcases e with e1 | e1
        · exact Or.inl e1
        · exact Or.inr ⟨0, g0, Nat.zero_le _, List.getElem?_cons_zero, e1⟩
      · exact Or.inr ⟨j + 1, g1, Nat.succ_le_succ hj, by simpa using hg1, hz1⟩

theorem done_in_later {adj : Nat → List node_ptr_tp} {heap heap1 : List node_tp} {K K1 : Nat}
    {G : List (List Nat)} (hl : Later heap K heap1 K1) (hg : Groups adj heap heap1 G)
    {z : Nat} (h : done_in heap1 z) : done_in heap z ∨ z ∈ G.flatten := by
  by_cases h0 : num heap z = 0
  · exact Or.inr ((hg.mem z).mpr ⟨h0, h.1, h.2⟩)
  · left
    have e := hl.old_same z h0
    refine ⟨h0, ?_⟩
    have : vis heap1 z = vis heap z := by unfold vis; rw [e]
    rw [← this]
    exact h.2

theorem done_in_same {heap heap1 : List node_tp} (hn : ∀ i, num heap1 i = num heap i)
    (hv : ∀ i, vis heap1 i = vis heap i) {z : Nat} (h : done_in heap1 z) : done_in heap z := by
  obtain ⟨h1, h2⟩ := h
  rw [hn] at h1
  rw [hv] at h2
  exact ⟨h1, h2⟩

/-- At the end of the loop, every edge from the node of the call or from a node above it on
the stack leads to one of these nodes or to a node that is done. -/
theorem Mid.closed_seg {adj : Nat → List node_ptr_tp} {heap0 heap : List node_tp}
    {K0 K : Nat} {L seg : List Nat} {v : Nat} {stk : node_ptr_tp} {G : List (List Nat)}
    {links : List node_ptr_tp} (h : Mid adj heap0 K0 L v heap K stk seg G links)
    (hall : ∀ w, w ∈ adj v → w ∈ links) (hlow : low heap v = num heap v) :
    ∀ y, y ∈ seg ++ [v] → ∀ z, edge adj y z → z ∈ seg ++ [v] ∨ done_in heap z := by
  have hinv : Inv adj heap K stk ((seg ++ [v]) ++ L) := by
    rw [List.append_assoc]
    exact h.inv
  have hcl : ∀ y, y ∈ seg ++ [v] → ∀ z, edge adj y z → num heap z ≠ 0 ∧ z ∉ L := by
    intro y hy z hz
    rcases List.mem_append.mp hy with h1 | h1
    · refine ⟨h.segment.closed y h1 z hz, ?_⟩
      intro hzL
      have h2 := h.segment.edges y h1 z hzL hz
      have h3 := h.L_lt hzL
      omega
    · rw [List.mem_singleton] at h1
      rw [h1] at hz
      obtain ⟨h2, h3⟩ := h.closed_v hall hz
      refine ⟨h2, ?_⟩
      intro hzL
      have h4 := h3 hzL
      have h5 := h.L_lt hzL
      omega
  intro y hy z hz
  obtain ⟨h1, h2⟩ := hcl y hy z hz
  cases hvz : vis heap z with
  | false => exact Or.inr ⟨h1, hvz⟩
  | true =>
    left
    rcases List.mem_append.mp ((hinv.vis_iff z).mp hvz) with h3 | h3
    · exact h3
    · exact absurd h3 h2

/-! ## The events of a call, unfolded -/

theorem scc_events_succ_eq (fuel : Nat) {heap : List node_tp} {w : Nat} {nd : node_tp}
    (hw : heap[w]? = some nd) (hn : nd.number = 0) (hv : nd.visited = false) (K : Nat)
    (stk : node_ptr_tp) (c : Nat) (fg : node_ptr_tp) (b : Bool) (o : List Line) :
    scc_events (fuel + 1) (some w) ⟨heap, K, stk, c, fg, b, o⟩ =
      Event.body w :: Event.push w ::
        (for_links_events (scc fuel) (scc_events fuel) w nd.link
            ⟨heap.modify (enter K stk) w, K + 1, some w, c, fg, b, o⟩ ++
          (match for_links (scc fuel) w nd.link
              ⟨heap.modify (enter K stk) w, K + 1, some w, c, fg, b, o⟩ with
            | .error _ => []
            | .ok st5 => extract_events w st5)) := by
  have hget : ((heap.modify (with_lowlink (K + 1)) w).modify (with_number (K + 1)) w)[w]? =
      some (with_number (K + 1) (with_lowlink (K + 1) nd)) := by
    have h1 : (heap.modify (with_lowlink (K + 1)) w)[w]? = some (with_lowlink (K + 1) nd) :=
      get_modify_self (with_lowlink (K + 1)) hw
    exact get_modify_self (with_number (K + 1)) h1
  have hpush := push_eq hget (by simpa [with_number, with_lowlink] using hv) (K + 1) stk c fg b o
  rw [enter_heap] at hpush
  simp only [scc_events, load_of_get hw, hn, if_true, set_lowlink, set_number]
  rw [hpush]
  try rfl

theorem for_links_events_cons {f : node_ptr_tp → State → Except Err State}
    {g : node_ptr_tp → State → List Event} {v : Nat} {w : node_ptr_tp} {st st1 : State}
    (h : visit_link f v w st = .ok st1) (rest : List node_ptr_tp) :
    for_links_events f g v (w :: rest) st =
      visit_link_events g w st ++ for_links_events f g v rest st1 := by
  simp only [for_links_events, h]

theorem visit_link_events_numbered (g : node_ptr_tp → State → List Event) {w : Nat}
    {st : State} {wn : node_tp} (hw : st.heap[w]? = some wn) (hn : wn.number ≠ 0) :
    visit_link_events g (some w) st = [] := by
  simp only [visit_link_events, load_of_get hw, hn, if_false]

theorem visit_link_events_child (g : node_ptr_tp → State → List Event) {w : Nat}
    {st : State} {wn : node_tp} (hw : st.heap[w]? = some wn) (hn : wn.number = 0) :
    visit_link_events g (some w) st = g (some w) st := by
  simp only [visit_link_events, load_of_get hw, hn, if_true]

theorem bodies_of_append (E1 E2 : List Event) :
    bodies_of (E1 ++ E2) = bodies_of E1 ++ bodies_of E2 := by
  unfold bodies_of
  exact List.filterMap_append _ _ _

theorem pushes_of_append (E1 E2 : List Event) :
    pushes_of (E1 ++ E2) = pushes_of E1 ++ pushes_of E2 := by
  unfold pushes_of
  exact List.filterMap_append _ _ _

theorem pops_of_append (E1 E2 : List Event) :
    pops_of (E1 ++ E2) = pops_of E1 ++ pops_of E2 := by
  unfold pops_of
  exact List.filterMap_append _ _ _

theorem backs_of_append (E1 E2 : List Event) :
    backs_of (E1 ++ E2) = backs_of E1 ++ backs_of E2 := by
  unfold backs_of
  exact List.filterMap_append _ _ _

theorem extractions_of_append (E1 E2 : List Event) :
    extractions_of (E1 ++ E2) = extractions_of E1 ++ extractions_of E2 := by
  induction E1 with
  | nil => rfl
  | cons e E1 ih =>
    cases e <;> simp only [List.cons_append, extractions_of, List.append_eq, ih]

theorem extractions_of_pops (S : List Nat) : extractions_of (S.map Event.pop) = [] := by
  induction S with
  | nil => rfl
  | cons x S ih =>
    rw [List.map_cons]
    simp only [extractions_of]
    exact ih

theorem founds_of_append (E1 E2 : List Event) :
    founds_of (E1 ++ E2) = founds_of E1 ++ founds_of E2 := by
  unfold founds_of
  exact List.filterMap_append _ _ _

theorem founds_of_pops (S : List Nat) : founds_of (S.map Event.pop) = [] := by
  unfold founds_of
  induction S with
  | nil => rfl
  | cons x S ih =>
    rw [List.map_cons, List.filterMap_cons]
    simp only [Event.found?]
    exact ih

theorem bodies_of_pops (S : List Nat) : bodies_of (S.map Event.pop) = [] := by
  unfold bodies_of
  induction S with
  | nil => rfl
  | cons x S ih =>
    rw [List.map_cons, List.filterMap_cons]
    simp only [Event.body?]
    exact ih

theorem pushes_of_pops (S : List Nat) : pushes_of (S.map Event.pop) = [] := by
  unfold pushes_of
  induction S with
  | nil => rfl
  | cons x S ih =>
    rw [List.map_cons, List.filterMap_cons]
    simp only [Event.push?]
    exact ih

theorem backs_of_pops (S : List Nat) : backs_of (S.map Event.pop) = [] := by
  unfold backs_of
  induction S with
  | nil => rfl
  | cons x S ih =>
    rw [List.map_cons, List.filterMap_cons]
    simp only [Event.back?]
    exact ih

theorem found_not_mem_pops (S : List Nat) (x : Nat) (s : State) :
    Event.found x s ∉ S.map Event.pop := by
  intro h
  obtain ⟨y, _, hy⟩ := List.mem_map.mp h
  cases hy

end TarjanSCC


namespace TarjanSCC

/-! ## The events of the loop over the successors and of a call -/

theorem range_split (K Kw K1 : Nat) (h1 : K ≤ Kw) (h2 : Kw ≤ K1) :
    List.range' (K + 1) (Kw - K) ++ List.range' (Kw + 1) (K1 - Kw) =
      List.range' (K + 1) (K1 - K) := by
  have e := List.range'_append_1 (K + 1) (Kw - K) (K1 - Kw)
  have e1 : K + 1 + (Kw - K) = Kw + 1 := by omega
  have e2 : K1 - Kw + (Kw - K) = K1 - K := by omega
  rw [e1, e2] at e
  exact e

theorem map_num_keep {heap heap1 : List node_tp} {P : List Nat} {s n : Nat}
    (hP : P.map (num heap) = List.range' (s + 1) n)
    (hk : ∀ i, num heap i ≠ 0 → num heap1 i = num heap i) :
    P.map (num heap1) = List.range' (s + 1) n := by
  rw [← hP]
  apply List.map_congr_left
  intro i hi
  apply hk
  have h1 : num heap i ∈ List.range' (s + 1) n := by
    rw [← hP]
    exact List.mem_map_of_mem _ hi
  rw [List.mem_range'_1] at h1
  omega

theorem for_links_scan {adj : Nat → List node_ptr_tp} {fuel : Nat} (ih : ScanSpec adj fuel)
    {heap0 : List node_tp} {K0 : Nat} {L : List Nat} {v : Nat}
    (hfuel : heap0.length < K0 + (fuel + 1)) :
    ∀ (rest : List node_ptr_tp) (heap : List node_tp) (K : Nat) (stk : node_ptr_tp)
      (seg : List Nat) (G : List (List Nat)) (links : List node_ptr_tp),
      Mid adj heap0 K0 L v heap K stk seg G links →
      (∀ w, w ∈ rest → w ∈ adj v) →
      ∃ (heap1 : List node_tp) (K1 : Nat) (stk1 : node_ptr_tp) (seg1 : List Nat)
        (G1 : List (List Nat)) (P1 : List Nat),
        Mid adj heap0 K0 L v heap1 K1 stk1 seg1 (G ++ G1) (links ++ rest) ∧
        downward adj (done_in heap) G1 ∧
        P1.map (num heap1) = List.range' (K + 1) (K1 - K) ∧
        K ≤ K1 ∧ (∀ i, num heap i ≠ 0 → num heap1 i = num heap i) ∧
        ∀ (c : Nat) (fg : node_ptr_tp) (b : Bool) (o : List Line),
          for_links (scc fuel) v rest ⟨heap, K, stk, c, fg, b, o⟩ =
            .ok ⟨heap1, K1, stk1, c + (reported b G1).length, fg, b,
              o ++ render (fun i => name_of heap0 (some i)) b c G1⟩ ∧
          bodies_of (for_links_events (scc fuel) (scc_events fuel) v rest
            ⟨heap, K, stk, c, fg, b, o⟩) = P1 ∧
          pushes_of (for_links_events (scc fuel) (scc_events fuel) v rest
            ⟨heap, K, stk, c, fg, b, o⟩) = P1 ∧
          pops_of (for_links_events (scc fuel) (scc_events fuel) v rest
            ⟨heap, K, stk, c, fg, b, o⟩) = G1.flatten ∧
          backs_of (for_links_events (scc fuel) (scc_events fuel) v rest
            ⟨heap, K, stk, c, fg, b, o⟩) = [] ∧
          (∀ (x : Nat) (s : State),
            Event.found x s ∈ for_links_events (scc fuel) (scc_events fuel) v rest
              ⟨heap, K, stk, c, fg, b, o⟩ → extraction_ok x s) ∧
          (founds_of (for_links_events (scc fuel) (scc_events fuel) v rest
            ⟨heap, K, stk, c, fg, b, o⟩)).map some = G1.map root_of ∧
          extractions_of (for_links_events (scc fuel) (scc_events fuel) v rest
            ⟨heap, K, stk, c, fg, b, o⟩) = G1 := by
  intro rest
  induction rest with
  | nil =>
    intro heap K stk seg G links h _
    refine ⟨heap, K, stk, seg, [], [], ?_, trivial, ?_, Nat.le_refl _, fun _ _ => rfl, ?_⟩
    · rw [List.append_nil, List.append_nil]
      exact h
    · rw [Nat.sub_self]; rfl
    · intro c fg b o
      refine ⟨?_, rfl, rfl, rfl, rfl, ?_, rfl, rfl⟩
      · rw [for_links_nil, reported_nil, render_nil]
        simp
      · intro x s hx
        cases hx
  | cons w rest ihl =>
    intro heap K stk seg G links h hall
    have hwadj : w ∈ adj v := hall w (List.mem_cons_self _ _)
    have hrest : ∀ x, x ∈ rest → x ∈ adj v := fun x hx => hall x (List.mem_cons_of_mem _ hx)
    obtain ⟨j, hj, hjlt⟩ := h.inv.link_valid v w hwadj
    subst hj
    have he : edge adj v j := hwadj
    obtain ⟨wn, hwn⟩ := get_of_lt hjlt
    obtain ⟨vn, hvn⟩ := get_of_lt h.v_lt
    by_cases hn : wn.number = 0
    · -- the successor has no number: the call recurs
      have hnum : num heap j = 0 := by rw [num_of_get hwn]; exact hn
      have hreach : ∀ x, x ∈ seg ++ v :: L → Reach adj x j := fun x hx =>
        Relation.ReflTransGen.tail (h.reach_back hx) he
      have hfuel1 : heap.length < K + fuel := by
        have h1 := h.later.length
        have h2 := h.K_lt
        omega
      obtain ⟨heapw, Kw, stkw, segw, Gw, Pw, hpost, hdown, hPw, hrun⟩ :=
        ih heap K stk (seg ++ v :: L) j h.inv hjlt hnum hreach hfuel1
      have hlen1 : heapw.length = heap.length := hpost.later.length
      have hmid := h.step_child hnum he hpost
      obtain ⟨heap2, K2, stk2, seg2, G2, P2, hmid2, hdown2, hP2, hK2, hkeep2, hrun2⟩ :=
        ihl _ Kw stkw (segw ++ seg) (G ++ Gw) (links ++ [some j]) hmid hrest
      have hKw : K ≤ Kw := hpost.later.K_le
      have hnumw : ∀ i, num (heapw.modify
          (with_lowlink (min (low heapw v) (low heapw j))) v) i = num heapw i :=
        fun i => num_modify heapw _ v i (fun _ => rfl)
      have hvisw : ∀ i, vis (heapw.modify
          (with_lowlink (min (low heapw v) (low heapw j))) v) i = vis heapw i :=
        fun i => vis_modify heapw _ v i (fun _ => rfl)
      have hkeepw : ∀ i, num heap i ≠ 0 → num heapw i = num heap i := fun i hi =>
        hpost.later.num_old hi
      have hkeep : ∀ i, num heap i ≠ 0 → num heap2 i = num heap i := by
        intro i hi
        have e1 := hkeepw i hi
        have e2 := hkeep2 i (by rw [hnumw, e1]; exact hi)
        rw [e2, hnumw, e1]
      refine ⟨heap2, K2, stk2, seg2, Gw ++ G2, Pw ++ P2, ?_, ?_, ?_, Nat.le_trans hKw hK2,
        hkeep, ?_⟩
      · rw [← List.append_assoc, List.append_cons links (some j) rest]
        exact hmid2
      · apply downward_append Gw G2 _ hdown
        refine downward_mono G2 _ _ ?_ hdown2
        intro z hz
        exact done_in_later hpost.later hpost.groups (done_in_same hnumw hvisw hz)
      · rw [List.map_append, hP2, ← range_split K Kw K2 hKw hK2]
        congr 1
        apply map_num_keep hPw
        intro i hi
        rw [hkeep2 i (by rw [hnumw]; exact hi), hnumw]
      · intro c fg b o
        obtain ⟨r1, r2, r3, r4, r5, r6, r7, r8⟩ := hrun c fg b o
        have hvl := visit_link_child_eq (scc fuel) ⟨heap, K, stk, c, fg, b, o⟩ v hwn hn r1
          (by show v < heapw.length; rw [hlen1]; exact h.v_lt)
          (by show j < heapw.length; rw [hlen1]; exact hjlt)
        obtain ⟨t1, t2, t3, t4, t5, t6, t7, t8⟩ := hrun2 (c + (reported b Gw).length) fg b
          (o ++ render (fun i => name_of heap (some i)) b c Gw)
        have hev : for_links_events (scc fuel) (scc_events fuel) v (some j :: rest)
            ⟨heap, K, stk, c, fg, b, o⟩ =
            scc_events fuel (some j) ⟨heap, K, stk, c, fg, b, o⟩ ++
            for_links_events (scc fuel) (scc_events fuel) v rest
              ⟨heapw.modify (with_lowlink (min (low heapw v) (low heapw j))) v, Kw, stkw,
                c + (reported b Gw).length, fg, b,
                o ++ render (fun i => name_of heap (some i)) b c Gw⟩ := by
          rw [for_links_events_cons hvl,
            visit_link_events_child (scc_events fuel) (by exact hwn) hn]
          rfl
        refine ⟨?_, ?_, ?_, ?_, ?_, ?_, ?_, ?_⟩
        · rw [for_links_cons_ok hvl]
          simp only [set_lowlink]
          rw [t1, reported_append, render_append, h.later.name, List.length_append]
          simp only [List.append_assoc, Nat.add_assoc]
        · rw [hev, bodies_of_append, r2, t2]
        · rw [hev, pushes_of_append, r3, t3]
        · rw [hev, pops_of_append, r4, t4, List.flatten_append]
        · rw [hev, backs_of_append, r5, t5]
          rfl
        · intro x s hx
          rw [hev] at hx
          rcases List.mem_append.mp hx with e | e
          · exact r6 x s e
          · exact t6 x s e
        · rw [hev, founds_of_append, List.map_append, r7, t7, List.map_append]
        · rw [hev, extractions_of_append, r8, t8]
    · -- the successor has a number
      have hnum : num heap j ≠ 0 := by rw [num_of_get hwn]; exact hn
      have hmid := h.step_numbered hnum he
      obtain ⟨heap2, K2, stk2, seg2, G2, P2, hmid2, hdown2, hP2, hK2, hkeep2, hrun2⟩ :=
        ihl _ K stk seg G (links ++ [some j]) hmid hrest
      have hnumw : ∀ i, num (if num heap j < num heap v ∧ vis heap j = true then
          heap.modify (with_lowlink (min (low heap v) (num heap j))) v else heap) i =
          num heap i := by
        intro i
        split
        · exact num_modify heap _ v i (fun _ => rfl)
        · rfl
      have hvisw : ∀ i, vis (if num heap j < num heap v ∧ vis heap j = true then
          heap.modify (with_lowlink (min (low heap v) (num heap j))) v else heap) i =
          vis heap i := by
        intro i
        split
        · exact vis_modify heap _ v i (fun _ => rfl)
        · rfl
      refine ⟨heap2, K2, stk2, seg2, G2, P2, ?_, ?_, hP2, hK2, ?_, ?_⟩
      · rw [List.append_cons links (some j) rest]
        exact hmid2
      · exact downward_mono G2 _ _ (fun z hz => done_in_same hnumw hvisw hz) hdown2
      · intro i hi
        rw [hkeep2 i (by rw [hnumw]; exact hi), hnumw]
      · intro c fg b o
        obtain ⟨t1, t2, t3, t4, t5, t6, t7, t8⟩ := hrun2 c fg b o
        have hvl := visit_link_numbered_eq (scc fuel) hvn hwn hn K stk c fg b o
        have hev : for_links_events (scc fuel) (scc_events fuel) v (some j :: rest)
            ⟨heap, K, stk, c, fg, b, o⟩ =
            for_links_events (scc fuel) (scc_events fuel) v rest
              ⟨if num heap j < num heap v ∧ vis heap j = true then
                heap.modify (with_lowlink (min (low heap v) (num heap j))) v else heap,
                K, stk, c, fg, b, o⟩ := by
          rw [for_links_events_cons hvl,
            visit_link_events_numbered (scc_events fuel) (by exact hwn) hn]
          rfl
        refine ⟨?_, ?_, ?_, ?_, ?_, ?_, ?_, ?_⟩
        · rw [for_links_cons_ok hvl]
          exact t1
        · rw [hev]; exact t2
        · rw [hev]; exact t3
        · rw [hev]; exact t4
        · rw [hev]; exact t5
        · intro x s hx
          rw [hev] at hx
          exact t6 x s hx
        · rw [hev]; exact t7
        · rw [hev]; exact t8

end TarjanSCC


namespace TarjanSCC

theorem bodies_of_body (v : Nat) (E : List Event) :
    bodies_of (Event.body v :: E) = v :: bodies_of E := rfl

theorem bodies_of_push (v : Nat) (E : List Event) :
    bodies_of (Event.push v :: E) = bodies_of E := rfl

theorem bodies_of_found (v : Nat) (s : State) (E : List Event) :
    bodies_of (Event.found v s :: E) = bodies_of E := rfl

theorem pushes_of_body (v : Nat) (E : List Event) :
    pushes_of (Event.body v :: E) = pushes_of E := rfl

theorem pushes_of_push (v : Nat) (E : List Event) :
    pushes_of (Event.push v :: E) = v :: pushes_of E := rfl

theorem pushes_of_found (v : Nat) (s : State) (E : List Event) :
    pushes_of (Event.found v s :: E) = pushes_of E := rfl

theorem pops_of_body (v : Nat) (E : List Event) :
    pops_of (Event.body v :: E) = pops_of E := rfl

theorem pops_of_push (v : Nat) (E : List Event) :
    pops_of (Event.push v :: E) = pops_of E := rfl

theorem pops_of_found (v : Nat) (s : State) (E : List Event) :
    pops_of (Event.found v s :: E) = pops_of E := rfl

theorem backs_of_body (v : Nat) (E : List Event) :
    backs_of (Event.body v :: E) = backs_of E := rfl

theorem backs_of_push (v : Nat) (E : List Event) :
    backs_of (Event.push v :: E) = backs_of E := rfl

theorem backs_of_found (v : Nat) (s : State) (E : List Event) :
    backs_of (Event.found v s :: E) = backs_of E := rfl

theorem backs_of_back (s : State) (E : List Event) :
    backs_of (Event.back s :: E) = s :: backs_of E := rfl

theorem founds_of_body (v : Nat) (E : List Event) :
    founds_of (Event.body v :: E) = founds_of E := rfl

theorem founds_of_push (v : Nat) (E : List Event) :
    founds_of (Event.push v :: E) = founds_of E := rfl

theorem founds_of_found (v : Nat) (s : State) (E : List Event) :
    founds_of (Event.found v s :: E) = v :: founds_of E := rfl

theorem founds_of_back (s : State) (E : List Event) :
    founds_of (Event.back s :: E) = founds_of E := rfl

theorem extractions_of_body (v : Nat) (E : List Event) :
    extractions_of (Event.body v :: E) = extractions_of E := rfl

theorem extractions_of_push (v : Nat) (E : List Event) :
    extractions_of (Event.push v :: E) = extractions_of E := rfl

theorem extractions_of_found (v : Nat) (s : State) (E : List Event) :
    extractions_of (Event.found v s :: E) =
      pops_of (extract_events v s) :: extractions_of E := rfl

theorem extractions_of_back (s : State) (E : List Event) :
    extractions_of (Event.back s :: E) = extractions_of E := rfl

theorem root_of_snoc (S : List Nat) (v : Nat) : root_of (S ++ [v]) = some v := by
  unfold root_of
  simp

theorem bodies_of_back (s : State) (E : List Event) :
    bodies_of (Event.back s :: E) = bodies_of E := rfl

theorem pushes_of_back (s : State) (E : List Event) :
    pushes_of (Event.back s :: E) = pushes_of E := rfl

theorem pops_of_back (s : State) (E : List Event) :
    pops_of (Event.back s :: E) = pops_of E := rfl

/-- Every call of `scc` on a node without a number has the events that `ScanSpec`
describes. -/
theorem scc_scan (adj : Nat → List node_ptr_tp) : ∀ (fuel : Nat), ScanSpec adj fuel := by
  intro fuel
  induction fuel with
  | zero =>
    intro heap K stk L w hinv hw hnum hpre hfuel
    have h1 : heap.countP is_numbered ≤ heap.length := List.countP_le_length _
    rw [hinv.count] at h1
    omega
  | succ fuel ih =>
    intro heap K stk L w hinv hw hnum hpre hfuel
    obtain ⟨nd, hnd⟩ := get_of_lt hw
    have hn : nd.number = 0 := by rw [num_of_get hnd] at hnum; exact hnum
    have hvis : nd.visited = false := by
      have h1 : ¬ (vis heap w = true) := by
        intro h2
        exact hinv.stack_num w ((hinv.vis_iff w).mp h2) hnum
      rw [vis_of_get hnd] at h1
      simpa using h1
    have hentry := Mid.entry hinv hnd hn hpre
    have hlinks : nd.link = adj w := by rw [← hinv.links_eq w, links_of_get hnd]
    obtain ⟨heap1, K1, stk1, seg1, G1, P1, hmid, hdown, hP1, hK, hkeep, hrun⟩ :=
      for_links_scan ih hfuel (adj w) _ (K + 1) (some w) [] [] [] hentry (fun x hx => hx)
    rw [List.nil_append, List.nil_append] at hmid
    have hall : ∀ x, x ∈ adj w → x ∈ adj w := fun x hx => hx
    have hdone : ∀ z, done_in (heap.modify (enter K stk) w) z → done_in heap z := by
      intro z hz
      obtain ⟨h1, h2⟩ := hz
      rw [num_enter hnd] at h1
      rw [vis_enter hnd] at h2
      by_cases hzw : z = w
      · rw [if_pos hzw] at h2; cases h2
      · rw [if_neg hzw] at h1 h2
        exact ⟨h1, h2⟩
    have hdown0 : downward adj (done_in heap) G1 := downward_mono G1 _ _ hdone hdown
    have hPnum : (w :: P1).map (num heap1) = List.range' (K + 1) (K1 - K) := by
      have e : K1 - K = (K1 - (K + 1)) + 1 := by omega
      rw [e, List.range'_succ, List.map_cons, hP1, hmid.num_v]
    by_cases hlow : low heap1 w = num heap1 w
    · obtain ⟨stk2, hstk2, hex⟩ := hmid.extract_eq hlow
      refine ⟨unvisit (seg1 ++ [w]) heap1, K1, stk2, [], G1 ++ [seg1 ++ [w]], w :: P1,
        hmid.finish_pop hall hlow hstk2, ?_, ?_, ?_⟩
      · apply downward_append G1 _ _ hdown0
        refine ⟨?_, trivial⟩
        intro x hx z hz
        rcases hmid.closed_seg hall hlow x hx z hz with e | e
        · exact Or.inr e
        · exact Or.inl (done_in_later hmid.later hmid.groups e)
      · rw [← hPnum]
        apply List.map_congr_left
        intro i _
        exact num_unvisit _ _ _
      · intro c fg b o
        obtain ⟨r1, r2, r3, r4, r5, r6, r7, r8⟩ := hrun c fg b o
        have hev : scc_events (fuel + 1) (some w) ⟨heap, K, stk, c, fg, b, o⟩ =
            Event.body w :: Event.push w ::
              (for_links_events (scc fuel) (scc_events fuel) w (adj w)
                ⟨heap.modify (enter K stk) w, K + 1, some w, c, fg, b, o⟩ ++
              (Event.found w ⟨heap1, K1, stk1, c + (reported b G1).length, fg, b,
                  o ++ render (fun i => name_of heap (some i)) b c G1⟩ ::
                (seg1 ++ [w]).map Event.pop)) := by
          rw [scc_events_succ_eq fuel hnd hn hvis, hlinks, r1]
          simp only []
          rw [hmid.extract_events_eq hlow]
        refine ⟨?_, ?_, ?_, ?_, ?_, ?_, ?_, ?_⟩
        · rw [scc_succ_eq fuel hnd hn hvis, hlinks, r1]
          simp only []
          rw [hex, reported_append, render_append, hmid.later.name, List.length_append]
          simp only [List.append_assoc, Nat.add_assoc]
        · rw [hev, bodies_of_body, bodies_of_push, bodies_of_append, bodies_of_found,
            bodies_of_pops, r2, List.append_nil]
        · rw [hev, pushes_of_body, pushes_of_push, pushes_of_append, pushes_of_found,
            pushes_of_pops, r3, List.append_nil]
        · rw [hev, pops_of_body, pops_of_push, pops_of_append, pops_of_found,
            pops_of_pops, r4, List.flatten_append]
          simp
        · rw [hev, backs_of_body, backs_of_push, backs_of_append, backs_of_found,
            backs_of_pops, r5]
          rfl
        · intro x s hx
          rw [hev] at hx
          rcases List.mem_cons.mp hx with e | e
          · cases e
          rcases List.mem_cons.mp e with e1 | e1
          · cases e1
          rcases List.mem_append.mp e1 with e2 | e2
          · exact r6 x s e2
          rcases List.mem_cons.mp e2 with e3 | e3
          · cases e3
            exact hmid.extraction_holds hlow _ fg b _
          · exact absurd e3 (found_not_mem_pops _ x s)
        · rw [hev, founds_of_body, founds_of_push, founds_of_append, founds_of_found,
            founds_of_pops, List.map_append, r7, List.map_append, List.map_cons,
            List.map_cons, root_of_snoc]
          rfl
        · rw [hev, extractions_of_body, extractions_of_push, extractions_of_append,
            extractions_of_found, extractions_of_pops, r8, hmid.extract_events_eq hlow,
            pops_of_found, pops_of_pops]
    · refine ⟨heap1, K1, stk1, seg1 ++ [w], G1, w :: P1, hmid.finish_keep hall hlow,
        hdown0, hPnum, ?_⟩
      intro c fg b o
      obtain ⟨r1, r2, r3, r4, r5, r6, r7, r8⟩ := hrun c fg b o
      have hev : scc_events (fuel + 1) (some w) ⟨heap, K, stk, c, fg, b, o⟩ =
          Event.body w :: Event.push w ::
            (for_links_events (scc fuel) (scc_events fuel) w (adj w)
              ⟨heap.modify (enter K stk) w, K + 1, some w, c, fg, b, o⟩ ++ []) := by
        rw [scc_events_succ_eq fuel hnd hn hvis, hlinks, r1]
        simp only []
        rw [extract_events_keep hmid.v_lt hlow]
      refine ⟨?_, ?_, ?_, ?_, ?_, ?_, ?_, ?_⟩
      · rw [scc_succ_eq fuel hnd hn hvis, hlinks, r1]
        simp only []
        rw [extract_keep_eq hmid.v_lt hlow]
      · rw [hev, List.append_nil, bodies_of_body, bodies_of_push, r2]
      · rw [hev, List.append_nil, pushes_of_body, pushes_of_push, r3]
      · rw [hev, List.append_nil, pops_of_body, pops_of_push, r4]
      · rw [hev, List.append_nil, backs_of_body, backs_of_push, r5]
      · intro x s hx
        rw [hev, List.append_nil] at hx
        rcases List.mem_cons.mp hx with e | e
        · cases e
        rcases List.mem_cons.mp e with e1 | e1
        · cases e1
        exact r6 x s e1
      · rw [hev, List.append_nil, founds_of_body, founds_of_push, r7]
      · rw [hev, List.append_nil, extractions_of_body, extractions_of_push, r8]

end TarjanSCC


namespace TarjanSCC

/-! ## The events of a traversal behind older nodes -/

theorem pop_events_rebase (old : List node_tp) (pre : List Line) (st : State) :
    pop_events (rebase old pre st) = (pop_events st).map (Event.shift old pre) := by
  unfold pop_events
  have e2 : (rebase old pre st).scc_stack = shift_ptr old.length st.scc_stack := rfl
  rw [e2]
  cases st.scc_stack <;> rfl

theorem pop_loop_events_rebase (old : List node_tp) (pre : List Line) (v : node_ptr_tp) :
    ∀ (fuel fuel1 : Nat) (st st1 : State), pop_loop v fuel st = .ok st1 → fuel ≤ fuel1 →
      pop_loop_events (shift_ptr old.length v) fuel1 (rebase old pre st) =
        (pop_loop_events v fuel st).map (Event.shift old pre) := by
  intro fuel
  induction fuel with
  | zero =>
    intro fuel1 st st1 h _
    unfold pop_loop at h
    unfold pop_loop_events
    have e2 : (rebase old pre st).scc_stack = shift_ptr old.length st.scc_stack := rfl
    rw [e2]
    cases hs : st.scc_stack with
    | none => rfl
    | some t =>
      rw [hs] at h
      simp only [shift_ptr_some, rebase_heap] at h ⊢
      rw [← shift_ptr_some, load_rebase, load_rebase]
      cases hl : load st.heap (some t) with
      | error e => rw [hl] at h; cases h
      | ok top =>
        rw [hl] at h
        simp only at h
        cases hl2 : load st.heap v with
        | error e => rw [hl2] at h; cases h
        | ok vn =>
          rw [hl2] at h
          simp only [Except.map] at h ⊢
          have e3 : (shift_node old.length vn).number = vn.number := rfl
          have e4 : (shift_node old.length top).number = top.number := rfl
          rw [e3, e4]
          by_cases hc : vn.number ≤ top.number
          · rw [if_pos hc] at h; cases h
          · rw [if_neg hc, if_neg hc]; rfl
  | succ fuel ih =>
    intro fuel1 st st1 h hle
    obtain ⟨f1, rfl⟩ : ∃ f1, fuel1 = f1 + 1 := ⟨fuel1 - 1, by omega⟩
    unfold pop_loop at h
    unfold pop_loop_events
    have e2 : (rebase old pre st).scc_stack = shift_ptr old.length st.scc_stack := rfl
    rw [e2]
    cases hs : st.scc_stack with
    | none => rfl
    | some t =>
      rw [hs] at h
      simp only [shift_ptr_some, rebase_heap] at h ⊢
      rw [← shift_ptr_some, load_rebase, load_rebase]
      cases hl : load st.heap (some t) with
      | error e => rw [hl] at h; cases h
      | ok top =>
        rw [hl] at h
        simp only at h
        cases hl2 : load st.heap v with
        | error e => rw [hl2] at h; cases h
        | ok vn =>
          rw [hl2] at h
          simp only [Except.map] at h ⊢
          have e3 : (shift_node old.length vn).number = vn.number := rfl
          have e4 : (shift_node old.length top).number = top.number := rfl
          have e5 : (shift_node old.length top).name = top.name := rfl
          rw [e3, e4, e5]
          by_cases hc : vn.number ≤ top.number
          · rw [if_pos hc] at h
            rw [if_pos hc, if_pos hc, print_rebase, pop_rebase]
            cases hp : pop (print st (Line.member top.name)) with
            | error e => rw [hp] at h; cases h
            | ok st2 =>
              rw [hp] at h
              simp only [Except.map, List.map_cons] at h ⊢
              rw [ih f1 st2 st1 h (by omega)]
              rfl
          · rw [if_neg hc, if_neg hc]; rfl

theorem emit_events_rebase (old : List node_tp) (pre : List Line) {v : node_ptr_tp}
    {st st1 : State} (h : emit v st = .ok st1) :
    emit_events (shift_ptr old.length v) (rebase old pre st) =
      (emit_events v st).map (Event.shift old pre) := by
  unfold emit at h
  unfold emit_events
  have e : print { rebase old pre st with scc_count := (rebase old pre st).scc_count + 1 }
        (Line.header ((rebase old pre st).scc_count + 1)) =
      rebase old pre (print { st with scc_count := st.scc_count + 1 }
        (Line.header (st.scc_count + 1))) := by
    simp [print, rebase]
  simp only at e h ⊢
  rw [e]
  refine pop_loop_events_rebase old pre v _ _ _ _ h ?_
  simp [rebase]

theorem extract_events_rebase (old : List node_tp) (pre : List Line) {v : Nat}
    {st st1 : State} (h : extract v st = .ok st1) :
    extract_events (v + old.length) (rebase old pre st) =
      (extract_events v st).map (Event.shift old pre) := by
  unfold extract at h
  unfold extract_events
  rw [rebase_heap, ← shift_ptr_some, load_rebase]
  cases hl : load st.heap (some v) with
  | error e => rw [hl] at h; cases h
  | ok vn =>
    rw [hl] at h
    simp only [Except.map] at h ⊢
    have e1 : (shift_node old.length vn).lowlink = vn.lowlink := rfl
    have e2 : (shift_node old.length vn).number = vn.number := rfl
    have e3 : (rebase old pre st).single = st.single := rfl
    have e4 : (rebase old pre st).scc_stack = shift_ptr old.length st.scc_stack := rfl
    rw [e1, e2, e3, e4]
    by_cases hc : vn.lowlink = vn.number
    · rw [if_pos hc] at h
      rw [if_pos hc, if_pos hc, List.map_cons]
      congr 1
      by_cases hs : st.single = false
      · rw [if_pos hs] at h
        rw [if_pos hs, if_pos hs]
        by_cases ht : st.scc_stack = some v
        · rw [if_pos ht]
          rw [ht, if_pos rfl]
          exact pop_events_rebase old pre st
        · rw [if_neg ht] at h
          have ht1 : shift_ptr old.length st.scc_stack ≠ shift_ptr old.length (some v) := by
            cases hst : st.scc_stack with
            | none => simp [shift_ptr]
            | some t =>
              rw [hst] at ht
              simp only [shift_ptr_some, ne_eq, Option.some.injEq]
              intro e
              apply ht
              rw [Nat.add_right_cancel e]
          rw [if_neg ht, if_neg ht1]
          exact emit_events_rebase old pre h
      · rw [if_neg hs] at h
        rw [if_neg hs, if_neg hs]
        exact emit_events_rebase old pre h
    · rw [if_neg hc, if_neg hc]
      rfl

theorem visit_link_events_rebase (old : List node_tp) (pre : List Line)
    {f : node_ptr_tp → State → Except Err State}
    {fE gE : node_ptr_tp → State → List Event}
    (hE : ∀ (p : node_ptr_tp) (st st1 : State), f p st = .ok st1 →
      gE (shift_ptr old.length p) (rebase old pre st) = (fE p st).map (Event.shift old pre))
    {v : Nat} {w : node_ptr_tp} {st st1 : State} (h : visit_link f v w st = .ok st1) :
    visit_link_events gE (shift_ptr old.length w) (rebase old pre st) =
      (visit_link_events fE w st).map (Event.shift old pre) := by
  cases w with
  | none => cases h
  | some j =>
    unfold visit_link at h
    unfold visit_link_events
    simp only at h
    rw [rebase_heap, load_rebase]
    cases hl : load st.heap (some j) with
    | error e => rw [hl] at h; cases h
    | ok wn =>
      rw [hl] at h
      simp only [Except.map] at h ⊢
      have e1 : (shift_node old.length wn).number = wn.number := rfl
      rw [e1]
      by_cases hn : wn.number = 0
      · rw [if_pos hn] at h
        rw [if_pos hn, if_pos hn]
        cases hf : f (some j) st with
        | error e => rw [hf] at h; cases h
        | ok st2 => exact hE _ _ _ hf
      · rw [if_neg hn, if_neg hn]
        rfl

theorem for_links_events_rebase (old : List node_tp) (pre : List Line)
    {f g : node_ptr_tp → State → Except Err State}
    {fE gE : node_ptr_tp → State → List Event}
    (hfg : ∀ (p : node_ptr_tp) (st st1 : State), f p st = .ok st1 →
      g (shift_ptr old.length p) (rebase old pre st) = .ok (rebase old pre st1))
    (hE : ∀ (p : node_ptr_tp) (st st1 : State), f p st = .ok st1 →
      gE (shift_ptr old.length p) (rebase old pre st) = (fE p st).map (Event.shift old pre))
    (v : Nat) :
    ∀ (links : List node_ptr_tp) (st st1 : State), for_links f v links st = .ok st1 →
      for_links_events g gE (v + old.length) (links.map (shift_ptr old.length))
          (rebase old pre st) =
        (for_links_events f fE v links st).map (Event.shift old pre) := by
  intro links
  induction links with
  | nil =>
    intro st st1 _
    rfl
  | cons w rest ih =>
    intro st st1 h
    simp only [for_links] at h
    cases hv : visit_link f v w st with
    | error e => rw [hv] at h; cases h
    | ok st2 =>
      rw [hv] at h
      simp only at h
      rw [List.map_cons, for_links_events_cons (visit_link_rebase old pre hfg hv),
        for_links_events_cons hv, List.map_append, visit_link_events_rebase old pre hE hv,
        ih st2 st1 h]

/-- The events of a call of `scc` on a graph that lies behind older nodes are the events of
the call on the graph alone, moved. -/
theorem scc_events_rebase (old : List node_tp) (pre : List Line) :
    ∀ (fuel fuel1 : Nat) (p : node_ptr_tp) (st st1 : State), scc fuel p st = .ok st1 →
      fuel ≤ fuel1 →
      scc_events fuel1 (shift_ptr old.length p) (rebase old pre st) =
        (scc_events fuel p st).map (Event.shift old pre) := by
  intro fuel
  induction fuel with
  | zero =>
    intro fuel1 p st st1 h
    cases h
  | succ fuel ih =>
    intro fuel1 p st st1 h hle
    obtain ⟨f1, rfl⟩ : ∃ f1, fuel1 = f1 + 1 := ⟨fuel1 - 1, by omega⟩
    have ih1 : ∀ (p : node_ptr_tp) (st st1 : State), scc fuel p st = .ok st1 →
        scc_events f1 (shift_ptr old.length p) (rebase old pre st) =
          (scc_events fuel p st).map (Event.shift old pre) :=
      fun p st st1 h => ih f1 p st st1 h (by omega)
    have hrun : ∀ (p : node_ptr_tp) (st st1 : State), scc fuel p st = .ok st1 →
        scc f1 (shift_ptr old.length p) (rebase old pre st) = .ok (rebase old pre st1) :=
      fun p st st1 h => scc_rebase old pre fuel f1 p st st1 h (by omega)
    cases p with
    | none => cases h
    | some i =>
      unfold scc at h
      unfold scc_events
      simp only [shift_ptr_some] at h ⊢
      rw [rebase_heap, ← shift_ptr_some, load_rebase]
      cases hl : load st.heap (some i) with
      | error e => rw [hl] at h; cases h
      | ok nd =>
        rw [hl] at h
        simp only [Except.map] at h ⊢
        have e1 : (shift_node old.length nd).number = nd.number := rfl
        rw [e1]
        by_cases hn : nd.number = 0
        · rw [if_pos hn] at h
          rw [if_pos hn, if_pos hn]
          change Event.body (i + old.length) ::
            (match push (shift_ptr old.length (some i))
              (set_number (set_lowlink
                (rebase old pre { st with scc_number := st.scc_number + 1 })
                (i + old.length) (st.scc_number + 1)) (i + old.length) (st.scc_number + 1)) with
            | Except.error _ => []
            | Except.ok st4 =>
              Event.push (i + old.length) ::
                (for_links_events (scc f1) (scc_events f1) (i + old.length)
                  (nd.link.map (shift_ptr old.length)) st4 ++
                match for_links (scc f1) (i + old.length)
                    (nd.link.map (shift_ptr old.length)) st4 with
                | Except.error _ => []
                | Except.ok st5 => extract_events (i + old.length) st5)) = _
          rw [set_lowlink_rebase, set_number_rebase, push_rebase]
          cases hp : push (some i) (set_number (set_lowlink
              { st with scc_number := st.scc_number + 1 } i (st.scc_number + 1)) i
              (st.scc_number + 1)) with
          | error e => rw [hp] at h; cases h
          | ok st4 =>
            rw [hp] at h
            simp only [Except.map] at h ⊢
            cases hfl : for_links (scc fuel) i nd.link st4 with
            | error e => rw [hfl] at h; cases h
            | ok st5 =>
              rw [hfl] at h
              simp only at h
              rw [for_links_rebase old pre hrun i nd.link st4 st5 hfl,
                for_links_events_rebase old pre hrun ih1 i nd.link st4 st5 hfl]
              simp only [List.map_cons, List.map_append]
              rw [extract_events_rebase old pre h]
              rfl
        · rw [if_neg hn, if_neg hn]
          rfl

end TarjanSCC


namespace TarjanSCC

/-! ## What the events list, behind older nodes -/

theorem bodies_of_shift (old : List node_tp) (pre : List Line) (E : List Event) :
    bodies_of (E.map (Event.shift old pre)) = (bodies_of E).map (fun i => i + old.length) := by
  induction E with
  | nil => rfl
  | cons e E ih =>
    unfold bodies_of at ih ⊢
    cases e <;>
      simp only [List.map_cons, List.filterMap_cons, Event.shift, Event.body?, ih]

theorem pushes_of_shift (old : List node_tp) (pre : List Line) (E : List Event) :
    pushes_of (E.map (Event.shift old pre)) = (pushes_of E).map (fun i => i + old.length) := by
  induction E with
  | nil => rfl
  | cons e E ih =>
    unfold pushes_of at ih ⊢
    cases e <;>
      simp only [List.map_cons, List.filterMap_cons, Event.shift, Event.push?, ih]

theorem pops_of_shift (old : List node_tp) (pre : List Line) (E : List Event) :
    pops_of (E.map (Event.shift old pre)) = (pops_of E).map (fun i => i + old.length) := by
  induction E with
  | nil => rfl
  | cons e E ih =>
    unfold pops_of at ih ⊢
    cases e <;>
      simp only [List.map_cons, List.filterMap_cons, Event.shift, Event.pop?, ih]

theorem founds_of_shift (old : List node_tp) (pre : List Line) (E : List Event) :
    founds_of (E.map (Event.shift old pre)) = (founds_of E).map (fun i => i + old.length) := by
  induction E with
  | nil => rfl
  | cons e E ih =>
    unfold founds_of at ih ⊢
    cases e <;>
      simp only [List.map_cons, List.filterMap_cons, Event.shift, Event.found?, ih]

theorem backs_of_shift (old : List node_tp) (pre : List Line) (E : List Event) :
    backs_of (E.map (Event.shift old pre)) = (backs_of E).map (rebase old pre) := by
  induction E with
  | nil => rfl
  | cons e E ih =>
    unfold backs_of at ih ⊢
    cases e <;>
      simp only [List.map_cons, List.filterMap_cons, Event.shift, Event.back?, ih]

theorem found_mem_shift {old : List node_tp} {pre : List Line} {E : List Event} {x : Nat}
    {s : State} (h : Event.found x s ∈ E.map (Event.shift old pre)) :
    ∃ (x0 : Nat) (s0 : State), Event.found x0 s0 ∈ E ∧ x = x0 + old.length ∧
      s = rebase old pre s0 := by
  obtain ⟨e, he, hes⟩ := List.mem_map.mp h
  cases e with
  | body v => cases hes
  | push v => cases hes
  | pop v => cases hes
  | back st => cases hes
  | found v st =>
    simp only [Event.shift, Event.found.injEq] at hes
    exact ⟨v, st, he, hes.1.symm, hes.2.symm⟩

theorem num_rebase (old : List node_tp) (pre : List Line) (st : State) (i : Nat) :
    num (rebase old pre st).heap (i + old.length) = num st.heap i := by
  unfold num
  simp only [get_rebase]
  cases st.heap[i]? <;> rfl

theorem low_rebase (old : List node_tp) (pre : List Line) (st : State) (i : Nat) :
    low (rebase old pre st).heap (i + old.length) = low st.heap i := by
  unfold low
  simp only [get_rebase]
  cases st.heap[i]? <;> rfl

theorem vis_rebase (old : List node_tp) (pre : List Line) (st : State) (i : Nat) :
    vis (rebase old pre st).heap (i + old.length) = vis st.heap i := by
  unfold vis
  simp only [get_rebase]
  cases st.heap[i]? <;> rfl

theorem get_rebase_old (old : List node_tp) (pre : List Line) (st : State) {i : Nat}
    (hi : i < old.length) : (rebase old pre st).heap[i]? = old[i]? := by
  rw [rebase_heap, List.getElem?_append_left hi]

theorem num_rebase_old (old : List node_tp) (pre : List Line) (st : State) {i : Nat}
    (hi : i < old.length) : num (rebase old pre st).heap i = num old i := by
  unfold num
  rw [get_rebase_old old pre st hi]

theorem vis_rebase_old (old : List node_tp) (pre : List Line) (st : State) {i : Nat}
    (hi : i < old.length) : vis (rebase old pre st).heap i = vis old i := by
  unfold vis
  rw [get_rebase_old old pre st hi]

theorem vis_rebase_all {old : List node_tp} (hold : ∀ i, vis old i = false)
    (pre : List Line) {st : State} (hst : ∀ i, vis st.heap i = false) (i : Nat) :
    vis (rebase old pre st).heap i = false := by
  rcases Nat.lt_or_ge i old.length with h | h
  · rw [vis_rebase_old old pre st h]
    exact hold i
  · obtain ⟨j, rfl⟩ : ∃ j, i = j + old.length := ⟨i - old.length, by omega⟩
    rw [vis_rebase]
    exact hst j

theorem stack_rep_rebase (old : List node_tp) {heap : List node_tp} :
    ∀ (L : List Nat) (p : node_ptr_tp), stack_rep heap p L →
      stack_rep (old ++ heap.map (shift_node old.length)) (shift_ptr old.length p)
        (L.map (fun i => i + old.length)) := by
  intro L
  induction L with
  | nil =>
    intro p h
    have hp : p = none := h
    rw [hp]
    rfl
  | cons i rest ih =>
    intro p h
    obtain ⟨hp, nd, hnd, hrest⟩ := h
    rw [hp]
    refine ⟨rfl, shift_node old.length nd, ?_, ih _ hrest⟩
    rw [get_rebase_heap, hnd]
    rfl

/-- An extraction that is as `extraction_ok` says stays so behind older nodes. -/
theorem extraction_ok_rebase (old : List node_tp) (pre : List Line) {v : Nat} {st : State}
    (h : extraction_ok v st) : extraction_ok (v + old.length) (rebase old pre st) := by
  obtain ⟨hlow, S, L, st1, hstk, hex, hpops, hstk1, hpw, hS, hL⟩ := h
  refine ⟨by rw [low_rebase, num_rebase]; exact hlow, S.map (fun i => i + old.length),
    L.map (fun i => i + old.length), rebase old pre st1, ?_, extract_rebase old pre hex, ?_,
    stack_rep_rebase old L _ hstk1, ?_, ?_, ?_⟩
  · have h1 := stack_rep_rebase old _ _ hstk
    rw [List.map_append, List.map_cons] at h1
    exact h1
  · rw [extract_events_rebase old pre hex, pops_of_shift, hpops, List.map_append]
    rfl
  · have e : S.map (fun i => i + old.length) ++ [v + old.length] =
        (S ++ [v]).map (fun i => i + old.length) := by
      rw [List.map_append]
      rfl
    rw [e, List.pairwise_map]
    refine hpw.imp ?_
    intro a b hab
    rw [num_rebase, num_rebase]
    exact hab
  · intro x hx
    obtain ⟨y, hy, rfl⟩ := List.mem_map.mp hx
    rw [num_rebase, num_rebase]
    exact hS y hy
  · intro x hx
    obtain ⟨y, hy, rfl⟩ := List.mem_map.mp hx
    rw [num_rebase, num_rebase]
    exact hL y hy

theorem extractions_of_shift (old : List node_tp) (pre : List Line) :
    ∀ (E : List Event), (∀ (x : Nat) (s : State), Event.found x s ∈ E → extraction_ok x s) →
      extractions_of (E.map (Event.shift old pre)) =
        (extractions_of E).map (List.map (fun i => i + old.length)) := by
  intro E
  induction E with
  | nil => intro _; rfl
  | cons e E ih =>
    intro h
    have ih1 := ih (fun x s hx => h x s (List.mem_cons_of_mem _ hx))
    cases e with
    | body v => simp only [List.map_cons, Event.shift, extractions_of, ih1]
    | push v => simp only [List.map_cons, Event.shift, extractions_of, ih1]
    | pop v => simp only [List.map_cons, Event.shift, extractions_of, ih1]
    | back st => simp only [List.map_cons, Event.shift, extractions_of, ih1]
    | found v st =>
      obtain ⟨_, S, L, st1, _, hex, _⟩ := h v st (List.mem_cons_self _ _)
      simp only [List.map_cons, Event.shift, extractions_of, ih1]
      rw [extract_events_rebase old pre hex, pops_of_shift]

/-! ## Putting the events of the roots together -/

theorem EventsSpec.nil_events (k : Nat) : EventsSpec k [] [] 0 [] := by
  refine ⟨rfl, rfl, rfl, ?_, rfl, rfl, ?_, rfl⟩
  · intro x s hx
    cases hx
  · intro s hs
    cases hs

theorem EventsSpec.concat {k : Nat} {P1 P2 : List Nat} {G1 G2 : List (List Nat)} {m1 m2 : Nat}
    {E1 E2 : List Event} (h1 : EventsSpec k P1 G1 m1 E1) (h2 : EventsSpec k P2 G2 m2 E2) :
    EventsSpec k (P1 ++ P2) (G1 ++ G2) (m1 + m2) (E1 ++ E2) := by
  obtain ⟨a1, a2, a3, a4, a5, a6, a7, a8⟩ := h1
  obtain ⟨b1, b2, b3, b4, b5, b6, b7, b8⟩ := h2
  refine ⟨?_, ?_, ?_, ?_, ?_, ?_, ?_, ?_⟩
  · rw [bodies_of_append, a1, b1, List.map_append]
  · rw [pushes_of_append, a2, b2, List.map_append]
  · rw [pops_of_append, a3, b3, List.flatten_append, List.map_append]
  · intro x s hx
    rcases List.mem_append.mp hx with e | e
    · exact a4 x s e
    · exact b4 x s e
  · rw [founds_of_append, List.map_append, a5, b5, List.map_append, List.map_append]
  · rw [backs_of_append, List.length_append, a6, b6]
  · intro s hs
    rw [backs_of_append] at hs
    rcases List.mem_append.mp hs with e | e
    · exact a7 s e
    · exact b7 s e
  · rw [extractions_of_append, a8, b8, List.map_append]

/-- The return of a call of `scc` to `main`. -/
theorem EventsSpec.of_back (k : Nat) {s : State} (h1 : s.scc_stack = none)
    (h2 : ∀ i, vis s.heap i = false) : EventsSpec k [] [] 1 [Event.back s] := by
  refine ⟨rfl, rfl, rfl, ?_, rfl, rfl, ?_, rfl⟩
  · intro x s1 hx
    rcases List.mem_cons.mp hx with e | e
    · cases e
    · cases e
  · intro s1 hs
    have e : backs_of [Event.back s] = [s] := rfl
    rw [e, List.mem_singleton] at hs
    rw [hs]
    exact ⟨h1, h2⟩

/-- The events of a call of `scc`, moved behind older nodes. -/
theorem EventsSpec.of_call (old : List node_tp) (pre : List Line) {P : List Nat}
    {G : List (List Nat)} {E : List Event} (h1 : bodies_of E = P) (h2 : pushes_of E = P)
    (h3 : pops_of E = G.flatten) (h4 : backs_of E = [])
    (h5 : ∀ (x : Nat) (s : State), Event.found x s ∈ E → extraction_ok x s)
    (h6 : (founds_of E).map some = G.map root_of) (h7 : extractions_of E = G) :
    EventsSpec old.length P G 0 (E.map (Event.shift old pre)) := by
  refine ⟨?_, ?_, ?_, ?_, ?_, ?_, ?_, ?_⟩
  · rw [bodies_of_shift, h1]
  · rw [pushes_of_shift, h2]
  · rw [pops_of_shift, h3]
  · intro x s hx
    obtain ⟨x0, s0, hmem, rfl, rfl⟩ := found_mem_shift hx
    exact extraction_ok_rebase old pre (h5 x0 s0 hmem)
  · rw [founds_of_shift, ← h6, List.map_map, List.map_map]
    rfl
  · rw [backs_of_shift, h4]
    rfl
  · intro s hs
    rw [backs_of_shift, h4] at hs
    cases hs
  · rw [extractions_of_shift old pre E h5, h7]

end TarjanSCC


namespace TarjanSCC

/-! ## The events of the loop of `main` over the roots -/

theorem scc_events_numbered (fuel : Nat) {st : State} {i : Nat} {nd : node_tp}
    (h : st.heap[i]? = some nd) (hn : nd.number ≠ 0) :
    scc_events (fuel + 1) (some i) st = [] := by
  simp only [scc_events, load_of_get h, hn, if_false]

theorem Top.vis_false {adj : Nat → List node_ptr_tp} {heap0 heap : List node_tp} {K : Nat}
    {G : List (List Nat)} (h : Top adj heap0 heap K G) (i : Nat) : vis heap i = false := by
  cases hv : vis heap i with
  | false => rfl
  | true => cases (h.inv.vis_iff i).mp hv

/-- One root, with the events of the call of `scc` from the loop of `main`. -/
theorem Top.root_scan {adj : Nat → List node_ptr_tp} {heap0 heap : List node_tp} {K : Nat}
    {G : List (List Nat)} (h : Top adj heap0 heap K G) {i : Nat} (hi : i < heap.length)
    {fuel : Nat} (hfuel : heap.length < fuel) :
    ∃ (heap1 : List node_tp) (K1 : Nat) (Gw : List (List Nat)) (Pw : List Nat),
      Top adj heap0 heap1 K1 (G ++ Gw) ∧ num heap1 i ≠ 0 ∧
      (∀ j, num heap j ≠ 0 → num heap1 j = num heap j) ∧ K ≤ K1 ∧
      downward adj (done_in heap) Gw ∧
      (∀ z, done_in heap1 z → done_in heap z ∨ z ∈ Gw.flatten) ∧
      Pw.map (num heap1) = List.range' (K + 1) (K1 - K) ∧
      ∀ (c : Nat) (fg : node_ptr_tp) (b : Bool) (o : List Line),
        scc fuel (some i) ⟨heap, K, none, c, fg, b, o⟩ =
          .ok ⟨heap1, K1, none, c + (reported b Gw).length, fg, b,
            o ++ render (fun i => name_of heap0 (some i)) b c Gw⟩ ∧
        bodies_of (scc_events fuel (some i) ⟨heap, K, none, c, fg, b, o⟩) = Pw ∧
        pushes_of (scc_events fuel (some i) ⟨heap, K, none, c, fg, b, o⟩) = Pw ∧
        pops_of (scc_events fuel (some i) ⟨heap, K, none, c, fg, b, o⟩) = Gw.flatten ∧
        backs_of (scc_events fuel (some i) ⟨heap, K, none, c, fg, b, o⟩) = [] ∧
        (∀ (x : Nat) (s : State),
          Event.found x s ∈ scc_events fuel (some i) ⟨heap, K, none, c, fg, b, o⟩ →
          extraction_ok x s) ∧
        (founds_of (scc_events fuel (some i) ⟨heap, K, none, c, fg, b, o⟩)).map some =
          Gw.map root_of ∧
        extractions_of (scc_events fuel (some i) ⟨heap, K, none, c, fg, b, o⟩) = Gw := by
  obtain ⟨nd, hnd⟩ := get_of_lt hi
  by_cases hn : nd.number = 0
  · have hnum : num heap i = 0 := by rw [num_of_get hnd]; exact hn
    obtain ⟨heap1, K1, stk1, seg, Gw, Pw, hpost, hdown, hPw, hrun⟩ :=
      scc_scan adj fuel heap K none [] i h.inv hi hnum (fun x hx => by cases hx) (by omega)
    have hseg : seg = [] := by
      rcases hpost.seg_cases with h1 | h1
      · exact h1.2
      · rcases hpost.low_v with h2 | ⟨x, hx, _⟩
        · rw [h2] at h1
          exact absurd h1.1 (Nat.lt_irrefl _)
        · cases hx
    subst hseg
    have hstk : stk1 = none := hpost.inv.stack
    subst hstk
    refine ⟨heap1, K1, Gw, Pw, ⟨hpost.inv, h.later.trans hpost.later, ?_⟩, ?_, ?_,
      hpost.later.K_le, hdown, fun z hz => done_in_later hpost.later hpost.groups hz, hPw, ?_⟩
    · exact h.groups.append h.later h.inv.num_le hpost.groups hpost.later
    · rw [hpost.num_v]
      exact Nat.succ_ne_zero _
    · intro j hj
      exact hpost.later.num_old hj
    · intro c fg b o
      obtain ⟨r1, r2, r3, r4, r5, r6, r7, r8⟩ := hrun c fg b o
      refine ⟨?_, r2, r3, r4, r5, r6, r7, r8⟩
      rw [r1, h.later.name]
  · obtain ⟨f1, rfl⟩ : ∃ f1, fuel = f1 + 1 := ⟨fuel - 1, by omega⟩
    refine ⟨heap, K, [], [], ?_, ?_, fun j _ => rfl, Nat.le_refl _, trivial,
      fun z hz => Or.inl hz, ?_, ?_⟩
    · rw [List.append_nil]
      exact h
    · rw [num_of_get hnd]
      exact hn
    · rw [Nat.sub_self]
      rfl
    · intro c fg b o
      rw [scc_events_numbered f1 (by exact hnd) hn]
      refine ⟨?_, rfl, rfl, rfl, rfl, ?_, rfl, rfl⟩
      · rw [scc_numbered_eq f1 (by exact hnd) hn, reported_nil, render_nil]
        simp
      · intro x s hx
        cases hx

theorem roots_events_none (fuel : Nat) (st : State) : roots_events fuel none st = [] := by
  cases fuel <;> rfl

theorem roots_events_succ_eq {fuel i : Nat} {st st1 : State} {nd nd1 : node_tp}
    (hl : load st.heap (some i) = .ok nd) (hv : nd.visited = false)
    (hs : scc (st.heap.length + 1) (some i) st = .ok st1)
    (hl1 : load st1.heap (some i) = .ok nd1) :
    roots_events (fuel + 1) (some i) st =
      scc_events (st.heap.length + 1) (some i) st ++
        ([Event.back st1] ++ roots_events fuel nd1.finger st1) := by
  simp only [roots_events, hl, hv, if_true, hs, hl1]

/-- The loop of `main` over the roots, with its events: what `roots_loop_spec` says, and the
events are as `EventsSpec` says, with one return to `main` for every root. -/
theorem roots_scan {sf : State} (hb : Built sf) :
    ∀ (m : Nat), m ≤ sf.heap.length →
      ∀ (heap : List node_tp) (K : Nat) (G : List (List Nat)),
      Top (links_of sf.heap) sf.heap heap K G →
      (∀ j, m ≤ j → j < sf.heap.length → num heap j ≠ 0) →
      ∃ (heapF : List node_tp) (KF : Nat) (GF : List (List Nat)) (PF : List Nat),
        Top (links_of sf.heap) sf.heap heapF KF (G ++ GF) ∧
        (∀ j, j < sf.heap.length → num heapF j ≠ 0) ∧
        (∀ j, num heap j ≠ 0 → num heapF j = num heap j) ∧ K ≤ KF ∧
        downward (links_of sf.heap) (done_in heap) GF ∧
        PF.map (num heapF) = List.range' (K + 1) (KF - K) ∧
        ∀ (old : List node_tp) (pre : List Line) (fuel c : Nat) (fg : node_ptr_tp) (b : Bool)
          (o : List Line), m ≤ fuel → (∀ i, vis old i = false) →
          roots_loop fuel (shift_ptr old.length (if m = 0 then none else some (m - 1)))
              (rebase old pre ⟨heap, K, none, c, fg, b, o⟩) =
            .ok (rebase old pre ⟨heapF, KF, none, c + (reported b GF).length, fg, b,
              o ++ render (fun i => name_of sf.heap (some i)) b c GF⟩) ∧
          EventsSpec old.length PF GF m
            (roots_events fuel (shift_ptr old.length (if m = 0 then none else some (m - 1)))
              (rebase old pre ⟨heap, K, none, c, fg, b, o⟩)) := by
  intro m
  induction m with
  | zero =>
    intro _ heap K G h hdone
    refine ⟨heap, K, [], [], ?_, fun j hj => hdone j (Nat.zero_le _) hj, fun j _ => rfl,
      Nat.le_refl _, trivial, ?_, ?_⟩
    · rw [List.append_nil]; exact h
    · rw [Nat.sub_self]; rfl
    · intro old pre fuel c fg b o _ _
      rw [if_pos rfl, shift_ptr_none, roots_loop_none, roots_events_none, reported_nil,
        render_nil]
      refine ⟨?_, EventsSpec.nil_events _⟩
      simp
  | succ m ih =>
    intro hm heap K G h hdone
    have hlen : heap.length = sf.heap.length := h.later.length
    have hmlt : m < heap.length := by omega
    obtain ⟨heap1, K1, Gw, Pw, htop1, hnum1, hkeep, hK1, hdownw, hdonew, hPw, hrun⟩ :=
      h.root_scan hmlt (Nat.lt_succ_self heap.length)
    have hdone1 : ∀ j, m ≤ j → j < sf.heap.length → num heap1 j ≠ 0 := by
      intro j hj hjn
      rcases Nat.eq_or_lt_of_le hj with h1 | h1
      · rw [← h1]; exact hnum1
      · rw [hkeep j (hdone j h1 hjn)]
        exact hdone j h1 hjn
    obtain ⟨heapF, KF, GF, PF, htopF, hall, hkeepF, hKF, hdownF, hPF, hrunF⟩ :=
      ih (by omega) heap1 K1 (G ++ Gw) htop1 hdone1
    refine ⟨heapF, KF, Gw ++ GF, Pw ++ PF, ?_, hall, ?_, Nat.le_trans hK1 hKF, ?_, ?_, ?_⟩
    · rw [← List.append_assoc]; exact htopF
    · intro j hj
      rw [hkeepF j (by rw [hkeep j hj]; exact hj), hkeep j hj]
    · apply downward_append Gw GF _ hdownw
      refine downward_mono GF _ _ ?_ hdownF
      exact hdonew
    · rw [List.map_append, hPF, ← range_split K K1 KF hK1 hKF]
      congr 1
      exact map_num_keep hPw hkeepF
    · intro old pre fuel c fg b o hfuel hold
      obtain ⟨f1, rfl⟩ : ∃ f1, fuel = f1 + 1 := ⟨fuel - 1, by omega⟩
      obtain ⟨nd, hnd⟩ := get_of_lt hmlt
      have hlen1 : heap1.length = sf.heap.length := htop1.later.length
      obtain ⟨nd1, hnd1⟩ := get_of_lt (show m < heap1.length by omega)
      obtain ⟨nd0, hnd0⟩ := get_of_lt (show m < sf.heap.length by omega)
      have hvis : nd.visited = false := by
        have h1 := h.vis_false m
        rw [vis_of_get hnd] at h1
        exact h1
      have hfinger : nd1.finger = if m = 0 then none else some (m - 1) := by
        rw [finger_static htop1.later.frame hnd0 hnd1]
        exact hb.node_finger m nd0 hnd0
      have hl : load (rebase old pre ⟨heap, K, none, c, fg, b, o⟩).heap (some (m + old.length)) =
          .ok (shift_node old.length nd) := by
        rw [rebase_heap, ← shift_ptr_some, load_rebase, load_of_get hnd]
        rfl
      have hl1 : load (rebase old pre ⟨heap1, K1, none, c + (reported b Gw).length, fg, b,
          o ++ render (fun i => name_of sf.heap (some i)) b c Gw⟩).heap (some (m + old.length)) =
          .ok (shift_node old.length nd1) := by
        rw [rebase_heap, ← shift_ptr_some, load_rebase, load_of_get hnd1]
        rfl
      obtain ⟨r1, r2, r3, r4, r5, r6, r7, r8⟩ := hrun c fg b o
      have hs := scc_rebase old pre (heap.length + 1)
        ((rebase old pre ⟨heap, K, none, c, fg, b, o⟩).heap.length + 1) (some m) _ _
        r1 (by simp [rebase])
      have hse := scc_events_rebase old pre (heap.length + 1)
        ((rebase old pre ⟨heap, K, none, c, fg, b, o⟩).heap.length + 1) (some m) _ _
        r1 (by simp [rebase])
      rw [shift_ptr_some] at hs hse
      have e1 : (shift_node old.length nd1).finger =
          shift_ptr old.length (if m = 0 then none else some (m - 1)) := by
        rw [← hfinger]
        rfl
      obtain ⟨q1, q2⟩ := hrunF old pre f1 (c + (reported b Gw).length) fg b
        (o ++ render (fun i => name_of sf.heap (some i)) b c Gw) (by omega) hold
      constructor
      · rw [if_neg (Nat.succ_ne_zero m), Nat.add_sub_cancel, shift_ptr_some,
          roots_loop_succ_eq hl hvis hs hl1, e1, q1, reported_append, render_append,
          List.length_append]
        simp only [List.append_assoc, Nat.add_assoc]
      · rw [if_neg (Nat.succ_ne_zero m), Nat.add_sub_cancel, shift_ptr_some,
          roots_events_succ_eq hl hvis hs hl1, e1, hse]
        have hcall := EventsSpec.of_call old pre r2 r3 r4 r5 r6 r7 r8
        have hback : EventsSpec old.length [] [] 1
            [Event.back (rebase old pre ⟨heap1, K1, none, c + (reported b Gw).length, fg, b,
              o ++ render (fun i => name_of sf.heap (some i)) b c Gw⟩)] :=
          EventsSpec.of_back old.length rfl
            (vis_rebase_all hold pre (fun i => htop1.vis_false i))
        have h3 := hcall.concat (hback.concat q2)
        rw [List.nil_append, List.nil_append, Nat.zero_add, Nat.add_comm] at h3
        exact h3

end TarjanSCC


namespace TarjanSCC

/-! ## The events of a whole pass -/

theorem Built.num_zero {sf : State} (hb : Built sf) (i : Nat) : num sf.heap i = 0 := by
  cases hg : sf.heap[i]? with
  | none => exact num_of_none hg
  | some nd => rw [num_of_get hg]; exact (hb.untouched i nd hg).1

theorem Built.unvisited {sf : State} (hb : Built sf) (i : Nat) : vis sf.heap i = false := by
  cases hg : sf.heap[i]? with
  | none => exact vis_of_none hg
  | some nd => rw [vis_of_get hg]; exact (hb.untouched i nd hg).2.2.1

/-- The traversal of a graph that `input` built, with its events. -/
theorem traverse_scan {sf : State} (hb : Built sf) :
    ∃ (heapF : List node_tp) (G : List (List Nat)) (P : List Nat),
      Top (links_of sf.heap) sf.heap heapF sf.heap.length G ∧
      (∀ j, j < sf.heap.length → num heapF j ≠ 0) ∧
      downward (links_of sf.heap) (fun _ => False) G ∧
      P.map (num heapF) = List.range' 1 sf.heap.length ∧
      ∀ (old : List node_tp) (pre : List Line) (c : Nat) (b : Bool) (o : List Line),
        (∀ i, vis old i = false) →
        roots_loop (old.length + sf.heap.length) (shift_ptr old.length sf.finger)
            (rebase old pre ⟨sf.heap, 0, none, c, sf.finger, b, o⟩) =
          .ok (rebase old pre ⟨heapF, sf.heap.length, none, c + (reported b G).length,
            sf.finger, b, o ++ render (fun i => name_of sf.heap (some i)) b c G⟩) ∧
        EventsSpec old.length P G sf.heap.length
          (roots_events (old.length + sf.heap.length) (shift_ptr old.length sf.finger)
            (rebase old pre ⟨sf.heap, 0, none, c, sf.finger, b, o⟩)) := by
  obtain ⟨heapF, KF, GF, PF, htop, hall, _, _, hdown, hP, hrun⟩ :=
    roots_scan hb sf.heap.length (Nat.le_refl _) sf.heap 0 [] (Top.start hb)
      (fun j h1 h2 => absurd h2 (Nat.not_lt.mpr h1))
  rw [List.nil_append] at htop
  have hlen : heapF.length = sf.heap.length := htop.later.length
  have hK : KF = sf.heap.length := by
    rw [← hlen]
    exact htop.count_all (fun j hj => hall j (by omega))
  subst hK
  refine ⟨heapF, GF, PF, htop, hall, ?_, hP, ?_⟩
  · refine downward_mono GF _ _ ?_ hdown
    intro z hz
    exact hz.1 (hb.num_zero z)
  · intro old pre c b o hold
    have h1 := hrun old pre (old.length + sf.heap.length) c sf.finger b o (by omega) hold
    rw [← hb.finger_eq] at h1
    exact h1

/-- Both passes of `main`, with their events: what `main_spec` says; the components `G` stand
in an order in which every edge leads to an earlier component or stays in its component; and
the events of either pass are as `EventsSpec` says, over the nodes `P`, which have the numbers
from 1 on in this order. -/
theorem main_scan (pairs : List (Int × Int)) :
    ∃ (sf : State) (heapF : List node_tp) (G : List (List Nat)) (P : List Nat)
      (s1 s2 : State),
      inputs pairs State.init = .ok sf ∧ Built sf ∧
      heap_names sf = creation_order pairs ∧
      (∀ c, adj_by_name sf c = (first_seen (targets c pairs)).reverse) ∧
      Top (links_of sf.heap) sf.heap heapF sf.heap.length G ∧
      (∀ j, j < sf.heap.length → num heapF j ≠ 0) ∧
      pass1 pairs = .ok s1 ∧
      s1 = ⟨heapF, sf.heap.length, none, (reported true G).length, sf.finger, true,
        sf.outfile ++ render (fun i => name_of sf.heap (some i)) true 0 G⟩ ∧
      pass2 pairs s1 = .ok s2 ∧ main pairs = .ok s2 ∧
      s2 = rebase s1.heap s1.outfile ⟨heapF, sf.heap.length, none, (reported false G).length,
        sf.finger, false, render (fun i => name_of sf.heap (some i)) false 0 G⟩ ∧
      inputs pairs (reset s1) =
        .ok (rebase s1.heap s1.outfile ⟨sf.heap, 0, none, 0, sf.finger, false, []⟩) ∧
      downward (links_of sf.heap) (fun _ => False) G ∧
      P.map (num heapF) = List.range' 1 sf.heap.length ∧
      EventsSpec 0 P G sf.heap.length (pass1_events pairs) ∧
      EventsSpec s1.heap.length P G sf.heap.length (pass2_events pairs s1) ∧
      sf.scc_stack = none := by
  obtain ⟨old, pre, sf, _, hin, hb, hnames, hadj, e1, e2, e3, e4, hnil⟩ :=
    inputs_start none pairs
  obtain ⟨rfl, rfl⟩ := hnil rfl
  rw [rebase_nil] at hin
  have hin0 : inputs pairs State.init = .ok sf := hin
  have e4 : sf.single = true := e4
  obtain ⟨heapF, G, P, htop, hall, hdown, hP, hrun⟩ := traverse_scan hb
  -- the first pass
  have hsf : sf = ⟨sf.heap, 0, none, 0, sf.finger, true, sf.outfile⟩ := by
    conv_lhs => rw [sf.eta]
    rw [e1, e2, e3, e4]
  have hnone : ∀ i, vis ([] : List node_tp) i = false := fun i => vis_of_none (by simp)
  obtain ⟨a1, a2⟩ := hrun [] [] 0 true sf.outfile hnone
  rw [rebase_nil, rebase_nil, ← hsf] at a1
  rw [rebase_nil, ← hsf] at a2
  simp only [List.length_nil, Nat.zero_add, shift_ptr_zero] at a1 a2
  have hp1 : pass1 pairs = .ok ⟨heapF, sf.heap.length, none, (reported true G).length,
      sf.finger, true,
      sf.outfile ++ render (fun i => name_of sf.heap (some i)) true 0 G⟩ := by
    unfold pass1
    rw [hin0]
    exact a1
  have hev1 : EventsSpec 0 P G sf.heap.length (pass1_events pairs) := by
    unfold pass1_events
    rw [hin0]
    exact a2
  -- the second pass
  obtain ⟨sf2, g1, g2, _, _, f1, f2, f3, f4, f5⟩ := inputs_spec pairs (Built.fresh false)
  obtain ⟨t, t1, ht, ht1, c1, c2⟩ :=
    inputs_congr pairs (Built.fresh true) (Built.fresh false) rfl rfl
  have ht0 : inputs pairs State.init = .ok t := ht
  rw [hin0] at ht0
  cases ht0
  rw [g1] at ht1
  cases ht1
  have hsf2 : sf2 = ⟨sf.heap, 0, none, 0, sf.finger, false, []⟩ := by
    have f5 := f5 rfl
    conv_lhs => rw [sf2.eta]
    rw [c1, c2, f1, f2, f3, f4, f5]
    rfl
  have hr : reset ⟨heapF, sf.heap.length, none, (reported true G).length, sf.finger, true,
      sf.outfile ++ render (fun i => name_of sf.heap (some i)) true 0 G⟩ =
      rebase heapF (sf.outfile ++ render (fun i => name_of sf.heap (some i)) true 0 G)
        (State.fresh false) := by
    simp [reset, rebase, State.fresh, State.init, shift_ptr]
  have e5 : (rebase heapF
      (sf.outfile ++ render (fun i => name_of sf.heap (some i)) true 0 G) sf2).heap.length =
      heapF.length + sf.heap.length := by
    rw [c1]
    simp [rebase]
  have e6 : (rebase heapF
      (sf.outfile ++ render (fun i => name_of sf.heap (some i)) true 0 G) sf2).finger =
      shift_ptr heapF.length sf.finger := by
    rw [c2]
    rfl
  obtain ⟨b1, b2⟩ := hrun heapF
    (sf.outfile ++ render (fun i => name_of sf.heap (some i)) true 0 G) 0 false []
    (fun i => htop.vis_false i)
  rw [← hsf2] at b1 b2
  simp only [Nat.zero_add, List.nil_append] at b1
  have hp2 : pass2 pairs ⟨heapF, sf.heap.length, none, (reported true G).length, sf.finger,
      true, sf.outfile ++ render (fun i => name_of sf.heap (some i)) true 0 G⟩ =
      .ok (rebase heapF (sf.outfile ++ render (fun i => name_of sf.heap (some i)) true 0 G)
        ⟨heapF, sf.heap.length, none, (reported false G).length, sf.finger, false,
          render (fun i => name_of sf.heap (some i)) false 0 G⟩) := by
    unfold pass2
    rw [hr, inputs_rebase _ _ pairs g1]
    simp only
    rw [e5, e6]
    exact b1
  have hev2 : EventsSpec heapF.length P G sf.heap.length
      (pass2_events pairs ⟨heapF, sf.heap.length, none, (reported true G).length, sf.finger,
        true, sf.outfile ++ render (fun i => name_of sf.heap (some i)) true 0 G⟩) := by
    unfold pass2_events
    rw [hr, inputs_rebase _ _ pairs g1]
    simp only
    rw [e5, e6]
    exact b2
  refine ⟨sf, heapF, G, P, _, _, hin0, hb, hnames, hadj, htop, hall, hp1, rfl, hp2, ?_, rfl,
    ?_, hdown, hP, hev1, hev2, e2⟩
  · unfold main
    rw [hp1]
    exact hp2
  · rw [hr, inputs_rebase _ _ pairs g1, hsf2]

end TarjanSCC


namespace TarjanSCC

/-! ## Nodes, numbers and states of a pass -/

theorem names_of_range (heap : List node_tp) :
    (List.range heap.length).map (fun i => name_of heap (some i)) =
      heap.map (fun nd => nd.name) := by
  apply List.ext_getElem
  · simp
  · intro i h1 h2
    have hi : i < heap.length := by simpa using h1
    simp only [List.getElem_map, List.getElem_range]
    rw [name_of_get (List.getElem?_eq_getElem hi)]

theorem flatten_nodup_index {α : Type} :
    ∀ (G : List (List α)), G.flatten.Nodup → ∀ (i j : Nat) (g g1 : List α) (z : α),
      G[i]? = some g → G[j]? = some g1 → z ∈ g → z ∈ g1 → i = j := by
  intro G
  induction G with
  | nil =>
    intro _ i j g g1 z hg
    simp at hg
  | cons g0 rest ih =>
    intro hnd i j g g1 z hg hg1 hz hz1
    rw [List.flatten_cons] at hnd
    have hdis := List.disjoint_of_nodup_append hnd
    cases i with
    | zero =>
      cases j with
      | zero => rfl
      | succ j =>
        simp only [List.getElem?_cons_zero, Option.some.injEq] at hg
        simp only [List.getElem?_cons_succ] at hg1
        subst hg
        exact absurd (List.mem_flatten.mpr ⟨g1, (List.mem_iff_getElem?.mpr ⟨_, hg1⟩), hz1⟩) (hdis hz)
    | succ i =>
      cases j with
      | zero =>
        simp only [List.getElem?_cons_zero, Option.some.injEq] at hg1
        simp only [List.getElem?_cons_succ] at hg
        subst hg1
        exact absurd (List.mem_flatten.mpr ⟨g, (List.mem_iff_getElem?.mpr ⟨_, hg⟩), hz⟩) (hdis hz1)
      | succ j =>
        simp only [List.getElem?_cons_succ] at hg hg1
        rw [ih hnd.of_append_right i j g g1 z hg hg1 hz hz1]

/-- The nodes in the order of their numbers are the nodes of the graph, each once. -/
theorem perm_range_of_numbers {adj : Nat → List node_ptr_tp} {heap0 heapF : List node_tp}
    {G : List (List Nat)} {P : List Nat} {n : Nat} (hlen : heapF.length = n)
    (htop : Top adj heap0 heapF n G) (hall : ∀ j, j < n → num heapF j ≠ 0)
    (hP : P.map (num heapF) = List.range' 1 n) : P.Perm (List.range n) := by
  have hnd : P.Nodup := by
    apply List.Nodup.of_map (num heapF)
    rw [hP]
    exact List.nodup_range' 1 n
  rw [List.perm_ext_iff_of_nodup hnd (List.nodup_range n)]
  intro a
  rw [List.mem_range]
  constructor
  · intro ha
    have h1 : num heapF a ∈ List.range' 1 n := by
      rw [← hP]
      exact List.mem_map_of_mem _ ha
    rw [List.mem_range'_1] at h1
    have h2 : num heapF a ≠ 0 := by omega
    rw [← hlen]
    exact lt_of_num_ne h2
  · intro ha
    have h1 := hall a ha
    have h2 := htop.inv.num_le a
    have h3 : num heapF a ∈ List.range' 1 n := by
      rw [List.mem_range'_1]
      omega
    rw [← hP] at h3
    obtain ⟨p, hp, hpa⟩ := List.mem_map.mp h3
    have h4 : p = a := htop.inv.num_inj p a hpa (by rw [hpa]; exact h1)
    rw [← h4]
    exact hp

/-- The members of the components are the nodes of the graph, each once. -/
theorem flatten_perm_range {sf : State} (hb : Built sf) {heapF : List node_tp}
    {G : List (List Nat)} (htop : Top (links_of sf.heap) sf.heap heapF sf.heap.length G)
    (hall : ∀ j, j < sf.heap.length → num heapF j ≠ 0) :
    G.flatten.Perm (List.range sf.heap.length) := by
  rw [List.perm_ext_iff_of_nodup htop.groups.nodup (List.nodup_range _)]
  intro a
  rw [List.mem_range]
  exact final_mem hb htop hall a

theorem Path.last {s r : State} {l : List State} (h : Path s l r) :
    (s :: l).getLast? = some r := by
  induction h with
  | nil s => rfl
  | cons _ _ ih =>
    rw [List.getLast?_cons_cons]
    exact ih

/-- The states of the two passes: each pass starts in a state in which the stack is empty and
no node is flagged as visited, and goes step by step through the states listed to the state
it ends in. -/
theorem pass_paths (pairs : List (Int × Int)) :
    ∃ (sf st2 s1 s2 : State) (l1 l2 : List State),
      pass1 pairs = .ok s1 ∧ pass2 pairs s1 = .ok s2 ∧
      pass1_states pairs = sf :: l1 ∧ Path sf l1 s1 ∧ stack_ok sf ∧
      pass2_states pairs s1 = st2 :: l2 ∧ Path st2 l2 s2 ∧ stack_ok st2 := by
  obtain ⟨sf, heapF, G, P, s1, s2, hin, hb, hnames, hadj, htop, hall, hp1, hs1, hp2, hmain,
    hs2, hin2, hdown, hP, hev1, hev2, hstk⟩ := main_scan pairs
  have hq1 := hp1
  have hq2 := hp2
  unfold pass1 at hq1
  unfold pass2 at hq2
  rw [hin] at hq1
  rw [hin2] at hq2
  simp only at hq1 hq2
  have hold : ∀ i, vis s1.heap i = false := by
    intro i
    rw [hs1]
    exact htop.vis_false i
  refine ⟨sf, _, s1, s2, _, _, hp1, hp2, ?_, roots_path _ _ _ _ hq1, ?_, ?_,
    roots_path _ _ _ _ hq2, ?_⟩
  · unfold pass1_states
    rw [hin]
  · refine ⟨[], ?_, List.nodup_nil, ?_⟩
    · exact hstk
    · intro i
      rw [hb.unvisited i]
      simp
  · unfold pass2_states
    rw [hin2]
  · refine ⟨[], rfl, List.nodup_nil, ?_⟩
    intro i
    have h1 : vis (rebase s1.heap s1.outfile
        ⟨sf.heap, 0, none, 0, sf.finger, false, []⟩).heap i = false :=
      vis_rebase_all hold s1.outfile (fun j => hb.unvisited j) i
    rw [h1]
    simp

end TarjanSCC


namespace TarjanSCC

/-! ## The extraction, the stack flag, and termination -/

theorem length_of_names {sf : State} {pairs : List (Int × Int)}
    (hnames : heap_names sf = creation_order pairs) :
    sf.heap.length = (creation_order pairs).length := by
  rw [← hnames]
  unfold heap_names
  rw [List.length_map]

theorem founds_length {k : Nat} {P : List Nat} {G : List (List Nat)} {m : Nat}
    {E : List Event} (h : EventsSpec k P G m E) : (founds_of E).length = G.length := by
  have h1 := congrArg List.length h.2.2.2.2.1
  simpa using h1

/-- C13: both passes end, and whenever `scc( v )` finds `v->lowlink == v->number` in the
state `st` of a pass (a `found` event), the extraction that follows is as `extraction_ok`
says: `v` is on the stack, which is `S ++ v :: L` from the top down; the extraction ends, the
nodes it pops are those of `S` and then `v`, which is the last one popped, and it leaves the
stack `L`; the numbers of the nodes popped go down strictly and are not below that of `v`,
and every node left on the stack has a number below that of `v`.  This holds in both modes,
also for the single `pop()` of the exclude mode.  There is one such extraction in either pass
for every component that the first pass lists. -/
theorem C13_extraction_pops_the_segment (pairs : List (Int × Int)) :
    ∃ s1 s2, pass1 pairs = .ok s1 ∧ pass2 pairs s1 = .ok s2 ∧
      (∀ v st, Event.found v st ∈ pass1_events pairs → extraction_ok v st) ∧
      (∀ v st, Event.found v st ∈ pass2_events pairs s1 → extraction_ok v st) ∧
      (founds_of (pass1_events pairs)).length = (components s1.outfile).length ∧
      (founds_of (pass2_events pairs s1)).length = (components s1.outfile).length := by
  obtain ⟨sf, heapF, G, P, s1, s2, hin, hb, hnames, hadj, htop, hall, hp1, hs1, hp2, hmain,
    hs2, hin2, hdown, hP, hev1, hev2, hstk⟩ := main_scan pairs
  have hlines : ∀ x, x ∈ sf.outfile → is_input_line x = true :=
    inputs_lines pairs (Built.fresh true) hin (fun x hx => by cases hx)
  have hcomp : (components s1.outfile).length = G.length := by
    rw [hs1]
    simp only
    rw [components_render _ _ _ _ _ hlines, reported_true, List.length_map]
  refine ⟨s1, s2, hp1, hp2, hev1.2.2.2.1, hev2.2.2.2.1, ?_, ?_⟩
  · rw [hcomp]; exact founds_length hev1
  · rw [hcomp]; exact founds_length hev2

/-- C19: both passes of `main` end, for every list of pairs.  In either pass the body of
`scc` is started once for every node of the graph: the nodes for which it is started are the
`N` nodes, each once.  Every extraction ends and pops no more nodes than the stack holds.  A
call of `scc` on a node that has a number returns at once, without events, and for a
successor that has a number the body of the loop does not depend on the recursive call. -/
theorem C19_traversal_terminates (pairs : List (Int × Int)) :
    ∃ s1 s2, pass1 pairs = .ok s1 ∧ pass2 pairs s1 = .ok s2 ∧ main pairs = .ok s2 ∧
      (bodies_of (pass1_events pairs)).Perm (List.range (creation_order pairs).length) ∧
      (bodies_of (pass2_events pairs s1)).Perm
        ((List.range (creation_order pairs).length).map (fun i => i + s1.heap.length)) ∧
      (bodies_of (pass1_events pairs)).length = (creation_order pairs).length ∧
      (bodies_of (pass2_events pairs s1)).length = (creation_order pairs).length ∧
      (∀ v st, Event.found v st ∈ pass1_events pairs ++ pass2_events pairs s1 →
        ∃ (L : List Nat) (st1 : State), stack_rep st.heap st.scc_stack L ∧
          extract v st = .ok st1 ∧ (pops_of (extract_events v st)).length ≤ L.length) ∧
      (∀ (fuel i : Nat) (st : State) (nd : node_tp), st.heap[i]? = some nd →
        nd.number ≠ 0 →
        scc (fuel + 1) (some i) st = .ok st ∧ scc_events (fuel + 1) (some i) st = []) ∧
      (∀ (f g : node_ptr_tp → State → Except Err State) (v w : Nat) (st : State)
        (wn : node_tp), st.heap[w]? = some wn → wn.number ≠ 0 →
        visit_link f v (some w) st = visit_link g v (some w) st) := by
  obtain ⟨sf, heapF, G, P, s1, s2, hin, hb, hnames, hadj, htop, hall, hp1, hs1, hp2, hmain,
    hs2, hin2, hdown, hP, hev1, hev2, hstk⟩ := main_scan pairs
  have hlen := length_of_names hnames
  have hperm : P.Perm (List.range sf.heap.length) :=
    perm_range_of_numbers htop.later.length htop hall hP
  have hPlen : P.length = sf.heap.length := by
    rw [hperm.length_eq, List.length_range]
  refine ⟨s1, s2, hp1, hp2, hmain, ?_, ?_, ?_, ?_, ?_, ?_, ?_⟩
  · rw [hev1.1, ← hlen]
    simpa using hperm
  · rw [hev2.1, ← hlen]
    exact hperm.map _
  · rw [hev1.1, List.length_map, hPlen, hlen]
  · rw [hev2.1, List.length_map, hPlen, hlen]
  · intro v st hmem
    have hok : extraction_ok v st := by
      rcases List.mem_append.mp hmem with e | e
      · exact hev1.2.2.2.1 v st e
      · exact hev2.2.2.2.1 v st e
    obtain ⟨_, S, L, st1, h1, h2, h3, _⟩ := hok
    refine ⟨S ++ v :: L, st1, h1, h2, ?_⟩
    rw [h3]
    simp
  · intro fuel i st nd hnd hn
    exact ⟨scc_numbered_eq fuel hnd hn, scc_events_numbered fuel hnd hn⟩
  · intro f g v w st wn hwn hn
    simp only [visit_link, load_of_get hwn, hn, if_false]

end TarjanSCC


namespace TarjanSCC

/-! ## Pushes and pops, numbers, and the order of the components -/

theorem map_add_zero (l : List Nat) : l.map (fun i => i + 0) = l := by
  simp

/-- C15: both passes end, and in either pass the nodes pushed are the nodes of the graph, each
once, and so are the nodes popped (the graph of the first pass has the nodes `0 .. N - 1` of
the heap, that of the second pass, built anew behind them, the nodes `N .. 2 N - 1`).  The
names of the nodes popped in the first pass are, in this order, the names that the report of
the first pass lists as members, and they are the names of the nodes of the graph, each once;
so are the names of the nodes popped in the second pass. -/
theorem C15_pushed_once_and_popped_once (pairs : List (Int × Int)) :
    ∃ s1 s2, pass1 pairs = .ok s1 ∧ pass2 pairs s1 = .ok s2 ∧
      s1.heap.length = (creation_order pairs).length ∧
      s2.heap.length = (creation_order pairs).length + (creation_order pairs).length ∧
      (pushes_of (pass1_events pairs)).Perm (List.range (creation_order pairs).length) ∧
      (pops_of (pass1_events pairs)).Perm (List.range (creation_order pairs).length) ∧
      (pushes_of (pass2_events pairs s1)).Perm
        ((List.range (creation_order pairs).length).map (fun i => i + s1.heap.length)) ∧
      (pops_of (pass2_events pairs s1)).Perm
        ((List.range (creation_order pairs).length).map (fun i => i + s1.heap.length)) ∧
      (pops_of (pass1_events pairs)).map (fun i => name_of s1.heap (some i)) =
        (components s1.outfile).flatten ∧
      ((components s1.outfile).flatten).Perm (creation_order pairs) ∧
      ((pops_of (pass2_events pairs s1)).map (fun i => name_of s2.heap (some i))).Perm
        (creation_order pairs) := by
  obtain ⟨sf, heapF, G, P, s1, s2, hin, hb, hnames, hadj, htop, hall, hp1, hs1, hp2, hmain,
    hs2, hin2, hdown, hP, hev1, hev2, hstk⟩ := main_scan pairs
  have hlen := length_of_names hnames
  have hlenF : heapF.length = sf.heap.length := htop.later.length
  have hh : s1.heap = heapF := by rw [hs1]
  have hperm : P.Perm (List.range sf.heap.length) :=
    perm_range_of_numbers hlenF htop hall hP
  have hpermG : G.flatten.Perm (List.range sf.heap.length) := flatten_perm_range hb htop hall
  have hlines : ∀ x, x ∈ sf.outfile → is_input_line x = true :=
    inputs_lines pairs (Built.fresh true) hin (fun x hx => by cases hx)
  have hcomp : (components s1.outfile).flatten =
      G.flatten.map (fun i => name_of sf.heap (some i)) := by
    rw [hs1]
    simp only
    rw [components_render _ _ _ _ _ hlines, reported_true, List.map_flatten]
  have hnamesG : (G.flatten.map (fun i => name_of sf.heap (some i))).Perm
      (creation_order pairs) := by
    have h1 := hpermG.map (fun i => name_of sf.heap (some i))
    rw [names_of_range] at h1
    rw [← hnames]
    exact h1
  have hpops1 : pops_of (pass1_events pairs) = G.flatten := by
    rw [hev1.2.2.1, map_add_zero]
  refine ⟨s1, s2, hp1, hp2, ?_, ?_, ?_, ?_, ?_, ?_, ?_, ?_, ?_⟩
  · rw [hh, hlenF, hlen]
  · rw [hs2, rebase_heap, List.length_append, List.length_map, hh, hlenF, hlen]
  · rw [hev1.2.1, map_add_zero, ← hlen]
    exact hperm
  · rw [hpops1, ← hlen]
    exact hpermG
  · rw [hev2.2.1, ← hlen]
    exact hperm.map _
  · rw [hev2.2.2.1, ← hlen]
    exact hpermG.map _
  · rw [hpops1, hcomp, hh, htop.later.name]
  · rw [hcomp]
    exact hnamesG
  · rw [hev2.2.2.1, List.map_map]
    have e : ((fun i => name_of s2.heap (some i)) ∘ fun i => i + s1.heap.length) =
        fun i => name_of sf.heap (some i) := by
      funext i
      show name_of s2.heap (some (i + s1.heap.length)) = name_of sf.heap (some i)
      rw [hs2, name_of_rebase]
      exact congrFun htop.later.name i
    rw [e]
    exact hnamesG

/-- C16: both passes end with `scc_number = N`, the number of nodes of the graph.  The nodes
for which the body of `scc` is started are, in this order, nodes `P` that are the `N` nodes of
the graph, each once, and in the state the pass ends in they have the numbers `1, 2, .., N` in
this order (in the second pass the graph lies behind the nodes of the first).  Of any two
states that the traversal of a pass goes through, the later gives every node that has a number
in the earlier the same number; the last of these states is the state the pass ends in. -/
theorem C16_numbers_are_one_to_N (pairs : List (Int × Int)) :
    ∃ (s1 s2 : State) (P : List Nat), pass1 pairs = .ok s1 ∧ pass2 pairs s1 = .ok s2 ∧
      s1.scc_number = (creation_order pairs).length ∧
      s2.scc_number = (creation_order pairs).length ∧
      P.Perm (List.range (creation_order pairs).length) ∧
      bodies_of (pass1_events pairs) = P ∧
      bodies_of (pass2_events pairs s1) = P.map (fun i => i + s1.heap.length) ∧
      P.map (num s1.heap) = List.range' 1 (creation_order pairs).length ∧
      (P.map (fun i => i + s1.heap.length)).map (num s2.heap) =
        List.range' 1 (creation_order pairs).length ∧
      (pass1_states pairs).Pairwise keeps_numbers ∧
      (pass2_states pairs s1).Pairwise keeps_numbers ∧
      (pass1_states pairs).getLast? = some s1 ∧
      (pass2_states pairs s1).getLast? = some s2 := by
  obtain ⟨sf, heapF, G, P, s1, s2, hin, hb, hnames, hadj, htop, hall, hp1, hs1, hp2, hmain,
    hs2, hin2, hdown, hP, hev1, hev2, hstk⟩ := main_scan pairs
  obtain ⟨sf0, st2, t1, t2, l1, l2, hq1, hq2, hl1, hpath1, hok1, hl2, hpath2, hok2⟩ :=
    pass_paths pairs
  rw [hp1] at hq1
  cases hq1
  rw [hp2] at hq2
  cases hq2
  have hlen := length_of_names hnames
  have hh : s1.heap = heapF := by rw [hs1]
  have hperm : P.Perm (List.range sf.heap.length) :=
    perm_range_of_numbers htop.later.length htop hall hP
  refine ⟨s1, s2, P, hp1, hp2, ?_, ?_, ?_, ?_, hev2.1, ?_, ?_, ?_, ?_, ?_, ?_⟩
  · rw [hs1]
    exact hlen
  · rw [hs2]
    exact hlen
  · rw [← hlen]
    exact hperm
  · rw [hev1.1, map_add_zero]
  · rw [hh, hP, hlen]
  · rw [List.map_map, ← hlen, ← hP]
    apply List.map_congr_left
    intro i _
    show num s2.heap (i + s1.heap.length) = num heapF i
    rw [hs2, num_rebase]
  · rw [hl1]
    exact (hpath1.pairwise keeps_numbers_refl keeps_numbers_trans keeps_numbers_step).1
  · rw [hl2]
    exact (hpath2.pairwise keeps_numbers_refl keeps_numbers_trans keeps_numbers_step).1
  · rw [hl1]
    exact hpath1.last
  · rw [hl2]
    exact hpath2.last

/-- C18: the first pass ends, and of the components that its report lists, in the order of the
report, every pair `(u, w)` of the input with `u` and `w` in different components has the
component of `w` before the component of `u`. -/
theorem C18_edges_lead_to_earlier_components (pairs : List (Int × Int)) :
    ∃ s1, pass1 pairs = .ok s1 ∧
      ∀ (i j : Nat) (gu gw : List Int) (u w : Int),
        (components s1.outfile)[i]? = some gu → (components s1.outfile)[j]? = some gw →
        u ∈ gu → w ∈ gw → pair_edge pairs u w → i ≠ j → j < i := by
  obtain ⟨sf, heapF, G, P, s1, s2, hin, hb, hnames, hadj, htop, hall, hp1, hs1, hp2, hmain,
    hs2, hin2, hdown, hP, hev1, hev2, hstk⟩ := main_scan pairs
  have hlines : ∀ x, x ∈ sf.outfile → is_input_line x = true :=
    inputs_lines pairs (Built.fresh true) hin (fun x hx => by cases hx)
  have hcomp : components s1.outfile =
      G.map (List.map (fun i => name_of sf.heap (some i))) := by
    rw [hs1]
    simp only
    rw [components_render _ _ _ _ _ hlines, reported_true]
  have hmem := final_mem hb htop hall
  refine ⟨s1, hp1, ?_⟩
  intro i j gu gw u w hgu hgw hu hw hedge hij
  rw [hcomp, List.getElem?_map] at hgu hgw
  cases hgi : G[i]? with
  | none => rw [hgi] at hgu; cases hgu
  | some g =>
    cases hgj : G[j]? with
    | none => rw [hgj] at hgw; cases hgw
    | some g1 =>
      rw [hgi] at hgu
      rw [hgj] at hgw
      simp only [Option.map_some', Option.some.injEq] at hgu hgw
      subst hgu
      subst hgw
      obtain ⟨x, hx, rfl⟩ := List.mem_map.mp hu
      obtain ⟨z, hz, rfl⟩ := List.mem_map.mp hw
      have hxf : x ∈ G.flatten :=
        List.mem_flatten.mpr ⟨g, List.mem_iff_getElem?.mpr ⟨i, hgi⟩, hx⟩
      have hzf : z ∈ G.flatten :=
        List.mem_flatten.mpr ⟨g1, List.mem_iff_getElem?.mpr ⟨j, hgj⟩, hz⟩
      obtain ⟨nx, hnx⟩ := get_of_lt ((hmem x).mp hxf)
      obtain ⟨nz, hnz⟩ := get_of_lt ((hmem z).mp hzf)
      simp only [name_of_get hnx, name_of_get hnz] at hedge
      have he : edge (links_of sf.heap) x z := (edge_iff hb hadj hnx hnz).mpr hedge
      rcases downward_index G _ hdown i g hgi x hx z he with e | ⟨j1, g2, hj1, hg2, hz2⟩
      · exact absurd e id
      · have e1 := flatten_nodup_index G htop.groups.nodup j1 j g2 g1 z hg2 hgj hz2 hz
        omega

end TarjanSCC


namespace TarjanSCC

/-! ## Inside a call of `push` and of `pop` -/

theorem modify_modify_same (heap : List node_tp) (f g : node_tp → node_tp) (i : Nat) :
    (heap.modify f i).modify g i = heap.modify (fun nd => g (f nd)) i := by
  apply List.ext_getElem?
  intro j
  by_cases h : i = j
  · subst h
    rw [List.getElem?_modify_eq, List.getElem?_modify_eq, List.getElem?_modify_eq]
    cases heap[i]? <;> rfl
  · rw [List.getElem?_modify_ne _ _ h, List.getElem?_modify_ne _ _ h,
      List.getElem?_modify_ne _ _ h]

theorem stack_rep_unique {heap : List node_tp} :
    ∀ (L L1 : List Nat) (p : node_ptr_tp), stack_rep heap p L → stack_rep heap p L1 →
      L = L1 := by
  intro L
  induction L with
  | nil =>
    intro L1 p h h1
    have hp : p = none := h
    cases L1 with
    | nil => rfl
    | cons j rest =>
      rw [hp] at h1
      cases h1.1
  | cons i rest ih =>
    intro L1 p h h1
    obtain ⟨hp, nd, hnd, hrest⟩ := h
    cases L1 with
    | nil =>
      have hp1 : p = none := h1
      rw [hp1] at hp
      cases hp
    | cons j rest1 =>
      obtain ⟨hp1, nd1, hnd1, hrest1⟩ := h1
      rw [hp] at hp1
      cases hp1
      rw [hnd] at hnd1
      cases hnd1
      rw [ih rest1 _ hrest hrest1]

/-- The states inside a call of `push` in a state in which the flag `visited` agrees with the
stack `L`: in the state after `v->scc_pred = scc_stack` they still agree; in the state after
`v->visited = true` the stack is still `L`, without `v`, and the nodes flagged are those of
`L` and `v`; the last state is the one in which `push` returns. -/
theorem push_steps_spec {i : Nat} {s s1 : State} {L : List Nat}
    (h1 : stack_rep s.heap s.scc_stack L) (h2 : L.Nodup)
    (h3 : ∀ j, vis s.heap j = true ↔ j ∈ L) (hp : push (some i) s = .ok s1) :
    ∃ (m1 m2 : State), push_steps (some i) s = [m1, m2, s1] ∧ stack_ok m1 ∧ i ∉ L ∧
      stack_rep m2.heap m2.scc_stack L ∧ (∀ j, vis m2.heap j = true ↔ j = i ∨ j ∈ L) := by
  unfold push at hp
  simp only at hp
  cases hg : s.heap[i]? with
  | none => rw [hg] at hp; cases hp
  | some nd =>
    rw [hg] at hp
    simp only at hp
    by_cases hv : nd.visited = true
    · rw [if_pos hv] at hp; cases hp
    · rw [if_neg hv] at hp
      cases hp
      have hnot : i ∉ L := by
        intro hi
        have := (h3 i).mpr hi
        rw [vis_of_get hg] at this
        exact hv this
      have hsteps : push_steps (some i) s =
          [{ s with heap := s.heap.modify (with_scc_pred s.scc_stack) i },
           { s with heap :=
              (s.heap.modify (with_scc_pred s.scc_stack) i).modify with_visited i },
           { s with heap := s.heap.modify (mark_pushed s.scc_stack) i, scc_stack := some i }] := by
        have e : (s.heap.modify (with_scc_pred s.scc_stack) i).modify with_visited i =
            s.heap.modify (mark_pushed s.scc_stack) i := by
          rw [modify_modify_same]
          rfl
        simp only [push_steps, hg, hv, if_false, Bool.false_eq_true]
        rw [e]
      have hg1 : (s.heap.modify (with_scc_pred s.scc_stack) i)[i]? =
          some (with_scc_pred s.scc_stack nd) := get_modify_self _ hg
      refine ⟨_, _, hsteps, ?_, hnot, ?_, ?_⟩
      · refine ⟨L, stack_rep_modify_notin _ hnot h1, h2, ?_⟩
        intro j
        show vis (s.heap.modify (with_scc_pred s.scc_stack) i) j = true ↔ _
        rw [vis_modify s.heap (with_scc_pred s.scc_stack) i j (fun _ => rfl)]
        exact h3 j
      · exact stack_rep_modify_notin _ hnot (stack_rep_modify_notin _ hnot h1)
      · intro j
        show vis ((s.heap.modify (with_scc_pred s.scc_stack) i).modify with_visited i) j =
          true ↔ _
        by_cases hj : j = i
        · subst hj
          rw [vis_of_get (get_modify_self with_visited hg1)]
          simp [with_visited]
        · rw [vis_modify_other _ with_visited (fun e => hj e.symm),
            vis_modify s.heap (with_scc_pred s.scc_stack) i j (fun _ => rfl), h3 j]
          constructor
          · exact Or.inr
          · rintro (e1 | e1)
            · exact absurd e1 hj
            · exact e1

/-- The states inside a call of `pop` in a state in which the flag `visited` agrees with the
stack: in the state after `scc_stack->visited = false` the stack is still `t :: L`, and the
nodes flagged are those of `L`, without the top `t`; the last state is the one in which `pop`
returns. -/
theorem pop_steps_spec {s s1 : State} {L0 : List Nat}
    (h1 : stack_rep s.heap s.scc_stack L0) (h2 : L0.Nodup)
    (h3 : ∀ j, vis s.heap j = true ↔ j ∈ L0) (hp : pop s = .ok s1) :
    ∃ (m : State) (t : Nat) (L : List Nat), pop_steps s = [m, s1] ∧
      stack_rep m.heap m.scc_stack (t :: L) ∧ t ∉ L ∧
      (∀ j, vis m.heap j = true ↔ j ∈ L) := by
  unfold pop at hp
  cases hs : s.scc_stack with
  | none => rw [hs] at hp; cases hp
  | some t =>
    rw [hs] at hp h1
    simp only at hp
    cases hg : s.heap[t]? with
    | none => rw [hg] at hp; cases hp
    | some nd =>
      rw [hg] at hp
      cases hp
      cases L0 with
      | nil => cases h1
      | cons t1 L =>
        have h1c := h1
        obtain ⟨e, nd1, hnd1, hrest⟩ := h1
        cases e
        obtain ⟨hnot, _⟩ := List.nodup_cons.mp h2
        have hg1 : (s.heap.modify clear_visited t)[t]? = some (clear_visited nd) :=
          get_modify_self _ hg
        have hsteps : pop_steps s =
            [{ s with heap := s.heap.modify clear_visited t },
             { s with heap := s.heap.modify clear_visited t, scc_stack := nd.scc_pred }] := by
          simp only [pop_steps, hs, hg, hg1]
          rfl
        refine ⟨_, t, L, hsteps, ?_, hnot, ?_⟩
        · show stack_rep (s.heap.modify clear_visited t) s.scc_stack (t :: L)
          rw [hs]
          exact stack_rep_modify clear_visited t (fun _ => rfl) h1c
        · intro j
          show vis (s.heap.modify clear_visited t) j = true ↔ _
          by_cases hj : j = t
          · subst hj
            rw [vis_of_get hg1]
            constructor
            · intro hc; cases hc
            · intro hc; exact absurd hc hnot
          · rw [vis_modify_other _ clear_visited (fun e => hj e.symm), h3 j, List.mem_cons]
            constructor
            · rintro (e1 | e1)
              · exact absurd e1 hj
              · exact e1
            · exact Or.inr

theorem mid_push_not_ok {m : State} {i : Nat} {L : List Nat}
    (h1 : stack_rep m.heap m.scc_stack L) (h2 : i ∉ L)
    (h3 : ∀ j, vis m.heap j = true ↔ j = i ∨ j ∈ L) : ¬ stack_ok m := by
  rintro ⟨L1, a1, _, a3⟩
  have e := stack_rep_unique L L1 _ h1 a1
  subst e
  exact h2 ((a3 i).mp ((h3 i).mpr (Or.inl rfl)))

theorem mid_pop_not_ok {m : State} {t : Nat} {L : List Nat}
    (h1 : stack_rep m.heap m.scc_stack (t :: L)) (h2 : t ∉ L)
    (h3 : ∀ j, vis m.heap j = true ↔ j ∈ L) : ¬ stack_ok m := by
  rintro ⟨L1, a1, _, a3⟩
  have e := stack_rep_unique (t :: L) L1 _ h1 a1
  subst e
  exact h2 ((h3 t).mp ((a3 t).mpr (List.mem_cons_self _ _)))

/-! ## The roots of the components -/

theorem roots_nodup :
    ∀ (G : List (List Nat)), G.flatten.Nodup → (∀ g, g ∈ G → ∃ r, root_of g = some r) →
      (G.map root_of).Nodup := by
  intro G
  induction G with
  | nil => intro _ _; exact List.nodup_nil
  | cons g rest ih =>
    intro hnd hroot
    rw [List.flatten_cons] at hnd
    have hdis := List.disjoint_of_nodup_append hnd
    rw [List.map_cons, List.nodup_cons]
    refine ⟨?_, ih hnd.of_append_right (fun g1 hg1 => hroot g1 (List.mem_cons_of_mem _ hg1))⟩
    intro hmem
    obtain ⟨g1, hg1, he⟩ := List.mem_map.mp hmem
    obtain ⟨r, hr⟩ := hroot g (List.mem_cons_self _ _)
    rw [hr] at he
    exact hdis (root_mem hr) (List.mem_flatten.mpr ⟨g1, hg1, root_mem he⟩)

theorem map_root_names (name : Nat → Int) (G : List (List Nat)) :
    (G.map (List.map name)).map List.getLast? =
      (G.map root_of).map (Option.map name) := by
  rw [List.map_map, List.map_map]
  apply List.map_congr_left
  intro g _
  show (g.map name).getLast? = (root_of g).map name
  rw [List.getLast?_map]
  rfl

end TarjanSCC


namespace TarjanSCC

/-! ## The order of emission, and the flag `visited` inside `push` and `pop` -/

theorem not_stack_ok_of_flag (st : State) (i : Nat) (h1 : st.scc_stack = none)
    (h2 : vis st.heap i = true) : ¬ stack_ok st := by
  rintro ⟨L, a1, _, a3⟩
  rw [h1] at a1
  cases L with
  | nil => cases (a3 i).mp h2
  | cons j rest => cases a1.1

theorem map_map_add_zero (G : List (List Nat)) : G.map (List.map (fun i => i + 0)) = G := by
  simp

/-- The names of the roots of the components, in order, are distinct. -/
theorem root_names_nodup {sf : State} (hb : Built sf) {heapF : List node_tp}
    {G : List (List Nat)} (htop : Top (links_of sf.heap) sf.heap heapF sf.heap.length G)
    (hall : ∀ j, j < sf.heap.length → num heapF j ≠ 0) :
    ((G.map root_of).map (Option.map (fun i => name_of sf.heap (some i)))).Nodup := by
  have hroot : ∀ g, g ∈ G → ∃ r, root_of g = some r := fun g hg => by
    obtain ⟨r, hr, _⟩ := htop.groups.root g hg
    exact ⟨r, hr⟩
  apply List.Nodup.map_on _ (roots_nodup G htop.groups.nodup hroot)
  intro x hx y hy hxy
  obtain ⟨g, hg, rfl⟩ := List.mem_map.mp hx
  obtain ⟨g1, hg1, rfl⟩ := List.mem_map.mp hy
  obtain ⟨r, hr⟩ := hroot g hg
  obtain ⟨r1, hr1⟩ := hroot g1 hg1
  rw [hr, hr1] at hxy ⊢
  simp only [Option.map_some', Option.some.injEq] at hxy ⊢
  have h1 : r < sf.heap.length :=
    (final_mem hb htop hall r).mp (List.mem_flatten.mpr ⟨g, hg, root_mem hr⟩)
  have h2 : r1 < sf.heap.length :=
    (final_mem hb htop hall r1).mp (List.mem_flatten.mpr ⟨g1, hg1, root_mem hr1⟩)
  exact name_inj hb h1 h2 hxy

/-- C5, amended: both passes end, and each lists its components in the order in which the
calls of `scc` on their roots come to their end.  The components of the first report are, in
the order of the report, the lists of the nodes popped by the extractions of the pass, taken
in the order of the events `v->lowlink == v->number`; those of the second report are these
lists for the second pass without the lists of one node, which that pass pops silently.  The
nodes `v` of these events are, in this order, the last members of the components of the first
report; the last members of the components of the second report are among them, in this
order; and no node `v` occurs twice.  In every component listed the last member is its root,
the member with the least discovery number, and of two components the one listed earlier
either has all its members numbered below the root of the later one, or has a root with a
larger discovery number than the root of the later one. -/
theorem C5_components_in_order_of_completion (pairs : List (Int × Int)) :
    ∃ s1 s2 out2, pass1 pairs = .ok s1 ∧ pass2 pairs s1 = .ok s2 ∧ main pairs = .ok s2 ∧
      s2.outfile = s1.outfile ++ out2 ∧
      components s1.outfile =
        (extractions_of (pass1_events pairs)).map
          (List.map (fun i => name_of s1.heap (some i))) ∧
      components out2 =
        ((extractions_of (pass2_events pairs s1)).map
          (List.map (fun i => name_of s2.heap (some i)))).filter
            (fun g => decide (g.length ≠ 1)) ∧
      (founds_of (pass1_events pairs)).map (fun i => some (name_of s1.heap (some i))) =
        (components s1.outfile).map List.getLast? ∧
      ((components out2).map List.getLast?).Sublist
        ((founds_of (pass2_events pairs s1)).map
          (fun i => some (name_of s2.heap (some i)))) ∧
      ((founds_of (pass1_events pairs)).map (fun i => name_of s1.heap (some i))).Nodup ∧
      ((founds_of (pass2_events pairs s1)).map (fun i => name_of s2.heap (some i))).Nodup ∧
      (∀ g, g ∈ components s1.outfile →
        ∃ r, g.getLast? = some r ∧ ∀ x, x ∈ g → number_of s1 r ≤ number_of s1 x) ∧
      (components s1.outfile).Pairwise (fun g1 g2 => ∀ r1 r2,
        g1.getLast? = some r1 → g2.getLast? = some r2 →
        (∀ x, x ∈ g1 → number_of s1 x < number_of s1 r2) ∨
          number_of s1 r2 < number_of s1 r1) ∧
      (∀ g, g ∈ components out2 →
        ∃ r, g.getLast? = some r ∧ ∀ x, x ∈ g → number_of s2 r ≤ number_of s2 x) ∧
      (components out2).Pairwise (fun g1 g2 => ∀ r1 r2,
        g1.getLast? = some r1 → g2.getLast? = some r2 →
        (∀ x, x ∈ g1 → number_of s2 x < number_of s2 r2) ∨
          number_of s2 r2 < number_of s2 r1) := by
  obtain ⟨sf, heapF, G, P, s1, s2, hin, hb, hnames, hadj, htop, hall, hp1, hs1, hp2, hmain,
    hs2, hin2, hdown, hP, hev1, hev2, hstk⟩ := main_scan pairs
  have hlines : ∀ x, x ∈ sf.outfile → is_input_line x = true :=
    inputs_lines pairs (Built.fresh true) hin (fun x hx => by cases hx)
  have hmem : ∀ i, i ∈ G.flatten → i < sf.heap.length := fun i hi =>
    (final_mem hb htop hall i).mp hi
  have hh : s1.heap = heapF := by rw [hs1]
  have hname1 : (fun i => name_of s1.heap (some i)) = fun i => name_of sf.heap (some i) := by
    rw [hh]
    exact htop.later.name
  have hname2 : ∀ i, name_of s2.heap (some (i + s1.heap.length)) =
      name_of sf.heap (some i) := by
    intro i
    rw [hs2, name_of_rebase]
    exact congrFun htop.later.name i
  have hc1 : components s1.outfile = G.map (List.map (fun i => name_of sf.heap (some i))) := by
    rw [hs1]
    exact components_render _ true G 0 sf.outfile hlines
  have hc2a : components (render (fun i => name_of sf.heap (some i)) false 0 G) =
      (G.map (List.map (fun i => name_of sf.heap (some i)))).filter
        (fun g => decide (g.length ≠ 1)) := by
    have := components_render (fun i => name_of sf.heap (some i)) false G 0 []
      (fun x hx => by cases hx)
    rw [List.nil_append] at this
    rw [this, reported_false_map]
  have hc2 : components (render (fun i => name_of sf.heap (some i)) false 0 G) =
      (G.filter (fun g => decide (g.length ≠ 1))).map
        (List.map (fun i => name_of sf.heap (some i))) := by
    have := components_render (fun i => name_of sf.heap (some i)) false G 0 []
      (fun x hx => by cases hx)
    rw [List.nil_append] at this
    rw [this]
    rfl
  have hnum1 : ∀ i, i < sf.heap.length →
      number_of s1 (name_of sf.heap (some i)) = num heapF i := by
    intro i hi
    have := (fields_final hb htop.later.frame [] [] sf.heap.length none
      (reported true G).length true
      (sf.outfile ++ render (fun i => name_of sf.heap (some i)) true 0 G) hi).1
    rw [rebase_nil, ← hs1] at this
    exact this
  have hnum2 : ∀ i, i < sf.heap.length →
      number_of s2 (name_of sf.heap (some i)) = num heapF i := by
    intro i hi
    rw [hs2]
    exact (fields_final hb htop.later.frame s1.heap s1.outfile sf.heap.length none
      (reported false G).length false
      (render (fun i => name_of sf.heap (some i)) false 0 G) hi).1
  obtain ⟨a1, a2⟩ := order_names htop.groups (List.Sublist.refl G)
    (fun i => name_of sf.heap (some i)) sf.heap.length hmem s1 hnum1
  obtain ⟨b1, b2⟩ := order_names htop.groups
    (List.filter_sublist G : (G.filter (fun g => decide (g.length ≠ 1))).Sublist G)
    (fun i => name_of sf.heap (some i)) sf.heap.length hmem s2 hnum2
  -- the extractions of the two passes, by name
  have hx1 : (extractions_of (pass1_events pairs)).map
      (List.map (fun i => name_of s1.heap (some i))) =
      G.map (List.map (fun i => name_of sf.heap (some i))) := by
    rw [hev1.2.2.2.2.2.2.2, map_map_add_zero, hname1]
  have hx2 : (extractions_of (pass2_events pairs s1)).map
      (List.map (fun i => name_of s2.heap (some i))) =
      G.map (List.map (fun i => name_of sf.heap (some i))) := by
    rw [hev2.2.2.2.2.2.2.2, List.map_map]
    apply List.map_congr_left
    intro g _
    show (g.map (fun i => i + s1.heap.length)).map (fun i => name_of s2.heap (some i)) = _
    rw [List.map_map]
    apply List.map_congr_left
    intro i _
    exact hname2 i
  -- the roots found in the two passes, by name
  have hr1 : (founds_of (pass1_events pairs)).map
      (fun i => some (name_of s1.heap (some i))) =
      (G.map root_of).map (Option.map (fun i => name_of sf.heap (some i))) := by
    have e : (founds_of (pass1_events pairs)).map (fun i => some (name_of s1.heap (some i))) =
        ((founds_of (pass1_events pairs)).map some).map
          (Option.map (fun i => name_of s1.heap (some i))) := by
      rw [List.map_map]
      rfl
    rw [e, hev1.2.2.2.2.1, List.map_map, hname1]
    apply List.map_congr_left
    intro o _
    show Option.map _ (shift_ptr 0 o) = _
    rw [shift_ptr_zero]
  have hr2 : (founds_of (pass2_events pairs s1)).map
      (fun i => some (name_of s2.heap (some i))) =
      (G.map root_of).map (Option.map (fun i => name_of sf.heap (some i))) := by
    have e : (founds_of (pass2_events pairs s1)).map
        (fun i => some (name_of s2.heap (some i))) =
        ((founds_of (pass2_events pairs s1)).map some).map
          (Option.map (fun i => name_of s2.heap (some i))) := by
      rw [List.map_map]
      rfl
    rw [e, hev2.2.2.2.2.1, List.map_map]
    apply List.map_congr_left
    intro o _
    show Option.map _ (shift_ptr s1.heap.length o) = _
    cases o with
    | none => rfl
    | some i =>
      show some (name_of s2.heap (some (i + s1.heap.length))) = _
      rw [hname2 i]
      rfl
  have hnd := root_names_nodup hb htop hall
  have hsome : ∀ (F : List Nat) (name : Nat → Int),
      (F.map name).map some = F.map (fun i => some (name i)) := by
    intro F name
    rw [List.map_map]
    rfl
  refine ⟨s1, s2, render (fun i => name_of sf.heap (some i)) false 0 G, hp1, hp2, hmain, ?_,
    ?_, ?_, ?_, ?_, ?_, ?_, ?_, ?_, ?_, ?_⟩
  · rw [hs2]; rfl
  · rw [hc1, hx1]
  · rw [hc2a, hx2]
  · rw [hr1, hc1, map_root_names]
  · rw [hr2, hc2, map_root_names]
    exact ((List.filter_sublist G).map root_of).map _
  · apply List.Nodup.of_map some
    rw [hsome, hr1]
    exact hnd
  · apply List.Nodup.of_map some
    rw [hsome, hr2]
    exact hnd
  · rw [hc1]; exact a1
  · rw [hc1]; exact a2
  · rw [hc2]; exact b1
  · rw [hc2]; exact b2

/-- C14 fails as stated: for the pair `(1, 2)` the first pass calls `push` for the node `2`
(the cell 1 of the heap) in a state `s` that the pass goes through, and inside this call, in
the state `m2` after `v->visited = true` and before `scc_stack = v`, the node has `visited`
set while `scc_stack` is still `NULL`, so that the node is not reached from `scc_stack`. -/
theorem C14_counterexample :
    ∃ s s1 m1 m2, s ∈ pass1_states [(1, 2)] ∧ push (some 1) s = .ok s1 ∧
      s1 ∈ pass1_states [(1, 2)] ∧ push_steps (some 1) s = [m1, m2, s1] ∧
      vis m2.heap 1 = true ∧ m2.scc_stack = none ∧ ¬ stack_ok m2 := by
  have hs : (⟨[⟨[some 1], none, 0, 0, 1, false, none⟩, ⟨[], some 0, 1, 1, 2, false, none⟩],
      1, none, 0, some 1, true, [.edge 1 2]⟩ : State) ∈ pass1_states [(1, 2)] := by
    simp [pass1_states, roots_states, scc_states, for_links_states, visit_link_states,
      extract_states, emit_states, pop_loop_states, inputs, input, find_or_make, exists_node,
      exists_loop, make_node, State.init, load, connect, new_link, new_link_loop, make_link,
      set_link, with_link, print, roots_loop, scc, push, pop, for_links, visit_link, extract,
      emit, pop_loop, set_lowlink, set_number, with_lowlink, with_number, mark_pushed,
      clear_visited, List.modify]
  have hs1 : (⟨[⟨[some 1], none, 0, 0, 1, false, none⟩, ⟨[], some 0, 1, 1, 2, true, none⟩],
      1, some 1, 0, some 1, true, [.edge 1 2]⟩ : State) ∈ pass1_states [(1, 2)] := by
    simp [pass1_states, roots_states, scc_states, for_links_states, visit_link_states,
      extract_states, emit_states, pop_loop_states, inputs, input, find_or_make, exists_node,
      exists_loop, make_node, State.init, load, connect, new_link, new_link_loop, make_link,
      set_link, with_link, print, roots_loop, scc, push, pop, for_links, visit_link, extract,
      emit, pop_loop, set_lowlink, set_number, with_lowlink, with_number, mark_pushed,
      clear_visited, List.modify]
  have hv : vis [(⟨[some 1], none, 0, 0, 1, false, none⟩ : node_tp),
      ⟨[], some 0, 1, 1, 2, true, none⟩] 1 = true := by
    simp [vis]
  refine ⟨_, _,
    ⟨[⟨[some 1], none, 0, 0, 1, false, none⟩, ⟨[], some 0, 1, 1, 2, false, none⟩],
      1, none, 0, some 1, true, [.edge 1 2]⟩,
    ⟨[⟨[some 1], none, 0, 0, 1, false, none⟩, ⟨[], some 0, 1, 1, 2, true, none⟩],
      1, none, 0, some 1, true, [.edge 1 2]⟩, hs, ?_, hs1, ?_, hv, rfl, ?_⟩
  · simp [push, mark_pushed, List.modify]
  · simp [push_steps, with_scc_pred, with_visited, List.modify]
  · exact not_stack_ok_of_flag _ 1 rfl hv

/-- C14, amended: both passes end, and in every state that the traversal of a pass goes
through outside the calls of `push` and `pop` (the start state, and the state after every
statement of `scc` that writes a global or a node, where a call of `push` or of `pop` counts
as one statement) the flag `visited` agrees with the stack: the chain of `scc_pred` from
`scc_stack` runs through a list of nodes without repetition down to `NULL`, and a node has
`visited` set if and only if it is in this list.  Inside a call of `push` or `pop` in such a
state they disagree for one statement: in `push( v )`, after `v->visited = true` the stack is
still the old one, without `v`, and the nodes flagged are those of the stack and `v`; in
`pop()`, after `scc_stack->visited = false` the stack still has its top, and the nodes flagged
are those below the top; in the state in which the call returns they agree again.  Whenever a
call of `scc` from `main` has returned, the stack is empty and no node has `visited` set.  The
loop of `main` calls `scc` as many times as the chain of `finger` that it walks has nodes,
which are the `N` nodes of the graph, so that its test of `visited` skips none; and a call of
`scc` on a node that has a number returns at once. -/
theorem C14_visited_flag_agrees_with_stack (pairs : List (Int × Int)) :
    ∃ s1 s2 sf st2, pass1 pairs = .ok s1 ∧ pass2 pairs s1 = .ok s2 ∧
      inputs pairs State.init = .ok sf ∧ inputs pairs (reset s1) = .ok st2 ∧
      (∀ s, s ∈ pass1_states pairs → stack_ok s) ∧
      (∀ s, s ∈ pass2_states pairs s1 → stack_ok s) ∧
      (∀ (s s1 : State) (i : Nat), stack_ok s → push (some i) s = .ok s1 →
        ∃ (m1 m2 : State) (L : List Nat), push_steps (some i) s = [m1, m2, s1] ∧
          stack_ok m1 ∧ stack_rep m2.heap m2.scc_stack L ∧ i ∉ L ∧
          (∀ j, vis m2.heap j = true ↔ j = i ∨ j ∈ L) ∧ ¬ stack_ok m2 ∧ stack_ok s1) ∧
      (∀ (s s1 : State), stack_ok s → pop s = .ok s1 →
        ∃ (m : State) (t : Nat) (L : List Nat), pop_steps s = [m, s1] ∧
          stack_rep m.heap m.scc_stack (t :: L) ∧ t ∉ L ∧
          (∀ j, vis m.heap j = true ↔ j ∈ L) ∧ ¬ stack_ok m ∧ stack_ok s1) ∧
      (∀ s, s ∈ backs_of (pass1_events pairs) →
        s.scc_stack = none ∧ ∀ i, vis s.heap i = false) ∧
      (∀ s, s ∈ backs_of (pass2_events pairs s1) →
        s.scc_stack = none ∧ ∀ i, vis s.heap i = false) ∧
      (backs_of (pass1_events pairs)).length = (node_chain sf).length ∧
      (backs_of (pass2_events pairs s1)).length = (node_chain st2).length ∧
      (node_chain sf).length = (creation_order pairs).length ∧
      (node_chain st2).length = (creation_order pairs).length ∧
      (∀ (fuel i : Nat) (st : State) (nd : node_tp), st.heap[i]? = some nd →
        nd.number ≠ 0 → scc (fuel + 1) (some i) st = .ok st) := by
  obtain ⟨sf, heapF, G, P, s1, s2, hin, hb, hnames, hadj, htop, hall, hp1, hs1, hp2, hmain,
    hs2, hin2, hdown, hP, hev1, hev2, hstk⟩ := main_scan pairs
  obtain ⟨sf0, st2, t1, t2, l1, l2, hq1, hq2, hl1, hpath1, hok1, hl2, hpath2, hok2⟩ :=
    pass_paths pairs
  rw [hp1] at hq1
  cases hq1
  rw [hp2] at hq2
  cases hq2
  have hlen := length_of_names hnames
  have hb2 : Built ⟨sf.heap, 0, none, 0, sf.finger, false, []⟩ := hb.of_heap_eq rfl rfl
  have hc1 : (node_chain sf).length = sf.heap.length := by
    rw [node_chain_built hb, List.length_reverse, List.length_range]
  have hc2 : (node_chain (rebase s1.heap s1.outfile
      ⟨sf.heap, 0, none, 0, sf.finger, false, []⟩)).length = sf.heap.length := by
    rw [node_chain_rebase s1.heap s1.outfile hb2, List.length_map, List.length_reverse,
      List.length_range]
  refine ⟨s1, s2, sf, _, hp1, hp2, hin, hin2, ?_, ?_, ?_, ?_, hev1.2.2.2.2.2.2.1,
    hev2.2.2.2.2.2.2.1, ?_, ?_, ?_, ?_, ?_⟩
  · intro s hs
    rw [hl1] at hs
    rcases List.mem_cons.mp hs with e | e
    · rw [e]; exact hok1
    · exact (hpath1.all stack_ok_step hok1).1 s e
  · intro s hs
    rw [hl2] at hs
    rcases List.mem_cons.mp hs with e | e
    · rw [e]; exact hok2
    · exact (hpath2.all stack_ok_step hok2).1 s e
  · intro s t i hok hpush
    obtain ⟨L, c1, c2, c3⟩ := hok
    obtain ⟨m1, m2, d1, d2, d3, d4, d5⟩ := push_steps_spec c1 c2 c3 hpush
    exact ⟨m1, m2, L, d1, d2, d4, d3, d5, mid_push_not_ok d4 d3 d5,
      stack_ok_push hpush ⟨L, c1, c2, c3⟩⟩
  · intro s t hok hpop
    obtain ⟨L0, c1, c2, c3⟩ := hok
    obtain ⟨m, t0, L, d1, d2, d3, d4⟩ := pop_steps_spec c1 c2 c3 hpop
    exact ⟨m, t0, L, d1, d2, d3, d4, mid_pop_not_ok d2 d3 d4,
      stack_ok_pop hpop ⟨L0, c1, c2, c3⟩⟩
  · rw [hev1.2.2.2.2.2.1, hc1]
  · rw [hev2.2.2.2.2.2.1, hc2]
  · rw [hc1, hlen]
  · rw [hc2, hlen]
  · intro fuel i st nd hnd hn
    exact scc_numbered_eq fuel hnd hn

end TarjanSCC
